import Mathlib

/-!
RGBmatrixPanel: a shallow embedding of the panel driver.

The C sources keep the whole display in global variables.  The embedding
gathers them in one record, `Panel`, and every C function that touches the
globals becomes a function from `Panel` to `Panel`, or to `Option Panel` when
it contains a loop that may never end (`none` stands for a run that does not
return).

Machine integers are unbounded `Nat`/`Int` values with the wrap-around of the
target (8-bit AVR: `int` is 16 bits wide) written out where a value is stored
back into a fixed-width variable.  The byte memory that holds the two frame
buffers is a function from addresses to byte values; the two `matrixbuff`
pointers are addresses in it.
-/

namespace RGBmatrixPanel

/-! ## Fixed-width integers -/

/-- Value stored by an assignment to a `uint8_t`. -/
def wrapU8 (n : Int) : Nat := (n % 256).toNat

/-- Value stored by an assignment to a `uint16_t`. -/
def wrapU16 (n : Int) : Nat := (n % 65536).toNat

/-- Value stored by an assignment to an `int16_t`. -/
def wrapI16 (n : Int) : Int := (n + 32768) % 65536 - 32768

/-! ## Font descriptors -/

/-- Modelled from the spec: gfxfont.h is not among the sources; one glyph record
of a proportional font. -/
structure GFXglyph where
  bitmapOffset : Nat
  width : Nat
  height : Nat
  xAdvance : Nat
  xOffset : Int
  yOffset : Int

/-- Modelled from the spec: gfxfont.h is not among the sources; a proportional
font descriptor. -/
structure GFXfont where
  bitmap : List Nat
  glyph : List GFXglyph
  first : Nat
  last : Nat
  yAdvance : Nat

/-! ## The global state -/

/-- Byte memory: `read a` is the byte at address `a`. -/
structure Mem where
  read : Int → Nat

/-- The globals of `RGBmatrixPanel.h`, the AVR registers the driver programs,
and `shifted`, the bytes present on the data port at each clock pulse (most
recent last). -/
structure Panel where
  mem : Mem
  matrixbuff0 : Int
  matrixbuff1 : Int
  nRows : Nat
  backindex : Nat
  swapflag : Bool
  WIDTH : Int
  HEIGHT : Int
  _width : Int
  _height : Int
  cursor_x : Int
  cursor_y : Int
  textcolor : Nat
  textbgcolor : Nat
  textsize_x : Nat
  textsize_y : Nat
  rotation : Nat
  wrap : Bool
  _cp437 : Bool
  gfxFont : Option GFXfont
  row : Nat
  plane : Nat
  buffptr : Int
  PORTB : Nat
  DDRB : Nat
  PORTD : Nat
  DDRD : Nat
  TCCR1A : Nat
  TCCR1B : Nat
  ICR1 : Nat
  TCNT1 : Nat
  TIMSK : Nat
  TIFR : Nat
  interruptsEnabled : Bool
  shifted : List Nat

/-- The constant `nPlanes`. -/
def nPlanes : Nat := 4

/-- The pointer `matrixbuff[i]`.  The array has two slots; the code only ever
indexes it with `backindex` and `1 - backindex`, and an index other than 0 is
read as slot 1. -/
def matrixbuff (st : Panel) (i : Int) : Int :=
  if i = 0 then st.matrixbuff0 else st.matrixbuff1

/-- A byte store `p[0] = v` through a `uint8_t *`. -/
def store (m : Mem) (a : Int) (v : Nat) : Mem :=
  ⟨fun i => if i = a then v % 256 else m.read i⟩

/-- The statement `p[0] |= k`. -/
def orByte (m : Mem) (a : Int) (k : Nat) : Mem := store m a (m.read a ||| k)

/-- The statement `p[0] &= ~k` for a mask `k` below 256. -/
def clearByte (m : Mem) (a : Int) (k : Nat) : Mem := store m a (m.read a &&& (255 - k))

/-- Size in bytes of one frame buffer, `WIDTH * nRows * 3`. -/
def buffsize (st : Panel) : Int := wrapI16 (st.WIDTH * st.nRows * 3)

/-- The bytes of the frame buffer that starts at address `p`. -/
def bufferBytes (st : Panel) (p : Int) : List Nat :=
  (List.range (buffsize st).toNat).map (fun (i : Nat) => st.mem.read (p + (i : Int)))

/-- The library routine `memset(p, c, n)`. -/
def memset (m : Mem) (p : Int) (c : Nat) (n : Int) : Mem :=
  ⟨fun i => if p ≤ i ∧ i < p + n then c % 256 else m.read i⟩

/-- The library routine `memcpy(dst, src, n)` for regions that do not overlap. -/
def memcpy (m : Mem) (dst src n : Int) : Mem :=
  ⟨fun i => if dst ≤ i ∧ i < dst + n then m.read (src + (i - dst)) else m.read i⟩

/-! ## Colour helpers -/

/-- Source: `RGBmatrixPanel_Color333`. -/
def Color333 (r g b : Nat) : Nat :=
  wrapU16 ((((r &&& 0x7) <<< 13) ||| ((r &&& 0x6) <<< 10) |||
            ((g &&& 0x7) <<< 8) ||| ((g &&& 0x7) <<< 5) |||
            ((b &&& 0x7) <<< 2) ||| ((b &&& 0x6) >>> 1) : Nat))

/-! ## Pixel encoder -/

/-- The `switch(rotation)` of `RGBmatrixPanel_drawPixel`: the raw panel
coordinate addressed by the logical coordinate `(x, y)`. -/
def rotateCoord (st : Panel) (x y : Int) : Int × Int :=
  match st.rotation with
  | 1 => (wrapI16 (st.WIDTH - 1 - y), x)
  | 2 => (wrapI16 (st.WIDTH - 1 - x), wrapI16 (st.HEIGHT - 1 - y))
  | 3 => (y, wrapI16 (st.HEIGHT - 1 - x))
  | _ => (x, y)

/-- The three colour channels drawPixel plucks out of a 5/6/5 colour. -/
def channels (c : Nat) : Nat × Nat × Nat :=
  (wrapU8 ((c >>> 12 : Nat)), (c >>> 7) &&& 0xF, (c >>> 1) &&& 0xF)

/-- Body of the loop over planes 1..3 in the upper half: the plane selected by
`bit` goes to bits 2, 3, 4 of the byte at `ptr`. -/
def upperPlane (r g b bit : Nat) (ptr : Int) (m : Mem) : Mem :=
  let m1 := clearByte m ptr 0b00011100
  let m2 := if r &&& bit ≠ 0 then orByte m1 ptr 0b00000100 else m1
  let m3 := if g &&& bit ≠ 0 then orByte m2 ptr 0b00001000 else m2
  if b &&& bit ≠ 0 then orByte m3 ptr 0b00010000 else m3

/-- The loop `for(; bit < limit; bit <<= 1)` of the upper half, `ptr` advancing
by `W` bytes per plane.  The first argument bounds the iterations. -/
def upperPlanes (W : Int) (r g b limit : Nat) : Nat → Nat → Int → Mem → Mem
  | 0, _, _, m => m
  | fuel + 1, bit, ptr, m =>
    if bit < limit then
      upperPlanes W r g b limit fuel (wrapU8 ((bit <<< 1 : Nat))) (ptr + W)
        (upperPlane r g b bit ptr m)
    else m

/-- Body of the loop over planes 1..3 in the lower half: the plane selected by
`bit` goes to bits 5, 6, 7 of the byte at `ptr`. -/
def lowerPlane (r g b bit : Nat) (ptr : Int) (m : Mem) : Mem :=
  let m1 := clearByte m ptr 0b11100000
  let m2 := if r &&& bit ≠ 0 then orByte m1 ptr 0b00100000 else m1
  let m3 := if g &&& bit ≠ 0 then orByte m2 ptr 0b01000000 else m2
  if b &&& bit ≠ 0 then orByte m3 ptr 0b10000000 else m3

/-- The loop `for(; bit < limit; bit <<= 1)` of the lower half, `ptr` advancing
by `W` bytes per plane.  The first argument bounds the iterations. -/
def lowerPlanes (W : Int) (r g b limit : Nat) : Nat → Nat → Int → Mem → Mem
  | 0, _, _, m => m
  | fuel + 1, bit, ptr, m =>
    if bit < limit then
      lowerPlanes W r g b limit fuel (wrapU8 ((bit <<< 1 : Nat))) (ptr + W)
        (lowerPlane r g b bit ptr m)
    else m

/-- Plane 0 of an upper-half pixel: red and green go to bits 0 and 1 of
`ptr[WIDTH*2]`, blue to bit 0 of `ptr[WIDTH]`. -/
def upperPlane0 (W : Int) (r g b : Nat) (ptr : Int) (m : Mem) : Mem :=
  let m1 := clearByte m (ptr + W * 2) 0b00000011
  let m2 := if r &&& 1 ≠ 0 then orByte m1 (ptr + W * 2) 0b00000001 else m1
  let m3 := if g &&& 1 ≠ 0 then orByte m2 (ptr + W * 2) 0b00000010 else m2
  if b &&& 1 ≠ 0 then orByte m3 (ptr + W) 0b00000001
  else clearByte m3 (ptr + W) 0b00000001

/-- Plane 0 of a lower-half pixel: green and blue go to bits 0 and 1 of
`*ptr`, red to bit 1 of `ptr[WIDTH]`. -/
def lowerPlane0 (W : Int) (r g b : Nat) (ptr : Int) (m : Mem) : Mem :=
  let m1 := clearByte m ptr 0b00000011
  let m2 := if r &&& 1 ≠ 0 then orByte m1 (ptr + W) 0b00000010
            else clearByte m1 (ptr + W) 0b00000010
  let m3 := if g &&& 1 ≠ 0 then orByte m2 ptr 0b00000001 else m2
  if b &&& 1 ≠ 0 then orByte m3 ptr 0b00000010 else m3

/-- Base address of the raw pixel `(x, y)` in the back buffer: the pointer
`&matrixbuff[backindex][row * WIDTH * (nPlanes - 1) + x]`, with `row = y` in
the upper half and `row = y - nRows` in the lower half. -/
def baseAddr (st : Panel) (x y : Int) : Int :=
  if y < st.nRows then
    matrixbuff st st.backindex + wrapI16 (y * st.WIDTH * (nPlanes - 1) + x)
  else
    matrixbuff st st.backindex + wrapI16 ((y - st.nRows) * st.WIDTH * (nPlanes - 1) + x)

/-- The part of `RGBmatrixPanel_drawPixel` after the rotation: encode colour
`c` at the raw coordinate `(x, y)`. -/
def writeRaw (st : Panel) (x y : Int) (c : Nat) : Panel :=
  let r := (channels c).1
  let g := (channels c).2.1
  let b := (channels c).2.2
  let bit : Nat := 2
  let limit : Nat := wrapU8 ((1 <<< nPlanes : Nat))
  let W := st.WIDTH
  let ptr := baseAddr st x y
  if y < st.nRows then
    { st with mem := upperPlanes W r g b limit limit bit ptr (upperPlane0 W r g b ptr st.mem) }
  else
    { st with mem := lowerPlanes W r g b limit limit bit ptr (lowerPlane0 W r g b ptr st.mem) }

/-- Source: `RGBmatrixPanel_drawPixel`. -/
def drawPixel (st : Panel) (x y : Int) (c : Nat) : Panel :=
  if x < 0 ∨ x ≥ st._width ∨ y < 0 ∨ y ≥ st._height then st
  else writeRaw st (rotateCoord st x y).1 (rotateCoord st x y).2 c

/-! ## Generic graphics primitives -/

/-- Result of a 16-bit `int` operation passed through the library routine `abs`. -/
def abs16 (n : Int) : Int := wrapI16 (|wrapI16 n|)

/-- Source: `RGBmatrixPanel_writePixel`. -/
def writePixel (st : Panel) (x y : Int) (color : Nat) : Panel :=
  drawPixel st x y color

/-- The loop `for (; x0<=x1; x0++)` of `RGBmatrixPanel_writeLine`.  The first
argument bounds the number of iterations; `none` stands for a loop that is
still running when the bound is used up. -/
def writeLineLoop (steep : Bool) (x1 dx dy ystep : Int) (color : Nat) :
    Nat → Int → Int → Int → Panel → Option Panel
  | 0, x0, _, _, st => if x0 ≤ x1 then none else some st
  | fuel + 1, x0, y0, err, st =>
    if x0 ≤ x1 then
      let st1 := if steep then writePixel st y0 x0 color else writePixel st x0 y0 color
      let err1 := wrapI16 (err - dy)
      if err1 < 0 then
        writeLineLoop steep x1 dx dy ystep color fuel
          (wrapI16 (x0 + 1)) (wrapI16 (y0 + ystep)) (wrapI16 (err1 + dx)) st1
      else
        writeLineLoop steep x1 dx dy ystep color fuel (wrapI16 (x0 + 1)) y0 err1 st1
    else some st

/-- Source: `RGBmatrixPanel_writeLine` (Bresenham).  The loop counter runs
from `x0` to `x1`, so `x1 - x0 + 1` iterations suffice unless the counter
overflows (`x1 = 32767`), in which case the C loop never ends and the result
is `none`. -/
def writeLine (st : Panel) (x0 y0 x1 y1 : Int) (color : Nat) : Option Panel :=
  let steep : Bool := decide (abs16 (y1 - y0) > abs16 (x1 - x0))
  let a0 := if steep then y0 else x0
  let b0 := if steep then x0 else y0
  let a1 := if steep then y1 else x1
  let b1 := if steep then x1 else y1
  let xs := if a0 > a1 then a1 else a0
  let xe := if a0 > a1 then a0 else a1
  let ys := if a0 > a1 then b1 else b0
  let ye := if a0 > a1 then b0 else b1
  let dx := wrapI16 (xe - xs)
  let dy := wrapI16 (abs16 (ye - ys))
  let err := wrapI16 (Int.tdiv dx 2)
  let ystep : Int := if ys < ye then 1 else -1
  writeLineLoop steep xe dx dy ystep color (xe - xs + 1).toNat xs ys err st

/-- Source: `RGBmatrixPanel_drawFastVLine`. -/
def drawFastVLine (st : Panel) (x y h : Int) (color : Nat) : Option Panel :=
  writeLine st x y x (wrapI16 (y + h - 1)) color

/-- Source: `RGBmatrixPanel_drawFastHLine`. -/
def drawFastHLine (st : Panel) (x y w : Int) (color : Nat) : Option Panel :=
  writeLine st x y (wrapI16 (x + w - 1)) y color

/-- Source: `RGBmatrixPanel_writeFastVLine`. -/
def writeFastVLine (st : Panel) (x y h : Int) (color : Nat) : Option Panel :=
  drawFastVLine st x y h color

/-- Source: `RGBmatrixPanel_writeFastHLine`. -/
def writeFastHLine (st : Panel) (x y w : Int) (color : Nat) : Option Panel :=
  drawFastHLine st x y w color

/-- The loop `for (int16_t i=x; i<x+w; i++)` of `RGBmatrixPanel_fillRect`,
with `bound` the value of `x+w`. -/
def fillRectLoop (y h bound : Int) (color : Nat) : Nat → Int → Panel → Option Panel
  | 0, i, st => if i < bound then none else some st
  | fuel + 1, i, st =>
    if i < bound then
      (writeFastVLine st i y h color).bind
        (fun st1 => fillRectLoop y h bound color fuel (wrapI16 (i + 1)) st1)
    else some st

/-- Source: `RGBmatrixPanel_fillRect`. -/
def fillRect (st : Panel) (x y w h : Int) (color : Nat) : Option Panel :=
  fillRectLoop y h (wrapI16 (x + w)) color (wrapI16 (x + w) - x).toNat x st

/-- Source: `RGBmatrixPanel_setRotation`. -/
def setRotation (st : Panel) (x : Nat) : Panel :=
  let rot := x &&& 3
  match rot with
  | 0 | 2 => { st with rotation := rot, _width := st.WIDTH, _height := st.HEIGHT }
  | 1 | 3 => { st with rotation := rot, _width := st.HEIGHT, _height := st.WIDTH }
  | _ => { st with rotation := rot }

/-! ## Frame buffers -/

/-- Source: `RGBmatrixPanel_backBuffer`. -/
def backBuffer (st : Panel) : Int := matrixbuff st st.backindex

/-- Source: `RGBmatrixPanel_fillScreen`. -/
def fillScreen (st : Panel) (c : Nat) : Option Panel :=
  if c = 0x0000 ∨ c = 0xffff then
    some { st with mem := memset st.mem (matrixbuff st st.backindex) c (wrapU16 (buffsize st)) }
  else
    fillRect st 0 0 st._width st._height c

/-! ## Construction -/

/-- Source: `RGBmatrixPanel_Adafruit_GFX`. -/
def Adafruit_GFX (st : Panel) (w h : Int) : Panel :=
  { st with
    WIDTH := w, HEIGHT := h, _width := w, _height := h, rotation := 0,
    cursor_y := 0, cursor_x := 0, textsize_x := 1, textsize_y := 1,
    textcolor := 0xFFFF, textbgcolor := 0xFFFF, wrap := true, _cp437 := false,
    gfxFont := none }

/-- Source: `RGBmatrixPanel_init`.  The argument `alloc` is what `malloc`
returns: the address of a fresh block, or `none` for `NULL`. -/
def init (st : Panel) (rows : Nat) (dbuf : Bool) (width : Nat) (alloc : Option Int) : Panel :=
  let st1 := { st with nRows := rows }
  let buffsize : Int := wrapI16 (width * rows * 3)
  let allocsize : Int := if dbuf then wrapI16 (buffsize * 2) else buffsize
  match alloc with
  | none => { st1 with matrixbuff0 := 0 }
  | some p =>
    { st1 with
      matrixbuff0 := p,
      mem := memset st1.mem p 0 (wrapU16 allocsize),
      matrixbuff1 := if dbuf then p + buffsize else p,
      plane := nPlanes - 1,
      row := wrapU8 ((rows : Int) - 1),
      swapflag := false,
      backindex := 0 }

/-- Source: `RGBmatrixPanel_RGBmatrixPanel(bool dbuf)`, the 16x32 panel. -/
def RGBmatrixPanel16 (st : Panel) (dbuf : Bool) (alloc : Option Int) : Panel :=
  init (Adafruit_GFX st 32 16) 8 dbuf 32 alloc

/-- Source: `RGBmatrixPanel_RGBmatrixPanel(bool dbuf, uint8_t width)`, the
32x32 or 32x64 panel. -/
def RGBmatrixPanel32 (st : Panel) (dbuf : Bool) (width : Nat) (alloc : Option Int) : Panel :=
  init (Adafruit_GFX st width 32) 16 dbuf width alloc

/-! ## Refresh scheduler -/

/-- Pin numbers of `config.h`, all on port B. -/
def CLK_PIN : Nat := 1
/-- Output-enable pin. -/
def OE_PIN : Nat := 2
/-- Latch pin. -/
def LAT_PIN : Nat := 3
/-- Row address line A. -/
def A_PIN : Nat := 4
/-- Row address line B. -/
def B_PIN : Nat := 5
/-- Row address line C. -/
def C_PIN : Nat := 6
/-- Row address line D. -/
def D_PIN : Nat := 7

/-- The constant `CALLOVERHEAD`. -/
def CALLOVERHEAD : Nat := 60
/-- The constant `LOOPTIME`. -/
def LOOPTIME : Nat := 200

/-- The statement `PORT |= (1 << pin)` on an 8-bit register. -/
def setPin (port pin : Nat) : Nat := (port ||| (1 <<< pin)) % 256

/-- The statement `PORT &= ~(1 << pin)` on an 8-bit register. -/
def clearPin (port pin : Nat) : Nat := (port &&& (255 - (1 <<< pin))) % 256

/-- The statement `if(row & mask) PORT |= (1 << pin); else PORT &= ~(1 << pin);`. -/
def addressLine (row mask port pin : Nat) : Nat :=
  if row &&& mask ≠ 0 then setPin port pin else clearPin port pin

/-- The value `duration` that updateDisplay computes for the next interval. -/
def duration (st : Panel) : Nat :=
  let t : Nat := if st.nRows > 8 then LOOPTIME else LOOPTIME * 2
  wrapU16 ((((t + CALLOVERHEAD * 2) <<< st.plane : Nat) : Int) - CALLOVERHEAD)

/-- The counter update `if(++plane >= nPlanes) ... else if(plane == 1) ...` of
updateDisplay. -/
def advance (st : Panel) : Panel :=
  let plane1 := wrapU8 ((st.plane : Int) + 1)
  if plane1 ≥ nPlanes then
    let row1 := wrapU8 ((st.row : Int) + 1)
    if row1 ≥ st.nRows then
      let st1 := { st with plane := 0, row := 0 }
      let st2 := if st1.swapflag = true then
          { st1 with backindex := wrapU8 (1 - (st1.backindex : Int)), swapflag := false }
        else st1
      { st2 with buffptr := matrixbuff st2 (1 - (st2.backindex : Int)) }
    else { st with plane := 0, row := row1 }
  else if plane1 = 1 then
    let pa := addressLine st.row 0x1 st.PORTB A_PIN
    let pb := addressLine st.row 0x2 pa B_PIN
    let pc := addressLine st.row 0x4 pb C_PIN
    let pd := if st.nRows > 8 then addressLine st.row 0x8 pc D_PIN else pc
    { st with plane := plane1, PORTB := pd }
  else { st with plane := plane1 }

/-- The bytes `n` executions of `pew` put on the data port, read from `ptr`
onwards. -/
def pew (m : Mem) (ptr : Int) (n : Nat) : List Nat :=
  (List.range n).map (fun (i : Nat) => m.read (ptr + (i : Int)))

/-- The byte the plane-0 loop rebuilds for column `i`. -/
def plane0Byte (m : Mem) (ptr W : Int) (i : Nat) : Nat :=
  wrapU8 ((((m.read (ptr + i) <<< 6) ||| ((m.read (ptr + i + W) <<< 4) &&& 0x30) |||
    ((m.read (ptr + i + W * 2) <<< 2) &&& 0x0C) : Nat) : Int))

/-- The loop `for(i=0; i<WIDTH; i++)` of the plane-0 branch.  The counter is 8
bits wide; the first argument bounds the iterations (256 cover every run that
ends, which is every run with `WIDTH` at most 255). -/
def plane0Loop (m : Mem) (ptr W : Int) : Nat → Nat → List Nat
  | 0, _ => []
  | fuel + 1, i =>
    if (i : Int) < W then plane0Byte m ptr W i :: plane0Loop m ptr W fuel (wrapU8 ((i : Int) + 1))
    else []

/-- The data-issuing half of updateDisplay, from `ptr = buffptr` on. -/
def issue (st : Panel) (dur : Nat) : Panel :=
  let ptr := st.buffptr
  let st1 := { st with
    ICR1 := dur, TCNT1 := 0,
    PORTB := clearPin (clearPin st.PORTB OE_PIN) LAT_PIN }
  if st1.plane > 0 then
    let n : Nat := if st1.WIDTH = 64 then 64 else 32
    let out := pew st1.mem ptr n
    { st1 with
      shifted := st1.shifted ++ out,
      PORTD := out.getLastD st1.PORTD,
      buffptr := ptr + n }
  else
    let out := plane0Loop st1.mem ptr st1.WIDTH 256 0
    { st1 with shifted := st1.shifted ++ out, PORTD := out.getLastD st1.PORTD }

/-- Source: `RGBmatrixPanel_updateDisplay`. -/
def updateDisplay (st : Panel) : Panel :=
  let st1 := { st with PORTB := setPin (setPin st.PORTB OE_PIN) LAT_PIN }
  let dur := duration st1
  issue (advance st1) dur

/-- The busy-wait `while(swapflag == true) delay(1);` of swapBuffers: the timer
interrupt invokes updateDisplay until the flag is clear.  The first argument
bounds the number of interrupts waited for. -/
def waitSwap : Nat → Panel → Option Panel
  | 0, st => if st.swapflag = true then none else some st
  | fuel + 1, st => if st.swapflag = true then waitSwap fuel (updateDisplay st) else some st

/-- Source: `RGBmatrixPanel_swapBuffers`, waiting for at most `fuel`
interrupts. -/
def swapBuffers (fuel : Nat) (st : Panel) (copy : Bool) : Option Panel :=
  if st.matrixbuff0 ≠ st.matrixbuff1 then
    (waitSwap fuel { st with swapflag := true }).map (fun s =>
      if copy = true then
        { s with mem := memcpy s.mem (matrixbuff s s.backindex)
                          (matrixbuff s (1 - (s.backindex : Int))) (wrapU16 (buffsize s)) }
      else s)
  else some st

/-- Bit numbers of the timer registers, as `avr/io.h` defines them for the
target chip. -/
structure TimerBits where
  WGM11 : Nat
  WGM12 : Nat
  WGM13 : Nat
  CS10 : Nat
  TOIE1 : Nat

/-- Source: `RGBmatrixPanel_begin`. -/
def begin (io : TimerBits) (st : Panel) : Panel :=
  let st1 := { st with backindex := 0 }
  let st2 := { st1 with buffptr := matrixbuff st1 (1 - (st1.backindex : Int)) }
  let ddr := setPin (setPin (setPin (setPin (setPin (setPin st2.DDRB CLK_PIN) LAT_PIN) OE_PIN)
    A_PIN) B_PIN) C_PIN
  let port := clearPin (clearPin (clearPin (setPin (clearPin (clearPin st2.PORTB CLK_PIN) LAT_PIN)
    OE_PIN) A_PIN) B_PIN) C_PIN
  let ddr1 := if st2.nRows > 8 then setPin ddr D_PIN else ddr
  let port1 := if st2.nRows > 8 then clearPin port D_PIN else port
  { st2 with
    DDRB := ddr1, PORTB := port1, DDRD := 0b11111100, PORTD := 0,
    TCCR1A := (1 <<< io.WGM11) % 256,
    TCCR1B := ((1 <<< io.WGM13) ||| (1 <<< io.WGM12) ||| (1 <<< io.CS10)) % 256,
    ICR1 := 100,
    TIMSK := (st2.TIMSK ||| (1 <<< io.TOIE1)) % 256,
    interruptsEnabled := true }

/-! ## Concrete states -/

/-- The state before any constructor runs: C zero-initialises the globals. -/
def powerOn : Panel :=
  { mem := ⟨fun _ => 0⟩, matrixbuff0 := 0, matrixbuff1 := 0, nRows := 0, backindex := 0,
    swapflag := false, WIDTH := 0, HEIGHT := 0, _width := 0, _height := 0,
    cursor_x := 0, cursor_y := 0, textcolor := 0, textbgcolor := 0,
    textsize_x := 0, textsize_y := 0, rotation := 0, wrap := false, _cp437 := false,
    gfxFont := none, row := 0, plane := 0, buffptr := 0, PORTB := 0, DDRB := 0,
    PORTD := 0, DDRD := 0, TCCR1A := 0, TCCR1B := 0, ICR1 := 0, TCNT1 := 0,
    TIMSK := 0, TIFR := 0, interruptsEnabled := false, shifted := [] }

/-- The 32x32 panel of the second constructor, single-buffered, with its
buffer at address 0. -/
def panel32 : Panel := RGBmatrixPanel32 powerOn false 32 (some 0)

/-- The 32x32 panel of the second constructor, double-buffered, with its
buffers at addresses 0 and 1536. -/
def panel32d : Panel := RGBmatrixPanel32 powerOn true 32 (some 0)

/-! ## Vocabulary of the statements -/

/-- The display dimensions agree with the rotation, as the constructor and
setRotation leave them. -/
def Rotated (st : Panel) : Prop :=
  st.rotation < 4 ∧
  st._width = (if st.rotation % 2 = 0 then st.WIDTH else st.HEIGHT) ∧
  st._height = (if st.rotation % 2 = 0 then st.HEIGHT else st.WIDTH)

/-- The raw coordinate the spec assigns to `(x, y)` under rotation `rot` on a
`W` by `H` panel. -/
def rawCoordSpec (W H : Int) (rot : Nat) (x y : Int) : Int × Int :=
  if rot = 1 then (W - 1 - y, x)
  else if rot = 2 then (W - 1 - x, H - 1 - y)
  else if rot = 3 then (y, H - 1 - x)
  else (x, y)

/-- The 5-bit red field of a 5/6/5 colour. -/
def redField (c : Nat) : Nat := c >>> 11
/-- The 6-bit green field of a 5/6/5 colour. -/
def greenField (c : Nat) : Nat := (c >>> 5) &&& 0x3F
/-- The 5-bit blue field of a 5/6/5 colour. -/
def blueField (c : Nat) : Nat := c &&& 0x1F

/-- This invocation of updateDisplay wraps the row counter: the incremented
plane counter reaches `nPlanes` and the incremented row counter reaches
`nRows`. -/
def wrapsRow (st : Panel) : Prop :=
  wrapU8 ((st.plane : Int) + 1) ≥ nPlanes ∧ wrapU8 ((st.row : Int) + 1) ≥ st.nRows

/-- Bit layout of an upper-half pixel: the channel bit held by bit `i` of the
byte `k` row-strides after the pixel's base byte, if the pixel owns that bit. -/
def upperBit (r g b k i : Nat) : Option Bool :=
  if k = 0 then
    (if i = 2 then some (r.testBit 1) else if i = 3 then some (g.testBit 1)
     else if i = 4 then some (b.testBit 1) else none)
  else if k = 1 then
    (if i = 0 then some (b.testBit 0) else if i = 2 then some (r.testBit 2)
     else if i = 3 then some (g.testBit 2) else if i = 4 then some (b.testBit 2) else none)
  else if k = 2 then
    (if i = 0 then some (r.testBit 0) else if i = 1 then some (g.testBit 0)
     else if i = 2 then some (r.testBit 3) else if i = 3 then some (g.testBit 3)
     else if i = 4 then some (b.testBit 3) else none)
  else none

/-- Bit layout of a lower-half pixel: the channel bit held by bit `i` of the
byte `k` row-strides after the pixel's base byte, if the pixel owns that bit. -/
def lowerBit (r g b k i : Nat) : Option Bool :=
  if k = 0 then
    (if i = 0 then some (g.testBit 0) else if i = 1 then some (b.testBit 0)
     else if i = 5 then some (r.testBit 1) else if i = 6 then some (g.testBit 1)
     else if i = 7 then some (b.testBit 1) else none)
  else if k = 1 then
    (if i = 1 then some (r.testBit 0) else if i = 5 then some (r.testBit 2)
     else if i = 6 then some (g.testBit 2) else if i = 7 then some (b.testBit 2) else none)
  else if k = 2 then
    (if i = 5 then some (r.testBit 3) else if i = 6 then some (g.testBit 3)
     else if i = 7 then some (b.testBit 3) else none)
  else none

/-- Offset of the base byte of the raw pixel `(x, y)` from the start of the
back buffer: `y*WIDTH*3 + x` in the upper half, `(y-nRows)*WIDTH*3 + x` in the
lower half. -/
def baseOffset (st : Panel) (x y : Int) : Int :=
  if y < st.nRows then y * st.WIDTH * 3 + x else (y - st.nRows) * st.WIDTH * 3 + x

/-- Draw the `n` pixels `(x, y)`, `(x, y+1)`, ... of one column, top first. -/
def drawColumn (c : Nat) (x : Int) : Nat → Int → Panel → Panel
  | 0, _, st => st
  | n + 1, y, st => drawColumn c x n (y + 1) (drawPixel st x y c)

/-- Draw `n` columns of `h` pixels starting at row `y`: columns `x`, `x+1`,
..., left first. -/
def drawColumns (c : Nat) (h : Nat) (y : Int) : Nat → Int → Panel → Panel
  | 0, _, st => st
  | n + 1, x, st => drawColumns c h y n (x + 1) (drawColumn c x h y st)

/-- The state `st` with its byte memory replaced by `m`. -/
def withMem (st : Panel) (m : Mem) : Panel := { st with mem := m }

/-- The bit every channel of the colour `c` consists of, when `c` is black
(false) or white (true). -/
def uniformBit (c : Nat) : Bool := decide (c = 0xFFFF)

/-! ## Colour demotion and the hue wheel -/

/-- Source: `RGBmatrixPanel_Color888(r, g, b)`, the linear demotion. -/
def Color888 (r g b : Nat) : Nat :=
  wrapU16 ((((r &&& 0xF8) <<< 8) ||| ((g &&& 0xFC) <<< 3) ||| (b >>> 3) : Nat))

/-- The gamma table of `gamma.h` is not among the sources: it is a parameter,
read one byte at a time as `pgm_read_byte` does. -/
def gammaByte (gamma : Nat → Nat) (i : Nat) : Nat := gamma i % 256

/-- The packing `(r << 12) | ((r & 0x8) << 8) | (g << 7) | ((g & 0xC) << 3) |
(b << 1) | (b >> 3)` of three 4-bit channels into 5/6/5. -/
def pack444 (r g b : Nat) : Nat :=
  wrapU16 (((r <<< 12) ||| ((r &&& 0x8) <<< 8) ||| (g <<< 7) ||| ((g &&& 0xC) <<< 3) |||
    (b <<< 1) ||| (b >>> 3) : Nat))

/-- Source: `RGBmatrixPanel_Color888(r, g, b, gflag)`. -/
def Color888g (gamma : Nat → Nat) (r g b : Nat) (gflag : Bool) : Nat :=
  if gflag then
    pack444 (gammaByte gamma r) (gammaByte gamma g) (gammaByte gamma b)
  else
    wrapU16 ((((r &&& 0xF8) <<< 8) ||| ((g &&& 0xFC) <<< 3) ||| (b >>> 3) : Nat))

/-- The statements `hue %= 1536; if(hue < 0) hue += 1536;` of ColorHSV, with
the truncating remainder of C. -/
def normHue (hue : Int) : Int :=
  if Int.tmod hue 1536 < 0 then Int.tmod hue 1536 + 1536 else Int.tmod hue 1536

/-- The hue stage of ColorHSV: the `switch(hue >> 8)` on the normalised hue,
giving the 8-bit triple `(r, g, b)`. -/
def hueStage (hue : Int) : Nat × Nat × Nat :=
  let h := (normHue hue).toNat
  let lo := wrapU8 ((h &&& 255 : Nat))
  match h >>> 8 with
  | 0 => (255, lo, 0)
  | 1 => (wrapU8 (255 - (lo : Int)), 255, 0)
  | 2 => (0, 255, lo)
  | 3 => (0, wrapU8 (255 - (lo : Int)), 255)
  | 4 => (lo, 0, 255)
  | _ => (255, 0, wrapU8 (255 - (lo : Int)))

/-- The saturation step `255 - (((255 - r) * s1) >> 8)` of ColorHSV, in 16-bit
unsigned arithmetic, stored in a byte. -/
def satStep (ch s1 : Nat) : Nat :=
  wrapU8 (255 - (((wrapU16 (wrapU16 (255 - (ch : Int)) * s1) >>> 8 : Nat) : Int)))

/-- Source: `RGBmatrixPanel_ColorHSV`. -/
def ColorHSV (gamma : Nat → Nat) (hue : Int) (sat val : Nat) (gflag : Bool) : Nat :=
  let r0 := (hueStage hue).1
  let g0 := (hueStage hue).2.1
  let b0 := (hueStage hue).2.2
  let s1 := wrapU16 ((sat : Int) + 1)
  let r1 := satStep r0 s1
  let g1 := satStep g0 s1
  let b1 := satStep b0 s1
  let v1 := wrapU16 ((val : Int) + 1)
  if gflag then
    pack444 (gammaByte gamma (wrapU16 ((r1 * v1 : Nat)) >>> 8))
      (gammaByte gamma (wrapU16 ((g1 * v1 : Nat)) >>> 8))
      (gammaByte gamma (wrapU16 ((b1 * v1 : Nat)) >>> 8))
  else
    pack444 (wrapU8 ((wrapU16 ((r1 * v1 : Nat)) >>> 12 : Nat)))
      (wrapU8 ((wrapU16 ((g1 * v1 : Nat)) >>> 12 : Nat)))
      (wrapU8 ((wrapU16 ((b1 * v1 : Nat)) >>> 12 : Nat)))

/-- The 32x64 panel of the demonstration program (64 wide, 32 high),
single-buffered, with its buffer at address 0. -/
def panel64 : Panel := RGBmatrixPanel32 powerOn false 64 (some 0)

/-! ## Characters -/

/-- Value stored by an assignment to an `int8_t`. -/
def wrapI8 (n : Int) : Int := (n + 128) % 256 - 128

/-- Source: `RGBmatrixPanel_writeFillRect`. -/
def writeFillRect (st : Panel) (x y w h : Int) (color : Nat) : Option Panel :=
  fillRect st x y w h color

/-- The table `font` of `glcdfont.c` is not among the sources: it is a
parameter, read one byte at a time as `pgm_read_byte` does. -/
def fontByte (font : Nat → Nat) (i : Nat) : Nat := font i % 256

/-- The statement `if(!_cp437 && (c >= 176)) c++;` of drawChar on the 8-bit
character code. -/
def classicCode (st : Panel) (c : Nat) : Nat :=
  if st._cp437 = false ∧ c ≥ 176 then wrapU8 ((c : Int) + 1) else c

/-- The byte `pgm_read_byte(&font[c * 5 + i])`: column `i` of the glyph drawChar
draws for the character code `c`. -/
def glyphColumn (font : Nat → Nat) (st : Panel) (c i : Nat) : Nat :=
  fontByte font (classicCode st c * 5 + i)

/-- One cell of the built-in glyph: the body of the loop over `j` in drawChar. -/
def drawCharCell (st : Panel) (x y : Int) (i j line color bg size_x size_y : Nat) :
    Option Panel :=
  if line &&& 1 ≠ 0 then
    if size_x = 1 ∧ size_y = 1 then
      some (writePixel st (wrapI16 (x + i)) (wrapI16 (y + j)) color)
    else
      writeFillRect st (wrapI16 (x + i * size_x)) (wrapI16 (y + j * size_y)) size_x size_y color
  else if bg ≠ color then
    if size_x = 1 ∧ size_y = 1 then
      some (writePixel st (wrapI16 (x + i)) (wrapI16 (y + j)) bg)
    else
      writeFillRect st (wrapI16 (x + i * size_x)) (wrapI16 (y + j * size_y)) size_x size_y bg
  else some st

/-- The loop `for(int8_t j=0; j<8; j++, line >>= 1)` of drawChar; the first
argument counts the iterations left. -/
def drawCharColumn (x y : Int) (i color bg size_x size_y : Nat) :
    Nat → Nat → Nat → Panel → Option Panel
  | 0, _, _, st => some st
  | n + 1, j, line, st =>
    (drawCharCell st x y i j line color bg size_x size_y).bind
      (fun s => drawCharColumn x y i color bg size_x size_y n (j + 1) (line >>> 1) s)

/-- The loop `for(int8_t i=0; i<5; i++ )` of drawChar; the first argument
counts the iterations left. -/
def drawCharColumns (font : Nat → Nat) (x y : Int) (c color bg size_x size_y : Nat) :
    Nat → Nat → Panel → Option Panel
  | 0, _, st => some st
  | n + 1, i, st =>
    (drawCharColumn x y i color bg size_x size_y 8 0 (fontByte font (c * 5 + i)) st).bind
      (fun s => drawCharColumns font x y c color bg size_x size_y n (i + 1) s)

/-- The state the loops of the custom-font branch of drawChar carry: the bit
counter `bit`, the shift register `bits`, the bitmap offset `bo`, the display. -/
structure GlyphScan where
  bit : Nat
  bits : Nat
  bo : Nat
  st : Panel

/-- Body of the loop over `xx` in the custom-font branch of drawChar. -/
def drawGlyphCell (f : GFXfont) (x y xo yo xo16 yo16 : Int) (color size_x size_y : Nat)
    (xx yy : Nat) (g : GlyphScan) : Option GlyphScan :=
  let fetch := g.bit &&& 7 = 0
  let bit1 := wrapU8 ((g.bit : Int) + 1)
  let bits1 := if fetch then f.bitmap.getD g.bo 0 % 256 else g.bits
  let bo1 := if fetch then wrapU16 ((g.bo : Int) + 1) else g.bo
  let drawn : Option Panel :=
    if bits1 &&& 0x80 ≠ 0 then
      if size_x = 1 ∧ size_y = 1 then
        some (writePixel g.st (wrapI16 (x + xo + xx)) (wrapI16 (y + yo + yy)) color)
      else
        writeFillRect g.st (wrapI16 (x + (xo16 + xx) * size_x)) (wrapI16 (y + (yo16 + yy) * size_y))
          size_x size_y color
    else some g.st
  drawn.map (fun s => { bit := bit1, bits := wrapU8 ((bits1 <<< 1 : Nat)), bo := bo1, st := s })

/-- The loop `for(xx=0; xx<w; xx++)` of the custom-font branch; the first
argument counts the iterations left. -/
def drawGlyphRow (f : GFXfont) (x y xo yo xo16 yo16 : Int) (color size_x size_y yy : Nat) :
    Nat → Nat → GlyphScan → Option GlyphScan
  | 0, _, g => some g
  | n + 1, xx, g =>
    (drawGlyphCell f x y xo yo xo16 yo16 color size_x size_y xx yy g).bind
      (fun g1 => drawGlyphRow f x y xo yo xo16 yo16 color size_x size_y yy n (xx + 1) g1)

/-- The loop `for(yy=0; yy<h; yy++)` of the custom-font branch; the first
argument counts the iterations left. -/
def drawGlyphRows (f : GFXfont) (x y xo yo xo16 yo16 : Int) (color size_x size_y w : Nat) :
    Nat → Nat → GlyphScan → Option GlyphScan
  | 0, _, g => some g
  | n + 1, yy, g =>
    (drawGlyphRow f x y xo yo xo16 yo16 color size_x size_y yy w 0 g).bind
      (fun g1 => drawGlyphRows f x y xo yo xo16 yo16 color size_x size_y w n (yy + 1) g1)

/-- A glyph record with every field zero, read when the glyph index is past
the end of the glyph list. -/
def noGlyph : GFXglyph :=
  { bitmapOffset := 0, width := 0, height := 0, xAdvance := 0, xOffset := 0, yOffset := 0 }

/-- Source: `RGBmatrixPanel_drawChar(x, y, c, color, bg, size_x, size_y)`. -/
def drawChar (font : Nat → Nat) (st : Panel) (x y : Int) (c color bg size_x size_y : Nat) :
    Option Panel :=
  match st.gfxFont with
  | none =>
    if x ≥ st._width ∨ y ≥ st._height ∨ wrapI16 (x + 6 * size_x - 1) < 0 ∨
        wrapI16 (y + 8 * size_y - 1) < 0 then some st
    else
      (drawCharColumns font x y (classicCode st c) color bg size_x size_y 5 0 st).bind
        (fun s =>
          if bg ≠ color then
            if size_x = 1 ∧ size_y = 1 then writeFastVLine s (wrapI16 (x + 5)) y 8 bg
            else writeFillRect s (wrapI16 (x + 5 * size_x)) y size_x (wrapI16 (8 * size_y)) bg
          else some s)
  | some f =>
    let c1 := wrapU8 ((c : Int) - (f.first % 256 : Nat))
    let glyph := f.glyph.getD c1 noGlyph
    let bo := glyph.bitmapOffset % 65536
    let w := glyph.width % 256
    let h := glyph.height % 256
    let xo := wrapI8 glyph.xOffset
    let yo := wrapI8 glyph.yOffset
    let xo16 : Int := if size_x > 1 ∨ size_y > 1 then xo else 0
    let yo16 : Int := if size_x > 1 ∨ size_y > 1 then yo else 0
    (drawGlyphRows f x y xo yo xo16 yo16 color size_x size_y w h 0
      { bit := 0, bits := 0, bo := bo, st := st }).map (fun g => g.st)

/-- Source: `RGBmatrixPanel_drawChar(x, y, c, color, bg, size)`. -/
def drawCharSquare (font : Nat → Nat) (st : Panel) (x y : Int) (c color bg size : Nat) :
    Option Panel :=
  drawChar font st x y c color bg size size

/-! ## Lines and triangles -/

/-- Value stored by an assignment to an `int32_t`. -/
def wrapI32 (n : Int) : Int := (n + 2147483648) % 4294967296 - 2147483648

/-- The pixels `writeLineLoop` passes to writePixel, in order: the same loop
with the display left out. -/
def writeLineLoopPixels (steep : Bool) (x1 dx dy ystep : Int) :
    Nat → Int → Int → Int → Option (List (Int × Int))
  | 0, x0, _, _ => if x0 ≤ x1 then none else some []
  | fuel + 1, x0, y0, err =>
    if x0 ≤ x1 then
      let p : Int × Int := if steep then (y0, x0) else (x0, y0)
      let err1 := wrapI16 (err - dy)
      if err1 < 0 then
        (writeLineLoopPixels steep x1 dx dy ystep fuel
          (wrapI16 (x0 + 1)) (wrapI16 (y0 + ystep)) (wrapI16 (err1 + dx))).map (fun l => p :: l)
      else
        (writeLineLoopPixels steep x1 dx dy ystep fuel (wrapI16 (x0 + 1)) y0 err1).map
          (fun l => p :: l)
    else some []

/-- The pixels `writeLine` passes to writePixel, in order (`none`: the loop
never ends). -/
def writeLinePixels (x0 y0 x1 y1 : Int) : Option (List (Int × Int)) :=
  let steep : Bool := decide (abs16 (y1 - y0) > abs16 (x1 - x0))
  let a0 := if steep then y0 else x0
  let b0 := if steep then x0 else y0
  let a1 := if steep then y1 else x1
  let b1 := if steep then x1 else y1
  let xs := if a0 > a1 then a1 else a0
  let xe := if a0 > a1 then a0 else a1
  let ys := if a0 > a1 then b1 else b0
  let ye := if a0 > a1 then b0 else b1
  let dx := wrapI16 (xe - xs)
  let dy := wrapI16 (abs16 (ye - ys))
  let err := wrapI16 (Int.tdiv dx 2)
  let ystep : Int := if ys < ye then 1 else -1
  writeLineLoopPixels steep xe dx dy ystep (xe - xs + 1).toNat xs ys err

/-- Pass the pixels of a list to writePixel, first to last. -/
def drawPixels (c : Nat) (st : Panel) (ps : List (Int × Int)) : Panel :=
  ps.foldl (fun s p => writePixel s p.1 p.2 c) st

/-- Source: `RGBmatrixPanel_drawLine`. -/
def drawLine (st : Panel) (x0 y0 x1 y1 : Int) (color : Nat) : Option Panel :=
  if x0 = x1 then
    let ya := if y0 > y1 then y1 else y0
    let yb := if y0 > y1 then y0 else y1
    drawFastVLine st x0 ya (wrapI16 (yb - ya + 1)) color
  else if y0 = y1 then
    let xa := if x0 > x1 then x1 else x0
    let xb := if x0 > x1 then x0 else x1
    drawFastHLine st xa y0 (wrapI16 (xb - xa + 1)) color
  else writeLine st x0 y0 x1 y1 color

/-- The pixels `drawLine` passes to writePixel, in order. -/
def drawLinePixels (x0 y0 x1 y1 : Int) : Option (List (Int × Int)) :=
  if x0 = x1 then
    let ya := if y0 > y1 then y1 else y0
    let yb := if y0 > y1 then y0 else y1
    writeLinePixels x0 ya x0 (wrapI16 (ya + wrapI16 (yb - ya + 1) - 1))
  else if y0 = y1 then
    let xa := if x0 > x1 then x1 else x0
    let xb := if x0 > x1 then x0 else x1
    writeLinePixels xa y0 (wrapI16 (xa + wrapI16 (xb - xa + 1) - 1)) y0
  else writeLinePixels x0 y0 x1 y1

/-- Ways a call can fail to return normally. -/
inductive Fault where
  | diverges
  | divByZero
  deriving DecidableEq, Repr

/-- A drawing call inside a function that can also fail by dividing by zero. -/
def orDiverges (o : Option Panel) : Except Fault Panel :=
  match o with
  | some s => Except.ok s
  | none => Except.error Fault.diverges

/-- The loop `for(y=y0; y<=last; y++)` of the upper part of fillTriangle; it
hands the final `y` on to the lower part. -/
def triUpper (x0 dx01 dy01 dx02 dy02 last : Int) (color : Nat) :
    Nat → Int → Int → Int → Panel → Except Fault (Int × Panel)
  | 0, y, _, _, st => if y ≤ last then Except.error Fault.diverges else Except.ok (y, st)
  | fuel + 1, y, sa, sb, st =>
    if y ≤ last then
      if dy01 = 0 ∨ dy02 = 0 then Except.error Fault.divByZero
      else
        let a := wrapI16 (x0 + Int.tdiv sa dy01)
        let b := wrapI16 (x0 + Int.tdiv sb dy02)
        let lo := if a > b then b else a
        let hi := if a > b then a else b
        match writeFastHLine st lo y (wrapI16 (hi - lo + 1)) color with
        | none => Except.error Fault.diverges
        | some s =>
          triUpper x0 dx01 dy01 dx02 dy02 last color fuel (wrapI16 (y + 1))
            (wrapI32 (sa + dx01)) (wrapI32 (sb + dx02)) s
    else Except.ok (y, st)

/-- The loop `for(; y<=y2; y++)` of the lower part of fillTriangle. -/
def triLower (x0 x1 dx12 dy12 dx02 dy02 y2 : Int) (color : Nat) :
    Nat → Int → Int → Int → Panel → Except Fault Panel
  | 0, y, _, _, st => if y ≤ y2 then Except.error Fault.diverges else Except.ok st
  | fuel + 1, y, sa, sb, st =>
    if y ≤ y2 then
      if dy12 = 0 ∨ dy02 = 0 then Except.error Fault.divByZero
      else
        let a := wrapI16 (x1 + Int.tdiv sa dy12)
        let b := wrapI16 (x0 + Int.tdiv sb dy02)
        let lo := if a > b then b else a
        let hi := if a > b then a else b
        match writeFastHLine st lo y (wrapI16 (hi - lo + 1)) color with
        | none => Except.error Fault.diverges
        | some s =>
          triLower x0 x1 dx12 dy12 dx02 dy02 y2 color fuel (wrapI16 (y + 1))
            (wrapI32 (sa + dx12)) (wrapI32 (sb + dx02)) s
    else Except.ok st

/-- Source: `RGBmatrixPanel_fillTriangle`.  The vertices are sorted by three
conditional swaps; `ax, ay`, `bx, by1`, `cx, cy` are the sorted vertices 0, 1, 2. -/
def fillTriangle (st : Panel) (x0 y0 x1 y1 x2 y2 : Int) (color : Nat) : Except Fault Panel :=
  let px0 := if y0 > y1 then x1 else x0
  let py0 := if y0 > y1 then y1 else y0
  let px1 := if y0 > y1 then x0 else x1
  let py1 := if y0 > y1 then y0 else y1
  let qx1 := if py1 > y2 then x2 else px1
  let qy1 := if py1 > y2 then y2 else py1
  let cx := if py1 > y2 then px1 else x2
  let cy := if py1 > y2 then py1 else y2
  let ax := if py0 > qy1 then qx1 else px0
  let ay := if py0 > qy1 then qy1 else py0
  let bx := if py0 > qy1 then px0 else qx1
  let by1 := if py0 > qy1 then py0 else qy1
  if ay = cy then
    let a1 := if bx < ax then bx else ax
    let b1 := if bx < ax then ax else if bx > ax then bx else ax
    let a2 := if cx < a1 then cx else a1
    let b2 := if cx < a1 then b1 else if cx > b1 then cx else b1
    orDiverges (writeFastHLine st a2 ay (wrapI16 (b2 - a2 + 1)) color)
  else
    let dx01 := wrapI16 (bx - ax)
    let dy01 := wrapI16 (by1 - ay)
    let dx02 := wrapI16 (cx - ax)
    let dy02 := wrapI16 (cy - ay)
    let dx12 := wrapI16 (cx - bx)
    let dy12 := wrapI16 (cy - by1)
    let last := if by1 = cy then by1 else wrapI16 (by1 - 1)
    match triUpper ax dx01 dy01 dx02 dy02 last color (last - ay + 1).toNat ay 0 0 st with
    | Except.error e => Except.error e
    | Except.ok (y, s) =>
      triLower ax bx dx12 dy12 dx02 dy02 cy color (cy - y + 1).toNat y
        (wrapI32 (dx12 * wrapI16 (y - by1))) (wrapI32 (dx02 * wrapI16 (y - ay))) s

/-- The pixel with major-axis coordinate `a` and minor-axis coordinate `b`. -/
def linePoint (steep : Bool) (a b : Int) : Int × Int := if steep then (b, a) else (a, b)

/-- Consecutive pixels of a line: the major-axis coordinate goes up by one, the
minor-axis coordinate stays or, on a line that is not flat (`0 < dy`), moves by
`ystep`. -/
def lineStep (steep : Bool) (ystep dy : Int) (p q : Int × Int) : Prop :=
  if steep then q.2 = p.2 + 1 ∧ (q.1 = p.1 ∨ (q.1 = p.1 + ystep ∧ 0 < dy))
  else q.1 = p.1 + 1 ∧ (q.2 = p.2 ∨ (q.2 = p.2 + ystep ∧ 0 < dy))

/-- Consecutive pixels of a line along which the minor-axis coordinate does not
go down. -/
def lineRises (steep : Bool) (p q : Int × Int) : Prop :=
  if steep then q.2 = p.2 + 1 ∧ p.1 ≤ q.1 else q.1 = p.1 + 1 ∧ p.2 ≤ q.2

/-- Consecutive pixels of a line along which the minor-axis coordinate does not
go up. -/
def lineFalls (steep : Bool) (p q : Int × Int) : Prop :=
  if steep then q.2 = p.2 + 1 ∧ q.1 ≤ p.1 else q.1 = p.1 + 1 ∧ q.2 ≤ p.2

/-- The `n` pixels with minor-axis coordinate `b` and major-axis coordinates
`a`, `a+1`, ..., in that order. -/
def majorPixels (steep : Bool) (b : Int) : Nat → Int → List (Int × Int)
  | 0, _ => []
  | n + 1, a => linePoint steep a b :: majorPixels steep b n (a + 1)

/-- The pixels written for `n` columns of height 0 starting at column `x`: in
each column the two pixels `(x, y-1)` and `(x, y)`. -/
def zeroHeightPixels (y : Int) : Nat → Int → List (Int × Int)
  | 0, _ => []
  | n + 1, x => (x, y - 1) :: (x, y) :: zeroHeightPixels y n (x + 1)

/-- The fault a call ended with, if any. -/
def faultOf (r : Except Fault Panel) : Option Fault :=
  match r with
  | Except.ok _ => none
  | Except.error e => some e

/-! ## Text bounds -/

/-- The six values `RGBmatrixPanel_charBounds` updates through its pointer
arguments. -/
structure Bounds where
  x : Int
  y : Int
  minx : Int
  miny : Int
  maxx : Int
  maxy : Int
  deriving DecidableEq, Repr

/-- The bounds after a box with corners `(x1, y1)` and `(x2, y2)` has been taken
into account and the cursor moved to `(x, y)`. -/
def trackBox (b : Bounds) (x y x1 y1 x2 y2 : Int) : Bounds :=
  { x := x, y := y,
    minx := if x1 < b.minx then x1 else b.minx,
    miny := if y1 < b.miny then y1 else b.miny,
    maxx := if x2 > b.maxx then x2 else b.maxx,
    maxy := if y2 > b.maxy then y2 else b.maxy }

/-- Source: `RGBmatrixPanel_charBounds`.  The parameter `c` is a `char`, which
is signed; `textsize_x` and `textsize_y` are `uint16_t`, so sums they enter are
unsigned 16-bit sums, and the wrap test compares unsigned values. -/
def charBounds (st : Panel) (c : Nat) (b : Bounds) : Bounds :=
  let cs := wrapI8 c
  match st.gfxFont with
  | some f =>
    if cs = 10 then
      { b with x := 0, y := wrapI16 (b.y + st.textsize_y * (f.yAdvance % 256 : Nat)) }
    else if cs ≠ 13 then
      let first : Nat := f.first % 256
      let last : Nat := f.last % 256
      if cs ≥ first ∧ cs ≤ last then
        let glyph := f.glyph.getD (cs - first).toNat noGlyph
        let gw : Nat := glyph.width % 256
        let gh : Nat := glyph.height % 256
        let xa : Nat := glyph.xAdvance % 256
        let xo := wrapI8 glyph.xOffset
        let yo := wrapI8 glyph.yOffset
        let over : Bool := st.wrap &&
          decide (wrapU16 (b.x + (xo + gw) * st.textsize_x) > wrapU16 st._width)
        let x := if over then 0 else b.x
        let y := if over then wrapI16 (b.y + st.textsize_y * (f.yAdvance % 256 : Nat)) else b.y
        let tsx := wrapI16 st.textsize_x
        let tsy := wrapI16 st.textsize_y
        let x1 := wrapI16 (x + xo * tsx)
        let y1 := wrapI16 (y + yo * tsy)
        let x2 := wrapI16 (x1 + gw * tsx - 1)
        let y2 := wrapI16 (y1 + gh * tsy - 1)
        trackBox b (wrapI16 (x + xa * tsx)) y x1 y1 x2 y2
      else b
    else b
  | none =>
    if cs = 10 then
      { b with x := 0, y := wrapI16 (b.y + st.textsize_y * 8) }
    else if cs ≠ 13 then
      let over : Bool := st.wrap &&
        decide (wrapU16 (b.x + st.textsize_x * 6) > wrapU16 st._width)
      let x := if over then 0 else b.x
      let y := if over then wrapI16 (b.y + st.textsize_y * 8) else b.y
      let x2 := wrapI16 (x + st.textsize_x * 6 - 1)
      let y2 := wrapI16 (y + st.textsize_y * 8 - 1)
      trackBox b (wrapI16 (x + st.textsize_x * 6)) y x y x2 y2
    else b

/-- The loop `while((c = *str++))` of `RGBmatrixPanel_getTextBounds`: the
string is the list of its bytes, and a zero byte ends it. -/
def boundsLoop (st : Panel) : List Nat → Bounds → Bounds
  | [], b => b
  | ch :: rest, b =>
    if ch % 256 = 0 then b else boundsLoop st rest (charBounds st (ch % 256) b)

/-- Source: `RGBmatrixPanel_getTextBounds`; the result is `(x1, y1, w, h)`. -/
def getTextBounds (st : Panel) (str : List Nat) (x y : Int) : Int × Int × Nat × Nat :=
  let b := boundsLoop st str
    { x := x, y := y, minx := st._width, miny := st._height, maxx := -1, maxy := -1 }
  let x1 := if b.maxx ≥ b.minx then b.minx else x
  let w := if b.maxx ≥ b.minx then wrapU16 (b.maxx - b.minx + 1) else 0
  let y1 := if b.maxy ≥ b.miny then b.miny else y
  let h := if b.maxy ≥ b.miny then wrapU16 (b.maxy - b.miny + 1) else 0
  (x1, y1, w, h)

/-- The bounds reached after `i` characters of one line of text in the built-in
font at size 1, measured from the origin. -/
def lineBounds (st : Panel) (i : Nat) : Bounds :=
  { x := 6 * (i : Int), y := 0,
    minx := if i = 0 then st._width else 0,
    miny := if i = 0 then st._height else 0,
    maxx := 6 * (i : Int) - 1,
    maxy := if i = 0 then -1 else 7 }

/-- A character cell: the box `RGBmatrixPanel_charBounds` compares against the
running minima and maxima. -/
structure Cell where
  left : Int
  top : Int
  right : Int
  bottom : Int
  deriving DecidableEq, Repr

/-- The part of `RGBmatrixPanel_charBounds` that does not depend on the running
minima and maxima: the cell of character `c` with the cursor at `(x, y)`, if the
character has one, and the cursor after the character. -/
def charStep (st : Panel) (c : Nat) (x y : Int) : Option Cell × Int × Int :=
  let cs := wrapI8 c
  match st.gfxFont with
  | some f =>
    if cs = 10 then
      (none, 0, wrapI16 (y + st.textsize_y * (f.yAdvance % 256 : Nat)))
    else if cs ≠ 13 then
      let first : Nat := f.first % 256
      let last : Nat := f.last % 256
      if cs ≥ first ∧ cs ≤ last then
        let glyph := f.glyph.getD (cs - first).toNat noGlyph
        let gw : Nat := glyph.width % 256
        let gh : Nat := glyph.height % 256
        let xa : Nat := glyph.xAdvance % 256
        let xo := wrapI8 glyph.xOffset
        let yo := wrapI8 glyph.yOffset
        let over : Bool := st.wrap &&
          decide (wrapU16 (x + (xo + gw) * st.textsize_x) > wrapU16 st._width)
        let xc := if over then 0 else x
        let yc := if over then wrapI16 (y + st.textsize_y * (f.yAdvance % 256 : Nat)) else y
        let tsx := wrapI16 st.textsize_x
        let tsy := wrapI16 st.textsize_y
        let x1 := wrapI16 (xc + xo * tsx)
        let y1 := wrapI16 (yc + yo * tsy)
        let x2 := wrapI16 (x1 + gw * tsx - 1)
        let y2 := wrapI16 (y1 + gh * tsy - 1)
        (some { left := x1, top := y1, right := x2, bottom := y2 }, wrapI16 (xc + xa * tsx), yc)
      else (none, x, y)
    else (none, x, y)
  | none =>
    if cs = 10 then
      (none, 0, wrapI16 (y + st.textsize_y * 8))
    else if cs ≠ 13 then
      let over : Bool := st.wrap &&
        decide (wrapU16 (x + st.textsize_x * 6) > wrapU16 st._width)
      let xc := if over then 0 else x
      let yc := if over then wrapI16 (y + st.textsize_y * 8) else y
      let x2 := wrapI16 (xc + st.textsize_x * 6 - 1)
      let y2 := wrapI16 (yc + st.textsize_y * 8 - 1)
      (some { left := xc, top := yc, right := x2, bottom := y2 },
        wrapI16 (xc + st.textsize_x * 6), yc)
    else (none, x, y)

/-- The character cells touched when `RGBmatrixPanel_getTextBounds` replays a
string from the cursor `(x, y)`, first character first. -/
def replayCells (st : Panel) : List Nat → Int → Int → List Cell
  | [], _, _ => []
  | ch :: rest, x, y =>
    if ch % 256 = 0 then []
    else
      match charStep st (ch % 256) x y with
      | (none, x1, y1) => replayCells st rest x1 y1
      | (some cell, x1, y1) => cell :: replayCells st rest x1 y1

/-! ## Text state setters -/

/-- Source: `RGBmatrixPanel_setCursor`. -/
def setCursor (st : Panel) (x y : Int) : Panel := { st with cursor_x := x, cursor_y := y }

/-- Source: `RGBmatrixPanel_setTextColor(c)`. -/
def setTextColor (st : Panel) (c : Nat) : Panel := { st with textcolor := c, textbgcolor := c }

/-- Source: `RGBmatrixPanel_setTextColor(c, bg)`. -/
def setTextColorBg (st : Panel) (c bg : Nat) : Panel :=
  { st with textcolor := c, textbgcolor := bg }

/-- Source: `RGBmatrixPanel_setTextWrap`. -/
def setTextWrap (st : Panel) (w : Bool) : Panel := { st with wrap := w }

/-- Source: `RGBmatrixPanel_cp437`. -/
def cp437 (st : Panel) (x : Bool) : Panel := { st with _cp437 := x }

/-- Source: `RGBmatrixPanel_setTextSize(s_x, s_y)`.  The parameters are
`uint8_t`: an argument is reduced to a byte when it is passed. -/
def setTextSize (st : Panel) (s_x s_y : Nat) : Panel :=
  { st with
    textsize_x := (if s_x % 256 > 0 then s_x % 256 else 1),
    textsize_y := (if s_y % 256 > 0 then s_y % 256 else 1) }

/-- Source: `RGBmatrixPanel_setTextSize(s)`. -/
def setTextSizeSquare (st : Panel) (s : Nat) : Panel := setTextSize st (s % 256) (s % 256)

/-- Source: `RGBmatrixPanel_setFont`; `none` is the `NULL` pointer. -/
def setFont (st : Panel) (f : Option GFXfont) : Panel :=
  match f with
  | some g =>
    match st.gfxFont with
    | none => { st with cursor_y := wrapI16 (st.cursor_y + 6), gfxFont := some g }
    | some _ => { st with gfxFont := some g }
  | none =>
    match st.gfxFont with
    | some _ => { st with cursor_y := wrapI16 (st.cursor_y - 6), gfxFont := none }
    | none => { st with gfxFont := none }

/-- The calls that set the text state and the rotation. -/
inductive TextOp where
  | setCursor (x y : Int)
  | setTextColor (c : Nat)
  | setTextColorBg (c bg : Nat)
  | setTextWrap (w : Bool)
  | cp437 (x : Bool)
  | setTextSize (s_x s_y : Nat)
  | setTextSizeSquare (s : Nat)
  | setRotation (r : Nat)
  | setFont (f : Option GFXfont)

/-- The state after one call of a setter. -/
def applyOp (st : Panel) : TextOp → Panel
  | TextOp.setCursor x y => setCursor st x y
  | TextOp.setTextColor c => setTextColor st c
  | TextOp.setTextColorBg c bg => setTextColorBg st c bg
  | TextOp.setTextWrap w => setTextWrap st w
  | TextOp.cp437 x => cp437 st x
  | TextOp.setTextSize s_x s_y => setTextSize st s_x s_y
  | TextOp.setTextSizeSquare s => setTextSizeSquare st s
  | TextOp.setRotation r => setRotation st r
  | TextOp.setFont f => setFont st f

/-- The call is one of the two forms of setTextSize. -/
def TextOp.setsSize : TextOp → Bool
  | TextOp.setTextSize _ _ => true
  | TextOp.setTextSizeSquare _ => true
  | _ => false

/-! ## The demonstration program -/

/-- Source: `Wheel` of `testshapes_32x64.cpp`; the argument is a byte. -/
def Wheel (WheelPos : Nat) : Nat :=
  if WheelPos < 8 then Color333 (wrapU8 (7 - (WheelPos : Int))) WheelPos 0
  else if WheelPos < 16 then
    let p := wrapU8 ((WheelPos : Int) - 8)
    Color333 0 (wrapU8 (7 - (p : Int))) p
  else
    let p := wrapU8 ((WheelPos : Int) - 16)
    Color333 0 p (wrapU8 (7 - (p : Int)))

/-! ## Printing -/

/-- The statements `cursor_x = 0; cursor_y += textsize_y * 8;` of write. -/
def newlineClassic (st : Panel) : Panel :=
  { st with cursor_x := 0, cursor_y := wrapI16 (st.cursor_y + st.textsize_y * 8) }

/-- The statements `cursor_x = 0; cursor_y += (int16_t)textsize_y *
(uint8_t)pgm_read_byte(&gfxFont->yAdvance);` of write. -/
def newlineCustom (st : Panel) (f : GFXfont) : Panel :=
  { st with
    cursor_x := 0,
    cursor_y := wrapI16 (st.cursor_y + wrapI16 (wrapI16 st.textsize_y * (f.yAdvance % 256 : Nat))) }

/-- Source: `RGBmatrixPanel_write(uint8_t c)`; `c` is a byte.  The text sizes
are `uint16_t`, so the wrap test is an unsigned 16-bit comparison, and they are
passed to drawChar as bytes. -/
def write (font : Nat → Nat) (st : Panel) (c : Nat) : Option Panel :=
  match st.gfxFont with
  | none =>
    if c = 10 then some (newlineClassic st)
    else if c ≠ 13 then
      let over : Bool := st.wrap &&
        decide (wrapU16 (st.cursor_x + st.textsize_x * 6) > wrapU16 st._width)
      let st1 := if over then newlineClassic st else st
      (drawChar font st1 st1.cursor_x st1.cursor_y c st1.textcolor st1.textbgcolor
        (st1.textsize_x % 256) (st1.textsize_y % 256)).map
        (fun s => { s with cursor_x := wrapI16 (s.cursor_x + s.textsize_x * 6) })
    else some st
  | some f =>
    if c = 10 then some (newlineCustom st f)
    else if c ≠ 13 then
      let first := f.first % 256
      if c ≥ first ∧ c ≤ f.last % 256 then
        let glyph := f.glyph.getD (c - first) noGlyph
        let w := glyph.width % 256
        let h := glyph.height % 256
        let drawn : Option Panel :=
          if w > 0 ∧ h > 0 then
            let xo := wrapI8 glyph.xOffset
            let over : Bool := st.wrap &&
              decide (wrapU16 (st.cursor_x + st.textsize_x * (xo + w)) > wrapU16 st._width)
            let st1 := if over then newlineCustom st f else st
            drawChar font st1 st1.cursor_x st1.cursor_y c st1.textcolor st1.textbgcolor
              (st1.textsize_x % 256) (st1.textsize_y % 256)
          else some st
        drawn.map (fun s =>
          { s with
            cursor_x := wrapI16 (s.cursor_x +
              wrapI16 ((glyph.xAdvance % 256 : Nat) * wrapI16 s.textsize_x)) })
      else some st
    else some st

/-- The base `BYTE` of the header: print the value as one character. -/
def BYTE : Int := 0

/-- Source: `RGBmatrixPanel_print(char c)` with the default base `BYTE`:
`print((long) c, BYTE)` takes the branch `write(n)`, which converts the value
to `uint8_t`. -/
def printByte (font : Nat → Nat) (st : Panel) (c : Int) : Option Panel :=
  write font st (wrapU8 (wrapI8 c))

/-- Source: `RGBmatrixPanel_println(void)`. -/
def println (font : Nat → Nat) (st : Panel) : Option Panel :=
  (printByte font st 13).bind (fun s => printByte font s 10)

/-- The state `s` differs from `st` in the byte memory at most. -/
def sameFrame (st s : Panel) : Prop := s = withMem st s.mem

/-- Value stored by an assignment to an `unsigned long`. -/
def wrapU32 (n : Int) : Nat := (n % 4294967296).toNat

/-- A sequence of calls of write, one per byte of the list, first byte first. -/
def writeAll (font : Nat → Nat) : List Nat → Panel → Option Panel
  | [], st => some st
  | c :: rest, st => (write font st c).bind (fun s => writeAll font rest s)

/-- The loop `while (n > 0) { buf[i++] = n % base; n /= base; }` of printNumber:
the buffer it fills, least significant digit first.  The first argument bounds
the iterations by the size of the buffer, 32 bytes; a loop still running then
never ends (base 1), and base 0 divides by zero. -/
def printNumberBuf (base : Nat) : Nat → Nat → List Nat → Except Fault (List Nat)
  | 0, n, buf => if n > 0 then Except.error Fault.diverges else Except.ok buf
  | fuel + 1, n, buf =>
    if n > 0 then
      if base = 0 then Except.error Fault.divByZero
      else printNumberBuf base fuel (n / base) (buf ++ [wrapU8 ((n % base : Nat))])
    else Except.ok buf

/-- The character printNumber emits for the buffer entry `d`:
`(char)(d < 10 ? '0' + d : 'A' + d - 10)`, as the byte write receives. -/
def digitChar (d : Nat) : Nat :=
  wrapU8 (wrapI8 (if d < 10 then 48 + (d : Int) else 65 + (d : Int) - 10))

/-- The bytes `RGBmatrixPanel_printNumber(n, base)` passes to write, in order;
`n` is an `unsigned long` and `base` a byte. -/
def printNumberChars (n base : Nat) : Except Fault (List Nat) :=
  if n = 0 then Except.ok [wrapU8 (wrapI8 48)]
  else
    match printNumberBuf base 32 n [] with
    | Except.error e => Except.error e
    | Except.ok buf => Except.ok (buf.reverse.map digitChar)

/-- Write the bytes a printing function emits. -/
def emit (font : Nat → Nat) (st : Panel) (r : Except Fault (List Nat)) : Except Fault Panel :=
  match r with
  | Except.error e => Except.error e
  | Except.ok cs => orDiverges (writeAll font cs st)

/-- Source: `RGBmatrixPanel_printNumber`. -/
def printNumber (font : Nat → Nat) (st : Panel) (n base : Nat) : Except Fault Panel :=
  emit font st (printNumberChars n base)

/-- The bytes `RGBmatrixPanel_print(long n, int base)` passes to write, in
order; `n` is a 32-bit `long`, `base` a 16-bit `int`. -/
def printLongChars (n base : Int) : Except Fault (List Nat) :=
  if base = 0 then Except.ok [wrapU8 n]
  else if base = 10 then
    if n < 0 then
      match printNumberChars (wrapU32 (wrapI32 (-n))) 10 with
      | Except.error e => Except.error e
      | Except.ok cs => Except.ok (wrapU8 (wrapI8 45) :: cs)
    else printNumberChars (wrapU32 n) 10
  else printNumberChars (wrapU32 n) (wrapU8 base)

/-- Source: `RGBmatrixPanel_print(long n, int base)`. -/
def printLong (font : Nat → Nat) (st : Panel) (n base : Int) : Except Fault Panel :=
  emit font st (printLongChars n base)

/-- Source: `RGBmatrixPanel_print(unsigned long n, int base)`. -/
def printULong (font : Nat → Nat) (st : Panel) (n : Nat) (base : Int) : Except Fault Panel :=
  if base = 0 then orDiverges (write font st (wrapU8 n))
  else printNumber font st n (wrapU8 base)

/-- The value of a digit character: '0'..'9' are 0..9, 'A'..'F' are 10..15. -/
def digitValue (ch : Nat) : Nat := if ch < 58 then ch - 48 else ch - 55

/-! ## The stored value of a pixel -/

/-- The bits of the three bytes of a raw pixel that belong to it, in the upper
half or in the lower half of the panel: `(k, i)` stands for bit `i` of the byte
`k` row-strides after the pixel's base byte. -/
def ownedBits (upper : Bool) : List (Nat × Nat) :=
  if upper then
    [(0, 2), (0, 3), (0, 4), (1, 0), (1, 2), (1, 3), (1, 4), (2, 0), (2, 1), (2, 2), (2, 3), (2, 4)]
  else
    [(0, 0), (0, 1), (0, 5), (0, 6), (0, 7), (1, 1), (1, 5), (1, 6), (1, 7), (2, 5), (2, 6), (2, 7)]

/-- The twelve bits the back buffer holds for the raw pixel `(x, y)`. -/
def rawPixelBits (st : Panel) (x y : Int) : List Bool :=
  (ownedBits (decide (y < st.nRows))).map
    (fun p => (st.mem.read (baseAddr st x y + (p.1 : Int) * st.WIDTH)).testBit p.2)

/-- The twelve bits the back buffer holds for the logical pixel `(x, y)`. -/
def pixelBits (st : Panel) (x y : Int) : List Bool :=
  rawPixelBits st (rotateCoord st x y).1 (rotateCoord st x y).2

/-- The twelve bits that encode the colour `c` (four per channel), in the order
of `ownedBits`. -/
def colourBits (upper : Bool) (c : Nat) : List Bool :=
  (ownedBits upper).map
    (fun p =>
      if upper then
        (upperBit (channels c).1 (channels c).2.1 (channels c).2.2 p.1 p.2).getD false
      else (lowerBit (channels c).1 (channels c).2.1 (channels c).2.2 p.1 p.2).getD false)

/-- The logical pixel `(x, y)` holds the colour `c` in the back buffer. -/
def holdsColour (st : Panel) (x y : Int) (c : Nat) : Prop :=
  pixelBits st x y = colourBits (decide ((rotateCoord st x y).2 < st.nRows)) c

/-- The panels the constructors build: 32 or 64 wide, two halves of 8 or 16
rows, the logical size agreeing with the rotation. -/
def Geometry (st : Panel) : Prop :=
  (st.WIDTH = 32 ∨ st.WIDTH = 64) ∧ (st.nRows = 8 ∨ st.nRows = 16) ∧
  st.HEIGHT = 2 * st.nRows ∧ Rotated st

/-- The logical pixel `(x, y)` is on the display. -/
def onScreen (st : Panel) (x y : Int) : Prop :=
  (0 ≤ x ∧ x < st._width) ∧ (0 ≤ y ∧ y < st._height)

/-- Pass pixels with their colours to writePixel, first to last. -/
def drawWrites (st : Panel) (ws : List (Int × Int × Nat)) : Panel :=
  ws.foldl (fun s w => writePixel s w.1 w.2.1 w.2.2) st

/-- The address `a` is not a byte of the back buffer. -/
def outsideBuffer (st : Panel) (a : Int) : Prop :=
  a < backBuffer st ∨ backBuffer st + st.WIDTH * st.nRows * 3 ≤ a

/-! ## The pixels of a character cell -/

/-- The write of one cell of the built-in glyph at size 1: the foreground for a
set bit, the background for a clear bit when the colours differ. -/
def cellWrite (x y : Int) (i j line color bg : Nat) : List (Int × Int × Nat) :=
  if line &&& 1 ≠ 0 then [(x + i, y + j, color)]
  else if bg ≠ color then [(x + i, y + j, bg)]
  else []

/-- The writes of `n` cells of glyph column `i`, from row `j` down, the shift
register holding `line`. -/
def colWrites (x y : Int) (i color bg : Nat) : Nat → Nat → Nat → List (Int × Int × Nat)
  | 0, _, _ => []
  | n + 1, j, line =>
    cellWrite x y i j line color bg ++ colWrites x y i color bg n (j + 1) (line >>> 1)

/-- The writes of `n` glyph columns from column `i` on, for the glyph at font
index `c`. -/
def colsWrites (font : Nat → Nat) (x y : Int) (c color bg : Nat) :
    Nat → Nat → List (Int × Int × Nat)
  | 0, _ => []
  | n + 1, i =>
    colWrites x y i color bg 8 0 (fontByte font (c * 5 + i)) ++
      colsWrites font x y c color bg n (i + 1)

/-- The writes of an opaque or transparent character at size 1: five glyph
columns, and the sixth column in the background colour when the colours
differ. -/
def charWrites (font : Nat → Nat) (st : Panel) (x y : Int) (c color bg : Nat) :
    List (Int × Int × Nat) :=
  colsWrites font x y (classicCode st c) color bg 5 0 ++
    (if bg ≠ color then (majorPixels true (x + 5) 8 y).map (fun p => (p.1, p.2, bg)) else [])

/-- No two writes of the list address the same pixel. -/
def distinctPos (ws : List (Int × Int × Nat)) : Prop :=
  ws.Pairwise (fun a b => (a.1, a.2.1) ≠ (b.1, b.2.1))

/-! ## Bitmaps -/

/-- The scanline width `(w + 7) / 8` of drawBitmap, in 16-bit arithmetic. -/
def byteWidth (w : Int) : Int := wrapI16 (Int.tdiv (wrapI16 (w + 7)) 8)

/-- The index `j * byteWidth + i / 8` of the byte drawBitmap fetches for row `j`
and column `i`, in 16-bit arithmetic. -/
def bitmapIndex (w : Int) (j i : Nat) : Int :=
  wrapI16 (wrapI16 ((j : Int) * byteWidth w) + Int.tdiv (i : Int) 8)

/-- Body of the loop over `i` in drawBitmap.  `src s k` is the byte
`bitmap[k]` as read in the state `s`; `bg` is the background colour of the
opaque variants, `none` for the transparent ones; `byte` is the shift
register. -/
def bitmapStep (src : Panel → Int → Nat) (bg : Option Nat) (x y w : Int) (color : Nat)
    (j i : Nat) (r : Nat × Panel) : Nat × Panel :=
  let byte1 := if i &&& 7 ≠ 0 then wrapU8 ((r.1 <<< 1 : Nat)) else src r.2 (bitmapIndex w j i) % 256
  let st1 :=
    if byte1 &&& 0x80 ≠ 0 then writePixel r.2 (wrapI16 (x + i)) y color
    else
      match bg with
      | some b => writePixel r.2 (wrapI16 (x + i)) y b
      | none => r.2
  (byte1, st1)

/-- The loop `for(int16_t i=0; i<w; i++)` of drawBitmap; the first argument
counts the iterations left. -/
def bitmapRow (src : Panel → Int → Nat) (bg : Option Nat) (x y w : Int) (color : Nat) (j : Nat) :
    Nat → Nat → Nat × Panel → Nat × Panel
  | 0, _, r => r
  | n + 1, i, r => bitmapRow src bg x y w color j n (i + 1) (bitmapStep src bg x y w color j i r)

/-- The loop `for(int16_t j=0; j<h; j++, y++)` of drawBitmap; the first
argument counts the iterations left. -/
def bitmapRows (src : Panel → Int → Nat) (bg : Option Nat) (x w : Int) (color : Nat) :
    Nat → Nat → Int → Nat × Panel → Nat × Panel
  | 0, _, _, r => r
  | n + 1, j, y, r =>
    bitmapRows src bg x w color n (j + 1) (wrapI16 (y + 1))
      (bitmapRow src bg x y w color j w.toNat 0 r)

/-- The body shared by the four forms of drawBitmap, which differ in where the
bitmap is read (`src`) and in whether clear bits are drawn (`bg`). -/
def drawBitmapScan (src : Panel → Int → Nat) (bg : Option Nat) (st : Panel) (x y w h : Int)
    (color : Nat) : Panel :=
  (bitmapRows src bg x w color h.toNat 0 y (0, st)).2

/-- Source: `RGBmatrixPanel_drawBitmap(x, y, const uint8_t bitmap[], w, h,
color)`; `flash k` is the byte `pgm_read_byte(&bitmap[k])`. -/
def drawBitmap (flash : Int → Nat) (st : Panel) (x y w h : Int) (color : Nat) : Panel :=
  drawBitmapScan (fun _ k => flash k) none st x y w h color

/-- Source: `RGBmatrixPanel_drawBitmap(x, y, const uint8_t bitmap[], w, h,
color, bg)`. -/
def drawBitmapBg (flash : Int → Nat) (st : Panel) (x y w h : Int) (color bg : Nat) : Panel :=
  drawBitmapScan (fun _ k => flash k) (some bg) st x y w h color

/-- Source: `RGBmatrixPanel_drawBitmap(x, y, uint8_t *bitmap, w, h, color)`;
`bitmap` is an address of the byte memory, read as the drawing proceeds. -/
def drawBitmapRam (bitmap : Int) (st : Panel) (x y w h : Int) (color : Nat) : Panel :=
  drawBitmapScan (fun s k => s.mem.read (bitmap + k)) none st x y w h color

/-- Source: `RGBmatrixPanel_drawBitmap(x, y, uint8_t *bitmap, w, h, color,
bg)`. -/
def drawBitmapRamBg (bitmap : Int) (st : Panel) (x y w h : Int) (color bg : Nat) : Panel :=
  drawBitmapScan (fun s k => s.mem.read (bitmap + k)) (some bg) st x y w h color

/-- Bit `7 - (i mod 8)` of the byte `bitmap[j * ceil(w/8) + i/8]`: the bit of
row `j`, column `i` of a bitmap `w` pixels wide. -/
def bitmapBit (read : Int → Nat) (w : Int) (j i : Nat) : Bool :=
  (read ((j : Int) * ((w + 7) / 8) + ((i / 8 : Nat) : Int)) % 256).testBit (7 - i % 8)

/-- The write for row `j`, column `i` of a bitmap drawn at `(x, y)`: the
foreground for a set bit, the background (if any) for a clear bit. -/
def bitWrite (read : Int → Nat) (bg : Option Nat) (x y w : Int) (color : Nat) (j i : Nat) :
    List (Int × Int × Nat) :=
  if bitmapBit read w j i then [(x + i, y + j, color)]
  else
    match bg with
    | some b => [(x + i, y + j, b)]
    | none => []

/-- The writes for `n` columns of row `j` from column `i` on. -/
def rowWrites (read : Int → Nat) (bg : Option Nat) (x y w : Int) (color : Nat) (j : Nat) :
    Nat → Nat → List (Int × Int × Nat)
  | 0, _ => []
  | n + 1, i => bitWrite read bg x y w color j i ++ rowWrites read bg x y w color j n (i + 1)

/-- The writes for `n` rows from row `j` on, each `w` columns wide. -/
def bitmapWrites (read : Int → Nat) (bg : Option Nat) (x y w : Int) (color : Nat) :
    Nat → Nat → List (Int × Int × Nat)
  | 0, _ => []
  | n + 1, j =>
    rowWrites read bg x y w color j w.toNat 0 ++ bitmapWrites read bg x y w color n (j + 1)

/-- A bitmap 10 pixels wide and 2 rows high (2 bytes a row), followed by
bytes that are not part of it. -/
def sampleBitmap : Int → Nat :=
  fun k => if k = 0 then 0xA5 else if k = 1 then 0xC0 else if k = 2 then 0xFF else 0x01

/-- A bitmap whose only set bit is bit 7 of byte 4096. -/
def wideBitmap : Int → Nat := fun k => if k = 4096 then 0x80 else 0

/-- The 32x32 panel with 0x80 in the first byte of its buffer. -/
def panel32marked : Panel := { panel32 with mem := store panel32.mem 0 0x80 }

/-- The twelve positions of the back buffer that belong to the raw pixel
`(x, y)`, each an address and a bit number. -/
def rawPixelCells (st : Panel) (x y : Int) : List (Int × Nat) :=
  (ownedBits (decide (y < st.nRows))).map
    (fun p => (baseAddr st x y + (p.1 : Int) * st.WIDTH, p.2))

/-- The twelve positions of the back buffer that belong to the logical pixel
`(x, y)`. -/
def pixelCells (st : Panel) (x y : Int) : List (Int × Nat) :=
  rawPixelCells st (rotateCoord st x y).1 (rotateCoord st x y).2

/-- The indices into `matrixbuff[backindex]` that drawPixel uses for the
logical pixel `(x, y)`: `ptr` points at the base index, and the code reads and
writes `ptr[0]`, `ptr[WIDTH]` and `ptr[WIDTH*2]`. -/
def drawPixelIndices (st : Panel) (x y : Int) : List Int :=
  let i0 := baseAddr st (rotateCoord st x y).1 (rotateCoord st x y).2 - matrixbuff st st.backindex
  [i0, i0 + st.WIDTH, i0 + st.WIDTH * 2]

/-! ## What the interrupt handler reads -/

/-- The pointer `matrixbuff[1-backindex]`: the front buffer. -/
def frontBuffer (st : Panel) : Int := matrixbuff st (1 - (st.backindex : Int))

/-- The addresses the loop `for(i=0; i<WIDTH; i++)` of the plane-0 branch
reads: `ptr[i]`, `ptr[i+WIDTH]` and `ptr[i+WIDTH*2]` for each column. -/
def plane0Reads (ptr W : Int) : Nat → Nat → List Int
  | 0, _ => []
  | fuel + 1, i =>
    if (i : Int) < W then
      (ptr + i) :: (ptr + i + W) :: (ptr + i + W * 2) ::
        plane0Reads ptr W fuel (wrapU8 ((i : Int) + 1))
    else []

/-- The addresses the data-issuing half of updateDisplay reads, from
`ptr = buffptr` on: one byte for each `pew`, three for each column of plane 0. -/
def issueReads (st : Panel) : List Int :=
  if st.plane > 0 then
    (List.range (if st.WIDTH = 64 then 64 else 32)).map (fun (i : Nat) => st.buffptr + (i : Int))
  else plane0Reads st.buffptr st.WIDTH 256 0

/-- The addresses one invocation of updateDisplay reads. -/
def updateDisplayReads (st : Panel) : List Int :=
  issueReads (advance { st with PORTB := setPin (setPin st.PORTB OE_PIN) LAT_PIN })

/-- The scheduler is inside a refresh cycle: the counters are in range, the
back index is 0 or 1, and the output cursor stands `(3 * row + plane) * WIDTH`
bytes after the start of the front buffer. -/
def inCycle (st : Panel) : Prop :=
  st.plane < 4 ∧ st.row < st.nRows ∧ st.backindex ≤ 1 ∧
  st.buffptr = frontBuffer st + (3 * (st.row : Int) + (st.plane : Int)) * st.WIDTH

/-- The state the constructor of the 32-row panel and begin() leave, the
buffer having been allocated at address `p`. -/
def started32 (io : TimerBits) (st0 : Panel) (dbuf : Bool) (width : Nat) (p : Int) : Panel :=
  begin io (RGBmatrixPanel32 st0 dbuf width (some p))

/-- The state the constructor of the 16-row panel and begin() leave, the
buffer having been allocated at address `p`. -/
def started16 (io : TimerBits) (st0 : Panel) (dbuf : Bool) (p : Int) : Panel :=
  begin io (RGBmatrixPanel16 st0 dbuf (some p))

/-- The timer bit numbers of the ATmega328P, as `avr/io.h` gives them. -/
def timerBits328 : TimerBits := { WGM11 := 1, WGM12 := 3, WGM13 := 4, CS10 := 0, TOIE1 := 0 }

/-- The bytes the data-issuing half of updateDisplay puts on the data port, in
order, one for each column. -/
def issueBytes (st : Panel) : List Nat :=
  if st.plane > 0 then pew st.mem st.buffptr (if st.WIDTH = 64 then 64 else 32)
  else plane0Loop st.mem st.buffptr st.WIDTH 256 0

/-- The bytes one invocation of updateDisplay puts on the data port. -/
def updateDisplayBytes (st : Panel) : List Nat :=
  issueBytes (advance { st with PORTB := setPin (setPin st.PORTB OE_PIN) LAT_PIN })

/-- The 32x32 panel after drawPixel(3, 21, 0xA81F), with the scheduler about
to issue plane 1 of row 5. -/
def panel32drawn : Panel :=
  { drawPixel panel32 3 21 0xA81F with plane := 0, row := 5, buffptr := 480 }

/-! ## The pixels of a rectangle -/

/-- The pixels of `n` columns of `h` pixels from row `y` down, starting at
column `x`: column by column, each from the top. -/
def rectPixels (y : Int) (h : Nat) : Nat → Int → List (Int × Int)
  | 0, _ => []
  | n + 1, x => majorPixels true x h y ++ rectPixels y h n (x + 1)

/-! ## The ideal line -/

/-- The test of writeLine for exchanging the two ends: `x0 > x1`, taken after
the axes have been exchanged for a steep line. -/
def endsSwapped (x0 y0 x1 y1 : Int) : Bool :=
  if abs16 (y1 - y0) > abs16 (x1 - x0) then decide (y0 > y1) else decide (x0 > x1)

/-- The point `k` steps along the major axis and `s` steps along the minor
axis from `(x0, y0)` towards `(x1, y1)`; the major axis is the one along which
the ends lie farther apart, the x axis if they lie equally far apart. -/
def offsetPoint (x0 y0 x1 y1 k s : Int) : Int × Int :=
  if |y1 - y0| > |x1 - x0| then (x0 + Int.sign (x1 - x0) * s, y0 + Int.sign (y1 - y0) * k)
  else (x0 + Int.sign (x1 - x0) * k, y0 + Int.sign (y1 - y0) * s)

/-- The fields the cursor arithmetic of write and of charBounds reads, other
than the cursor, are the same in `st` and `s`. -/
def sameText (st s : Panel) : Prop :=
  s.gfxFont = st.gfxFont ∧ s.textsize_x = st.textsize_x ∧ s.textsize_y = st.textsize_y ∧
  s.wrap = st.wrap ∧ s._width = st._width

/-- A proportional font with two glyphs: a space (code 32) with no bitmap and an
advance of 5, and an exclamation mark (code 33) one pixel wide and five high
with an advance of 6; lines are 10 apart. -/
def twoGlyphFont : GFXfont :=
  { bitmap := [0xF8],
    glyph := [
      { bitmapOffset := 0, width := 0, height := 0, xAdvance := 5, xOffset := 0, yOffset := 0 },
      { bitmapOffset := 0, width := 1, height := 5, xAdvance := 6, xOffset := 0, yOffset := -5 }],
    first := 32, last := 33, yAdvance := 10 }

/-- The 32x32 panel after `setFont(&twoGlyphFont)` has selected the font. -/
def panel32custom : Panel := { panel32 with gfxFont := some twoGlyphFont }

/-- The running values getTextBounds starts its loop with at cursor `(x, y)`. -/
def startBounds (st : Panel) (x y : Int) : Bounds :=
  { x := x, y := y, minx := st._width, miny := st._height, maxx := -1, maxy := -1 }

/-- The three conditional swaps at the head of `RGBmatrixPanel_fillTriangle`
("Sort coordinates by Y order"): the vertices 0, 1, 2 after them. -/
def sortByY (x0 y0 x1 y1 x2 y2 : Int) : (Int × Int) × (Int × Int) × (Int × Int) :=
  let px0 := if y0 > y1 then x1 else x0
  let py0 := if y0 > y1 then y1 else y0
  let px1 := if y0 > y1 then x0 else x1
  let py1 := if y0 > y1 then y0 else y1
  let qx1 := if py1 > y2 then x2 else px1
  let qy1 := if py1 > y2 then y2 else py1
  let cx := if py1 > y2 then px1 else x2
  let cy := if py1 > y2 then py1 else y2
  let ax := if py0 > qy1 then qx1 else px0
  let ay := if py0 > qy1 then qy1 else py0
  let bx := if py0 > qy1 then px0 else qx1
  let by1 := if py0 > qy1 then py0 else qy1
  ((ax, ay), (bx, by1), (cx, cy))

/-- The longhand formulas of fillTriangle, in unbounded integers with
truncating division: the ends of the span on scanline `y` of the triangle with
sorted vertices `(x0, y0)`, `(x1, y1)`, `(x2, y2)`, smaller end first.  One end
is on the edge 0-2; the other is on the edge 0-1 in the upper pass (`y <= y1`
if `y1 = y2`, else `y < y1`) and on the edge 1-2 in the lower pass. -/
def longhandSpan (x0 y0 x1 y1 x2 y2 y : Int) : Int × Int :=
  let e := x0 + Int.tdiv ((x2 - x0) * (y - y0)) (y2 - y0)
  let d :=
    if (if y1 = y2 then y ≤ y1 else y < y1) then
      x0 + Int.tdiv ((x1 - x0) * (y - y0)) (y1 - y0)
    else x1 + Int.tdiv ((x2 - x1) * (y - y1)) (y2 - y1)
  (min d e, max d e)

/-- The pixels of the longhand spans on the `n` scanlines `y`, `y+1`, ..., one
span after the other, each left to right. -/
def longhandSpans (x0 y0 x1 y1 x2 y2 : Int) : Nat → Int → List (Int × Int)
  | 0, _ => []
  | n + 1, y =>
    majorPixels false y
        ((longhandSpan x0 y0 x1 y1 x2 y2 y).2 - (longhandSpan x0 y0 x1 y1 x2 y2 y).1 + 1).toNat
        (longhandSpan x0 y0 x1 y1 x2 y2 y).1 ++
      longhandSpans x0 y0 x1 y1 x2 y2 n (y + 1)

/-- The part of `RGBmatrixPanel_fillTriangle` after the three swaps, with
`(ax, ay)`, `(bx, by1)`, `(cx, cy)` the vertices 0, 1, 2 as the swaps leave
them. -/
def fillTriangleSorted (st : Panel) (ax ay bx by1 cx cy : Int) (color : Nat) :
    Except Fault Panel :=
  if ay = cy then
    let a1 := if bx < ax then bx else ax
    let b1 := if bx < ax then ax else if bx > ax then bx else ax
    let a2 := if cx < a1 then cx else a1
    let b2 := if cx < a1 then b1 else if cx > b1 then cx else b1
    orDiverges (writeFastHLine st a2 ay (wrapI16 (b2 - a2 + 1)) color)
  else
    let dx01 := wrapI16 (bx - ax)
    let dy01 := wrapI16 (by1 - ay)
    let dx02 := wrapI16 (cx - ax)
    let dy02 := wrapI16 (cy - ay)
    let dx12 := wrapI16 (cx - bx)
    let dy12 := wrapI16 (cy - by1)
    let last := if by1 = cy then by1 else wrapI16 (by1 - 1)
    match triUpper ax dx01 dy01 dx02 dy02 last color (last - ay + 1).toNat ay 0 0 st with
    | Except.error e => Except.error e
    | Except.ok (y, s) =>
      triLower ax bx dx12 dy12 dx02 dy02 cy color (cy - y + 1).toNat y
        (wrapI32 (dx12 * wrapI16 (y - by1))) (wrapI32 (dx02 * wrapI16 (y - ay))) s

/-! # Theorems -/

/-! ## Pixel encoder: clipping and rotation -/

theorem wrapI16_of_range (n : Int) (h0 : -32768 ≤ n) (h1 : n ≤ 32767) : wrapI16 n = n := by
  unfold wrapI16; omega

theorem setRotation_Rotated (st : Panel) (r : Nat) : Rotated (setRotation st r) := by
  have h : r &&& 3 < 4 := by
    have := @Nat.and_le_right r 3
    omega
  unfold setRotation Rotated
  generalize r &&& 3 = k at h
  interval_cases k <;> simp

/-- C1: drawPixel with a coordinate outside the rotation-adjusted display
leaves the whole state, frame buffer included, unchanged. -/
theorem drawPixel_out_of_range (st : Panel) (x y : Int) (c : Nat)
    (h : x < 0 ∨ y < 0 ∨ x ≥ st._width ∨ y ≥ st._height) :
    drawPixel st x y c = st := by
  unfold drawPixel
  rw [if_pos]
  omega

theorem drawPixel_out_of_range_witness :
    drawPixel panel32 32 5 0xFFFF = panel32 :=
  drawPixel_out_of_range panel32 32 5 0xFFFF (by decide)

/-- C2: for in-range `(x, y)` drawPixel encodes the colour at the raw
coordinate `(x,y)`, `(WIDTH-1-y, x)`, `(WIDTH-1-x, HEIGHT-1-y)` or
`(y, HEIGHT-1-x)` for rotation 0, 1, 2 or 3. -/
theorem drawPixel_rotation (st : Panel) (x y : Int) (c : Nat)
    (hrot : Rotated st)
    (hW : st.WIDTH ≤ 32767) (hH : st.HEIGHT ≤ 32767)
    (hx : 0 ≤ x ∧ x < st._width) (hy : 0 ≤ y ∧ y < st._height) :
    rotateCoord st x y = rawCoordSpec st.WIDTH st.HEIGHT st.rotation x y ∧
    drawPixel st x y c =
      writeRaw st (rawCoordSpec st.WIDTH st.HEIGHT st.rotation x y).1
        (rawCoordSpec st.WIDTH st.HEIGHT st.rotation x y).2 c := by
  have hcoord : rotateCoord st x y = rawCoordSpec st.WIDTH st.HEIGHT st.rotation x y := by
    obtain ⟨h4, hw, hh⟩ := hrot
    unfold rotateCoord rawCoordSpec
    generalize st.rotation = k at h4 hw hh
    interval_cases k
    · simp
    · simp at hw hh
      simp
      apply wrapI16_of_range <;> omega
    · simp at hw hh
      simp
      constructor <;> apply wrapI16_of_range <;> omega
    · simp at hw hh
      simp
      apply wrapI16_of_range <;> omega
  refine ⟨hcoord, ?_⟩
  unfold drawPixel
  rw [if_neg (by omega), hcoord]

theorem drawPixel_rotation_witness :
    rotateCoord (setRotation panel32 1) 3 5 = (26, 3) ∧
    drawPixel (setRotation panel32 1) 3 5 0xFFFF = writeRaw (setRotation panel32 1) 26 3 0xFFFF :=
  drawPixel_rotation (setRotation panel32 1) 3 5 0xFFFF (setRotation_Rotated panel32 1)
    (by decide) (by decide) (by decide) (by decide)

/-! ## Colour channels -/

theorem and_shiftRight (a b k : Nat) : (a &&& b) >>> k = (a >>> k) &&& (b >>> k) := by
  apply Nat.eq_of_testBit_eq
  intro i
  simp [Nat.testBit_shiftRight, Nat.testBit_and]

/-- C3 as stated fails: for the colour 0x0400 (green field 32) the encoder's
green channel is 8, while the middle four bits of the green field are 0. -/
theorem channels_green_not_middle :
    (channels 0x0400).2.1 = 8 ∧ (greenField 0x0400 >>> 1) &&& 0xF = 0 ∧
    ¬ ((channels 0x0400).2.1 = (greenField 0x0400 >>> 1) &&& 0xF) := by
  decide

/-- C3 amended: for a 16-bit colour the encoder's channels are the top four
bits of the red field, the top four bits of the green field (two low bits
dropped) and the top four bits of the blue field. -/
theorem channels_top_bits (c : Nat) (hc : c < 65536) :
    channels c = (redField c >>> 1, greenField c >>> 2, blueField c >>> 1) := by
  have hr : c >>> 12 < 16 := by
    rw [Nat.shiftRight_eq_div_pow]
    omega
  have h1 : wrapU8 ((c >>> 12 : Nat) : Int) = c >>> 12 := by
    unfold wrapU8
    omega
  have h2 : redField c >>> 1 = c >>> 12 := by
    unfold redField
    rw [← Nat.shiftRight_add]
  have h3 : greenField c >>> 2 = (c >>> 7) &&& 0xF := by
    unfold greenField
    rw [and_shiftRight, ← Nat.shiftRight_add]
    rfl
  have h4 : blueField c >>> 1 = (c >>> 1) &&& 0xF := by
    unfold blueField
    rw [and_shiftRight]
    rfl
  unfold channels
  rw [h1, h2, h3, h4]

theorem channels_top_bits_witness :
    channels 0x0400 = (redField 0x0400 >>> 1, greenField 0x0400 >>> 2, blueField 0x0400 >>> 1) :=
  channels_top_bits 0x0400 (by decide)

/-! ## Colour promotion -/

theorem Color333_table :
    ∀ r < 8, ∀ g < 8, ∀ b < 8,
      Color333 r g b =
          ((((r <<< 2) ||| (r >>> 1)) <<< 11) ||| (((g <<< 3) ||| g) <<< 5) |||
            ((b <<< 2) ||| (b >>> 1))) ∧
      redField (Color333 r g b) = ((r <<< 2) ||| (r >>> 1)) ∧
      greenField (Color333 r g b) = ((g <<< 3) ||| g) ∧
      blueField (Color333 r g b) = ((b <<< 2) ||| (b >>> 1)) := by
  decide

/-- C10: for 3-bit channels Color333 is the 5/6/5 value with red field
`(r<<2)|(r>>1)`, green field `(g<<3)|g` and blue field `(b<<2)|(b>>1)`;
Color333(7,7,7) is 0xFFFF and Color333(0,0,0) is 0. -/
theorem Color333_replicates (r g b : Nat) (hr : r < 8) (hg : g < 8) (hb : b < 8) :
    (Color333 r g b =
        ((((r <<< 2) ||| (r >>> 1)) <<< 11) ||| (((g <<< 3) ||| g) <<< 5) |||
          ((b <<< 2) ||| (b >>> 1))) ∧
      redField (Color333 r g b) = ((r <<< 2) ||| (r >>> 1)) ∧
      greenField (Color333 r g b) = ((g <<< 3) ||| g) ∧
      blueField (Color333 r g b) = ((b <<< 2) ||| (b >>> 1))) ∧
    Color333 7 7 7 = 0xFFFF ∧ Color333 0 0 0 = 0x0000 :=
  ⟨Color333_table r hr g hg b hb, by decide, by decide⟩

theorem Color333_replicates_witness :
    (Color333 5 2 7 =
        ((((5 <<< 2) ||| (5 >>> 1)) <<< 11) ||| (((2 <<< 3) ||| 2) <<< 5) |||
          ((7 <<< 2) ||| (7 >>> 1))) ∧
      redField (Color333 5 2 7) = ((5 <<< 2) ||| (5 >>> 1)) ∧
      greenField (Color333 5 2 7) = ((2 <<< 3) ||| 2) ∧
      blueField (Color333 5 2 7) = ((7 <<< 2) ||| (7 >>> 1))) ∧
    Color333 7 7 7 = 0xFFFF ∧ Color333 0 0 0 = 0x0000 :=
  Color333_replicates 5 2 7 (by decide) (by decide) (by decide)

/-! ## Refresh scheduler: interval and buffer swap -/

theorem updateDisplay_ICR1 (st : Panel) :
    (updateDisplay st).ICR1 = duration st := by
  unfold updateDisplay issue
  dsimp only
  split <;> rfl

/-- C7: entered with plane counter `p` in 0..3, updateDisplay programs the
interval `((200+120) << p) - 60` when `nRows` is 16 and `((400+120) << p) - 60`
when `nRows` is 8. -/
theorem updateDisplay_interval (st : Panel) (p : Nat) (hp : p ≤ 3) (hplane : st.plane = p) :
    (st.nRows = 16 → (updateDisplay st).ICR1 = ((200 + 120) <<< p) - 60) ∧
    (st.nRows = 8 → (updateDisplay st).ICR1 = ((400 + 120) <<< p) - 60) := by
  rw [updateDisplay_ICR1]
  unfold duration
  rw [hplane]
  constructor
  · intro h
    rw [h]
    interval_cases p <;> decide
  · intro h
    rw [h]
    interval_cases p <;> decide

theorem updateDisplay_interval_witness :
    (panel32.nRows = 16 → (updateDisplay panel32).ICR1 = ((200 + 120) <<< 3) - 60) ∧
    (panel32.nRows = 8 → (updateDisplay panel32).ICR1 = ((400 + 120) <<< 3) - 60) :=
  updateDisplay_interval panel32 3 (by decide) (by decide)

theorem issue_frame (s : Panel) (d : Nat) :
    (issue s d).backindex = s.backindex ∧ (issue s d).swapflag = s.swapflag ∧
    (issue s d).plane = s.plane ∧ (issue s d).row = s.row ∧ (issue s d).mem = s.mem ∧
    (issue s d).nRows = s.nRows ∧ (issue s d).WIDTH = s.WIDTH ∧
    (issue s d).matrixbuff0 = s.matrixbuff0 ∧ (issue s d).matrixbuff1 = s.matrixbuff1 := by
  unfold issue
  dsimp only
  split <;> simp

theorem advance_frame (s : Panel) :
    (advance s).mem = s.mem ∧ (advance s).nRows = s.nRows ∧ (advance s).WIDTH = s.WIDTH ∧
    (advance s).matrixbuff0 = s.matrixbuff0 ∧ (advance s).matrixbuff1 = s.matrixbuff1 := by
  unfold advance
  dsimp only
  split_ifs <;> simp

theorem advance_wraps (s : Panel) (h : wrapsRow s) :
    (advance s).plane = 0 ∧ (advance s).row = 0 ∧
    (advance s).swapflag = false ∧
    (advance s).backindex =
      (if s.swapflag = true then wrapU8 (1 - (s.backindex : Int)) else s.backindex) := by
  obtain ⟨h1, h2⟩ := h
  unfold advance
  dsimp only
  rw [if_pos h1, if_pos h2]
  cases hs : s.swapflag <;> simp

theorem advance_no_wrap (s : Panel) (h : ¬ wrapsRow s) :
    (advance s).swapflag = s.swapflag ∧ (advance s).backindex = s.backindex := by
  unfold wrapsRow at h
  unfold advance
  dsimp only
  split_ifs <;> simp_all

/-- What one invocation of updateDisplay does to the counters, the swap flag
and the back index, by cases on whether it wraps the row counter. -/
theorem updateDisplay_swap_cases (st : Panel) :
    (wrapsRow st → (updateDisplay st).plane = 0 ∧ (updateDisplay st).row = 0) ∧
    (wrapsRow st → st.swapflag = true →
      (updateDisplay st).backindex = wrapU8 (1 - (st.backindex : Int)) ∧
      (st.backindex ≤ 1 → (updateDisplay st).backindex = 1 - st.backindex) ∧
      (updateDisplay st).swapflag = false) ∧
    (¬ (wrapsRow st ∧ st.swapflag = true) →
      (updateDisplay st).backindex = st.backindex ∧
      (updateDisplay st).swapflag = st.swapflag) := by
  have hw : wrapsRow { st with PORTB := setPin (setPin st.PORTB OE_PIN) LAT_PIN } ↔ wrapsRow st :=
    Iff.rfl
  obtain ⟨i1, i2, i3, i4, -⟩ :=
    issue_frame (advance { st with PORTB := setPin (setPin st.PORTB OE_PIN) LAT_PIN })
      (duration { st with PORTB := setPin (setPin st.PORTB OE_PIN) LAT_PIN })
  refine ⟨?_, ?_, ?_⟩
  · intro h
    obtain ⟨a1, a2, -, -⟩ := advance_wraps _ (hw.mpr h)
    unfold updateDisplay
    dsimp only
    rw [i3, i4, a1, a2]
    exact ⟨rfl, rfl⟩
  · intro h hs
    obtain ⟨-, -, a3, a4⟩ := advance_wraps _ (hw.mpr h)
    have hb : (updateDisplay st).backindex = wrapU8 (1 - (st.backindex : Int)) := by
      unfold updateDisplay
      dsimp only
      rw [i1, a4]
      simp [hs]
    refine ⟨hb, ?_, ?_⟩
    · intro hle
      rw [hb]
      unfold wrapU8
      omega
    · unfold updateDisplay
      dsimp only
      rw [i2, a3]
  · intro h
    by_cases hwr : wrapsRow st
    · have hs : st.swapflag = false := by
        cases hs : st.swapflag
        · rfl
        · exact absurd ⟨hwr, hs⟩ h
      obtain ⟨-, -, a3, a4⟩ := advance_wraps _ (hw.mpr hwr)
      unfold updateDisplay
      dsimp only
      rw [i1, i2, a3, a4]
      simp [hs]
    · obtain ⟨a1, a2⟩ := advance_no_wrap _ (fun hh => hwr (hw.mp hh))
      unfold updateDisplay
      dsimp only
      rw [i1, i2, a1, a2]
      exact ⟨rfl, rfl⟩


/-- C8: updateDisplay touches `backindex` and `swapflag` only in an invocation
that wraps the row counter (which ends with plane 0 and row 0); there, with
`swapflag` set, `backindex` becomes `1 - backindex` and `swapflag` is cleared;
in every other invocation both are unchanged. -/
theorem updateDisplay_swap (st : Panel) :
    (wrapsRow st → (updateDisplay st).plane = 0 ∧ (updateDisplay st).row = 0) ∧
    (wrapsRow st → st.swapflag = true →
      (updateDisplay st).backindex = wrapU8 (1 - (st.backindex : Int)) ∧
      (st.backindex ≤ 1 → (updateDisplay st).backindex = 1 - st.backindex) ∧
      (updateDisplay st).swapflag = false) ∧
    (¬ (wrapsRow st ∧ st.swapflag = true) →
      (updateDisplay st).backindex = st.backindex ∧
      (updateDisplay st).swapflag = st.swapflag) :=
  updateDisplay_swap_cases st

theorem updateDisplay_swap_witness :
    (updateDisplay { panel32d with swapflag := true }).backindex = 1 - 0 ∧
    (updateDisplay { panel32d with swapflag := true }).swapflag = false :=
  have h := (updateDisplay_swap { panel32d with swapflag := true }).2.1
    (by unfold wrapsRow; decide) rfl
  ⟨h.2.1 (by decide), h.2.2⟩

/-! ## Bytes and bits -/

theorem testBit_mod256 (x i : Nat) : (x % 256).testBit i = (decide (i < 8) && x.testBit i) :=
  Nat.testBit_mod_two_pow x 8 i

theorem testBit_clearMask (v k i : Nat) (hk : k < 256) :
    ((v &&& (255 - k)) % 256).testBit i = (decide (i < 8) && (v.testBit i && !k.testBit i)) := by
  have h : 255 - k = 2 ^ 8 - (k + 1) := by norm_num; omega
  rw [testBit_mod256, Nat.testBit_and, h, Nat.testBit_two_pow_sub_succ (by norm_num; omega)]
  cases decide (i < 8) <;> cases v.testBit i <;> cases k.testBit i <;> rfl

theorem testBit_orMask (v k i : Nat) :
    ((v ||| k) % 256).testBit i = (decide (i < 8) && (v.testBit i || k.testBit i)) := by
  rw [testBit_mod256, Nat.testBit_or]

theorem and_bit_ne_zero (n k : Nat) : (n &&& 2 ^ k ≠ 0) ↔ n.testBit k = true := by
  rw [Nat.and_two_pow]
  cases n.testBit k <;> simp

theorem and_1 (n : Nat) : (n &&& 1 ≠ 0) ↔ n.testBit 0 = true := and_bit_ne_zero n 0
theorem and_2 (n : Nat) : (n &&& 2 ≠ 0) ↔ n.testBit 1 = true := and_bit_ne_zero n 1
theorem and_4 (n : Nat) : (n &&& 4 ≠ 0) ↔ n.testBit 2 = true := and_bit_ne_zero n 2
theorem and_8 (n : Nat) : (n &&& 8 ≠ 0) ↔ n.testBit 3 = true := and_bit_ne_zero n 3

theorem tb_pow (n i : Nat) : (2 ^ n).testBit i = decide (i = n) := by
  rw [Nat.testBit_two_pow]
  by_cases h : i = n
  · simp [h]
  · have : ¬ n = i := fun e => h e.symm
    simp [h, this]

theorem tb_1 (i : Nat) : Nat.testBit 1 i = decide (i = 0) := tb_pow 0 i
theorem tb_2 (i : Nat) : Nat.testBit 2 i = decide (i = 1) := tb_pow 1 i
theorem tb_4 (i : Nat) : Nat.testBit 4 i = decide (i = 2) := tb_pow 2 i
theorem tb_8 (i : Nat) : Nat.testBit 8 i = decide (i = 3) := tb_pow 3 i
theorem tb_16 (i : Nat) : Nat.testBit 16 i = decide (i = 4) := tb_pow 4 i
theorem tb_32 (i : Nat) : Nat.testBit 32 i = decide (i = 5) := tb_pow 5 i
theorem tb_64 (i : Nat) : Nat.testBit 64 i = decide (i = 6) := tb_pow 6 i
theorem tb_128 (i : Nat) : Nat.testBit 128 i = decide (i = 7) := tb_pow 7 i

theorem tb_3 (i : Nat) : Nat.testBit 3 i = (decide (i = 0) || decide (i = 1)) := by
  have h : (3 : Nat) = 1 ||| 2 := by decide
  rw [h, Nat.testBit_or, tb_1, tb_2]

theorem tb_28 (i : Nat) :
    Nat.testBit 28 i = (decide (i = 2) || decide (i = 3) || decide (i = 4)) := by
  have h : (28 : Nat) = 4 ||| 8 ||| 16 := by decide
  rw [h, Nat.testBit_or, Nat.testBit_or, tb_4, tb_8, tb_16]

theorem tb_224 (i : Nat) :
    Nat.testBit 224 i = (decide (i = 5) || decide (i = 6) || decide (i = 7)) := by
  have h : (224 : Nat) = 32 ||| 64 ||| 128 := by decide
  rw [h, Nat.testBit_or, Nat.testBit_or, tb_32, tb_64, tb_128]

theorem clearByte_bit (m : Mem) (a : Int) (k : Nat) (hk : k < 256) (j : Int) (i : Nat) :
    ((clearByte m a k).read j).testBit i =
      if j = a then (decide (i < 8) && ((m.read a).testBit i && !k.testBit i))
      else (m.read j).testBit i := by
  unfold clearByte store
  dsimp only
  split
  · exact testBit_clearMask _ _ _ hk
  · rfl

theorem orByte_bit (m : Mem) (a : Int) (k : Nat) (j : Int) (i : Nat) :
    ((orByte m a k).read j).testBit i =
      if j = a then (decide (i < 8) && ((m.read a).testBit i || k.testBit i))
      else (m.read j).testBit i := by
  unfold orByte store
  dsimp only
  split
  · exact testBit_orMask _ _ _
  · rfl

theorem decide_and_pow (n p : Nat) : decide (n &&& 2 ^ p ≠ 0) = n.testBit p := by
  by_cases h : n.testBit p = true
  · rw [h, decide_eq_true ((and_bit_ne_zero n p).mpr h)]
  · have hf : n.testBit p = false := by simpa using h
    rw [hf, decide_eq_false (fun hh => h ((and_bit_ne_zero n p).mp hh))]

theorem upperPlane_bit (r g b p : Nat) (ptr : Int) (m : Mem) (a : Int) (i : Nat) :
    ((upperPlane r g b (2 ^ p) ptr m).read a).testBit i =
      if a = ptr then
        (if i = 2 then r.testBit p else if i = 3 then g.testBit p
         else if i = 4 then b.testBit p
         else (decide (i < 8) && (m.read a).testBit i))
      else (m.read a).testBit i := by
  rw [← decide_and_pow r p, ← decide_and_pow g p, ← decide_and_pow b p]
  unfold upperPlane
  dsimp only
  by_cases ha : a = ptr
  · subst ha
    rw [if_pos rfl]
    by_cases h2 : i = 2
    · subst h2
      split_ifs <;> simp [orByte_bit, clearByte_bit, tb_4, tb_8, tb_16, tb_28] <;> simp_all
    · rw [if_neg h2]
      by_cases h3 : i = 3
      · subst h3
        split_ifs <;> simp [orByte_bit, clearByte_bit, tb_4, tb_8, tb_16, tb_28] <;> simp_all
      · rw [if_neg h3]
        by_cases h4 : i = 4
        · subst h4
          split_ifs <;> simp [orByte_bit, clearByte_bit, tb_4, tb_8, tb_16, tb_28] <;> simp_all
        · rw [if_neg h4]
          split_ifs <;> simp [orByte_bit, clearByte_bit, tb_4, tb_8, tb_16, tb_28, h2, h3, h4]
  · rw [if_neg ha]
    split_ifs <;> simp [orByte_bit, clearByte_bit, ha]

theorem lowerPlane_bit (r g b p : Nat) (ptr : Int) (m : Mem) (a : Int) (i : Nat) :
    ((lowerPlane r g b (2 ^ p) ptr m).read a).testBit i =
      if a = ptr then
        (if i = 5 then r.testBit p else if i = 6 then g.testBit p
         else if i = 7 then b.testBit p
         else (decide (i < 8) && (m.read a).testBit i))
      else (m.read a).testBit i := by
  rw [← decide_and_pow r p, ← decide_and_pow g p, ← decide_and_pow b p]
  unfold lowerPlane
  dsimp only
  by_cases ha : a = ptr
  · subst ha
    rw [if_pos rfl]
    by_cases h2 : i = 5
    · subst h2
      split_ifs <;> simp [orByte_bit, clearByte_bit, tb_32, tb_64, tb_128, tb_224] <;> simp_all
    · rw [if_neg h2]
      by_cases h3 : i = 6
      · subst h3
        split_ifs <;> simp [orByte_bit, clearByte_bit, tb_32, tb_64, tb_128, tb_224] <;> simp_all
      · rw [if_neg h3]
        by_cases h4 : i = 7
        · subst h4
          split_ifs <;> simp [orByte_bit, clearByte_bit, tb_32, tb_64, tb_128, tb_224] <;> simp_all
        · rw [if_neg h4]
          split_ifs <;> simp [orByte_bit, clearByte_bit, tb_32, tb_64, tb_128, tb_224, h2, h3, h4]
  · rw [if_neg ha]
    split_ifs <;> simp [orByte_bit, clearByte_bit, ha]

theorem upperPlane0_bit (W : Int) (hW : W ≠ 0) (r g b : Nat) (ptr : Int) (m : Mem)
    (a : Int) (i : Nat) :
    ((upperPlane0 W r g b ptr m).read a).testBit i =
      if a = ptr + W * 2 then
        (if i = 0 then r.testBit 0 else if i = 1 then g.testBit 0
         else (decide (i < 8) && (m.read a).testBit i))
      else if a = ptr + W then
        (if i = 0 then b.testBit 0 else (decide (i < 8) && (m.read a).testBit i))
      else (m.read a).testBit i := by
  have e : ∀ n : Nat, n.testBit 0 = decide (n &&& 1 ≠ 0) := fun n => (decide_and_pow n 0).symm
  rw [e r, e g, e b]
  have hne : ptr + W * 2 ≠ ptr + W := by omega
  have hne2 : ptr + W ≠ ptr + W * 2 := by omega
  unfold upperPlane0
  dsimp only
  by_cases ha : a = ptr + W * 2
  · subst ha
    rw [if_pos rfl]
    by_cases h0 : i = 0
    · subst h0
      split_ifs <;> simp [-Nat.testBit_zero, orByte_bit, clearByte_bit, tb_1, tb_2, tb_3, hne] <;> simp_all
    · rw [if_neg h0]
      by_cases h1 : i = 1
      · subst h1
        split_ifs <;> simp [-Nat.testBit_zero, orByte_bit, clearByte_bit, tb_1, tb_2, tb_3, hne] <;> simp_all
      · rw [if_neg h1]
        split_ifs <;> simp [-Nat.testBit_zero, orByte_bit, clearByte_bit, tb_1, tb_2, tb_3, hne, h0, h1]
  · rw [if_neg ha]
    by_cases hb : a = ptr + W
    · subst hb
      rw [if_pos rfl]
      by_cases h0 : i = 0
      · subst h0
        split_ifs <;> simp [-Nat.testBit_zero, orByte_bit, clearByte_bit, tb_1, tb_2, tb_3, hne2] <;> simp_all
      · rw [if_neg h0]
        split_ifs <;> simp [-Nat.testBit_zero, orByte_bit, clearByte_bit, tb_1, tb_2, tb_3, hne2, h0]
    · rw [if_neg hb]
      split_ifs <;> simp [orByte_bit, clearByte_bit, ha, hb]

theorem lowerPlane0_bit (W : Int) (hW : W ≠ 0) (r g b : Nat) (ptr : Int) (m : Mem)
    (a : Int) (i : Nat) :
    ((lowerPlane0 W r g b ptr m).read a).testBit i =
      if a = ptr then
        (if i = 0 then g.testBit 0 else if i = 1 then b.testBit 0
         else (decide (i < 8) && (m.read a).testBit i))
      else if a = ptr + W then
        (if i = 1 then r.testBit 0 else (decide (i < 8) && (m.read a).testBit i))
      else (m.read a).testBit i := by
  have e : ∀ n : Nat, n.testBit 0 = decide (n &&& 1 ≠ 0) := fun n => (decide_and_pow n 0).symm
  rw [e r, e g, e b]
  have hne : ptr ≠ ptr + W := by omega
  have hne2 : ptr + W ≠ ptr := by omega
  unfold lowerPlane0
  dsimp only
  by_cases ha : a = ptr
  · subst ha
    rw [if_pos rfl]
    by_cases h0 : i = 0
    · subst h0
      split_ifs <;> simp [-Nat.testBit_zero, orByte_bit, clearByte_bit, tb_1, tb_2, tb_3, hne] <;> simp_all
    · rw [if_neg h0]
      by_cases h1 : i = 1
      · subst h1
        split_ifs <;> simp [-Nat.testBit_zero, orByte_bit, clearByte_bit, tb_1, tb_2, tb_3, hne] <;> simp_all
      · rw [if_neg h1]
        split_ifs <;> simp [-Nat.testBit_zero, orByte_bit, clearByte_bit, tb_1, tb_2, tb_3, hne, h0, h1]
  · rw [if_neg ha]
    by_cases hb : a = ptr + W
    · subst hb
      rw [if_pos rfl]
      by_cases h1 : i = 1
      · subst h1
        split_ifs <;> simp [-Nat.testBit_zero, orByte_bit, clearByte_bit, tb_1, tb_2, tb_3, hne2] <;> simp_all
      · rw [if_neg h1]
        split_ifs <;> simp [-Nat.testBit_zero, orByte_bit, clearByte_bit, tb_1, tb_2, tb_3, hne2, h1]
    · rw [if_neg hb]
      split_ifs <;> simp [orByte_bit, clearByte_bit, ha, hb]

/-! ## The encoder, bit by bit -/

theorem upperPlanes_unroll (W : Int) (r g b : Nat) (ptr : Int) (m : Mem) :
    upperPlanes W r g b 16 16 2 ptr m =
      upperPlane r g b (2 ^ 3) (ptr + W + W)
        (upperPlane r g b (2 ^ 2) (ptr + W) (upperPlane r g b (2 ^ 1) ptr m)) := by
  rfl

theorem lowerPlanes_unroll (W : Int) (r g b : Nat) (ptr : Int) (m : Mem) :
    lowerPlanes W r g b 16 16 2 ptr m =
      lowerPlane r g b (2 ^ 3) (ptr + W + W)
        (lowerPlane r g b (2 ^ 2) (ptr + W) (lowerPlane r g b (2 ^ 1) ptr m)) := by
  rfl

theorem writeRaw_mem_upper (st : Panel) (x y : Int) (c : Nat) (hy : y < st.nRows) :
    (writeRaw st x y c).mem =
      upperPlane (channels c).1 (channels c).2.1 (channels c).2.2 (2 ^ 3)
        (baseAddr st x y + st.WIDTH + st.WIDTH)
        (upperPlane (channels c).1 (channels c).2.1 (channels c).2.2 (2 ^ 2)
          (baseAddr st x y + st.WIDTH)
          (upperPlane (channels c).1 (channels c).2.1 (channels c).2.2 (2 ^ 1) (baseAddr st x y)
            (upperPlane0 st.WIDTH (channels c).1 (channels c).2.1 (channels c).2.2
              (baseAddr st x y) st.mem))) := by
  unfold writeRaw
  dsimp only
  rw [if_pos hy]
  exact upperPlanes_unroll _ _ _ _ _ _

theorem writeRaw_mem_lower (st : Panel) (x y : Int) (c : Nat) (hy : ¬ y < st.nRows) :
    (writeRaw st x y c).mem =
      lowerPlane (channels c).1 (channels c).2.1 (channels c).2.2 (2 ^ 3)
        (baseAddr st x y + st.WIDTH + st.WIDTH)
        (lowerPlane (channels c).1 (channels c).2.1 (channels c).2.2 (2 ^ 2)
          (baseAddr st x y + st.WIDTH)
          (lowerPlane (channels c).1 (channels c).2.1 (channels c).2.2 (2 ^ 1) (baseAddr st x y)
            (lowerPlane0 st.WIDTH (channels c).1 (channels c).2.1 (channels c).2.2
              (baseAddr st x y) st.mem))) := by
  unfold writeRaw
  dsimp only
  rw [if_neg hy]
  exact lowerPlanes_unroll _ _ _ _ _ _

/-- Upper half: after writeRaw every bit of the three bytes of the pixel is
either the channel bit the layout assigns to it or, for a bit the pixel does
not own, the old bit (bits 8 and above are clear). -/
theorem writeRaw_upper_bit (st : Panel) (x y : Int) (c : Nat) (hy : y < st.nRows)
    (hW : st.WIDTH ≠ 0) (k : Nat) (hk : k < 3) (i : Nat) :
    ((writeRaw st x y c).mem.read (baseAddr st x y + k * st.WIDTH)).testBit i =
      match upperBit (channels c).1 (channels c).2.1 (channels c).2.2 k i with
      | some v => v
      | none => (decide (i < 8) && (st.mem.read (baseAddr st x y + k * st.WIDTH)).testBit i) := by
  rw [writeRaw_mem_upper st x y c hy]
  generalize baseAddr st x y = p
  generalize st.WIDTH = W at hW
  have h1 : p + W ≠ p := by omega
  have h2 : p + W + W ≠ p := by omega
  have h3 : p + W + W ≠ p + W := by omega
  have h4 : p ≠ p + W := by omega
  have h5 : p ≠ p + W + W := by omega
  have h6 : p + W ≠ p + W + W := by omega
  have h7 : p + W * 2 = p + W + W := by omega
  interval_cases k
  · have e : p + ((0 : Nat) : Int) * W = p := by simp
    rw [e]
    simp only [upperPlane_bit, upperPlane0_bit W hW, upperBit, h7, h4, h5, if_true, if_false]
    by_cases c2 : i = 2
    · simp [c2]
    · by_cases c3 : i = 3
      · simp [c3]
      · by_cases c4 : i = 4
        · simp [c4]
        · simp [c2, c3, c4]
  · have e : p + ((1 : Nat) : Int) * W = p + W := by simp
    rw [e]
    simp only [upperPlane_bit, upperPlane0_bit W hW, upperBit, h7, h1, h6, if_true, if_false]
    by_cases c0 : i = 0
    · simp [c0]
    · by_cases c2 : i = 2
      · simp [c2]
      · by_cases c3 : i = 3
        · simp [c3]
        · by_cases c4 : i = 4
          · simp [c4]
          · simp [c0, c2, c3, c4]
  · have e : p + ((2 : Nat) : Int) * W = p + W + W := by push_cast; omega
    rw [e]
    simp only [upperPlane_bit, upperPlane0_bit W hW, upperBit, h7, h2, h3, if_true, if_false]
    by_cases c0 : i = 0
    · simp [c0]
    · by_cases c1 : i = 1
      · simp [c1]
      · by_cases c2 : i = 2
        · simp [c2]
        · by_cases c3 : i = 3
          · simp [c3]
          · by_cases c4 : i = 4
            · simp [c4]
            · simp [c0, c1, c2, c3, c4]

/-- Lower half: after writeRaw every bit of the three bytes of the pixel is
either the channel bit the layout assigns to it or, for a bit the pixel does
not own, the old bit (bits 8 and above are clear). -/
theorem writeRaw_lower_bit (st : Panel) (x y : Int) (c : Nat) (hy : ¬ y < st.nRows)
    (hW : st.WIDTH ≠ 0) (k : Nat) (hk : k < 3) (i : Nat) :
    ((writeRaw st x y c).mem.read (baseAddr st x y + k * st.WIDTH)).testBit i =
      match lowerBit (channels c).1 (channels c).2.1 (channels c).2.2 k i with
      | some v => v
      | none => (decide (i < 8) && (st.mem.read (baseAddr st x y + k * st.WIDTH)).testBit i) := by
  rw [writeRaw_mem_lower st x y c hy]
  generalize baseAddr st x y = p
  generalize st.WIDTH = W at hW
  have h1 : p + W ≠ p := by omega
  have h2 : p + W + W ≠ p := by omega
  have h3 : p + W + W ≠ p + W := by omega
  have h4 : p ≠ p + W := by omega
  have h5 : p ≠ p + W + W := by omega
  have h6 : p + W ≠ p + W + W := by omega
  interval_cases k
  · have e : p + ((0 : Nat) : Int) * W = p := by simp
    rw [e]
    simp only [lowerPlane_bit, lowerPlane0_bit W hW, lowerBit, h4, h5, if_true, if_false]
    by_cases c0 : i = 0
    · simp [c0]
    · by_cases c1 : i = 1
      · simp [c1]
      · by_cases c5 : i = 5
        · simp [c5]
        · by_cases c6 : i = 6
          · simp [c6]
          · by_cases c7 : i = 7
            · simp [c7]
            · simp [c0, c1, c5, c6, c7]
  · have e : p + ((1 : Nat) : Int) * W = p + W := by simp
    rw [e]
    simp only [lowerPlane_bit, lowerPlane0_bit W hW, lowerBit, h1, h6, if_true, if_false]
    by_cases c1 : i = 1
    · simp [c1]
    · by_cases c5 : i = 5
      · simp [c5]
      · by_cases c6 : i = 6
        · simp [c6]
        · by_cases c7 : i = 7
          · simp [c7]
          · simp [c1, c5, c6, c7]
  · have e : p + ((2 : Nat) : Int) * W = p + W + W := by push_cast; omega
    rw [e]
    simp only [lowerPlane_bit, lowerPlane0_bit W hW, lowerBit, h2, h3, if_true, if_false]
    by_cases c5 : i = 5
    · simp [c5]
    · by_cases c6 : i = 6
      · simp [c6]
      · by_cases c7 : i = 7
        · simp [c7]
        · simp [c5, c6, c7]

theorem read_orByte_ne (m : Mem) (a : Int) (k : Nat) (j : Int) (h : j ≠ a) :
    (orByte m a k).read j = m.read j := by
  simp [orByte, store, h]

theorem read_clearByte_ne (m : Mem) (a : Int) (k : Nat) (j : Int) (h : j ≠ a) :
    (clearByte m a k).read j = m.read j := by
  simp [clearByte, store, h]

theorem read_upperPlane_ne (r g b bit : Nat) (ptr : Int) (m : Mem) (j : Int) (h : j ≠ ptr) :
    (upperPlane r g b bit ptr m).read j = m.read j := by
  unfold upperPlane
  dsimp only
  split_ifs <;> simp [read_orByte_ne, read_clearByte_ne, h]

theorem read_lowerPlane_ne (r g b bit : Nat) (ptr : Int) (m : Mem) (j : Int) (h : j ≠ ptr) :
    (lowerPlane r g b bit ptr m).read j = m.read j := by
  unfold lowerPlane
  dsimp only
  split_ifs <;> simp [read_orByte_ne, read_clearByte_ne, h]

theorem read_upperPlane0_ne (W : Int) (r g b : Nat) (ptr : Int) (m : Mem) (j : Int)
    (h1 : j ≠ ptr + W) (h2 : j ≠ ptr + W * 2) :
    (upperPlane0 W r g b ptr m).read j = m.read j := by
  unfold upperPlane0
  dsimp only
  split_ifs <;> simp [read_orByte_ne, read_clearByte_ne, h1, h2]

theorem read_lowerPlane0_ne (W : Int) (r g b : Nat) (ptr : Int) (m : Mem) (j : Int)
    (h0 : j ≠ ptr) (h1 : j ≠ ptr + W) :
    (lowerPlane0 W r g b ptr m).read j = m.read j := by
  unfold lowerPlane0
  dsimp only
  split_ifs <;> simp [read_orByte_ne, read_clearByte_ne, h0, h1]

/-- The encoder leaves every byte other than the three bytes of the pixel
unchanged. -/
theorem writeRaw_read_other (st : Panel) (x y : Int) (c : Nat) (a : Int)
    (h0 : a ≠ baseAddr st x y) (h1 : a ≠ baseAddr st x y + st.WIDTH)
    (h2 : a ≠ baseAddr st x y + st.WIDTH + st.WIDTH) :
    (writeRaw st x y c).mem.read a = st.mem.read a := by
  have h3 : a ≠ baseAddr st x y + st.WIDTH * 2 := by omega
  by_cases hy : y < st.nRows
  · rw [writeRaw_mem_upper st x y c hy, read_upperPlane_ne _ _ _ _ _ _ _ h2,
      read_upperPlane_ne _ _ _ _ _ _ _ h1, read_upperPlane_ne _ _ _ _ _ _ _ h0,
      read_upperPlane0_ne _ _ _ _ _ _ _ h1 h3]
  · rw [writeRaw_mem_lower st x y c hy, read_lowerPlane_ne _ _ _ _ _ _ _ h2,
      read_lowerPlane_ne _ _ _ _ _ _ _ h1, read_lowerPlane_ne _ _ _ _ _ _ _ h0,
      read_lowerPlane0_ne _ _ _ _ _ _ _ h0 h1]

/-- The encoder changes nothing but the byte memory. -/
theorem writeRaw_frame (st : Panel) (x y : Int) (c : Nat) :
    writeRaw st x y c = { st with mem := (writeRaw st x y c).mem } := by
  unfold writeRaw
  dsimp only
  split <;> rfl

theorem drawPixel_frame (st : Panel) (x y : Int) (c : Nat) :
    drawPixel st x y c = { st with mem := (drawPixel st x y c).mem } := by
  unfold drawPixel
  split
  · rfl
  · exact writeRaw_frame _ _ _ _

/-! ## Plane 0 of a pixel -/

theorem baseAddr_eq (st : Panel) (x y : Int)
    (hfit : -32768 ≤ baseOffset st x y ∧ baseOffset st x y ≤ 32767) :
    baseAddr st x y = backBuffer st + baseOffset st x y := by
  unfold baseAddr backBuffer
  unfold baseOffset at hfit ⊢
  have hn : ((nPlanes : Nat) : Int) - 1 = 3 := by decide
  split
  · rename_i h
    rw [if_pos h] at hfit
    rw [hn, wrapI16_of_range _ hfit.1 hfit.2]
  · rename_i h
    rw [if_neg h] at hfit
    rw [hn, wrapI16_of_range _ hfit.1 hfit.2]

theorem drawPixel_in_range (st : Panel) (x y : Int) (c : Nat)
    (hx : 0 ≤ x ∧ x < st._width) (hy : 0 ≤ y ∧ y < st._height) :
    drawPixel st x y c = writeRaw st (rotateCoord st x y).1 (rotateCoord st x y).2 c := by
  unfold drawPixel
  rw [if_neg (by omega)]

/-- C4 as stated fails: a white pixel drawn at (0,0) of a cleared 32x32 panel
leaves its base byte at 0b00011100, bits 0 and 1 clear, although the plane-0
red and green bits are set; they are in the byte 2*WIDTH further on. -/
theorem upper_plane0_not_in_base_byte :
    (drawPixel panel32 0 0 0xFFFF).mem.read (backBuffer panel32 + baseOffset panel32 0 0) = 28 ∧
    (drawPixel panel32 0 0 0xFFFF).mem.read
        (backBuffer panel32 + baseOffset panel32 0 0 + 2 * panel32.WIDTH) = 31 ∧
    (channels 0xFFFF).1.testBit 0 = true ∧
    ¬ (((drawPixel panel32 0 0 0xFFFF).mem.read
          (backBuffer panel32 + baseOffset panel32 0 0)).testBit 0
        = (channels 0xFFFF).1.testBit 0 ∧
      ((drawPixel panel32 0 0 0xFFFF).mem.read
          (backBuffer panel32 + baseOffset panel32 0 0)).testBit 1
        = (channels 0xFFFF).2.1.testBit 0 ∧
      ((drawPixel panel32 0 0 0xFFFF).mem.read
          (backBuffer panel32 + baseOffset panel32 0 0 + panel32.WIDTH)).testBit 0
        = (channels 0xFFFF).2.2.testBit 0) := by
  decide

/-- C4 amended: for an in-range pixel whose raw row is in the upper half,
after drawPixel the plane-0 red and green bits are bits 0 and 1 of the byte at
base + 2*WIDTH, and the plane-0 blue bit is bit 0 of the byte at base + WIDTH,
where base is offset `y*WIDTH*3 + x` of the back buffer. -/
theorem drawPixel_upper_plane0 (st : Panel) (x y : Int) (c : Nat)
    (hx : 0 ≤ x ∧ x < st._width) (hy : 0 ≤ y ∧ y < st._height)
    (hW : 0 < st.WIDTH)
    (hrow : (rotateCoord st x y).2 < st.nRows)
    (hfit : -32768 ≤ baseOffset st (rotateCoord st x y).1 (rotateCoord st x y).2 ∧
      baseOffset st (rotateCoord st x y).1 (rotateCoord st x y).2 ≤ 32767) :
    baseOffset st (rotateCoord st x y).1 (rotateCoord st x y).2 =
      (rotateCoord st x y).2 * st.WIDTH * 3 + (rotateCoord st x y).1 ∧
    ((drawPixel st x y c).mem.read
        (backBuffer st + baseOffset st (rotateCoord st x y).1 (rotateCoord st x y).2
          + 2 * st.WIDTH)).testBit 0 = (channels c).1.testBit 0 ∧
    ((drawPixel st x y c).mem.read
        (backBuffer st + baseOffset st (rotateCoord st x y).1 (rotateCoord st x y).2
          + 2 * st.WIDTH)).testBit 1 = (channels c).2.1.testBit 0 ∧
    ((drawPixel st x y c).mem.read
        (backBuffer st + baseOffset st (rotateCoord st x y).1 (rotateCoord st x y).2
          + st.WIDTH)).testBit 0 = (channels c).2.2.testBit 0 := by
  rw [drawPixel_in_range st x y c hx hy, ← baseAddr_eq st _ _ hfit]
  have hW0 : st.WIDTH ≠ 0 := by omega
  have b2 := writeRaw_upper_bit st (rotateCoord st x y).1 (rotateCoord st x y).2 c hrow hW0 2
    (by decide)
  have b1 := writeRaw_upper_bit st (rotateCoord st x y).1 (rotateCoord st x y).2 c hrow hW0 1
    (by decide)
  have e2 : ((2 : Nat) : Int) * st.WIDTH = 2 * st.WIDTH := by norm_num
  have e1 : ((1 : Nat) : Int) * st.WIDTH = st.WIDTH := by norm_num
  rw [e2] at b2
  rw [e1] at b1
  refine ⟨?_, ?_, ?_, ?_⟩
  · unfold baseOffset
    rw [if_pos hrow]
  · rw [b2 0]
    rfl
  · rw [b2 1]
    rfl
  · rw [b1 0]
    rfl

theorem drawPixel_upper_plane0_witness :
    baseOffset panel32 (rotateCoord panel32 3 5).1 (rotateCoord panel32 3 5).2 =
      (rotateCoord panel32 3 5).2 * panel32.WIDTH * 3 + (rotateCoord panel32 3 5).1 ∧
    ((drawPixel panel32 3 5 0x0800).mem.read
        (backBuffer panel32 + baseOffset panel32 (rotateCoord panel32 3 5).1
          (rotateCoord panel32 3 5).2 + 2 * panel32.WIDTH)).testBit 0
      = (channels 0x0800).1.testBit 0 ∧
    ((drawPixel panel32 3 5 0x0800).mem.read
        (backBuffer panel32 + baseOffset panel32 (rotateCoord panel32 3 5).1
          (rotateCoord panel32 3 5).2 + 2 * panel32.WIDTH)).testBit 1
      = (channels 0x0800).2.1.testBit 0 ∧
    ((drawPixel panel32 3 5 0x0800).mem.read
        (backBuffer panel32 + baseOffset panel32 (rotateCoord panel32 3 5).1
          (rotateCoord panel32 3 5).2 + panel32.WIDTH)).testBit 0
      = (channels 0x0800).2.2.testBit 0 :=
  drawPixel_upper_plane0 panel32 3 5 0x0800 (by decide) (by decide) (by decide) (by decide)
    (by decide)

/-- C5: for an in-range pixel whose raw row is in the lower half, after
drawPixel the plane-0 green and blue bits are bits 0 and 1 of the base byte
(offset `(y-nRows)*WIDTH*3 + x` of the back buffer) and the plane-0 red bit is
bit 1 of the byte at base + WIDTH. -/
theorem drawPixel_lower_plane0 (st : Panel) (x y : Int) (c : Nat)
    (hx : 0 ≤ x ∧ x < st._width) (hy : 0 ≤ y ∧ y < st._height)
    (hW : 0 < st.WIDTH)
    (hrow : (rotateCoord st x y).2 ≥ st.nRows)
    (hfit : -32768 ≤ baseOffset st (rotateCoord st x y).1 (rotateCoord st x y).2 ∧
      baseOffset st (rotateCoord st x y).1 (rotateCoord st x y).2 ≤ 32767) :
    baseOffset st (rotateCoord st x y).1 (rotateCoord st x y).2 =
      ((rotateCoord st x y).2 - st.nRows) * st.WIDTH * 3 + (rotateCoord st x y).1 ∧
    ((drawPixel st x y c).mem.read
        (backBuffer st + baseOffset st (rotateCoord st x y).1 (rotateCoord st x y).2)).testBit 0
      = (channels c).2.1.testBit 0 ∧
    ((drawPixel st x y c).mem.read
        (backBuffer st + baseOffset st (rotateCoord st x y).1 (rotateCoord st x y).2)).testBit 1
      = (channels c).2.2.testBit 0 ∧
    ((drawPixel st x y c).mem.read
        (backBuffer st + baseOffset st (rotateCoord st x y).1 (rotateCoord st x y).2
          + st.WIDTH)).testBit 1 = (channels c).1.testBit 0 := by
  rw [drawPixel_in_range st x y c hx hy, ← baseAddr_eq st _ _ hfit]
  have hW0 : st.WIDTH ≠ 0 := by omega
  have hrow' : ¬ (rotateCoord st x y).2 < st.nRows := by omega
  have b0 := writeRaw_lower_bit st (rotateCoord st x y).1 (rotateCoord st x y).2 c hrow' hW0 0
    (by decide)
  have b1 := writeRaw_lower_bit st (rotateCoord st x y).1 (rotateCoord st x y).2 c hrow' hW0 1
    (by decide)
  have e0 : baseAddr st (rotateCoord st x y).1 (rotateCoord st x y).2 + ((0 : Nat) : Int) * st.WIDTH
      = baseAddr st (rotateCoord st x y).1 (rotateCoord st x y).2 := by norm_num
  have e1 : ((1 : Nat) : Int) * st.WIDTH = st.WIDTH := by norm_num
  rw [e0] at b0
  rw [e1] at b1
  refine ⟨?_, ?_, ?_, ?_⟩
  · unfold baseOffset
    rw [if_neg hrow']
  · rw [b0 0]
    rfl
  · rw [b0 1]
    rfl
  · rw [b1 1]
    rfl

theorem drawPixel_lower_plane0_witness :
    baseOffset panel32 (rotateCoord panel32 3 21).1 (rotateCoord panel32 3 21).2 =
      ((rotateCoord panel32 3 21).2 - panel32.nRows) * panel32.WIDTH * 3
        + (rotateCoord panel32 3 21).1 ∧
    ((drawPixel panel32 3 21 0x0800).mem.read
        (backBuffer panel32 + baseOffset panel32 (rotateCoord panel32 3 21).1
          (rotateCoord panel32 3 21).2)).testBit 0 = (channels 0x0800).2.1.testBit 0 ∧
    ((drawPixel panel32 3 21 0x0800).mem.read
        (backBuffer panel32 + baseOffset panel32 (rotateCoord panel32 3 21).1
          (rotateCoord panel32 3 21).2)).testBit 1 = (channels 0x0800).2.2.testBit 0 ∧
    ((drawPixel panel32 3 21 0x0800).mem.read
        (backBuffer panel32 + baseOffset panel32 (rotateCoord panel32 3 21).1
          (rotateCoord panel32 3 21).2 + panel32.WIDTH)).testBit 1
      = (channels 0x0800).1.testBit 0 :=
  drawPixel_lower_plane0 panel32 3 21 0x0800 (by decide) (by decide) (by decide) (by decide)
    (by decide)

/-! ## Synchronised swap -/

theorem updateDisplay_frame (st : Panel) :
    (updateDisplay st).mem = st.mem ∧ (updateDisplay st).nRows = st.nRows ∧
    (updateDisplay st).WIDTH = st.WIDTH ∧
    (updateDisplay st).matrixbuff0 = st.matrixbuff0 ∧
    (updateDisplay st).matrixbuff1 = st.matrixbuff1 := by
  obtain ⟨-, -, -, -, i5, i6, i7, i8, i9⟩ :=
    issue_frame (advance { st with PORTB := setPin (setPin st.PORTB OE_PIN) LAT_PIN })
      (duration { st with PORTB := setPin (setPin st.PORTB OE_PIN) LAT_PIN })
  obtain ⟨a1, a2, a3, a4, a5⟩ :=
    advance_frame { st with PORTB := setPin (setPin st.PORTB OE_PIN) LAT_PIN }
  unfold updateDisplay
  dsimp only
  rw [i5, i6, i7, i8, i9, a1, a2, a3, a4, a5]
  exact ⟨rfl, rfl, rfl, rfl, rfl⟩

theorem wrapsRow_iff (st : Panel) (hp : st.plane < 4) (hr : st.row < st.nRows)
    (hn : st.nRows < 256) : wrapsRow st ↔ st.plane = 3 ∧ st.row + 1 = st.nRows := by
  unfold wrapsRow wrapU8 nPlanes
  omega

theorem advance_counters (s : Panel) (hp : s.plane < 4) (hr : s.row < s.nRows)
    (hn : s.nRows < 256) (h : ¬ wrapsRow s) :
    (advance s).plane < 4 ∧ (advance s).row < s.nRows ∧
    (3 - (advance s).plane + 4 * (s.nRows - 1 - (advance s).row)) + 1 =
      3 - s.plane + 4 * (s.nRows - 1 - s.row) := by
  have hw := wrapsRow_iff s hp hr hn
  have h1 : wrapU8 ((s.plane : Int) + 1) = s.plane + 1 := by unfold wrapU8; omega
  have h2 : wrapU8 ((s.row : Int) + 1) = s.row + 1 := by unfold wrapU8; omega
  unfold advance
  dsimp only
  rw [h1, h2]
  unfold nPlanes
  by_cases c1 : s.plane + 1 ≥ 4
  · rw [if_pos c1]
    have c2 : ¬ s.row + 1 ≥ s.nRows := by
      intro hh
      apply h
      rw [hw]
      omega
    rw [if_neg c2]
    dsimp only
    omega
  · rw [if_neg c1]
    split_ifs <;> dsimp only <;> omega

theorem updateDisplay_counters (st : Panel) (hp : st.plane < 4) (hr : st.row < st.nRows)
    (hn : st.nRows < 256) (h : ¬ wrapsRow st) :
    (updateDisplay st).plane < 4 ∧ (updateDisplay st).row < st.nRows ∧
    (3 - (updateDisplay st).plane + 4 * (st.nRows - 1 - (updateDisplay st).row)) + 1 =
      3 - st.plane + 4 * (st.nRows - 1 - st.row) := by
  obtain ⟨-, -, i3, i4, -⟩ :=
    issue_frame (advance { st with PORTB := setPin (setPin st.PORTB OE_PIN) LAT_PIN })
      (duration { st with PORTB := setPin (setPin st.PORTB OE_PIN) LAT_PIN })
  have := advance_counters { st with PORTB := setPin (setPin st.PORTB OE_PIN) LAT_PIN } hp hr hn h
  unfold updateDisplay
  dsimp only
  rw [i3, i4]
  exact this

/-- The busy-wait ends: from a scheduler state inside its ranges with the flag
set, `3 - plane + 4 * (nRows - 1 - row) + 1` interrupts clear the flag, and the
only other change a waiting program sees is the flipped back index. -/
theorem waitSwap_returns (k : Nat) :
    ∀ (st : Panel) (fuel : Nat), st.swapflag = true → st.plane < 4 → st.row < st.nRows →
      st.nRows < 256 → 3 - st.plane + 4 * (st.nRows - 1 - st.row) = k → k + 1 ≤ fuel →
      ∃ s, waitSwap fuel st = some s ∧ s.swapflag = false ∧
        s.backindex = wrapU8 (1 - (st.backindex : Int)) ∧ s.mem = st.mem ∧
        s.nRows = st.nRows ∧ s.WIDTH = st.WIDTH ∧
        s.matrixbuff0 = st.matrixbuff0 ∧ s.matrixbuff1 = st.matrixbuff1 := by
  induction k with
  | zero =>
    intro st fuel hs hp hr hn hk hf
    have hw : wrapsRow st := by
      rw [wrapsRow_iff st hp hr hn]
      omega
    obtain ⟨f, rfl⟩ : ∃ f, fuel = f + 1 := ⟨fuel - 1, by omega⟩
    obtain ⟨-, u2, -⟩ := updateDisplay_swap_cases st
    obtain ⟨b1, -, b3⟩ := u2 hw hs
    obtain ⟨f1, f2, f3, f4, f5⟩ := updateDisplay_frame st
    refine ⟨updateDisplay st, ?_, b3, b1, f1, f2, f3, f4, f5⟩
    unfold waitSwap
    rw [if_pos hs]
    cases f with
    | zero => unfold waitSwap; rw [if_neg (by rw [b3]; decide)]
    | succ f => unfold waitSwap; rw [if_neg (by rw [b3]; decide)]
  | succ k ih =>
    intro st fuel hs hp hr hn hk hf
    have hw : ¬ wrapsRow st := by
      rw [wrapsRow_iff st hp hr hn]
      omega
    obtain ⟨f, rfl⟩ : ∃ f, fuel = f + 1 := ⟨fuel - 1, by omega⟩
    obtain ⟨-, -, u3⟩ := updateDisplay_swap_cases st
    obtain ⟨b1, b2⟩ := u3 (fun hh => hw hh.1)
    obtain ⟨f1, f2, f3, f4, f5⟩ := updateDisplay_frame st
    obtain ⟨c1, c2, c3⟩ := updateDisplay_counters st hp hr hn hw
    obtain ⟨s, e, s1, s2, s3, s4, s5, s6, s7⟩ :=
      ih (updateDisplay st) f (by rw [b2, hs]) c1 (by rw [f2]; exact c2) (by rw [f2]; exact hn)
        (by rw [f2]; omega) (by omega)
    refine ⟨s, ?_, s1, ?_, ?_, ?_, ?_, ?_, ?_⟩
    · unfold waitSwap
      rw [if_pos hs]
      exact e
    · rw [s2, b1]
    · rw [s3, f1]
    · rw [s4, f2]
    · rw [s5, f3]
    · rw [s6, f4]
    · rw [s7, f5]

theorem wrapU16_of_range (n : Int) (h0 : 0 ≤ n) (h1 : n < 65536) : (wrapU16 n : Int) = n := by
  unfold wrapU16
  omega

theorem buffsize_le (st : Panel) : buffsize st ≤ 32767 := by
  unfold buffsize wrapI16
  omega

theorem bufferBytes_congr (s t : Panel) (p q : Int) (hsize : buffsize s = buffsize t)
    (h : ∀ i : Int, 0 ≤ i → i < buffsize t → s.mem.read (p + i) = t.mem.read (q + i)) :
    bufferBytes s p = bufferBytes t q := by
  unfold bufferBytes
  rw [hsize]
  apply List.map_congr_left
  intro i hi
  rw [List.mem_range] at hi
  exact h i (by omega) (by omega)

/-- C9: in double-buffered mode swapBuffers(true) returns once the refresh
cycle has wrapped (4 * nRows interrupts always suffice), and then both the new
back buffer and the new front buffer hold the bytes the back buffer held
before the call. -/
theorem swapBuffers_copy (st : Panel) (fuel : Nat)
    (hdbuf : st.matrixbuff1 = st.matrixbuff0 + buffsize st) (hsize : 0 < buffsize st)
    (hback : st.backindex ≤ 1)
    (hplane : st.plane < 4) (hrow : st.row < st.nRows) (hn : st.nRows < 256)
    (hfuel : 4 * st.nRows ≤ fuel) :
    ∃ s, swapBuffers fuel st true = some s ∧
      s.backindex = 1 - st.backindex ∧
      bufferBytes s (matrixbuff s s.backindex) = bufferBytes st (matrixbuff st st.backindex) ∧
      bufferBytes s (matrixbuff s (1 - (s.backindex : Int))) =
        bufferBytes st (matrixbuff st st.backindex) := by
  obtain ⟨s, e, -, s2, s3, s4, s5, s6, s7⟩ :=
    waitSwap_returns _ { st with swapflag := true } fuel rfl hplane hrow hn rfl
      (by show 3 - st.plane + 4 * (st.nRows - 1 - st.row) + 1 ≤ fuel; omega)
  dsimp only at s2 s3 s4 s5 s6 s7
  have hb : s.backindex = 1 - st.backindex := by
    rw [s2]
    unfold wrapU8
    omega
  have hbs : buffsize s = buffsize st := by
    unfold buffsize
    rw [s4, s5]
  have hle := buffsize_le st
  have hu : (wrapU16 (buffsize s) : Int) = buffsize st := by
    rw [hbs]
    exact wrapU16_of_range _ (by omega) (by omega)
  have hne : st.matrixbuff0 ≠ st.matrixbuff1 := by omega
  have h0 : s.matrixbuff0 = st.matrixbuff0 := s6
  have h1 : s.matrixbuff1 = st.matrixbuff0 + buffsize st := by rw [s7]; exact hdbuf
  have hm : s.mem = st.mem := s3
  have hfront : matrixbuff s (1 - (s.backindex : Int)) = matrixbuff st st.backindex := by
    unfold matrixbuff
    rw [h0, h1, hb, hdbuf]
    have : st.backindex = 0 ∨ st.backindex = 1 := by omega
    rcases this with hz | hz <;> rw [hz] <;> simp
  have hbackd : matrixbuff s s.backindex = matrixbuff st st.backindex + buffsize st ∨
      matrixbuff s s.backindex = matrixbuff st st.backindex - buffsize st := by
    unfold matrixbuff
    rw [h0, h1, hb, hdbuf]
    have : st.backindex = 0 ∨ st.backindex = 1 := by omega
    rcases this with hz | hz <;> rw [hz] <;> simp
  refine ⟨{ s with mem := (memcpy s.mem (matrixbuff s s.backindex)
      (matrixbuff s (1 - (s.backindex : Int))) (wrapU16 (buffsize s))) }, ?_, ?_, ?_, ?_⟩
  · unfold swapBuffers
    rw [if_pos hne, e]
    rfl
  · exact hb
  · apply bufferBytes_congr
    · exact hbs
    · intro i hi0 hi1
      show (memcpy s.mem (matrixbuff s s.backindex) (matrixbuff s (1 - (s.backindex : Int)))
        (wrapU16 (buffsize s))).read (matrixbuff s s.backindex + i) = _
      rw [hfront, hu, hm]
      generalize matrixbuff s s.backindex = B
      generalize matrixbuff st st.backindex = O
      unfold memcpy
      dsimp only
      rw [if_pos ⟨by omega, by omega⟩]
      congr 1
      omega
  · apply bufferBytes_congr
    · exact hbs
    · intro i hi0 hi1
      show (memcpy s.mem (matrixbuff s s.backindex) (matrixbuff s (1 - (s.backindex : Int)))
        (wrapU16 (buffsize s))).read (matrixbuff s (1 - (s.backindex : Int)) + i) = _
      rw [hfront, hu, hm]
      generalize matrixbuff s s.backindex = B at hbackd
      generalize matrixbuff st st.backindex = O at hbackd
      unfold memcpy
      dsimp only
      rw [if_neg (by omega)]

theorem swapBuffers_copy_witness :
    ∃ s, swapBuffers 64 panel32d true = some s ∧
      s.backindex = 1 - panel32d.backindex ∧
      bufferBytes s (matrixbuff s s.backindex) =
        bufferBytes panel32d (matrixbuff panel32d panel32d.backindex) ∧
      bufferBytes s (matrixbuff s (1 - (s.backindex : Int))) =
        bufferBytes panel32d (matrixbuff panel32d panel32d.backindex) :=
  swapBuffers_copy panel32d 64 (by decide) (by decide) (by decide) (by decide) (by decide)
    (by decide) (by decide)

/-! ## Rectangle fill, pixel by pixel -/

theorem writeLineLoop_vertical (c : Nat) (col x1 dx ystep err : Int)
    (h0 : 0 ≤ err) (h1 : err ≤ 32767) (hx1 : x1 ≤ 32766) :
    ∀ (fuel : Nat) (x0 : Int) (st : Panel), -32768 ≤ x0 → x0 ≤ x1 + 1 →
      fuel = (x1 - x0 + 1).toNat →
      writeLineLoop true x1 dx 0 ystep c fuel x0 col err st = some (drawColumn c col fuel x0 st) := by
  intro fuel
  induction fuel with
  | zero =>
    intro x0 st _ hle hf
    unfold writeLineLoop drawColumn
    rw [if_neg (by omega)]
  | succ n ih =>
    intro x0 st hlo hle hf
    have he : wrapI16 (err - 0) = err := by
      rw [sub_zero]
      exact wrapI16_of_range _ (by omega) (by omega)
    have hx : wrapI16 (x0 + 1) = x0 + 1 := wrapI16_of_range _ (by omega) (by omega)
    unfold writeLineLoop drawColumn
    rw [if_pos (by omega)]
    dsimp only
    rw [he, if_neg (by omega), hx]
    simp only [if_true]
    exact ih (x0 + 1) _ (by omega) (by omega) (by omega)

theorem abs16_of_range (n : Int) (h0 : 0 ≤ n) (h1 : n ≤ 32767) : abs16 n = n := by
  unfold abs16
  rw [wrapI16_of_range n (by omega) h1, abs_of_nonneg h0, wrapI16_of_range n (by omega) h1]

/-- A vertical line of at least two pixels is the column of its pixels. -/
theorem writeFastVLine_column (st : Panel) (x : Int) (h : Int) (c : Nat)
    (h2 : 2 ≤ h) (hh : h ≤ 32767) :
    writeFastVLine st x 0 h c = some (drawColumn c x h.toNat 0 st) := by
  unfold writeFastVLine drawFastVLine writeLine
  have e1 : wrapI16 (0 + h - 1) = h - 1 := by
    rw [zero_add]
    exact wrapI16_of_range _ (by omega) (by omega)
  have e2 : abs16 (h - 1 - 0) = h - 1 := by
    rw [sub_zero]
    exact abs16_of_range _ (by omega) (by omega)
  have e3 : abs16 (x - x) = 0 := by
    rw [sub_self]
    exact abs16_of_range 0 (by omega) (by omega)
  rw [e1, e2, e3]
  have hs : decide (h - 1 > 0) = true := decide_eq_true (by omega)
  simp only [hs, if_true]
  rw [if_neg (by omega), if_neg (by omega), if_neg (by omega)]
  have e4 : wrapI16 (h - 1 - 0) = h - 1 := by
    rw [sub_zero]
    exact wrapI16_of_range _ (by omega) (by omega)
  have e5 : wrapI16 0 = 0 := by decide
  have e6 : (h - 1 - 0 + 1).toNat = h.toNat := by
    congr 1
    omega
  have e7 : 0 ≤ Int.tdiv (h - 1) 2 ∧ Int.tdiv (h - 1) 2 ≤ 32767 := by
    rw [Int.tdiv_eq_ediv (by omega) (by omega)]
    omega
  rw [e3, e4, e5, e6, wrapI16_of_range _ (by omega) e7.2]
  exact writeLineLoop_vertical c x (h - 1) (h - 1) _ _ e7.1 e7.2 (by omega) _ 0 st (by omega)
    (by omega) (by omega)

theorem fillRectLoop_columns (c : Nat) (h : Int) (h2 : 2 ≤ h) (hh : h ≤ 32767) (bound : Int)
    (hb : bound ≤ 32767) :
    ∀ (fuel : Nat) (i : Int) (st : Panel), -32768 ≤ i → i ≤ bound →
      fuel = (bound - i).toNat →
      fillRectLoop 0 h bound c fuel i st = some (drawColumns c h.toNat 0 fuel i st) := by
  intro fuel
  induction fuel with
  | zero =>
    intro i st _ hle hf
    unfold fillRectLoop drawColumns
    rw [if_neg (by omega)]
  | succ n ih =>
    intro i st hlo hle hf
    unfold fillRectLoop drawColumns
    rw [if_pos (by omega), writeFastVLine_column st i h c h2 hh]
    have hx : wrapI16 (i + 1) = i + 1 := wrapI16_of_range _ (by omega) (by omega)
    simp only [Option.bind, hx]
    exact ih (i + 1) _ (by omega) (by omega) (by omega)

/-- Filling a rectangle at the origin that is at least two pixels high encodes
every pixel of it, column by column. -/
theorem fillRect_columns (st : Panel) (w h : Int) (c : Nat)
    (hw0 : 0 ≤ w) (hw : w ≤ 32767) (h2 : 2 ≤ h) (hh : h ≤ 32767) :
    fillRect st 0 0 w h c = some (drawColumns c h.toNat 0 w.toNat 0 st) := by
  unfold fillRect
  have e : wrapI16 (0 + w) = w := by
    rw [zero_add]
    exact wrapI16_of_range _ (by omega) (by omega)
  rw [e, fillRectLoop_columns c h h2 hh w hw _ 0 st (by omega) hw0 rfl, sub_zero]

theorem drawColumn_preserves (c : Nat) (Q : Panel → Prop)
    (hmono : ∀ s x y, Q s → Q (drawPixel s x y c)) (x : Int) :
    ∀ (n : Nat) (y : Int) (st : Panel), Q st → Q (drawColumn c x n y st) := by
  intro n
  induction n with
  | zero => intro y st h; exact h
  | succ n ih => intro y st h; exact ih (y + 1) _ (hmono st x y h)

theorem drawColumns_preserves (c : Nat) (Q : Panel → Prop)
    (hmono : ∀ s x y, Q s → Q (drawPixel s x y c)) (h : Nat) (y : Int) :
    ∀ (n : Nat) (x : Int) (st : Panel), Q st → Q (drawColumns c h y n x st) := by
  intro n
  induction n with
  | zero => intro x st hq; exact hq
  | succ n ih =>
    intro x st hq
    exact ih (x + 1) _ (drawColumn_preserves c Q hmono x h y st hq)

/-- A property that drawing the pixel `(px, py)` establishes, and that no
later pixel destroys, holds after a column that contains the pixel. -/
theorem drawColumn_establishes (c : Nat) (I Q : Panel → Prop)
    (hI : ∀ s x y, I s → I (drawPixel s x y c))
    (hmono : ∀ s x y, Q s → Q (drawPixel s x y c))
    (px py : Int) (hest : ∀ s, I s → Q (drawPixel s px py c)) :
    ∀ (n : Nat) (y : Int) (st : Panel), I st → y ≤ py → py < y + n →
      Q (drawColumn c px n y st) := by
  intro n
  induction n with
  | zero => intro y st _ h1 h2; omega
  | succ n ih =>
    intro y st hi h1 h2
    by_cases e : y = py
    · subst e
      show Q (drawColumn c px n (y + 1) (drawPixel st px y c))
      exact drawColumn_preserves c Q hmono px n _ _ (hest st hi)
    · show Q (drawColumn c px n (y + 1) (drawPixel st px y c))
      exact ih (y + 1) _ (hI st px y hi) (by omega) (by push_cast at h2; omega)

theorem drawColumns_establishes (c : Nat) (I Q : Panel → Prop)
    (hI : ∀ s x y, I s → I (drawPixel s x y c))
    (hmono : ∀ s x y, Q s → Q (drawPixel s x y c))
    (px py : Int) (hest : ∀ s, I s → Q (drawPixel s px py c)) (h : Nat) (y : Int)
    (hy1 : y ≤ py) (hy2 : py < y + h) :
    ∀ (n : Nat) (x : Int) (st : Panel), I st → x ≤ px → px < x + n →
      Q (drawColumns c h y n x st) := by
  intro n
  induction n with
  | zero => intro x st _ h1 h2; omega
  | succ n ih =>
    intro x st hi h1 h2
    by_cases e : x = px
    · subst e
      show Q (drawColumns c h y n (x + 1) (drawColumn c x h y st))
      exact drawColumns_preserves c Q hmono h y n _ _
        (drawColumn_establishes c I Q hI hmono x py hest h y st hi hy1 hy2)
    · show Q (drawColumns c h y n (x + 1) (drawColumn c x h y st))
      exact ih (x + 1) _ (drawColumn_preserves c I hI x h y st hi) (by omega)
        (by push_cast at h2; omega)

/-! ## Black and white: every owned bit gets the same value -/

theorem upperBit_uniform (c : Nat) (hc : c = 0x0000 ∨ c = 0xFFFF) (k i : Nat) (v : Bool)
    (h : upperBit (channels c).1 (channels c).2.1 (channels c).2.2 k i = some v) :
    v = uniformBit c ∧ i < 8 := by
  unfold upperBit at h
  rcases hc with rfl | rfl
  · split_ifs at h <;> simp at h <;> subst h <;> subst_vars <;> decide
  · split_ifs at h <;> simp at h <;> subst h <;> subst_vars <;> decide

theorem lowerBit_uniform (c : Nat) (hc : c = 0x0000 ∨ c = 0xFFFF) (k i : Nat) (v : Bool)
    (h : lowerBit (channels c).1 (channels c).2.1 (channels c).2.2 k i = some v) :
    v = uniformBit c ∧ i < 8 := by
  unfold lowerBit at h
  rcases hc with rfl | rfl
  · split_ifs at h <;> simp at h <;> subst h <;> subst_vars <;> decide
  · split_ifs at h <;> simp at h <;> subst h <;> subst_vars <;> decide

theorem bits_covered (r g b k : Nat) (hk : k < 3) (i : Nat) :
    ((upperBit r g b k i).isSome = true ∨ 8 ≤ i) ∨ ((lowerBit r g b k i).isSome = true ∨ 8 ≤ i) := by
  by_cases hi : 8 ≤ i
  · exact Or.inl (Or.inr hi)
  · have hi' : i < 8 := by omega
    interval_cases k <;> interval_cases i <;> simp [upperBit, lowerBit]

theorem writeRaw_uniform_upper (s : Panel) (x y : Int) (c : Nat) (hc : c = 0x0000 ∨ c = 0xFFFF)
    (hy : y < s.nRows) (hW : s.WIDTH ≠ 0) (k : Nat) (hk : k < 3) (i : Nat)
    (h : (upperBit (channels c).1 (channels c).2.1 (channels c).2.2 k i).isSome = true ∨ 8 ≤ i ∨
      (s.mem.read (baseAddr s x y + k * s.WIDTH)).testBit i = (uniformBit c && decide (i < 8))) :
    ((writeRaw s x y c).mem.read (baseAddr s x y + k * s.WIDTH)).testBit i =
      (uniformBit c && decide (i < 8)) := by
  rw [writeRaw_upper_bit s x y c hy hW k hk i]
  cases hu : upperBit (channels c).1 (channels c).2.1 (channels c).2.2 k i with
  | some v =>
    obtain ⟨h1, h2⟩ := upperBit_uniform c hc k i v hu
    simp [h1, h2]
  | none =>
    rw [hu] at h
    rcases h with h | h | h
    · simp at h
    · have : ¬ i < 8 := by omega
      simp [this]
    · simp only [h]
      cases uniformBit c <;> cases decide (i < 8) <;> rfl

theorem writeRaw_uniform_lower (s : Panel) (x y : Int) (c : Nat) (hc : c = 0x0000 ∨ c = 0xFFFF)
    (hy : ¬ y < s.nRows) (hW : s.WIDTH ≠ 0) (k : Nat) (hk : k < 3) (i : Nat)
    (h : (lowerBit (channels c).1 (channels c).2.1 (channels c).2.2 k i).isSome = true ∨ 8 ≤ i ∨
      (s.mem.read (baseAddr s x y + k * s.WIDTH)).testBit i = (uniformBit c && decide (i < 8))) :
    ((writeRaw s x y c).mem.read (baseAddr s x y + k * s.WIDTH)).testBit i =
      (uniformBit c && decide (i < 8)) := by
  rw [writeRaw_lower_bit s x y c hy hW k hk i]
  cases hu : lowerBit (channels c).1 (channels c).2.1 (channels c).2.2 k i with
  | some v =>
    obtain ⟨h1, h2⟩ := lowerBit_uniform c hc k i v hu
    simp [h1, h2]
  | none =>
    rw [hu] at h
    rcases h with h | h | h
    · simp at h
    · have : ¬ i < 8 := by omega
      simp [this]
    · simp only [h]
      cases uniformBit c <;> cases decide (i < 8) <;> rfl

/-- Encoding a black or white pixel never destroys a bit that already has the
colour's value. -/
theorem writeRaw_uniform_keeps (s : Panel) (x y : Int) (c : Nat)
    (hc : c = 0x0000 ∨ c = 0xFFFF) (hW : s.WIDTH ≠ 0) (a : Int) (i : Nat)
    (h : (s.mem.read a).testBit i = (uniformBit c && decide (i < 8))) :
    ((writeRaw s x y c).mem.read a).testBit i = (uniformBit c && decide (i < 8)) := by
  have key : ∀ k : Nat, k < 3 → a = baseAddr s x y + k * s.WIDTH →
      ((writeRaw s x y c).mem.read a).testBit i = (uniformBit c && decide (i < 8)) := by
    intro k hk e
    subst e
    by_cases hy : y < s.nRows
    · exact writeRaw_uniform_upper s x y c hc hy hW k hk i (Or.inr (Or.inr h))
    · exact writeRaw_uniform_lower s x y c hc hy hW k hk i (Or.inr (Or.inr h))
  by_cases h0 : a = baseAddr s x y
  · exact key 0 (by decide) (by rw [h0]; simp)
  · by_cases h1 : a = baseAddr s x y + s.WIDTH
    · exact key 1 (by decide) (by rw [h1]; simp)
    · by_cases h2 : a = baseAddr s x y + s.WIDTH + s.WIDTH
      · exact key 2 (by decide) (by rw [h2]; push_cast; omega)
      · rw [writeRaw_read_other s x y c a h0 h1 h2]
        exact h

theorem drawPixel_uniform_keeps (s : Panel) (x y : Int) (c : Nat)
    (hc : c = 0x0000 ∨ c = 0xFFFF) (hW : s.WIDTH ≠ 0) (a : Int) (i : Nat)
    (h : (s.mem.read a).testBit i = (uniformBit c && decide (i < 8))) :
    ((drawPixel s x y c).mem.read a).testBit i = (uniformBit c && decide (i < 8)) := by
  unfold drawPixel
  split
  · exact h
  · exact writeRaw_uniform_keeps s _ _ c hc hW a i h

theorem drawPixel_withMem (st : Panel) (m : Mem) (x y : Int) (c : Nat) :
    drawPixel (withMem st m) x y c = withMem st (drawPixel (withMem st m) x y c).mem :=
  drawPixel_frame (withMem st m) x y c

/-! ## Full-screen fill -/

/-- Every raw pixel is the image of an in-range logical pixel. -/
theorem rotateCoord_onto (st : Panel) (hrot : Rotated st)
    (hW : st.WIDTH ≤ 32767) (hH : st.HEIGHT ≤ 32767) (x y : Int)
    (hx : 0 ≤ x ∧ x < st.WIDTH) (hy : 0 ≤ y ∧ y < st.HEIGHT) :
    ∃ px py : Int, (0 ≤ px ∧ px < st._width) ∧ (0 ≤ py ∧ py < st._height) ∧
      rotateCoord st px py = (x, y) := by
  obtain ⟨h4, hw, hh⟩ := hrot
  unfold rotateCoord
  generalize st.rotation = k at h4 hw hh
  interval_cases k
  · simp at hw hh
    exact ⟨x, y, by omega, by omega, rfl⟩
  · simp at hw hh
    refine ⟨y, st.WIDTH - 1 - x, by omega, by omega, ?_⟩
    simp only
    rw [wrapI16_of_range _ (by omega) (by omega)]
    congr 1
    omega
  · simp at hw hh
    refine ⟨st.WIDTH - 1 - x, st.HEIGHT - 1 - y, by omega, by omega, ?_⟩
    simp only
    rw [wrapI16_of_range _ (by omega) (by omega), wrapI16_of_range _ (by omega) (by omega)]
    congr 1 <;> omega
  · simp at hw hh
    refine ⟨st.HEIGHT - 1 - y, x, by omega, by omega, ?_⟩
    simp only
    rw [wrapI16_of_range _ (by omega) (by omega)]
    congr 1
    omega

theorem offset_decompose (W : Int) (hW : W = 32 ∨ W = 64) (R : Int) (off : Int)
    (h0 : 0 ≤ off) (h1 : off < W * R * 3) :
    ∃ (x y : Int) (k : Nat), (0 ≤ x ∧ x < W) ∧ (0 ≤ y ∧ y < R) ∧ k < 3 ∧
      off = y * W * 3 + x + k * W := by
  rcases hW with rfl | rfl
  · refine ⟨off % 32, off / 96, (off % 96 / 32).toNat, by omega, by omega, by omega, ?_⟩
    omega
  · refine ⟨off % 64, off / 192, (off % 192 / 64).toNat, by omega, by omega, by omega, ?_⟩
    omega

theorem testBit_uniform_byte (c : Nat) (hc : c = 0x0000 ∨ c = 0xFFFF) (i : Nat) :
    (c % 256).testBit i = (uniformBit c && decide (i < 8)) := by
  rcases hc with rfl | rfl
  · simp [uniformBit]
  · have e : (0xFFFF : Nat) % 256 = 2 ^ 8 - 1 := by decide
    rw [e, Nat.testBit_two_pow_sub_one]
    simp [uniformBit]

theorem baseAddr_of_offset (s : Panel) (hW : s.WIDTH = 32 ∨ s.WIDTH = 64)
    (hR : s.nRows = 8 ∨ s.nRows = 16) (x y : Int) (k : Nat) (off : Int)
    (hx : 0 ≤ x ∧ x < s.WIDTH) (hy : 0 ≤ y ∧ y < s.nRows)
    (hoff : off = y * s.WIDTH * 3 + x + k * s.WIDTH) :
    baseAddr s x y + k * s.WIDTH = backBuffer s + off ∧
    baseAddr s x (y + s.nRows) + k * s.WIDTH = backBuffer s + off := by
  have hn : ((nPlanes : Nat) : Int) - 1 = 3 := by decide
  unfold baseAddr backBuffer
  rw [if_pos hy.2, if_neg (by omega), hn]
  have e : y + (s.nRows : Int) - s.nRows = y := by omega
  rw [e]
  have hfit : wrapI16 (y * s.WIDTH * 3 + x) = y * s.WIDTH * 3 + x := by
    apply wrapI16_of_range
    · rcases hW with h | h <;> rw [h] at hx ⊢ <;> omega
    · rcases hW with h | h <;> rcases hR with h' | h' <;> rw [h] at hx ⊢ <;> rw [h'] at hy <;> omega
  rw [hfit, hoff]
  constructor <;> omega

/-- For every bit of every byte of the back buffer there is an in-range pixel
whose encoding in black or white gives that bit the colour's value. -/
theorem pixel_sets_bit (st : Panel) (c : Nat) (hc : c = 0x0000 ∨ c = 0xFFFF)
    (hW : st.WIDTH = 32 ∨ st.WIDTH = 64) (hR : st.nRows = 8 ∨ st.nRows = 16)
    (hH : st.HEIGHT = 2 * st.nRows) (hrot : Rotated st)
    (off : Int) (h0 : 0 ≤ off) (h1 : off < st.WIDTH * st.nRows * 3) (i : Nat) :
    ∃ px py : Int, (0 ≤ px ∧ px < st._width) ∧ (0 ≤ py ∧ py < st._height) ∧
      ∀ m : Mem, ((drawPixel (withMem st m) px py c).mem.read (backBuffer st + off)).testBit i =
        (uniformBit c && decide (i < 8)) := by
  obtain ⟨x, y, k, hx, hy, hk, hoff⟩ := offset_decompose st.WIDTH hW st.nRows off h0 h1
  have hW0 : st.WIDTH ≠ 0 := by rcases hW with h | h <;> rw [h] <;> decide
  have hW1 : st.WIDTH ≤ 32767 := by rcases hW with h | h <;> rw [h] <;> decide
  have hH1 : st.HEIGHT ≤ 32767 := by rcases hR with h | h <;> rw [hH, h] <;> decide
  rcases bits_covered (channels c).1 (channels c).2.1 (channels c).2.2 k hk i with hU | hL
  · obtain ⟨px, py, hpx, hpy, hrc⟩ := rotateCoord_onto st hrot hW1 hH1 x y hx (by omega)
    refine ⟨px, py, hpx, hpy, fun m => ?_⟩
    have hd := drawPixel_in_range (withMem st m) px py c hpx hpy
    have hrc' : rotateCoord (withMem st m) px py = (x, y) := hrc
    rw [hrc'] at hd
    rw [hd]
    obtain ⟨e1, -⟩ := baseAddr_of_offset (withMem st m) hW hR x y k off hx hy hoff
    have e1' : backBuffer st + off = baseAddr (withMem st m) x y + k * (withMem st m).WIDTH :=
      e1.symm
    rw [e1']
    exact writeRaw_uniform_upper (withMem st m) x y c hc hy.2 hW0 k hk i
      (hU.elim Or.inl (fun h => Or.inr (Or.inl h)))
  · obtain ⟨px, py, hpx, hpy, hrc⟩ :=
      rotateCoord_onto st hrot hW1 hH1 x (y + st.nRows) hx (by omega)
    refine ⟨px, py, hpx, hpy, fun m => ?_⟩
    have hd := drawPixel_in_range (withMem st m) px py c hpx hpy
    have hrc' : rotateCoord (withMem st m) px py = (x, y + st.nRows) := hrc
    rw [hrc'] at hd
    rw [hd]
    obtain ⟨-, e2⟩ := baseAddr_of_offset (withMem st m) hW hR x y k off hx hy hoff
    have e2' : backBuffer st + off =
        baseAddr (withMem st m) x (y + st.nRows) + k * (withMem st m).WIDTH := e2.symm
    rw [e2']
    have hy' : ¬ (y + (st.nRows : Int)) < (withMem st m).nRows := by
      show ¬ (y + (st.nRows : Int)) < st.nRows
      omega
    exact writeRaw_uniform_lower (withMem st m) x (y + st.nRows) c hc hy' hW0 k hk i
      (hL.elim Or.inl (fun h => Or.inr (Or.inl h)))

theorem buffsize_geometry (st : Panel) (hW : st.WIDTH = 32 ∨ st.WIDTH = 64)
    (hR : st.nRows = 8 ∨ st.nRows = 16) :
    buffsize st = st.WIDTH * st.nRows * 3 ∧ 0 < buffsize st ∧ buffsize st ≤ 32767 := by
  unfold buffsize
  rcases hW with h | h <;> rcases hR with h' | h' <;> rw [h, h'] <;> decide

/-- The generic path of a black or white full-screen fill returns, and leaves
every byte of the back buffer equal to the low byte of the colour. -/
theorem fillRect_full_screen (st : Panel) (c : Nat) (hc : c = 0x0000 ∨ c = 0xFFFF)
    (hW : st.WIDTH = 32 ∨ st.WIDTH = 64) (hR : st.nRows = 8 ∨ st.nRows = 16)
    (hH : st.HEIGHT = 2 * st.nRows) (hrot : Rotated st) :
    ∃ m : Mem, fillRect st 0 0 st._width st._height c = some (withMem st m) ∧
      ∀ off : Int, 0 ≤ off → off < st.WIDTH * st.nRows * 3 →
        m.read (backBuffer st + off) = c % 256 := by
  have hdims : (2 ≤ st._width ∧ st._width ≤ 64) ∧ (2 ≤ st._height ∧ st._height ≤ 64) := by
    obtain ⟨-, hw, hh⟩ := hrot
    rw [hw, hh]
    split_ifs <;> rcases hW with h | h <;> rcases hR with h' | h' <;> rw [hH, h, h'] <;> decide
  obtain ⟨⟨w2, w64⟩, ⟨h2, h64⟩⟩ := hdims
  have hfr := fillRect_columns st st._width st._height c (by omega) (by omega) h2 (by omega)
  have hW0 : st.WIDTH ≠ 0 := by rcases hW with h | h <;> rw [h] <;> decide
  have hI : ∀ s x y, (∃ m, s = withMem st m) → ∃ m, drawPixel s x y c = withMem st m := by
    rintro s x y ⟨m, rfl⟩
    exact ⟨_, drawPixel_withMem st m x y c⟩
  obtain ⟨m2, hm2⟩ : ∃ m, drawColumns c st._height.toNat 0 st._width.toNat 0 st = withMem st m :=
    drawColumns_preserves c (fun s => ∃ m, s = withMem st m) hI _ _ _ _ st ⟨st.mem, rfl⟩
  refine ⟨m2, by rw [hfr, hm2], ?_⟩
  intro off h0 h1
  apply Nat.eq_of_testBit_eq
  intro i
  rw [testBit_uniform_byte c hc i]
  obtain ⟨px, py, hpx, hpy, hest⟩ := pixel_sets_bit st c hc hW hR hH hrot off h0 h1 i
  have hfin := drawColumns_establishes c (fun s => ∃ m, s = withMem st m)
    (fun s => (∃ m, s = withMem st m) ∧
      (s.mem.read (backBuffer st + off)).testBit i = (uniformBit c && decide (i < 8)))
    hI
    (by
      rintro s x y ⟨⟨m, rfl⟩, hb⟩
      exact ⟨⟨_, drawPixel_withMem st m x y c⟩,
        drawPixel_uniform_keeps (withMem st m) x y c hc hW0 _ i hb⟩)
    px py
    (by
      rintro s ⟨m, rfl⟩
      exact ⟨⟨_, drawPixel_withMem st m px py c⟩, hest m⟩)
    st._height.toNat 0 hpy.1 (by omega) st._width.toNat 0 st ⟨st.mem, rfl⟩ hpx.1 (by omega)
  rw [hm2] at hfin
  exact hfin.2

/-- C6: for width 32 or 64, 8 or 16 rows, every rotation and every buffer
content, fillScreen with black or white (the memset path) and the generic
fillRect over the whole display both return and leave identical bytes in the
back buffer. -/
theorem fillScreen_eq_fillRect (st : Panel) (c : Nat) (hc : c = 0x0000 ∨ c = 0xFFFF)
    (hW : st.WIDTH = 32 ∨ st.WIDTH = 64) (hR : st.nRows = 8 ∨ st.nRows = 16)
    (hH : st.HEIGHT = 2 * st.nRows) (hrot : Rotated st) :
    ∃ s1 s2 : Panel, fillScreen st c = some s1 ∧
      fillRect st 0 0 st._width st._height c = some s2 ∧
      bufferBytes s1 (backBuffer s1) = bufferBytes s2 (backBuffer s2) := by
  obtain ⟨m, hm, hbytes⟩ := fillRect_full_screen st c hc hW hR hH hrot
  obtain ⟨b1, b2, b3⟩ := buffsize_geometry st hW hR
  refine ⟨{ st with mem := (memset st.mem (matrixbuff st st.backindex) c (wrapU16 (buffsize st))) },
    withMem st m, ?_, hm, ?_⟩
  · unfold fillScreen
    rw [if_pos hc]
  · apply bufferBytes_congr
    · rfl
    · intro off h0 h1
      have h1' : off < buffsize st := h1
      show (memset st.mem (backBuffer st) c (wrapU16 (buffsize st))).read (backBuffer st + off) =
        m.read (backBuffer st + off)
      rw [hbytes off h0 (by rw [← b1]; exact h1')]
      unfold memset
      dsimp only
      rw [wrapU16_of_range _ (by omega) (by omega), if_pos ⟨by omega, by omega⟩]

theorem fillScreen_eq_fillRect_witness :
    ∃ s1 s2 : Panel, fillScreen (setRotation panel32 1) 0xFFFF = some s1 ∧
      fillRect (setRotation panel32 1) 0 0 (setRotation panel32 1)._width
        (setRotation panel32 1)._height 0xFFFF = some s2 ∧
      bufferBytes s1 (backBuffer s1) = bufferBytes s2 (backBuffer s2) :=
  fillScreen_eq_fillRect (setRotation panel32 1) 0xFFFF (by decide) (by decide) (by decide)
    (by decide) (setRotation_Rotated panel32 1)

/-! ## Colour demotion and the hue wheel -/

set_option maxRecDepth 8000 in
theorem Color888_channels :
    (∀ r < 256, (r &&& 0xF8) <<< 8 = (r >>> 3) <<< 11) ∧
    (∀ g < 256, (g &&& 0xFC) <<< 3 = (g >>> 2) <<< 5) := by
  constructor <;> decide

theorem or3_lt (a b c : Nat) (ha : a < 2 ^ 16) (hb : b < 2 ^ 16) (hc : c < 2 ^ 16) :
    a ||| b ||| c < 2 ^ 16 :=
  Nat.or_lt_two_pow (Nat.or_lt_two_pow ha hb) hc

set_option maxRecDepth 8000 in
/-- C11: for 8-bit channels the linear Color888 is
`((r>>3)<<11) | ((g>>2)<<5) | (b>>3)`, the four-argument form with the gamma
flag off returns the same value, white gives 0xFFFF and black 0. -/
theorem Color888_truncates (gamma : Nat → Nat) (r g b : Nat)
    (hr : r < 256) (hg : g < 256) (hb : b < 256) :
    Color888 r g b = (((r >>> 3) <<< 11) ||| ((g >>> 2) <<< 5) ||| (b >>> 3)) ∧
    Color888g gamma r g b false = Color888 r g b ∧
    Color888 255 255 255 = 0xFFFF ∧ Color888 0 0 0 = 0x0000 := by
  refine ⟨?_, rfl, by decide, by decide⟩
  unfold Color888
  rw [Color888_channels.1 r hr, Color888_channels.2 g hg]
  have h1 : (r >>> 3) <<< 11 < 2 ^ 16 := by
    revert r
    decide
  have h2 : (g >>> 2) <<< 5 < 2 ^ 16 := by
    revert g
    decide
  have h3 : b >>> 3 < 2 ^ 16 := by
    revert b
    decide
  have := or3_lt _ _ _ h1 h2 h3
  unfold wrapU16
  omega

theorem Color888_truncates_witness :
    Color888 200 100 50 = (((200 >>> 3) <<< 11) ||| ((100 >>> 2) <<< 5) ||| (50 >>> 3)) ∧
    Color888g (fun _ => 0) 200 100 50 false = Color888 200 100 50 ∧
    Color888 255 255 255 = 0xFFFF ∧ Color888 0 0 0 = 0x0000 :=
  Color888_truncates (fun _ => 0) 200 100 50 (by decide) (by decide) (by decide)

theorem normHue_eq_emod (h : Int) : normHue h = h % 1536 := by
  unfold normHue
  cases h with
  | ofNat n =>
    have e : Int.tmod (Int.ofNat n) 1536 = ((n % 1536 : Nat) : Int) := rfl
    rw [e]
    have : (Int.ofNat n) % 1536 = ((n % 1536 : Nat) : Int) := rfl
    rw [this, if_neg (by omega)]
  | negSucc n =>
    have e : Int.tmod (Int.negSucc n) 1536 = -(((n + 1) % 1536 : Nat) : Int) := rfl
    rw [e]
    have h2 : Int.negSucc n = -((n : Int) + 1) := rfl
    rw [h2]
    split_ifs <;> omega

/-- C12: ColorHSV has period 1536 in the hue, for every hue, saturation,
value, gamma flag and gamma table; hue -256 and hue 1280 give the same colour. -/
theorem ColorHSV_periodic (gamma : Nat → Nat) (h : Int) (sat val : Nat) (gflag : Bool) :
    ColorHSV gamma (h + 1536) sat val gflag = ColorHSV gamma h sat val gflag ∧
    ColorHSV gamma (-256) sat val gflag = ColorHSV gamma 1280 sat val gflag := by
  have key : ∀ a b : Int, a % 1536 = b % 1536 →
      ColorHSV gamma a sat val gflag = ColorHSV gamma b sat val gflag := by
    intro a b hab
    have hs : hueStage a = hueStage b := by
      unfold hueStage
      rw [normHue_eq_emod, normHue_eq_emod, hab]
    unfold ColorHSV
    rw [hs]
  exact ⟨key _ _ (by omega), key _ _ (by decide)⟩

/-- C13: the hue stage gives (255,0,0), (0,255,0) and (0,0,255) at hue 0, 512
and 1024, and with full saturation and value and no gamma ColorHSV returns
0xF800, 0x07E0 and 0x001F there. -/
theorem ColorHSV_primaries (gamma : Nat → Nat) :
    hueStage 0 = (255, 0, 0) ∧ hueStage 512 = (0, 255, 0) ∧ hueStage 1024 = (0, 0, 255) ∧
    ColorHSV gamma 0 255 255 false = 0xF800 ∧
    ColorHSV gamma 512 255 255 false = 0x07E0 ∧
    ColorHSV gamma 1024 255 255 false = 0x001F := by
  have e : ∀ h : Int, ColorHSV gamma h 255 255 false = ColorHSV (fun _ => 0) h 255 255 false :=
    fun _ => rfl
  rw [e, e, e]
  decide

/-! ## Rotation round trip -/

/-- C14 as stated fails on a panel that is not square: on the 64 wide, 32 high
panel the rotation-1 transform sends (0,0) to (63,0), and the rotation-3
transform sends that to (0,-32), not back to (0,0). -/
theorem rotation_round_trip_not_square :
    (0 ≤ (0 : Int) ∧ (0 : Int) < (setRotation panel64 1)._width) ∧
    (0 ≤ (0 : Int) ∧ (0 : Int) < (setRotation panel64 1)._height) ∧
    rotateCoord (setRotation panel64 1) 0 0 = (63, 0) ∧
    rotateCoord (setRotation panel64 ((4 - 1) % 4)) 63 0 = (0, -32) ∧
    rotateCoord (setRotation panel64 ((4 - 1) % 4))
      (rotateCoord (setRotation panel64 1) 0 0).1 (rotateCoord (setRotation panel64 1) 0 0).2
      ≠ (0, 0) := by
  decide

theorem setRotation_fields (st : Panel) (r : Nat) (hr : r < 4) :
    (setRotation st r).rotation = r ∧ (setRotation st r).WIDTH = st.WIDTH ∧
    (setRotation st r).HEIGHT = st.HEIGHT ∧
    (setRotation st r)._width = (if r % 2 = 0 then st.WIDTH else st.HEIGHT) ∧
    (setRotation st r)._height = (if r % 2 = 0 then st.HEIGHT else st.WIDTH) := by
  interval_cases r <;> exact ⟨rfl, rfl, rfl, rfl, rfl⟩

/-- C14 amended: for rotation 0 or 2 on every panel, and for rotation 1 or 3
on a square panel, the rotation-r transform followed by the
rotation-((4-r) mod 4) transform returns an in-range coordinate to itself. -/
theorem rotation_round_trip (st : Panel) (r : Nat) (x y : Int) (hr : r < 4)
    (hW : st.WIDTH ≤ 32767) (hH : st.HEIGHT ≤ 32767)
    (hx : 0 ≤ x ∧ x < (setRotation st r)._width)
    (hy : 0 ≤ y ∧ y < (setRotation st r)._height)
    (hsq : r = 0 ∨ r = 2 ∨ st.WIDTH = st.HEIGHT) :
    rotateCoord (setRotation st ((4 - r) % 4))
      (rotateCoord (setRotation st r) x y).1 (rotateCoord (setRotation st r) x y).2 = (x, y) := by
  obtain ⟨f1, f2, f3, f4, f5⟩ := setRotation_fields st r hr
  rw [f4] at hx
  rw [f5] at hy
  have hr' : (4 - r) % 4 < 4 := Nat.mod_lt _ (by decide)
  obtain ⟨g1, g2, g3, -, -⟩ := setRotation_fields st ((4 - r) % 4) hr'
  unfold rotateCoord
  rw [f1, f2, f3, g1, g2, g3]
  interval_cases r
  · simp
  · simp at hx hy hsq
    simp only
    rw [wrapI16_of_range (st.WIDTH - 1 - y) (by omega) (by omega),
      wrapI16_of_range _ (by omega) (by omega)]
    congr 1
    omega
  · simp at hx hy
    simp only
    rw [wrapI16_of_range (st.WIDTH - 1 - x) (by omega) (by omega),
      wrapI16_of_range (st.HEIGHT - 1 - y) (by omega) (by omega),
      wrapI16_of_range _ (by omega) (by omega), wrapI16_of_range _ (by omega) (by omega)]
    congr 1 <;> omega
  · simp at hx hy hsq
    simp only
    rw [wrapI16_of_range (st.HEIGHT - 1 - x) (by omega) (by omega),
      wrapI16_of_range _ (by omega) (by omega)]
    congr 1
    omega

theorem rotation_round_trip_witness :
    rotateCoord (setRotation panel64 ((4 - 2) % 4))
      (rotateCoord (setRotation panel64 2) 5 7).1 (rotateCoord (setRotation panel64 2) 5 7).2
      = (5, 7) :=
  rotation_round_trip panel64 2 5 7 (by decide) (by decide) (by decide) (by decide) (by decide)
    (by decide)

/-! ## Built-in font: the glyph index -/

theorem drawCharColumns_congr (font font2 : Nat → Nat) (x y : Int)
    (c color bg size_x size_y : Nat) :
    ∀ (n i : Nat) (st : Panel),
      (∀ k, i ≤ k → k < i + n → fontByte font (c * 5 + k) = fontByte font2 (c * 5 + k)) →
      drawCharColumns font x y c color bg size_x size_y n i st =
        drawCharColumns font2 x y c color bg size_x size_y n i st := by
  intro n
  induction n with
  | zero => intro i st _; rfl
  | succ n ih =>
    intro i st h
    unfold drawCharColumns
    rw [h i (le_refl i) (by omega)]
    congr 1
    funext s
    exact ih (i + 1) s (fun k h1 h2 => h k (by omega) (by omega))

/-- With the built-in font drawChar depends on the font table only through the
five bytes at index `classicCode st c * 5 + i`, `i < 5`. -/
theorem drawChar_reads_columns (font font2 : Nat → Nat) (st : Panel) (x y : Int)
    (c color bg size_x size_y : Nat) (hfont : st.gfxFont = none)
    (h : ∀ i, i < 5 → glyphColumn font st c i = glyphColumn font2 st c i) :
    drawChar font st x y c color bg size_x size_y = drawChar font2 st x y c color bg size_x size_y := by
  unfold drawChar
  rw [hfont]
  dsimp only
  rw [drawCharColumns_congr font font2 x y (classicCode st c) color bg size_x size_y 5 0 st
    (fun k _ h2 => h k (by omega))]

theorem classicCode_cases (st : Panel) (c : Nat) :
    (c < 176 → classicCode st c = c) ∧
    (176 ≤ c → c ≤ 254 → st._cp437 = false → classicCode st c = c + 1) ∧
    (st._cp437 = true → classicCode st c = c) := by
  unfold classicCode
  refine ⟨?_, ?_, ?_⟩
  · intro h
    rw [if_neg (by omega)]
  · intro h1 h2 h3
    rw [if_pos ⟨h3, h1⟩]
    unfold wrapU8
    omega
  · intro h
    rw [if_neg (by simp [h])]

/-- C20 as stated fails at the last code: with the CP437 flag off the 8-bit
increment wraps, so code 255 selects font-table entry 0, not 256. -/
theorem classicCode_255_wraps :
    powerOn._cp437 = false ∧ classicCode powerOn 255 = 0 ∧ classicCode powerOn 255 ≠ 255 + 1 ∧
    glyphColumn (fun i => if i < 5 then 0xFF else 0) powerOn 255 0 = 0xFF := by
  decide

/-- C20 amended: with the built-in font the five glyph columns drawChar reads
are the font-table bytes at index `5*k + i`, where `k` is the code `c` itself
for `c < 176`, `c + 1` for `176 <= c <= 254` with the CP437 flag off, and `c`
with the flag on; so 175 maps to 175, and 176 to 177 by default and to 176
with the flag on. -/
theorem drawChar_glyph_index (font font2 : Nat → Nat) (st : Panel) (x y : Int)
    (c color bg size_x size_y : Nat) (hfont : st.gfxFont = none) :
    ((∀ i, i < 5 → fontByte font (classicCode st c * 5 + i) =
        fontByte font2 (classicCode st c * 5 + i)) →
      drawChar font st x y c color bg size_x size_y =
        drawChar font2 st x y c color bg size_x size_y) ∧
    (c < 176 → classicCode st c = c) ∧
    (176 ≤ c → c ≤ 254 → st._cp437 = false → classicCode st c = c + 1) ∧
    (st._cp437 = true → classicCode st c = c) ∧
    classicCode st 175 = 175 ∧
    (st._cp437 = false → classicCode st 176 = 177) ∧
    (st._cp437 = true → classicCode st 176 = 176) := by
  obtain ⟨h1, h2, h3⟩ := classicCode_cases st c
  obtain ⟨k1, -, -⟩ := classicCode_cases st 175
  obtain ⟨-, k2, k3⟩ := classicCode_cases st 176
  exact ⟨drawChar_reads_columns font font2 st x y c color bg size_x size_y hfont, h1, h2, h3,
    k1 (by decide), k2 (by decide) (by decide), k3⟩

theorem drawChar_glyph_index_witness :
    classicCode panel32 200 = 200 + 1 ∧ classicCode panel32 175 = 175 ∧
    classicCode panel32 176 = 177 :=
  have h := drawChar_glyph_index (fun _ => 0) (fun _ => 0) panel32 0 0 200 0xFFFF 0 1 1 rfl
  ⟨h.2.2.1 (by decide) (by decide) rfl, h.2.2.2.2.1, h.2.2.2.2.2.1 rfl⟩

/-! ## Lines as lists of pixels -/

theorem drawPixels_cons (c : Nat) (st : Panel) (p : Int × Int) (ps : List (Int × Int)) :
    drawPixels c st (p :: ps) = drawPixels c (writePixel st p.1 p.2 c) ps := rfl

theorem writeLineLoop_pixels (steep : Bool) (x1 dx dy ystep : Int) (c : Nat) :
    ∀ (fuel : Nat) (x0 y0 err : Int) (st : Panel),
      writeLineLoop steep x1 dx dy ystep c fuel x0 y0 err st =
        (writeLineLoopPixels steep x1 dx dy ystep fuel x0 y0 err).map (drawPixels c st) := by
  intro fuel
  induction fuel with
  | zero =>
    intro x0 y0 err st
    unfold writeLineLoop writeLineLoopPixels
    split <;> rfl
  | succ n ih =>
    intro x0 y0 err st
    unfold writeLineLoop writeLineLoopPixels
    split
    · dsimp only
      split
      · rw [ih, Option.map_map]
        cases steep <;> rfl
      · rw [ih, Option.map_map]
        cases steep <;> rfl
    · rfl

theorem writeLine_pixels (st : Panel) (x0 y0 x1 y1 : Int) (c : Nat) :
    writeLine st x0 y0 x1 y1 c = (writeLinePixels x0 y0 x1 y1).map (drawPixels c st) := by
  unfold writeLine writeLinePixels
  exact writeLineLoop_pixels _ _ _ _ _ _ _ _ _ _ _

theorem drawLine_pixels (st : Panel) (x0 y0 x1 y1 : Int) (c : Nat) :
    drawLine st x0 y0 x1 y1 c = (drawLinePixels x0 y0 x1 y1).map (drawPixels c st) := by
  unfold drawLine drawLinePixels drawFastVLine drawFastHLine
  split
  · exact writeLine_pixels _ _ _ _ _ _
  · split
    · exact writeLine_pixels _ _ _ _ _ _
    · exact writeLine_pixels _ _ _ _ _ _

theorem writeLineLoopPixels_done (steep : Bool) (x1 dx dy ystep : Int) (fuel : Nat)
    (x0 y0 err : Int) (h : x1 < x0) :
    writeLineLoopPixels steep x1 dx dy ystep fuel x0 y0 err = some [] := by
  cases fuel with
  | zero =>
    unfold writeLineLoopPixels
    rw [if_neg (by omega)]
  | succ n =>
    unfold writeLineLoopPixels
    rw [if_neg (by omega)]

theorem minor_in_range (ys ystep dy j : Int) (hstep : ystep = 1 ∨ ystep = -1)
    (hylo : -32768 ≤ ys) (hyhi : ys ≤ 32767)
    (hyelo : -32768 ≤ ys + ystep * dy) (hyehi : ys + ystep * dy ≤ 32767)
    (hj0 : 0 ≤ j) (hj : j ≤ dy) :
    -32768 ≤ ys + ystep * j ∧ ys + ystep * j ≤ 32767 := by
  rcases hstep with rfl | rfl
  · simp only [one_mul] at *
    omega
  · simp only [neg_one_mul] at *
    omega

/-- Bresenham's loop, started in a state that lies on the line, emits one
pixel per major-axis coordinate up to `x1` and ends on the far endpoint. -/
theorem writeLineLoopPixels_spec (steep : Bool) (xs ys x1 dx dy ystep h2 : Int)
    (hdx : dx = x1 - xs) (hdx32 : dx ≤ 32767) (hdy0 : 0 ≤ dy) (hdy : dy ≤ dx)
    (hx1 : x1 ≤ 32766) (hxs : -32768 ≤ xs) (hstep : ystep = 1 ∨ ystep = -1)
    (hylo : -32768 ≤ ys) (hyhi : ys ≤ 32767)
    (hyelo : -32768 ≤ ys + ystep * dy) (hyehi : ys + ystep * dy ≤ 32767)
    (hh0 : 0 ≤ h2) (hh1 : h2 < dx ∨ dx = 0) :
    ∀ (fuel : Nat) (k s err : Int), 0 ≤ k → k ≤ dx → fuel = (dx - k + 1).toNat →
      0 ≤ s → s ≤ dy → err = h2 - k * dy + s * dx → 0 ≤ err → (err < dx ∨ dx = 0) → err ≤ dx →
      ∃ ps, writeLineLoopPixels steep x1 dx dy ystep fuel (xs + k) (ys + ystep * s) err = some ps ∧
        ps.head? = some (linePoint steep (xs + k) (ys + ystep * s)) ∧
        ps.getLast? = some (linePoint steep x1 (ys + ystep * dy)) ∧
        List.Chain' (lineStep steep ystep dy) ps := by
  intro fuel
  induction fuel with
  | zero =>
    intro k s err hk0 hk hf
    omega
  | succ n ih =>
    intro k s err hk0 hk hf hs0 hs herr he0 he1 he2
    have hx : wrapI16 (xs + k + 1) = xs + (k + 1) := by
      rw [wrapI16_of_range _ (by omega) (by omega)]
      ring
    have hlast : k = dx → s = dy := by
      intro hkd
      subst hkd
      rcases hh1 with hlt | h0
      · by_contra hne
        have hlt2 : s + 1 ≤ dy := by omega
        have := mul_nonneg (sub_nonneg.2 hlt2) (by omega : (0 : Int) ≤ k)
        nlinarith
      · omega
    unfold writeLineLoopPixels
    rw [if_pos (by omega)]
    dsimp only
    rw [wrapI16_of_range (err - dy) (by omega) (by omega), hx]
    have hp : (if steep = true then (ys + ystep * s, xs + k) else (xs + k, ys + ystep * s)) =
        linePoint steep (xs + k) (ys + ystep * s) := rfl
    rw [hp]
    by_cases hkd : k = dx
    · have hsd := hlast hkd
      rw [writeLineLoopPixels_done _ _ _ _ _ _ _ _ _ (by omega),
        writeLineLoopPixels_done _ _ _ _ _ _ _ _ _ (by omega)]
      refine ⟨[linePoint steep (xs + k) (ys + ystep * s)], by split <;> rfl, rfl, ?_, ?_⟩
      · rw [hsd]
        have : xs + k = x1 := by omega
        rw [this]
        rfl
      · exact List.chain'_singleton _
    · have hklt : k + 1 ≤ dx := by omega
      by_cases hneg : err - dy < 0
      · rw [if_pos hneg]
        have hs1 : s + 1 ≤ dy := by
          by_contra hne
          have hge : dy ≤ s := by omega
          have m1 := mul_nonneg (sub_nonneg.2 hge) (by omega : (0 : Int) ≤ dx)
          have m2 := mul_nonneg (sub_nonneg.2 hklt) hdy0
          nlinarith
        have hr := minor_in_range ys ystep dy (s + 1) hstep hylo hyhi hyelo hyehi (by omega) hs1
        have hy : wrapI16 (ys + ystep * s + ystep) = ys + ystep * (s + 1) := by
          have e : ys + ystep * s + ystep = ys + ystep * (s + 1) := by ring
          rw [e]
          exact wrapI16_of_range _ hr.1 hr.2
        rw [hy, wrapI16_of_range (err - dy + dx) (by omega) (by omega)]
        obtain ⟨ps, hps, hhead, hlst, hch⟩ := ih (k + 1) (s + 1) (err - dy + dx) (by omega) hklt
          (by omega) (by omega) hs1 (by rw [herr]; ring) (by omega) (by omega) (by omega)
        rw [hps]
        refine ⟨linePoint steep (xs + k) (ys + ystep * s) :: ps, rfl, rfl, ?_, ?_⟩
        · cases ps with
          | nil => simp at hhead
          | cons q qs => rw [List.getLast?_cons_cons]; exact hlst
        · rw [List.chain'_cons']
          refine ⟨?_, hch⟩
          intro q hq
          rw [hhead] at hq
          cases hq
          unfold lineStep linePoint
          cases steep
          · simp only [Bool.false_eq_true, if_false]
            constructor
            · ring
            · right
              constructor
              · ring
              · omega
          · simp only [if_true]
            constructor
            · ring
            · right
              constructor
              · ring
              · omega
      · rw [if_neg hneg]
        obtain ⟨ps, hps, hhead, hlst, hch⟩ := ih (k + 1) s (err - dy) (by omega) hklt
          (by omega) hs0 hs (by rw [herr]; ring) (by omega) (by omega) (by omega)
        rw [hps]
        refine ⟨linePoint steep (xs + k) (ys + ystep * s) :: ps, rfl, rfl, ?_, ?_⟩
        · cases ps with
          | nil => simp at hhead
          | cons q qs => rw [List.getLast?_cons_cons]; exact hlst
        · rw [List.chain'_cons']
          refine ⟨?_, hch⟩
          intro q hq
          rw [hhead] at hq
          cases hq
          unfold lineStep linePoint
          cases steep
          · simp only [Bool.false_eq_true, if_false]
            constructor
            · ring
            · left; trivial
          · simp only [if_true]
            constructor
            · ring
            · left; trivial


theorem abs16_abs (n : Int) (h0 : -32767 ≤ n) (h1 : n ≤ 32767) : abs16 n = |n| := by
  unfold abs16
  rw [wrapI16_of_range n (by omega) h1]
  have : |n| ≤ 32767 := abs_le.2 ⟨by omega, h1⟩
  exact wrapI16_of_range _ (by have := abs_nonneg n; omega) this

/-- A line whose ends are already ordered along the major axis. -/
theorem bresenham_sorted (steep : Bool) (xs ys xe ye : Int)
    (hx : xs ≤ xe) (hxs : -32768 ≤ xs) (hxe : xe ≤ 32766) (hdx : xe - xs ≤ 32767)
    (hys : -32768 ≤ ys ∧ ys ≤ 32767) (hye : -32768 ≤ ye ∧ ye ≤ 32767)
    (hflat : |ye - ys| ≤ xe - xs) :
    ∃ ps, writeLineLoopPixels steep xe (wrapI16 (xe - xs)) (wrapI16 (abs16 (ye - ys)))
        (if ys < ye then 1 else -1) (xe - xs + 1).toNat xs ys
        (wrapI16 (Int.tdiv (wrapI16 (xe - xs)) 2)) = some ps ∧
      ps.head? = some (linePoint steep xs ys) ∧
      ps.getLast? = some (linePoint steep xe ye) ∧
      (ys ≤ ye → List.Chain' (lineRises steep) ps) ∧
      (ye ≤ ys → List.Chain' (lineFalls steep) ps) := by
  have habs : |ye - ys| = if ys < ye then ye - ys else ys - ye := by
    split
    · exact abs_of_nonneg (by omega)
    · rw [abs_of_nonpos (by omega)]
      ring
  have hd : |ye - ys| ≤ 32767 := by omega
  have hd0 := abs_nonneg (ye - ys)
  have e1 : wrapI16 (xe - xs) = xe - xs := wrapI16_of_range _ (by omega) hdx
  have e2 : wrapI16 (abs16 (ye - ys)) = |ye - ys| := by
    rw [abs16_abs _ (by split at habs <;> omega) (by split at habs <;> omega)]
    exact wrapI16_of_range _ (by omega) hd
  have e3 : 0 ≤ Int.tdiv (xe - xs) 2 ∧ (Int.tdiv (xe - xs) 2 < xe - xs ∨ xe - xs = 0) ∧
      Int.tdiv (xe - xs) 2 ≤ xe - xs := by
    rw [Int.tdiv_eq_ediv (by omega) (by omega)]
    omega
  obtain ⟨e3a, e3b, e3c⟩ := e3
  rw [e1, e2, wrapI16_of_range _ (by omega) (by omega)]
  have hstep : (if ys < ye then (1 : Int) else -1) = 1 ∨ (if ys < ye then (1 : Int) else -1) = -1 := by
    split
    · left; rfl
    · right; rfl
  have hend : ys + (if ys < ye then (1 : Int) else -1) * |ye - ys| = ye := by
    rw [habs]
    split
    · ring
    · ring
  obtain ⟨ps, hps, hhead, hlast, hch⟩ := writeLineLoopPixels_spec steep xs ys xe (xe - xs)
    (|ye - ys|) (if ys < ye then 1 else -1) (Int.tdiv (xe - xs) 2) rfl hdx hd0 hflat hxe hxs hstep
    hys.1 hys.2 (by rw [hend]; exact hye.1) (by rw [hend]; exact hye.2) e3a e3b
    (xe - xs + 1).toNat 0 0 (Int.tdiv (xe - xs) 2) (le_refl _) (by omega) (by rw [sub_zero])
    (le_refl _) hd0 (by ring) e3a e3b e3c
  rw [mul_zero, add_zero, add_zero] at hps hhead
  rw [hend] at hlast
  refine ⟨ps, hps, hhead, hlast, ?_, ?_⟩
  · intro hle
    refine List.Chain'.imp ?_ hch
    intro p q hpq
    unfold lineStep at hpq
    unfold lineRises
    cases steep
    · simp only [Bool.false_eq_true, if_false] at hpq ⊢
      refine ⟨hpq.1, ?_⟩
      rcases hpq.2 with h | ⟨h, hpos⟩
      · omega
      · split at h
        · omega
        · split at habs <;> omega
    · simp only [if_true] at hpq ⊢
      refine ⟨hpq.1, ?_⟩
      rcases hpq.2 with h | ⟨h, hpos⟩
      · omega
      · split at h
        · omega
        · split at habs <;> omega
  · intro hle
    refine List.Chain'.imp ?_ hch
    intro p q hpq
    unfold lineStep at hpq
    unfold lineFalls
    cases steep
    · simp only [Bool.false_eq_true, if_false] at hpq ⊢
      refine ⟨hpq.1, ?_⟩
      rcases hpq.2 with h | ⟨h, hpos⟩
      · omega
      · split at h
        · omega
        · omega
    · simp only [if_true] at hpq ⊢
      refine ⟨hpq.1, ?_⟩
      rcases hpq.2 with h | ⟨h, hpos⟩
      · omega
      · split at h
        · omega
        · omega

theorem head_mem (ps : List (Int × Int)) (p : Int × Int) (h : ps.head? = some p) : p ∈ ps := by
  cases ps with
  | nil => simp at h
  | cons q qs =>
    simp only [List.head?_cons, Option.some.injEq] at h
    rw [h]
    exact List.mem_cons_self _ _

theorem last_mem (ps : List (Int × Int)) (p : Int × Int) (h : ps.getLast? = some p) : p ∈ ps :=
  List.mem_of_getLast?_eq_some h

/-- The pixels of a line between two points: both ends are among them and the
pixels step along the major axis. -/
theorem writeLinePixels_spec (x0 y0 x1 y1 : Int)
    (hx0 : -32768 ≤ x0 ∧ x0 ≤ 32766) (hy0 : -32768 ≤ y0 ∧ y0 ≤ 32766)
    (hx1 : -32768 ≤ x1 ∧ x1 ≤ 32766) (hy1 : -32768 ≤ y1 ∧ y1 ≤ 32766)
    (hdx : |x1 - x0| ≤ 32767) (hdy : |y1 - y0| ≤ 32767) :
    ∃ ps, writeLinePixels x0 y0 x1 y1 = some ps ∧ (x0, y0) ∈ ps ∧ (x1, y1) ∈ ps ∧
      (|y1 - y0| ≤ |x1 - x0| →
        ((x0 ≤ x1 ∧ y0 ≤ y1) ∨ (x1 ≤ x0 ∧ y1 ≤ y0) → List.Chain' (lineRises false) ps) ∧
        ((x0 ≤ x1 ∧ y1 ≤ y0) ∨ (x1 ≤ x0 ∧ y0 ≤ y1) → List.Chain' (lineFalls false) ps)) ∧
      (|x1 - x0| < |y1 - y0| →
        ((y0 ≤ y1 ∧ x0 ≤ x1) ∨ (y1 ≤ y0 ∧ x1 ≤ x0) → List.Chain' (lineRises true) ps) ∧
        ((y0 ≤ y1 ∧ x1 ≤ x0) ∨ (y1 ≤ y0 ∧ x0 ≤ x1) → List.Chain' (lineFalls true) ps)) := by
  have hax := abs_le.1 hdx
  have hay := abs_le.1 hdy
  have eax : abs16 (x1 - x0) = |x1 - x0| := abs16_abs _ hax.1 hax.2
  have eay : abs16 (y1 - y0) = |y1 - y0| := abs16_abs _ hay.1 hay.2
  have hxabs : |x1 - x0| = if x0 ≤ x1 then x1 - x0 else x0 - x1 := by
    split
    · exact abs_of_nonneg (by omega)
    · rw [abs_of_nonpos (by omega)]
      ring
  have hyabs : |y1 - y0| = if y0 ≤ y1 then y1 - y0 else y0 - y1 := by
    split
    · exact abs_of_nonneg (by omega)
    · rw [abs_of_nonpos (by omega)]
      ring
  have hyabs2 : |y0 - y1| = |y1 - y0| := abs_sub_comm _ _
  have hxabs2 : |x0 - x1| = |x1 - x0| := abs_sub_comm _ _
  unfold writeLinePixels
  rw [eax, eay]
  by_cases hsteep : |y1 - y0| > |x1 - x0|
  · have hs : decide (|y1 - y0| > |x1 - x0|) = true := decide_eq_true hsteep
    simp only [hs, if_true]
    by_cases hsw : y0 > y1
    · rw [if_pos hsw, if_pos hsw, if_pos hsw, if_pos hsw]
      obtain ⟨ps, hps, hhead, hlast, hup, hdown⟩ := bresenham_sorted true y1 x1 y0 x0
        (by omega) hy1.1 hy0.2 (by split at hyabs <;> omega) ⟨hx1.1, by omega⟩ ⟨hx0.1, by omega⟩
        (by split at hyabs <;> split at hxabs <;> omega)
      refine ⟨ps, hps, last_mem _ _ hlast, head_mem _ _ hhead, ?_, ?_⟩
      · intro h
        omega
      · intro _
        exact ⟨fun h => hup (by omega), fun h => hdown (by omega)⟩
    · rw [if_neg hsw, if_neg hsw, if_neg hsw, if_neg hsw]
      obtain ⟨ps, hps, hhead, hlast, hup, hdown⟩ := bresenham_sorted true y0 x0 y1 x1
        (by omega) hy0.1 hy1.2 (by split at hyabs <;> omega) ⟨hx0.1, by omega⟩ ⟨hx1.1, by omega⟩
        (by split at hyabs <;> split at hxabs <;> omega)
      refine ⟨ps, hps, head_mem _ _ hhead, last_mem _ _ hlast, ?_, ?_⟩
      · intro h
        omega
      · intro _
        exact ⟨fun h => hup (by omega), fun h => hdown (by omega)⟩
  · have hs : decide (|y1 - y0| > |x1 - x0|) = false := decide_eq_false hsteep
    simp only [hs, Bool.false_eq_true, if_false]
    by_cases hsw : x0 > x1
    · rw [if_pos hsw, if_pos hsw, if_pos hsw, if_pos hsw]
      obtain ⟨ps, hps, hhead, hlast, hup, hdown⟩ := bresenham_sorted false x1 y1 x0 y0
        (by omega) hx1.1 hx0.2 (by split at hxabs <;> omega) ⟨hy1.1, by omega⟩ ⟨hy0.1, by omega⟩
        (by rw [hyabs2]; split at hyabs <;> split at hxabs <;> omega)
      refine ⟨ps, hps, last_mem _ _ hlast, head_mem _ _ hhead, ?_, ?_⟩
      · intro _
        exact ⟨fun h => hup (by omega), fun h => hdown (by omega)⟩
      · intro h
        omega
    · rw [if_neg hsw, if_neg hsw, if_neg hsw, if_neg hsw]
      obtain ⟨ps, hps, hhead, hlast, hup, hdown⟩ := bresenham_sorted false x0 y0 x1 y1
        (by omega) hx0.1 hx1.2 (by split at hxabs <;> omega) ⟨hy0.1, by omega⟩ ⟨hy1.1, by omega⟩
        (by split at hyabs <;> split at hxabs <;> omega)
      refine ⟨ps, hps, head_mem _ _ hhead, last_mem _ _ hlast, ?_, ?_⟩
      · intro _
        exact ⟨fun h => hup (by omega), fun h => hdown (by omega)⟩
      · intro h
        omega

theorem lineRises_flat (ps : List (Int × Int)) (h : List.Chain' (lineRises false) ps) :
    List.Chain' (fun p q => q.1 = p.1 + 1 ∧ p.2 ≤ q.2) ps :=
  List.Chain'.imp (fun p q hpq => by simpa [lineRises] using hpq) h

theorem lineFalls_flat (ps : List (Int × Int)) (h : List.Chain' (lineFalls false) ps) :
    List.Chain' (fun p q => q.1 = p.1 + 1 ∧ q.2 ≤ p.2) ps :=
  List.Chain'.imp (fun p q hpq => by simpa [lineFalls] using hpq) h

theorem lineRises_steep (ps : List (Int × Int)) (h : List.Chain' (lineRises true) ps) :
    List.Chain' (fun p q => q.2 = p.2 + 1 ∧ p.1 ≤ q.1) ps :=
  List.Chain'.imp (fun p q hpq => by simpa [lineRises] using hpq) h

theorem lineFalls_steep (ps : List (Int × Int)) (h : List.Chain' (lineFalls true) ps) :
    List.Chain' (fun p q => q.2 = p.2 + 1 ∧ q.1 ≤ p.1) ps :=
  List.Chain'.imp (fun p q hpq => by simpa [lineFalls] using hpq) h

theorem span_end (a b : Int) (ha : -32768 ≤ a) (hab : a ≤ b) (hb : b ≤ 32767)
    (hd : b - a ≤ 32767) : wrapI16 (a + wrapI16 (b - a + 1) - 1) = b := by
  unfold wrapI16
  omega

/-- C15 as stated fails for endpoints at the edge of the 16-bit coordinate
range: the loop of writeLine counts a 16-bit variable up to the larger
major-axis coordinate, and when that is 32767 the test `x0 <= x1` never fails,
so drawLine from (32766,0) to (32767,1) does not return. -/
theorem drawLine_diverges_at_edge :
    drawLinePixels 32766 0 32767 1 = none ∧
    (drawLine panel32 32766 0 32767 1 0xFFFF).isSome = false := by
  decide

/-- C15 amended: for endpoints with coordinates from -32768 to 32766 whose
differences fit in 16 bits, drawLine returns, having passed to writePixel a list
of pixels that contains both endpoints; for a line that is not steep x goes up
by one from each pixel to the next and y is non-decreasing when the line runs
towards larger y with larger x (as from (0,0) to (w-1,h-1)) and non-increasing
otherwise; for a steep line the same holds with x and y exchanged. -/
theorem drawLine_endpoints_monotone (st : Panel) (x0 y0 x1 y1 : Int) (c : Nat)
    (hx0 : -32768 ≤ x0 ∧ x0 ≤ 32766) (hy0 : -32768 ≤ y0 ∧ y0 ≤ 32766)
    (hx1 : -32768 ≤ x1 ∧ x1 ≤ 32766) (hy1 : -32768 ≤ y1 ∧ y1 ≤ 32766)
    (hdx : |x1 - x0| ≤ 32767) (hdy : |y1 - y0| ≤ 32767) :
    ∃ ps, drawLinePixels x0 y0 x1 y1 = some ps ∧
      drawLine st x0 y0 x1 y1 c = some (drawPixels c st ps) ∧
      (x0, y0) ∈ ps ∧ (x1, y1) ∈ ps ∧
      (|y1 - y0| ≤ |x1 - x0| →
        ((x0 ≤ x1 ∧ y0 ≤ y1) ∨ (x1 ≤ x0 ∧ y1 ≤ y0) →
          List.Chain' (fun p q => q.1 = p.1 + 1 ∧ p.2 ≤ q.2) ps) ∧
        ((x0 ≤ x1 ∧ y1 ≤ y0) ∨ (x1 ≤ x0 ∧ y0 ≤ y1) →
          List.Chain' (fun p q => q.1 = p.1 + 1 ∧ q.2 ≤ p.2) ps)) ∧
      (|x1 - x0| < |y1 - y0| →
        ((y0 ≤ y1 ∧ x0 ≤ x1) ∨ (y1 ≤ y0 ∧ x1 ≤ x0) →
          List.Chain' (fun p q => q.2 = p.2 + 1 ∧ p.1 ≤ q.1) ps) ∧
        ((y0 ≤ y1 ∧ x1 ≤ x0) ∨ (y1 ≤ y0 ∧ x0 ≤ x1) →
          List.Chain' (fun p q => q.2 = p.2 + 1 ∧ q.1 ≤ p.1) ps)) := by
  have hax := abs_le.1 hdx
  have hay := abs_le.1 hdy
  have key : ∀ a0 b0 a1 b1 : Int, drawLinePixels x0 y0 x1 y1 = writeLinePixels a0 b0 a1 b1 →
      (-32768 ≤ a0 ∧ a0 ≤ 32766) → (-32768 ≤ b0 ∧ b0 ≤ 32766) →
      (-32768 ≤ a1 ∧ a1 ≤ 32766) → (-32768 ≤ b1 ∧ b1 ≤ 32766) →
      (a0 = x0 ∧ b0 = y0 ∧ a1 = x1 ∧ b1 = y1) ∨ (a0 = x1 ∧ b0 = y1 ∧ a1 = x0 ∧ b1 = y0) →
      ∃ ps, drawLinePixels x0 y0 x1 y1 = some ps ∧
        drawLine st x0 y0 x1 y1 c = some (drawPixels c st ps) ∧
        (x0, y0) ∈ ps ∧ (x1, y1) ∈ ps ∧
        (|y1 - y0| ≤ |x1 - x0| →
          ((x0 ≤ x1 ∧ y0 ≤ y1) ∨ (x1 ≤ x0 ∧ y1 ≤ y0) →
            List.Chain' (fun p q => q.1 = p.1 + 1 ∧ p.2 ≤ q.2) ps) ∧
          ((x0 ≤ x1 ∧ y1 ≤ y0) ∨ (x1 ≤ x0 ∧ y0 ≤ y1) →
            List.Chain' (fun p q => q.1 = p.1 + 1 ∧ q.2 ≤ p.2) ps)) ∧
        (|x1 - x0| < |y1 - y0| →
          ((y0 ≤ y1 ∧ x0 ≤ x1) ∨ (y1 ≤ y0 ∧ x1 ≤ x0) →
            List.Chain' (fun p q => q.2 = p.2 + 1 ∧ p.1 ≤ q.1) ps) ∧
          ((y0 ≤ y1 ∧ x1 ≤ x0) ∨ (y1 ≤ y0 ∧ x0 ≤ x1) →
            List.Chain' (fun p q => q.2 = p.2 + 1 ∧ q.1 ≤ p.1) ps)) := by
    intro a0 b0 a1 b1 heq ha0 hb0 ha1 hb1 hor
    have hda : |a1 - a0| = |x1 - x0| := by
      rcases hor with ⟨e1, _, e3, _⟩ | ⟨e1, _, e3, _⟩
      · rw [e1, e3]
      · rw [e1, e3]
        exact abs_sub_comm _ _
    have hdb : |b1 - b0| = |y1 - y0| := by
      rcases hor with ⟨_, e2, _, e4⟩ | ⟨_, e2, _, e4⟩
      · rw [e2, e4]
      · rw [e2, e4]
        exact abs_sub_comm _ _
    obtain ⟨ps, hps, hm0, hm1, hflat, hsteep⟩ := writeLinePixels_spec a0 b0 a1 b1 ha0 hb0 ha1 hb1
      (by rw [hda]; exact hdx) (by rw [hdb]; exact hdy)
    rw [hda, hdb] at hflat hsteep
    refine ⟨ps, by rw [heq, hps], by rw [drawLine_pixels, heq, hps]; rfl, ?_, ?_, ?_, ?_⟩
    · rcases hor with ⟨e1, e2, _, _⟩ | ⟨_, _, e3, e4⟩
      · rw [← e1, ← e2]; exact hm0
      · rw [← e3, ← e4]; exact hm1
    · rcases hor with ⟨_, _, e3, e4⟩ | ⟨e1, e2, _, _⟩
      · rw [← e3, ← e4]; exact hm1
      · rw [← e1, ← e2]; exact hm0
    · intro hf
      refine ⟨fun h => lineRises_flat _ ((hflat hf).1 ?_), fun h => lineFalls_flat _ ((hflat hf).2 ?_)⟩
      · rcases hor with ⟨e1, e2, e3, e4⟩ | ⟨e1, e2, e3, e4⟩ <;> rw [e1, e2, e3, e4] <;> omega
      · rcases hor with ⟨e1, e2, e3, e4⟩ | ⟨e1, e2, e3, e4⟩ <;> rw [e1, e2, e3, e4] <;> omega
    · intro hs
      refine ⟨fun h => lineRises_steep _ ((hsteep hs).1 ?_),
        fun h => lineFalls_steep _ ((hsteep hs).2 ?_)⟩
      · rcases hor with ⟨e1, e2, e3, e4⟩ | ⟨e1, e2, e3, e4⟩ <;> rw [e1, e2, e3, e4] <;> omega
      · rcases hor with ⟨e1, e2, e3, e4⟩ | ⟨e1, e2, e3, e4⟩ <;> rw [e1, e2, e3, e4] <;> omega
  by_cases hxe : x0 = x1
  · by_cases hsw : y0 > y1
    · refine key x0 y1 x0 y0 ?_ hx0 hy1 hx0 hy0 (Or.inr ⟨hxe, rfl, rfl, rfl⟩)
      unfold drawLinePixels
      rw [if_pos hxe]
      simp only [if_pos hsw]
      rw [span_end y1 y0 hy1.1 (by omega) (by omega) (by omega)]
    · refine key x0 y0 x0 y1 ?_ hx0 hy0 hx0 hy1 (Or.inl ⟨rfl, rfl, hxe, rfl⟩)
      unfold drawLinePixels
      rw [if_pos hxe]
      simp only [if_neg hsw]
      rw [span_end y0 y1 hy0.1 (by omega) (by omega) (by omega)]
  · by_cases hye : y0 = y1
    · by_cases hsw : x0 > x1
      · refine key x1 y0 x0 y0 ?_ hx1 hy0 hx0 hy0 (Or.inr ⟨rfl, hye, rfl, rfl⟩)
        unfold drawLinePixels
        rw [if_neg hxe, if_pos hye]
        simp only [if_pos hsw]
        rw [span_end x1 x0 hx1.1 (by omega) (by omega) (by omega)]
      · refine key x0 y0 x1 y0 ?_ hx0 hy0 hx1 hy0 (Or.inl ⟨rfl, rfl, rfl, hye⟩)
        unfold drawLinePixels
        rw [if_neg hxe, if_pos hye]
        simp only [if_neg hsw]
        rw [span_end x0 x1 hx0.1 (by omega) (by omega) (by omega)]
    · refine key x0 y0 x1 y1 ?_ hx0 hy0 hx1 hy1 (Or.inl ⟨rfl, rfl, rfl, rfl⟩)
      unfold drawLinePixels
      rw [if_neg hxe, if_neg hye]

theorem drawLine_endpoints_monotone_witness :
    ∃ ps, drawLinePixels 0 0 63 31 = some ps ∧
      drawLine panel64 0 0 63 31 0xFFFF = some (drawPixels 0xFFFF panel64 ps) ∧
      ((0 : Int), (0 : Int)) ∈ ps ∧ ((63 : Int), (31 : Int)) ∈ ps ∧
      (|(31 : Int) - 0| ≤ |(63 : Int) - 0| →
        (((0 : Int) ≤ 63 ∧ (0 : Int) ≤ 31) ∨ ((63 : Int) ≤ 0 ∧ (31 : Int) ≤ 0) →
          List.Chain' (fun p q => q.1 = p.1 + 1 ∧ p.2 ≤ q.2) ps) ∧
        (((0 : Int) ≤ 63 ∧ (31 : Int) ≤ 0) ∨ ((63 : Int) ≤ 0 ∧ (0 : Int) ≤ 31) →
          List.Chain' (fun p q => q.1 = p.1 + 1 ∧ q.2 ≤ p.2) ps)) ∧
      (|(63 : Int) - 0| < |(31 : Int) - 0| →
        (((0 : Int) ≤ 31 ∧ (0 : Int) ≤ 63) ∨ ((31 : Int) ≤ 0 ∧ (63 : Int) ≤ 0) →
          List.Chain' (fun p q => q.2 = p.2 + 1 ∧ p.1 ≤ q.1) ps) ∧
        (((0 : Int) ≤ 31 ∧ (63 : Int) ≤ 0) ∨ ((31 : Int) ≤ 0 ∧ (0 : Int) ≤ 63) →
          List.Chain' (fun p q => q.2 = p.2 + 1 ∧ q.1 ≤ p.1) ps)) :=
  drawLine_endpoints_monotone panel64 0 0 63 31 0xFFFF (by decide) (by decide) (by decide)
    (by decide) (by simp) (by simp)

/-! ## Lines along an axis -/

theorem writeLineLoopPixels_flat (steep : Bool) (b x1 dx ystep err : Int)
    (h0 : 0 ≤ err) (h1 : err ≤ 32767) (hx1 : x1 ≤ 32766) :
    ∀ (fuel : Nat) (x0 : Int), -32768 ≤ x0 → x0 ≤ x1 + 1 → fuel = (x1 - x0 + 1).toNat →
      writeLineLoopPixels steep x1 dx 0 ystep fuel x0 b err = some (majorPixels steep b fuel x0) := by
  intro fuel
  induction fuel with
  | zero =>
    intro x0 _ hle hf
    unfold writeLineLoopPixels majorPixels
    rw [if_neg (by omega)]
  | succ n ih =>
    intro x0 hlo hle hf
    have he : wrapI16 (err - 0) = err := by
      rw [sub_zero]
      exact wrapI16_of_range _ (by omega) (by omega)
    have hx : wrapI16 (x0 + 1) = x0 + 1 := wrapI16_of_range _ (by omega) (by omega)
    unfold writeLineLoopPixels majorPixels
    rw [if_pos (by omega)]
    dsimp only
    rw [he, if_neg (by omega), hx, ih (x0 + 1) (by omega) (by omega) (by omega)]
    rfl

theorem flat_sorted (steep : Bool) (xs xe b ystep : Int) (hx : xs ≤ xe) (hxs : -32768 ≤ xs)
    (hxe : xe ≤ 32766) (hdx : xe - xs ≤ 32767) :
    writeLineLoopPixels steep xe (wrapI16 (xe - xs)) (wrapI16 (abs16 (b - b)))
        ystep (xe - xs + 1).toNat xs b
        (wrapI16 (Int.tdiv (wrapI16 (xe - xs)) 2)) =
      some (majorPixels steep b (xe - xs + 1).toNat xs) := by
  have e0 : wrapI16 (abs16 (b - b)) = 0 := by
    rw [sub_self]
    decide
  have e1 : wrapI16 (xe - xs) = xe - xs := wrapI16_of_range _ (by omega) hdx
  have e3 : 0 ≤ Int.tdiv (xe - xs) 2 ∧ Int.tdiv (xe - xs) 2 ≤ 32767 := by
    rw [Int.tdiv_eq_ediv (by omega) (by omega)]
    omega
  rw [e0, e1, wrapI16_of_range _ (by omega) e3.2]
  exact writeLineLoopPixels_flat steep b xe _ _ _ e3.1 e3.2 hxe _ xs hxs (by omega) rfl

/-- A horizontal line given left end first. -/
theorem writeLinePixels_row (a b y : Int) (hab : a ≤ b) (ha : -32768 ≤ a) (hb : b ≤ 32766)
    (hd : b - a ≤ 32767) :
    writeLinePixels a y b y = some (majorPixels false y (b - a + 1).toNat a) := by
  unfold writeLinePixels
  have e1 : abs16 (y - y) = 0 := by
    rw [sub_self]
    decide
  have e2 : abs16 (b - a) = b - a := abs16_of_range _ (by omega) hd
  have hs : decide (abs16 (y - y) > abs16 (b - a)) = false := by
    rw [e1, e2]
    exact decide_eq_false (by omega)
  have hc : ¬ a > b := by omega
  simp only [hs, Bool.false_eq_true, if_false, if_neg hc]
  exact flat_sorted false a b y _ hab ha hb hd

/-- A horizontal line given right end first. -/
theorem writeLinePixels_row_rev (a b y : Int) (hab : b < a) (hb : -32768 ≤ b) (ha : a ≤ 32766)
    (hd : a - b ≤ 32767) :
    writeLinePixels a y b y = some (majorPixels false y (a - b + 1).toNat b) := by
  unfold writeLinePixels
  have e1 : abs16 (y - y) = 0 := by
    rw [sub_self]
    decide
  have e2 : abs16 (b - a) = a - b := by
    rw [abs16_abs _ (by omega) (by omega), abs_of_nonpos (by omega)]
    ring
  have hs : decide (abs16 (y - y) > abs16 (b - a)) = false := by
    rw [e1, e2]
    exact decide_eq_false (by omega)
  have hc : a > b := by omega
  simp only [hs, Bool.false_eq_true, if_false, if_pos hc]
  exact flat_sorted false b a y _ (by omega) hb ha hd

/-- A vertical line given lower end first. -/
theorem writeLinePixels_col_rev (x a b : Int) (hab : b < a) (hb : -32768 ≤ b) (ha : a ≤ 32766)
    (hd : a - b ≤ 32767) :
    writeLinePixels x a x b = some (majorPixels true x (a - b + 1).toNat b) := by
  unfold writeLinePixels
  have e1 : abs16 (x - x) = 0 := by
    rw [sub_self]
    decide
  have e2 : abs16 (b - a) = a - b := by
    rw [abs16_abs _ (by omega) (by omega), abs_of_nonpos (by omega)]
    ring
  have hs : decide (abs16 (b - a) > abs16 (x - x)) = true := by
    rw [e1, e2]
    exact decide_eq_true (by omega)
  have hc : a > b := by omega
  simp only [hs, if_true, if_pos hc]
  exact flat_sorted true b a x _ (by omega) hb ha hd

theorem mem_majorPixels_false (y : Int) :
    ∀ (n : Nat) (a : Int) (p : Int × Int),
      p ∈ majorPixels false y n a ↔ (p.2 = y ∧ a ≤ p.1 ∧ p.1 < a + n) := by
  intro n
  induction n with
  | zero =>
    intro a p
    unfold majorPixels
    simp only [List.not_mem_nil, false_iff]
    omega
  | succ n ih =>
    intro a p
    unfold majorPixels linePoint
    rw [List.mem_cons, ih]
    simp only [Bool.false_eq_true, if_false]
    constructor
    · rintro (h | h)
      · rw [h]
        simp only [true_and]
        omega
      · omega
    · intro h
      by_cases hp : p.1 = a
      · left
        exact Prod.ext hp h.1
      · right
        omega

/-! ## Shapes of size zero -/

theorem drawFastVLine_zero (st : Panel) (x y : Int) (c : Nat)
    (hy : -32768 < y ∧ y ≤ 32766) :
    drawFastVLine st x y 0 c = some (drawPixels c st [(x, y - 1), (x, y)]) := by
  unfold drawFastVLine
  have e : wrapI16 (y + 0 - 1) = y - 1 := by
    rw [add_zero]
    exact wrapI16_of_range _ (by omega) (by omega)
  rw [writeLine_pixels, e, writeLinePixels_col_rev x y (y - 1) (by omega) (by omega) hy.2 (by omega)]
  have e2 : (y - (y - 1) + 1).toNat = 2 := by
    have : y - (y - 1) + 1 = 2 := by ring
    rw [this]
    rfl
  rw [e2]
  unfold majorPixels majorPixels majorPixels linePoint
  simp only [if_true, sub_add_cancel, Option.map_some']

theorem drawFastHLine_zero (st : Panel) (x y : Int) (c : Nat)
    (hx : -32768 < x ∧ x ≤ 32766) :
    drawFastHLine st x y 0 c = some (drawPixels c st [(x - 1, y), (x, y)]) := by
  unfold drawFastHLine
  have e : wrapI16 (x + 0 - 1) = x - 1 := by
    rw [add_zero]
    exact wrapI16_of_range _ (by omega) (by omega)
  rw [writeLine_pixels, e, writeLinePixels_row_rev x (x - 1) y (by omega) (by omega) hx.2 (by omega)]
  have e2 : (x - (x - 1) + 1).toNat = 2 := by
    have : x - (x - 1) + 1 = 2 := by ring
    rw [this]
    rfl
  rw [e2]
  unfold majorPixels majorPixels majorPixels linePoint
  simp only [Bool.false_eq_true, if_false, sub_add_cancel, Option.map_some']

theorem fillRectLoop_zero_height (c : Nat) (y : Int) (hy : -32768 < y ∧ y ≤ 32766) (bound : Int)
    (hb : bound ≤ 32767) :
    ∀ (fuel : Nat) (i : Int) (st : Panel), -32768 ≤ i → i ≤ bound →
      fuel = (bound - i).toNat →
      fillRectLoop y 0 bound c fuel i st = some (drawPixels c st (zeroHeightPixels y fuel i)) := by
  intro fuel
  induction fuel with
  | zero =>
    intro i st _ hle hf
    unfold fillRectLoop zeroHeightPixels
    rw [if_neg (by omega)]
    rfl
  | succ n ih =>
    intro i st hlo hle hf
    unfold fillRectLoop zeroHeightPixels
    have hv : writeFastVLine st i y 0 c = some (drawPixels c st [(i, y - 1), (i, y)]) :=
      drawFastVLine_zero st i y c hy
    rw [if_pos (by omega), hv]
    have hx : wrapI16 (i + 1) = i + 1 := wrapI16_of_range _ (by omega) (by omega)
    simp only [Option.bind, hx]
    rw [ih (i + 1) _ (by omega) (by omega) (by omega)]
    rfl

/-- C17 fails in the code for height 0 and for length 0: the call
drawFastVLine(0, 5, 0) reaches writeLine(0, 5, 0, 4), which orders its ends and
writes the two pixels (0,4) and (0,5), so a cleared 32x32 panel does not stay
cleared; fillRect(0, 0, 2, 0) draws such a line in each of its two columns.  A
line of height 0 that draws two pixels, one of them above the "top-most y", is
a slip of the code: fillRect with w = 0 draws nothing. -/
theorem zero_height_draws :
    writeLinePixels 0 5 0 (wrapI16 (5 + 0 - 1)) = some [(0, 4), (0, 5)] ∧
    panel32.mem.read 384 = 0 ∧
    (drawFastVLine panel32 0 5 0 0xFFFF).map (fun s => s.mem.read 384) = some 28 ∧
    writeLinePixels 5 0 (wrapI16 (5 + 0 - 1)) 0 = some [(4, 0), (5, 0)] ∧
    panel32.mem.read 4 = 0 ∧
    (drawFastHLine panel32 5 0 0 0xFFFF).map (fun s => s.mem.read 4) = some 28 ∧
    panel32.mem.read 1 = 0 ∧
    (fillRect panel32 0 0 2 0 0xFFFF).map (fun s => s.mem.read 1) = some 28 := by
  decide

/-- C17, the extent of the defect: fillRect with w = 0 is the no-op the claim
states, it writes no pixel and returns the state unchanged.  With length 0 the
code is not a no-op, against its own parameter descriptions ("Height in pixels",
"Width in pixels"): drawFastVLine writes the two pixels (x,y-1) and (x,y) and
drawFastHLine writes the two pixels (x-1,y) and (x,y); fillRect with h = 0
writes the two pixels (i,y-1) and (i,y) in each of its w columns.  Here x and y
are above -32768 and below 32767, and x + w is at most 32767. -/
theorem zero_size_shapes (st : Panel) (x y w h : Int) (c : Nat)
    (hx : -32768 < x ∧ x ≤ 32766) (hy : -32768 < y ∧ y ≤ 32766)
    (hw : 0 ≤ w) (hxw : x + w ≤ 32767) :
    fillRect st x y 0 h c = some st ∧
    drawFastVLine st x y 0 c = some (drawPixels c st [(x, y - 1), (x, y)]) ∧
    drawFastHLine st x y 0 c = some (drawPixels c st [(x - 1, y), (x, y)]) ∧
    fillRect st x y w 0 c = some (drawPixels c st (zeroHeightPixels y w.toNat x)) := by
  refine ⟨?_, drawFastVLine_zero st x y c hy, drawFastHLine_zero st x y c hx, ?_⟩
  · unfold fillRect
    have e : wrapI16 (x + 0) = x := by
      rw [add_zero]
      exact wrapI16_of_range _ (by omega) (by omega)
    rw [e, sub_self]
    show fillRectLoop y h x c 0 x st = some st
    unfold fillRectLoop
    rw [if_neg (by omega)]
  · unfold fillRect
    have e : wrapI16 (x + w) = x + w := wrapI16_of_range _ (by omega) (by omega)
    have e2 : x + w - x = w := by ring
    rw [e, e2]
    exact fillRectLoop_zero_height c y hy (x + w) hxw _ x st (by omega) (by omega)
      (by rw [e2])

theorem zero_size_shapes_witness :
    fillRect panel32 3 5 0 7 0xFFFF = some panel32 ∧
    drawFastVLine panel32 3 5 0 0xFFFF = some (drawPixels 0xFFFF panel32 [(3, 5 - 1), (3, 5)]) ∧
    drawFastHLine panel32 3 5 0 0xFFFF = some (drawPixels 0xFFFF panel32 [(3 - 1, 5), (3, 5)]) ∧
    fillRect panel32 3 5 2 0 0xFFFF =
      some (drawPixels 0xFFFF panel32 (zeroHeightPixels 5 (2 : Int).toNat 3)) :=
  zero_size_shapes panel32 3 5 2 7 0xFFFF (by decide) (by decide) (by decide) (by decide)

/-! ## Triangles on one scanline -/

theorem writeFastHLine_span (st : Panel) (a b y : Int) (c : Nat) (hab : a ≤ b)
    (ha : -32768 ≤ a) (hb : b ≤ 32766) (hd : b - a ≤ 32767) :
    writeFastHLine st a y (wrapI16 (b - a + 1)) c =
      some (drawPixels c st (majorPixels false y (b - a + 1).toNat a)) := by
  unfold writeFastHLine drawFastHLine
  rw [span_end a b ha hab (by omega) hd, writeLine_pixels, writeLinePixels_row a b y hab ha hb hd]
  rfl

theorem fillTriangle_flat (st : Panel) (x0 x1 x2 y : Int) (c : Nat) :
    fillTriangle st x0 y x1 y x2 y c =
      orDiverges (writeFastHLine st (min x0 (min x1 x2)) y
        (wrapI16 (max x0 (max x1 x2) - min x0 (min x1 x2) + 1)) c) := by
  have ha : (if x2 < (if x1 < x0 then x1 else x0) then x2 else (if x1 < x0 then x1 else x0)) =
      min x0 (min x1 x2) := by
    split_ifs <;> omega
  have hb : (if x2 < (if x1 < x0 then x1 else x0) then
        (if x1 < x0 then x0 else if x1 > x0 then x1 else x0)
      else if x2 > (if x1 < x0 then x0 else if x1 > x0 then x1 else x0) then x2
      else (if x1 < x0 then x0 else if x1 > x0 then x1 else x0)) = max x0 (max x1 x2) := by
    split_ifs <;> omega
  unfold fillTriangle
  simp only [gt_iff_lt, lt_self_iff_false, if_false, if_true]
  rw [ha, hb]

theorem majorPixels_chain (y : Int) :
    ∀ (n : Nat) (a : Int), List.Chain' (fun p q => q.1 = p.1 + 1) (majorPixels false y n a) := by
  intro n
  induction n with
  | zero =>
    intro a
    exact List.chain'_nil
  | succ n ih =>
    intro a
    unfold majorPixels
    rw [List.chain'_cons']
    refine ⟨?_, ih (a + 1)⟩
    intro q hq
    cases n with
    | zero => simp [majorPixels] at hq
    | succ m =>
      unfold majorPixels at hq
      simp only [List.head?_cons, Option.mem_def, Option.some.injEq] at hq
      rw [← hq]
      rfl

/-- C16 as stated fails at the edge of the 16-bit coordinate range: with the
largest x equal to 32767 the span is drawn by a loop that counts a 16-bit
variable up to 32767 and never stops, so the call does not return. -/
theorem fillTriangle_flat_diverges :
    faultOf (fillTriangle panel32 32766 0 32767 0 32767 0 0xFFFF) = some Fault.diverges := by
  decide

/-- C16 amended: when the three vertices share the y-coordinate y, their
x-coordinates are between -32768 and 32766 and the largest exceeds the smallest
by at most 32767, fillTriangle returns after passing to writePixel exactly the
pixels (x, y) with min(x0,x1,x2) <= x <= max(x0,x1,x2), each once, left to
right. -/
theorem fillTriangle_degenerate (st : Panel) (x0 x1 x2 y : Int) (c : Nat)
    (h0 : -32768 ≤ x0 ∧ x0 ≤ 32766) (h1 : -32768 ≤ x1 ∧ x1 ≤ 32766)
    (h2 : -32768 ≤ x2 ∧ x2 ≤ 32766)
    (hspan : max x0 (max x1 x2) - min x0 (min x1 x2) ≤ 32767) :
    ∃ ps, fillTriangle st x0 y x1 y x2 y c = Except.ok (drawPixels c st ps) ∧
      (∀ p, p ∈ ps ↔ (p.2 = y ∧ min x0 (min x1 x2) ≤ p.1 ∧ p.1 ≤ max x0 (max x1 x2))) ∧
      List.Chain' (fun p q => q.1 = p.1 + 1) ps := by
  have hab : min x0 (min x1 x2) ≤ max x0 (max x1 x2) := by omega
  refine ⟨majorPixels false y (max x0 (max x1 x2) - min x0 (min x1 x2) + 1).toNat
    (min x0 (min x1 x2)), ?_, ?_, ?_⟩
  · rw [fillTriangle_flat, writeFastHLine_span st _ _ y c hab (by omega) (by omega) hspan]
    rfl
  · intro p
    rw [mem_majorPixels_false]
    have e : ((max x0 (max x1 x2) - min x0 (min x1 x2) + 1).toNat : Int) =
        max x0 (max x1 x2) - min x0 (min x1 x2) + 1 := Int.toNat_of_nonneg (by omega)
    rw [e]
    constructor
    · rintro ⟨hy, hlo, hhi⟩
      exact ⟨hy, hlo, by omega⟩
    · rintro ⟨hy, hlo, hhi⟩
      exact ⟨hy, hlo, by omega⟩
  · exact majorPixels_chain y _ _

theorem fillTriangle_degenerate_witness :
    ∃ ps, fillTriangle panel32 4 7 0 7 2 7 0xFFFF = Except.ok (drawPixels 0xFFFF panel32 ps) ∧
      (∀ p, p ∈ ps ↔ (p.2 = 7 ∧ min 4 (min 0 2) ≤ p.1 ∧ p.1 ≤ max 4 (max 0 2))) ∧
      List.Chain' (fun p q => q.1 = p.1 + 1) ps :=
  fillTriangle_degenerate panel32 4 0 2 7 0xFFFF (by decide) (by decide) (by decide) (by decide)

/-! ## Text bounds of one line -/

theorem wrapI8_byte (c : Nat) (hc : c < 256) :
    (wrapI8 c = 10 ↔ c = 10) ∧ (wrapI8 c = 13 ↔ c = 13) := by
  have h : wrapI8 (c : Int) = if c < 128 then (c : Int) else (c : Int) - 256 := by
    unfold wrapI8
    split <;> omega
  rw [h]
  split <;> omega

theorem charBounds_line (st : Panel) (c i : Nat) (hfont : st.gfxFont = none)
    (hsx : st.textsize_x = 1) (hsy : st.textsize_y = 1)
    (hw : 0 ≤ st._width ∧ st._width ≤ 32767) (hh : 0 ≤ st._height)
    (hc : c < 256 ∧ c ≠ 10 ∧ c ≠ 13) (hi : 6 * ((i : Int) + 1) ≤ 32767)
    (hfit : st.wrap = false ∨ 6 * ((i : Int) + 1) ≤ st._width) :
    charBounds st c (lineBounds st i) = lineBounds st (i + 1) := by
  have h10 : ¬ wrapI8 c = 10 := fun h => hc.2.1 ((wrapI8_byte c hc.1).1.1 h)
  have h13 : wrapI8 c ≠ 13 := fun h => hc.2.2 ((wrapI8_byte c hc.1).2.1 h)
  have hover : (st.wrap && decide (wrapU16 ((lineBounds st i).x + st.textsize_x * 6) >
      wrapU16 st._width)) = false := by
    rcases hfit with hf | hf
    · rw [hf]
      rfl
    · rw [Bool.and_eq_false_iff]
      right
      rw [decide_eq_false_iff_not, hsx]
      unfold wrapU16 lineBounds
      simp only [Nat.cast_one, one_mul]
      omega
  unfold charBounds
  rw [hfont]
  simp only [h10, if_false, h13, ne_eq, not_false_eq_true, if_true, hover, Bool.false_eq_true]
  unfold trackBox lineBounds
  simp only [hsx, hsy, Nat.cast_one, one_mul]
  have e1 : wrapI16 (6 * (i : Int) + 6) = 6 * ((i + 1 : Nat) : Int) := by
    rw [wrapI16_of_range _ (by omega) (by omega)]
    push_cast
    ring
  have e2 : wrapI16 (6 * (i : Int) + 6 - 1) = 6 * ((i + 1 : Nat) : Int) - 1 := by
    rw [wrapI16_of_range _ (by omega) (by omega)]
    push_cast
    ring
  have e3 : wrapI16 (0 + 8 - 1) = 7 := by decide
  rw [e1, e2, e3]
  have hn : ¬ (i + 1 = 0) := by omega
  simp only [hn, if_false]
  rw [Bounds.mk.injEq]
  refine ⟨rfl, rfl, ?_, ?_, ?_, ?_⟩
  · by_cases h0 : i = 0
    · simp only [h0, if_true]
      split <;> omega
    · simp only [h0, if_false]
      split <;> omega
  · by_cases h0 : i = 0
    · simp only [h0, if_true]
      split <;> omega
    · simp only [h0, if_false, lt_self_iff_false]
  · rw [if_pos (by push_cast; omega)]
  · by_cases h0 : i = 0
    · simp only [h0, if_true]
      rfl
    · simp only [h0, if_false, gt_iff_lt, lt_self_iff_false]

theorem boundsLoop_line (st : Panel) (hfont : st.gfxFont = none)
    (hsx : st.textsize_x = 1) (hsy : st.textsize_y = 1)
    (hw : 0 ≤ st._width ∧ st._width ≤ 32767) (hh : 0 ≤ st._height) :
    ∀ (s : List Nat) (i : Nat), (∀ c ∈ s, 0 < c ∧ c < 256 ∧ c ≠ 10 ∧ c ≠ 13) →
      6 * ((i : Int) + s.length) ≤ 32767 →
      (st.wrap = false ∨ 6 * ((i : Int) + s.length) ≤ st._width) →
      boundsLoop st s (lineBounds st i) = lineBounds st (i + s.length) := by
  intro s
  induction s with
  | nil =>
    intro i _ _ _
    rfl
  | cons c rest ih =>
    intro i hc hlen hfit
    have hc0 := hc c (List.mem_cons_self _ _)
    have hmod : c % 256 = c := Nat.mod_eq_of_lt hc0.2.1
    rw [List.length_cons] at hlen hfit ⊢
    push_cast at hlen hfit
    unfold boundsLoop
    rw [hmod, if_neg (by omega), charBounds_line st c i hfont hsx hsy hw hh
      ⟨hc0.2.1, hc0.2.2⟩ (by omega) (hfit.imp id (fun h => by omega)),
      ih (i + 1) (fun d hd => hc d (List.mem_cons_of_mem _ hd)) (by push_cast; omega)
        (hfit.imp id (fun h => by push_cast; omega))]
    congr 1
    omega

/-- C18 as stated fails when the line is wider than the display: text wrap is
on after construction, so on the 32 wide panel the sixth character of "ABCDEF"
is measured on a second row and the result is width 30 and height 16, not 36 and
8.  It also fails for the empty string, whose height is 0. -/
theorem getTextBounds_wraps :
    panel32.gfxFont.isNone = true ∧ panel32.textsize_x = 1 ∧ panel32.textsize_y = 1 ∧
    panel32.wrap = true ∧ panel32._width = 32 ∧
    getTextBounds panel32 [65, 66, 67, 68, 69, 70] 0 0 = (0, 0, 30, 16) ∧
    getTextBounds panel32 [65, 66, 67, 68, 69, 70] 0 0 ≠
      (0, 0, 6 * [65, 66, 67, 68, 69, 70].length, 8) ∧
    getTextBounds panel32 [] 0 0 = (0, 0, 0, 0) := by
  decide

/-- C18 amended: with the built-in font and text size 1, for every non-empty
string of bytes from 1 to 255 other than newline and carriage return, of at most
5461 characters, and with text wrap off or the line no wider than the display
(6 * length <= _width), getTextBounds(s, 0, 0) returns the corner (0,0), width
6 * length(s) and height 8. -/
theorem getTextBounds_single_line (st : Panel) (s : List Nat) (hfont : st.gfxFont = none)
    (hsx : st.textsize_x = 1) (hsy : st.textsize_y = 1)
    (hw : 0 ≤ st._width ∧ st._width ≤ 32767) (hh : 0 ≤ st._height)
    (hne : s ≠ []) (hchars : ∀ c ∈ s, 0 < c ∧ c < 256 ∧ c ≠ 10 ∧ c ≠ 13)
    (hlen : 6 * s.length ≤ 32767)
    (hfit : st.wrap = false ∨ 6 * (s.length : Int) ≤ st._width) :
    getTextBounds st s 0 0 = (0, 0, 6 * s.length, 8) := by
  have hpos : 0 < s.length := List.length_pos.2 hne
  have h0 : ({ x := 0, y := 0, minx := st._width, miny := st._height, maxx := -1, maxy := -1 } :
      Bounds) = lineBounds st 0 := by
    unfold lineBounds
    simp only [if_true, Nat.cast_zero, mul_zero, zero_sub]
  unfold getTextBounds
  rw [h0, boundsLoop_line st hfont hsx hsy hw hh s 0 hchars (by push_cast; omega)
    (hfit.imp id (fun h => by push_cast; omega)), Nat.zero_add]
  unfold lineBounds
  have hn : ¬ (s.length = 0) := by omega
  simp only [hn, if_false]
  rw [if_pos (by omega), if_pos (by omega), if_pos (by omega), if_pos (by omega)]
  have e1 : wrapU16 (6 * (s.length : Int) - 1 - 0 + 1) = 6 * s.length := by
    unfold wrapU16
    omega
  have e2 : wrapU16 (7 - 0 + 1) = 8 := by decide
  rw [e1, e2]

theorem getTextBounds_single_line_witness :
    getTextBounds panel32 [72, 101, 108, 108, 111] 0 0 =
      (0, 0, 6 * [72, 101, 108, 108, 111].length, 8) :=
  getTextBounds_single_line panel32 [72, 101, 108, 108, 111] rfl (by decide) (by decide)
    (by decide) (by decide) (by decide) (by decide) (by decide) (by decide)

/-! ## Text bounds and the cells of the replay -/

theorem charBounds_step (st : Panel) (c : Nat) (b : Bounds) :
    charBounds st c b =
      match charStep st c b.x b.y with
      | (none, x1, y1) => { b with x := x1, y := y1 }
      | (some cell, x1, y1) => trackBox b x1 y1 cell.left cell.top cell.right cell.bottom := by
  unfold charBounds charStep
  cases st.gfxFont with
  | none =>
    dsimp only
    split_ifs <;> rfl
  | some f =>
    dsimp only
    split_ifs <;> rfl

/-- The running minima and maxima after the loop are the starting values or are
attained by a cell of the replay, and they bound every cell. -/
theorem boundsLoop_tight (st : Panel) :
    ∀ (s : List Nat) (b : Bounds),
      ((boundsLoop st s b).minx ≤ b.minx ∧
        (∀ c ∈ replayCells st s b.x b.y, (boundsLoop st s b).minx ≤ c.left) ∧
        ((boundsLoop st s b).minx = b.minx ∨
          ∃ c ∈ replayCells st s b.x b.y, c.left = (boundsLoop st s b).minx)) ∧
      ((boundsLoop st s b).miny ≤ b.miny ∧
        (∀ c ∈ replayCells st s b.x b.y, (boundsLoop st s b).miny ≤ c.top) ∧
        ((boundsLoop st s b).miny = b.miny ∨
          ∃ c ∈ replayCells st s b.x b.y, c.top = (boundsLoop st s b).miny)) ∧
      (b.maxx ≤ (boundsLoop st s b).maxx ∧
        (∀ c ∈ replayCells st s b.x b.y, c.right ≤ (boundsLoop st s b).maxx) ∧
        ((boundsLoop st s b).maxx = b.maxx ∨
          ∃ c ∈ replayCells st s b.x b.y, c.right = (boundsLoop st s b).maxx)) ∧
      (b.maxy ≤ (boundsLoop st s b).maxy ∧
        (∀ c ∈ replayCells st s b.x b.y, c.bottom ≤ (boundsLoop st s b).maxy) ∧
        ((boundsLoop st s b).maxy = b.maxy ∨
          ∃ c ∈ replayCells st s b.x b.y, c.bottom = (boundsLoop st s b).maxy)) := by
  intro s
  induction s with
  | nil =>
    intro b
    unfold boundsLoop replayCells
    simp
  | cons ch rest ih =>
    intro b
    unfold boundsLoop replayCells
    by_cases hz : ch % 256 = 0
    · rw [if_pos hz, if_pos hz]
      simp
    · rw [if_neg hz, if_neg hz, charBounds_step]
      generalize charStep st (ch % 256) b.x b.y = r
      obtain ⟨oc, x1, y1⟩ := r
      cases oc with
      | none =>
        dsimp only
        exact ih { b with x := x1, y := y1 }
      | some cell =>
        dsimp only
        obtain ⟨⟨a1, a2, a3⟩, ⟨b1, b2, b3⟩, ⟨c1, c2, c3⟩, ⟨d1, d2, d3⟩⟩ :=
          ih (trackBox b x1 y1 cell.left cell.top cell.right cell.bottom)
        have tx : (trackBox b x1 y1 cell.left cell.top cell.right cell.bottom).x = x1 := rfl
        have ty : (trackBox b x1 y1 cell.left cell.top cell.right cell.bottom).y = y1 := rfl
        have t1 : (trackBox b x1 y1 cell.left cell.top cell.right cell.bottom).minx =
            if cell.left < b.minx then cell.left else b.minx := rfl
        have t2 : (trackBox b x1 y1 cell.left cell.top cell.right cell.bottom).miny =
            if cell.top < b.miny then cell.top else b.miny := rfl
        have t3 : (trackBox b x1 y1 cell.left cell.top cell.right cell.bottom).maxx =
            if cell.right > b.maxx then cell.right else b.maxx := rfl
        have t4 : (trackBox b x1 y1 cell.left cell.top cell.right cell.bottom).maxy =
            if cell.bottom > b.maxy then cell.bottom else b.maxy := rfl
        rw [tx, ty] at a2 a3 b2 b3 c2 c3 d2 d3
        rw [t1] at a1 a3
        rw [t2] at b1 b3
        rw [t3] at c1 c3
        rw [t4] at d1 d3
        refine ⟨⟨?_, ?_, ?_⟩, ⟨?_, ?_, ?_⟩, ⟨?_, ?_, ?_⟩, ⟨?_, ?_, ?_⟩⟩
        · split at a1 <;> omega
        · intro c hc
          rcases List.mem_cons.1 hc with h | h
          · rw [h]
            split at a1 <;> omega
          · exact a2 c h
        · rcases a3 with h | ⟨c, hc, h⟩
          · by_cases hlt : cell.left < b.minx
            · rw [if_pos hlt] at h
              exact Or.inr ⟨cell, List.mem_cons_self _ _, h.symm⟩
            · rw [if_neg hlt] at h
              exact Or.inl h
          · exact Or.inr ⟨c, List.mem_cons_of_mem _ hc, h⟩
        · split at b1 <;> omega
        · intro c hc
          rcases List.mem_cons.1 hc with h | h
          · rw [h]
            split at b1 <;> omega
          · exact b2 c h
        · rcases b3 with h | ⟨c, hc, h⟩
          · by_cases hlt : cell.top < b.miny
            · rw [if_pos hlt] at h
              exact Or.inr ⟨cell, List.mem_cons_self _ _, h.symm⟩
            · rw [if_neg hlt] at h
              exact Or.inl h
          · exact Or.inr ⟨c, List.mem_cons_of_mem _ hc, h⟩
        · split at c1 <;> omega
        · intro c hc
          rcases List.mem_cons.1 hc with h | h
          · rw [h]
            split at c1 <;> omega
          · exact c2 c h
        · rcases c3 with h | ⟨c, hc, h⟩
          · by_cases hlt : cell.right > b.maxx
            · rw [if_pos hlt] at h
              exact Or.inr ⟨cell, List.mem_cons_self _ _, h.symm⟩
            · rw [if_neg hlt] at h
              exact Or.inl h
          · exact Or.inr ⟨c, List.mem_cons_of_mem _ hc, h⟩
        · split at d1 <;> omega
        · intro c hc
          rcases List.mem_cons.1 hc with h | h
          · rw [h]
            split at d1 <;> omega
          · exact d2 c h
        · rcases d3 with h | ⟨c, hc, h⟩
          · by_cases hlt : cell.bottom > b.maxy
            · rw [if_pos hlt] at h
              exact Or.inr ⟨cell, List.mem_cons_self _ _, h.symm⟩
            · rw [if_neg hlt] at h
              exact Or.inl h
          · exact Or.inr ⟨c, List.mem_cons_of_mem _ hc, h⟩

/-- C19 fails in the code when the text lies beyond an edge of the display: the
running minima start at `_width` and `_height` and the maxima at -1, not at the
first cell, so with the cursor at (0,100) on the 32x32 panel the only cell of
"A" has top 100 and bottom 107 but the function returns y1 = 32 and h = 76,
which is not the smallest rectangle encompassing the string that the comment in
drawChar says getTextBounds determines. -/
theorem getTextBounds_not_tight :
    panel32.gfxFont.isNone = true ∧
    replayCells panel32 [65] 0 100 = [{ left := 0, top := 100, right := 5, bottom := 107 }] ∧
    getTextBounds panel32 [65] 0 100 = (0, 32, 6, 76) ∧
    ¬ (∃ c ∈ replayCells panel32 [65] 0 100, c.top = (getTextBounds panel32 [65] 0 100).2.1) := by
  decide

/-- C19, where the code meets it: getTextBounds returns the tightest rectangle
around the cells touched by the replay whenever the starting values of the
running minima and maxima do not win a comparison, that is, some cell starts at
or left of x = `_width`, some cell starts at or above y = `_height`, some cell
reaches x = -1 or further right and some cell reaches y = -1 or further down,
no cell is inverted by 16-bit overflow, and the extent of the cells is below
65535: then x1 and y1 are the least left and top coordinates of the cells, and
x1+w-1 and y1+h-1 the greatest right and bottom coordinates.  The font is not restricted; the built-in font is
the case `gfxFont = none` of the cells. -/
theorem getTextBounds_tight (st : Panel) (s : List Nat) (x y : Int)
    (hL : ∃ c ∈ replayCells st s x y, c.left ≤ st._width)
    (hT : ∃ c ∈ replayCells st s x y, c.top ≤ st._height)
    (hR : ∃ c ∈ replayCells st s x y, -1 ≤ c.right)
    (hB : ∃ c ∈ replayCells st s x y, -1 ≤ c.bottom)
    (hbox : ∀ c ∈ replayCells st s x y, c.left ≤ c.right ∧ c.top ≤ c.bottom)
    (hrange : ∀ c ∈ replayCells st s x y, ∀ d ∈ replayCells st s x y,
      d.right - c.left < 65535 ∧ d.bottom - c.top < 65535) :
    (∀ c ∈ replayCells st s x y, (getTextBounds st s x y).1 ≤ c.left) ∧
    (∃ c ∈ replayCells st s x y, c.left = (getTextBounds st s x y).1) ∧
    (∀ c ∈ replayCells st s x y, (getTextBounds st s x y).2.1 ≤ c.top) ∧
    (∃ c ∈ replayCells st s x y, c.top = (getTextBounds st s x y).2.1) ∧
    (∀ c ∈ replayCells st s x y,
      c.right ≤ (getTextBounds st s x y).1 + (getTextBounds st s x y).2.2.1 - 1) ∧
    (∃ c ∈ replayCells st s x y,
      c.right = (getTextBounds st s x y).1 + (getTextBounds st s x y).2.2.1 - 1) ∧
    (∀ c ∈ replayCells st s x y,
      c.bottom ≤ (getTextBounds st s x y).2.1 + (getTextBounds st s x y).2.2.2 - 1) ∧
    (∃ c ∈ replayCells st s x y,
      c.bottom = (getTextBounds st s x y).2.1 + (getTextBounds st s x y).2.2.2 - 1) := by
  have key := boundsLoop_tight st s
    { x := x, y := y, minx := st._width, miny := st._height, maxx := -1, maxy := -1 }
  dsimp only at key
  unfold getTextBounds
  dsimp only
  generalize boundsLoop st s
    { x := x, y := y, minx := st._width, miny := st._height, maxx := -1, maxy := -1 } = b
    at key ⊢
  obtain ⟨⟨_, a2, a3⟩, ⟨_, b2, b3⟩, ⟨_, c2, c3⟩, ⟨_, d2, d3⟩⟩ := key
  have hl : ∃ c ∈ replayCells st s x y, c.left = b.minx := by
    rcases a3 with h | h
    · obtain ⟨c, hc, hle⟩ := hL
      have := a2 c hc
      exact ⟨c, hc, by omega⟩
    · exact h
  have ht : ∃ c ∈ replayCells st s x y, c.top = b.miny := by
    rcases b3 with h | h
    · obtain ⟨c, hc, hle⟩ := hT
      have := b2 c hc
      exact ⟨c, hc, by omega⟩
    · exact h
  have hr : ∃ c ∈ replayCells st s x y, c.right = b.maxx := by
    rcases c3 with h | h
    · obtain ⟨c, hc, hle⟩ := hR
      have := c2 c hc
      exact ⟨c, hc, by omega⟩
    · exact h
  have hbt : ∃ c ∈ replayCells st s x y, c.bottom = b.maxy := by
    rcases d3 with h | h
    · obtain ⟨c, hc, hle⟩ := hB
      have := d2 c hc
      exact ⟨c, hc, by omega⟩
    · exact h
  obtain ⟨cl, hcl, el⟩ := hl
  obtain ⟨ct, hct, et⟩ := ht
  obtain ⟨cr, hcr, er⟩ := hr
  obtain ⟨cb, hcb, eb⟩ := hbt
  have hx : b.minx ≤ b.maxx := by
    have h1 := a2 cr hcr
    have h2 := (hbox cr hcr).1
    omega
  have hy : b.miny ≤ b.maxy := by
    have h1 := b2 cb hcb
    have h2 := (hbox cb hcb).2
    omega
  have hxr := (hrange cl hcl cr hcr).1
  have hyr := (hrange ct hct cb hcb).2
  rw [if_pos hx, if_pos hx, if_pos hy, if_pos hy]
  have ew : ((wrapU16 (b.maxx - b.minx + 1) : Nat) : Int) = b.maxx - b.minx + 1 :=
    wrapU16_of_range _ (by omega) (by omega)
  have eh : ((wrapU16 (b.maxy - b.miny + 1) : Nat) : Int) = b.maxy - b.miny + 1 :=
    wrapU16_of_range _ (by omega) (by omega)
  rw [ew, eh]
  have e1 : b.minx + (b.maxx - b.minx + 1) - 1 = b.maxx := by ring
  have e2 : b.miny + (b.maxy - b.miny + 1) - 1 = b.maxy := by ring
  rw [e1, e2]
  exact ⟨a2, ⟨cl, hcl, el⟩, b2, ⟨ct, hct, et⟩, c2, ⟨cr, hcr, er⟩, d2, ⟨cb, hcb, eb⟩⟩

theorem getTextBounds_tight_witness :
    (∀ c ∈ replayCells panel32 [72, 105] 3 4, (getTextBounds panel32 [72, 105] 3 4).1 ≤ c.left) ∧
    (∃ c ∈ replayCells panel32 [72, 105] 3 4, c.left = (getTextBounds panel32 [72, 105] 3 4).1) ∧
    (∀ c ∈ replayCells panel32 [72, 105] 3 4,
      (getTextBounds panel32 [72, 105] 3 4).2.1 ≤ c.top) ∧
    (∃ c ∈ replayCells panel32 [72, 105] 3 4,
      c.top = (getTextBounds panel32 [72, 105] 3 4).2.1) ∧
    (∀ c ∈ replayCells panel32 [72, 105] 3 4,
      c.right ≤ (getTextBounds panel32 [72, 105] 3 4).1 +
        (getTextBounds panel32 [72, 105] 3 4).2.2.1 - 1) ∧
    (∃ c ∈ replayCells panel32 [72, 105] 3 4,
      c.right = (getTextBounds panel32 [72, 105] 3 4).1 +
        (getTextBounds panel32 [72, 105] 3 4).2.2.1 - 1) ∧
    (∀ c ∈ replayCells panel32 [72, 105] 3 4,
      c.bottom ≤ (getTextBounds panel32 [72, 105] 3 4).2.1 +
        (getTextBounds panel32 [72, 105] 3 4).2.2.2 - 1) ∧
    (∃ c ∈ replayCells panel32 [72, 105] 3 4,
      c.bottom = (getTextBounds panel32 [72, 105] 3 4).2.1 +
        (getTextBounds panel32 [72, 105] 3 4).2.2.2 - 1) :=
  getTextBounds_tight panel32 [72, 105] 3 4 (by decide) (by decide) (by decide) (by decide)
    (by decide) (by decide)

/-! ## Setters -/

theorem and3_mod4 (r : Nat) : r &&& 3 = r % 4 :=
  Nat.and_pow_two_sub_one_eq_mod r 2

/-- C29: setRotation(r) stores rotation = r mod 4, sets the logical size to
the raw (WIDTH, HEIGHT) for rotation 0 or 2 and to (HEIGHT, WIDTH) for rotation
1 or 3, and changes nothing else: the raw size, the cursor, the frame buffer
and every other field are as before. -/
theorem setRotation_effect (st : Panel) (r : Nat) :
    setRotation st r =
      { st with
        rotation := r % 4,
        _width := (if r % 4 = 0 ∨ r % 4 = 2 then st.WIDTH else st.HEIGHT),
        _height := (if r % 4 = 0 ∨ r % 4 = 2 then st.HEIGHT else st.WIDTH) } ∧
    (setRotation st r).rotation = r % 4 ∧
    (r % 4 = 0 ∨ r % 4 = 2 →
      (setRotation st r)._width = st.WIDTH ∧ (setRotation st r)._height = st.HEIGHT) ∧
    (r % 4 = 1 ∨ r % 4 = 3 →
      (setRotation st r)._width = st.HEIGHT ∧ (setRotation st r)._height = st.WIDTH) ∧
    (setRotation st r).WIDTH = st.WIDTH ∧ (setRotation st r).HEIGHT = st.HEIGHT ∧
    (setRotation st r).cursor_x = st.cursor_x ∧ (setRotation st r).cursor_y = st.cursor_y ∧
    (setRotation st r).mem = st.mem := by
  have h4 : r % 4 < 4 := Nat.mod_lt _ (by decide)
  unfold setRotation
  rw [and3_mod4]
  generalize r % 4 = k at h4
  interval_cases k <;> simp

theorem setTextSize_sizes (st : Panel) (sx sy : Nat) :
    (setTextSize st sx sy).textsize_x = (if sx % 256 = 0 then 1 else sx % 256) ∧
    (setTextSize st sx sy).textsize_y = (if sy % 256 = 0 then 1 else sy % 256) := by
  unfold setTextSize
  dsimp only
  constructor
  · split_ifs <;> omega
  · split_ifs <;> omega

theorem applyOp_sizes (st : Panel) (op : TextOp) (h : op.setsSize = false) :
    (applyOp st op).textsize_x = st.textsize_x ∧ (applyOp st op).textsize_y = st.textsize_y := by
  cases op with
  | setCursor x y => exact ⟨rfl, rfl⟩
  | setTextColor c => exact ⟨rfl, rfl⟩
  | setTextColorBg c bg => exact ⟨rfl, rfl⟩
  | setTextWrap w => exact ⟨rfl, rfl⟩
  | cp437 x => exact ⟨rfl, rfl⟩
  | setTextSize a b => simp [TextOp.setsSize] at h
  | setTextSizeSquare s => simp [TextOp.setsSize] at h
  | setRotation r =>
    have e := (setRotation_effect st r).1
    show (setRotation st r).textsize_x = _ ∧ (setRotation st r).textsize_y = _
    rw [e]
    exact ⟨rfl, rfl⟩
  | setFont f =>
    show (setFont st f).textsize_x = _ ∧ (setFont st f).textsize_y = _
    unfold setFont
    cases f <;> cases st.gfxFont <;> exact ⟨rfl, rfl⟩

theorem applyOp_sizes_range (st : Panel) (op : TextOp)
    (h : (1 ≤ st.textsize_x ∧ st.textsize_x ≤ 255) ∧ (1 ≤ st.textsize_y ∧ st.textsize_y ≤ 255)) :
    (1 ≤ (applyOp st op).textsize_x ∧ (applyOp st op).textsize_x ≤ 255) ∧
    (1 ≤ (applyOp st op).textsize_y ∧ (applyOp st op).textsize_y ≤ 255) := by
  by_cases hs : op.setsSize = false
  · rw [(applyOp_sizes st op hs).1, (applyOp_sizes st op hs).2]
    exact h
  · cases op with
    | setTextSize a b =>
      have hx : (applyOp st (TextOp.setTextSize a b)).textsize_x =
          (setTextSize st a b).textsize_x := rfl
      have hy : (applyOp st (TextOp.setTextSize a b)).textsize_y =
          (setTextSize st a b).textsize_y := rfl
      rw [hx, hy, (setTextSize_sizes st a b).1, (setTextSize_sizes st a b).2]
      constructor <;> split_ifs <;> omega
    | setTextSizeSquare s =>
      have hx : (applyOp st (TextOp.setTextSizeSquare s)).textsize_x =
          (setTextSize st (s % 256) (s % 256)).textsize_x := rfl
      have hy : (applyOp st (TextOp.setTextSizeSquare s)).textsize_y =
          (setTextSize st (s % 256) (s % 256)).textsize_y := rfl
      rw [hx, hy, (setTextSize_sizes st _ _).1, (setTextSize_sizes st _ _).2]
      constructor <;> split_ifs <;> omega
    | setCursor x y => exact absurd rfl hs
    | setTextColor c => exact absurd rfl hs
    | setTextColorBg c bg => exact absurd rfl hs
    | setTextWrap w => exact absurd rfl hs
    | cp437 x => exact absurd rfl hs
    | setRotation r => exact absurd rfl hs
    | setFont f => exact absurd rfl hs

theorem foldl_sizes_range (ops : List TextOp) :
    ∀ st : Panel,
      ((1 ≤ st.textsize_x ∧ st.textsize_x ≤ 255) ∧ (1 ≤ st.textsize_y ∧ st.textsize_y ≤ 255)) →
      (1 ≤ (ops.foldl applyOp st).textsize_x ∧ (ops.foldl applyOp st).textsize_x ≤ 255) ∧
      (1 ≤ (ops.foldl applyOp st).textsize_y ∧ (ops.foldl applyOp st).textsize_y ≤ 255) := by
  induction ops with
  | nil => exact fun st h => h
  | cons op rest ih =>
    intro st h
    exact ih (applyOp st op) (applyOp_sizes_range st op h)

/-- C27: the constructors leave both text sizes at 1; setTextSize(sx, sy) on
bytes stores sx and sy except that a 0 is stored as 1; setTextSize(s) is
setTextSize(s, s); every other setter, and drawPixel, leaves both sizes as they
are; hence after construction and any sequence of setter calls both sizes are
at least 1. -/
theorem textsize_invariant (st : Panel) (w h : Int) (dbuf : Bool) (width : Nat)
    (alloc : Option Int) (ops : List TextOp) (sx sy s : Nat) (op : TextOp) (x y : Int) (c : Nat)
    (hsx : sx < 256) (hsy : sy < 256) (hs : s < 256) (hop : op.setsSize = false) :
    ((Adafruit_GFX st w h).textsize_x = 1 ∧ (Adafruit_GFX st w h).textsize_y = 1) ∧
    ((RGBmatrixPanel16 st dbuf alloc).textsize_x = 1 ∧
      (RGBmatrixPanel16 st dbuf alloc).textsize_y = 1) ∧
    ((RGBmatrixPanel32 st dbuf width alloc).textsize_x = 1 ∧
      (RGBmatrixPanel32 st dbuf width alloc).textsize_y = 1) ∧
    ((setTextSize st sx sy).textsize_x = (if sx = 0 then 1 else sx) ∧
      (setTextSize st sx sy).textsize_y = (if sy = 0 then 1 else sy)) ∧
    setTextSizeSquare st s = setTextSize st s s ∧
    ((applyOp st op).textsize_x = st.textsize_x ∧ (applyOp st op).textsize_y = st.textsize_y) ∧
    ((drawPixel st x y c).textsize_x = st.textsize_x ∧
      (drawPixel st x y c).textsize_y = st.textsize_y) ∧
    (1 ≤ (ops.foldl applyOp (RGBmatrixPanel16 st dbuf alloc)).textsize_x ∧
      1 ≤ (ops.foldl applyOp (RGBmatrixPanel16 st dbuf alloc)).textsize_y) ∧
    (1 ≤ (ops.foldl applyOp (RGBmatrixPanel32 st dbuf width alloc)).textsize_x ∧
      1 ≤ (ops.foldl applyOp (RGBmatrixPanel32 st dbuf width alloc)).textsize_y) := by
  have c16 : (RGBmatrixPanel16 st dbuf alloc).textsize_x = 1 ∧
      (RGBmatrixPanel16 st dbuf alloc).textsize_y = 1 := by
    unfold RGBmatrixPanel16 init Adafruit_GFX
    cases alloc <;> exact ⟨rfl, rfl⟩
  have c32 : (RGBmatrixPanel32 st dbuf width alloc).textsize_x = 1 ∧
      (RGBmatrixPanel32 st dbuf width alloc).textsize_y = 1 := by
    unfold RGBmatrixPanel32 init Adafruit_GFX
    cases alloc <;> exact ⟨rfl, rfl⟩
  have hp : (drawPixel st x y c).textsize_x = st.textsize_x ∧
      (drawPixel st x y c).textsize_y = st.textsize_y := by
    rw [drawPixel_frame st x y c]
    exact ⟨rfl, rfl⟩
  refine ⟨⟨rfl, rfl⟩, c16, c32, ?_, ?_, applyOp_sizes st op hop, hp, ?_, ?_⟩
  · have e := setTextSize_sizes st sx sy
    rw [Nat.mod_eq_of_lt hsx, Nat.mod_eq_of_lt hsy] at e
    exact e
  · unfold setTextSizeSquare
    rw [Nat.mod_eq_of_lt hs]
  · have := foldl_sizes_range ops (RGBmatrixPanel16 st dbuf alloc)
      (by rw [c16.1, c16.2]; decide)
    exact ⟨this.1.1, this.2.1⟩
  · have := foldl_sizes_range ops (RGBmatrixPanel32 st dbuf width alloc)
      (by rw [c32.1, c32.2]; decide)
    exact ⟨this.1.1, this.2.1⟩

theorem textsize_invariant_witness :
    ((Adafruit_GFX powerOn 32 32).textsize_x = 1 ∧ (Adafruit_GFX powerOn 32 32).textsize_y = 1) ∧
    ((RGBmatrixPanel16 powerOn false (some 0)).textsize_x = 1 ∧
      (RGBmatrixPanel16 powerOn false (some 0)).textsize_y = 1) ∧
    ((RGBmatrixPanel32 powerOn false 32 (some 0)).textsize_x = 1 ∧
      (RGBmatrixPanel32 powerOn false 32 (some 0)).textsize_y = 1) ∧
    ((setTextSize powerOn 0 3).textsize_x = (if 0 = 0 then 1 else 0) ∧
      (setTextSize powerOn 0 3).textsize_y = (if 3 = 0 then 1 else 3)) ∧
    setTextSizeSquare powerOn 2 = setTextSize powerOn 2 2 ∧
    ((applyOp powerOn (TextOp.setCursor 1 2)).textsize_x = powerOn.textsize_x ∧
      (applyOp powerOn (TextOp.setCursor 1 2)).textsize_y = powerOn.textsize_y) ∧
    ((drawPixel powerOn 1 1 7).textsize_x = powerOn.textsize_x ∧
      (drawPixel powerOn 1 1 7).textsize_y = powerOn.textsize_y) ∧
    (1 ≤ ([TextOp.setTextSize 0 0, TextOp.setFont none].foldl applyOp
        (RGBmatrixPanel16 powerOn false (some 0))).textsize_x ∧
      1 ≤ ([TextOp.setTextSize 0 0, TextOp.setFont none].foldl applyOp
        (RGBmatrixPanel16 powerOn false (some 0))).textsize_y) ∧
    (1 ≤ ([TextOp.setTextSize 0 0, TextOp.setFont none].foldl applyOp
        (RGBmatrixPanel32 powerOn false 32 (some 0))).textsize_x ∧
      1 ≤ ([TextOp.setTextSize 0 0, TextOp.setFont none].foldl applyOp
        (RGBmatrixPanel32 powerOn false 32 (some 0))).textsize_y) :=
  textsize_invariant powerOn 32 32 false 32 (some 0)
    [TextOp.setTextSize 0 0, TextOp.setFont none] 0 3 2 (TextOp.setCursor 1 2) 1 1 7
    (by decide) (by decide) (by decide) rfl

/-- C28: setFont adds 6 to cursor_y (in 16-bit arithmetic) exactly when a
proportional font replaces the built-in font, subtracts 6 exactly when the
built-in font replaces a proportional font, and otherwise leaves cursor_y as it
is; nothing but cursor_y and the font changes.  Hence from the built-in state
setFont(f) followed by setFont(NULL) restores the state, and calling setFont
with the same argument twice equals calling it once. -/
theorem setFont_cursor (st : Panel) (f : Option GFXfont) (g g0 : GFXfont)
    (hy : -32768 ≤ st.cursor_y ∧ st.cursor_y ≤ 32767) :
    (st.gfxFont = none →
      setFont st (some g) = { st with cursor_y := wrapI16 (st.cursor_y + 6), gfxFont := some g } ∧
      (st.cursor_y + 6 ≤ 32767 → (setFont st (some g)).cursor_y = st.cursor_y + 6)) ∧
    (st.gfxFont = some g0 →
      setFont st none = { st with cursor_y := wrapI16 (st.cursor_y - 6), gfxFont := none } ∧
      (-32768 ≤ st.cursor_y - 6 → (setFont st none).cursor_y = st.cursor_y - 6)) ∧
    (st.gfxFont = none → setFont st none = st) ∧
    (st.gfxFont = some g0 → setFont st (some g) = { st with gfxFont := some g }) ∧
    (st.gfxFont = none → setFont (setFont st (some g)) none = st) ∧
    setFont (setFont st f) f = setFont st f := by
  refine ⟨?_, ?_, ?_, ?_, ?_, ?_⟩
  · intro h
    have e : setFont st (some g) =
        { st with cursor_y := wrapI16 (st.cursor_y + 6), gfxFont := some g } := by
      unfold setFont
      rw [h]
    refine ⟨e, fun hle => ?_⟩
    rw [e]
    exact wrapI16_of_range _ (by omega) hle
  · intro h
    have e : setFont st none =
        { st with cursor_y := wrapI16 (st.cursor_y - 6), gfxFont := none } := by
      unfold setFont
      rw [h]
    refine ⟨e, fun hle => ?_⟩
    rw [e]
    exact wrapI16_of_range _ hle (by omega)
  · intro h
    unfold setFont
    rw [h]
    cases st
    simp only at h
    rw [h]
  · intro h
    unfold setFont
    rw [h]
  · intro h
    have e : wrapI16 (wrapI16 (st.cursor_y + 6) - 6) = st.cursor_y := by
      unfold wrapI16
      omega
    unfold setFont
    rw [h]
    dsimp only
    rw [e]
    cases st
    simp only at h
    rw [h]
  · cases f with
    | none =>
      unfold setFont
      cases st.gfxFont <;> rfl
    | some k =>
      unfold setFont
      cases st.gfxFont <;> rfl

theorem setFont_cursor_witness :
    (panel32.gfxFont = none →
      setFont panel32 (some ⟨[], [], 32, 126, 10⟩) =
        { panel32 with cursor_y := wrapI16 (panel32.cursor_y + 6),
                       gfxFont := some ⟨[], [], 32, 126, 10⟩ } ∧
      (panel32.cursor_y + 6 ≤ 32767 →
        (setFont panel32 (some ⟨[], [], 32, 126, 10⟩)).cursor_y = panel32.cursor_y + 6)) ∧
    (panel32.gfxFont = some ⟨[], [], 0, 0, 0⟩ →
      setFont panel32 none =
        { panel32 with cursor_y := wrapI16 (panel32.cursor_y - 6), gfxFont := none } ∧
      (-32768 ≤ panel32.cursor_y - 6 → (setFont panel32 none).cursor_y = panel32.cursor_y - 6)) ∧
    (panel32.gfxFont = none → setFont panel32 none = panel32) ∧
    (panel32.gfxFont = some ⟨[], [], 0, 0, 0⟩ →
      setFont panel32 (some ⟨[], [], 32, 126, 10⟩) =
        { panel32 with gfxFont := some ⟨[], [], 32, 126, 10⟩ }) ∧
    (panel32.gfxFont = none →
      setFont (setFont panel32 (some ⟨[], [], 32, 126, 10⟩)) none = panel32) ∧
    setFont (setFont panel32 none) none = setFont panel32 none :=
  setFont_cursor panel32 none ⟨[], [], 32, 126, 10⟩ ⟨[], [], 0, 0, 0⟩ (by decide)

/-- C30 fails on the last third of the wheel: for steps 17 to 23 the code
passes the rising value as green, not as red, so the colours run from blue to
green; step 20 gives the promotion of (0, 4, 3), not of (4, 0, 3). -/
theorem Wheel_last_third :
    Wheel 20 = Color333 0 4 3 ∧ Wheel 20 ≠ Color333 (20 - 16) 0 (23 - 20) ∧
    Wheel 23 = Color333 0 7 0 ∧ Wheel 23 ≠ Color333 (23 - 16) 0 (23 - 23) := by
  decide

/-- What Wheel computes, on all 24 steps: the promotion of (7-p, p, 0) for
p < 8, of (0, 15-p, p-8) for 8 <= p < 16, and of (0, p-16, 23-p) for
16 <= p < 24. -/
theorem Wheel_segments :
    (∀ p < 8, Wheel p = Color333 (7 - p) p 0) ∧
    (∀ p < 16, 8 ≤ p → Wheel p = Color333 0 (15 - p) (p - 8)) ∧
    (∀ p < 24, 16 ≤ p → Wheel p = Color333 0 (p - 16) (23 - p)) := by
  decide

/-! ## Drawing changes the byte memory only -/

theorem sameFrame_refl (st : Panel) : sameFrame st st := rfl

theorem sameFrame_trans (a b c : Panel) (h1 : sameFrame a b) (h2 : sameFrame b c) :
    sameFrame a c := by
  unfold sameFrame at *
  rw [h2, h1]
  rfl

theorem drawPixel_sameFrame (st : Panel) (x y : Int) (c : Nat) :
    sameFrame st (drawPixel st x y c) :=
  drawPixel_frame st x y c

theorem drawPixels_sameFrame (c : Nat) (ps : List (Int × Int)) :
    ∀ st : Panel, sameFrame st (drawPixels c st ps) := by
  induction ps with
  | nil => exact fun st => rfl
  | cons p rest ih =>
    intro st
    exact sameFrame_trans _ _ _ (drawPixel_sameFrame st p.1 p.2 c) (ih _)

theorem writeLine_sameFrame (st s : Panel) (x0 y0 x1 y1 : Int) (c : Nat)
    (h : writeLine st x0 y0 x1 y1 c = some s) : sameFrame st s := by
  rw [writeLine_pixels] at h
  cases hp : writeLinePixels x0 y0 x1 y1 with
  | none => rw [hp] at h; cases h
  | some ps =>
    rw [hp] at h
    simp only [Option.map_some', Option.some.injEq] at h
    rw [← h]
    exact drawPixels_sameFrame c ps st

theorem fillRectLoop_sameFrame (y h bound : Int) (c : Nat) :
    ∀ (fuel : Nat) (i : Int) (st s : Panel),
      fillRectLoop y h bound c fuel i st = some s → sameFrame st s := by
  intro fuel
  induction fuel with
  | zero =>
    intro i st s hs
    unfold fillRectLoop at hs
    split at hs
    · cases hs
    · cases hs
      rfl
  | succ n ih =>
    intro i st s hs
    unfold fillRectLoop at hs
    split at hs
    · cases hv : writeFastVLine st i y h c with
      | none => rw [hv] at hs; cases hs
      | some s1 =>
        rw [hv] at hs
        exact sameFrame_trans _ _ _ (writeLine_sameFrame st s1 _ _ _ _ c hv) (ih _ _ _ hs)
    · cases hs
      rfl

theorem fillRect_sameFrame (st s : Panel) (x y w h : Int) (c : Nat)
    (hs : fillRect st x y w h c = some s) : sameFrame st s :=
  fillRectLoop_sameFrame _ _ _ _ _ _ _ _ hs

theorem drawCharCell_sameFrame (st s : Panel) (x y : Int) (i j line color bg sx sy : Nat)
    (hs : drawCharCell st x y i j line color bg sx sy = some s) : sameFrame st s := by
  unfold drawCharCell at hs
  split_ifs at hs
  · cases hs
    exact drawPixel_sameFrame _ _ _ _
  · exact fillRect_sameFrame _ _ _ _ _ _ _ hs
  · cases hs
    exact drawPixel_sameFrame _ _ _ _
  · exact fillRect_sameFrame _ _ _ _ _ _ _ hs
  · cases hs
    rfl

theorem drawCharColumn_sameFrame (x y : Int) (i color bg sx sy : Nat) :
    ∀ (n j line : Nat) (st s : Panel),
      drawCharColumn x y i color bg sx sy n j line st = some s → sameFrame st s := by
  intro n
  induction n with
  | zero =>
    intro j line st s hs
    unfold drawCharColumn at hs
    cases hs
    rfl
  | succ n ih =>
    intro j line st s hs
    unfold drawCharColumn at hs
    cases hc : drawCharCell st x y i j line color bg sx sy with
    | none => rw [hc] at hs; cases hs
    | some s1 =>
      rw [hc] at hs
      exact sameFrame_trans _ _ _ (drawCharCell_sameFrame _ _ _ _ _ _ _ _ _ _ _ hc) (ih _ _ _ _ hs)

theorem drawCharColumns_sameFrame (font : Nat → Nat) (x y : Int) (c color bg sx sy : Nat) :
    ∀ (n i : Nat) (st s : Panel),
      drawCharColumns font x y c color bg sx sy n i st = some s → sameFrame st s := by
  intro n
  induction n with
  | zero =>
    intro i st s hs
    unfold drawCharColumns at hs
    cases hs
    rfl
  | succ n ih =>
    intro i st s hs
    unfold drawCharColumns at hs
    cases hc : drawCharColumn x y i color bg sx sy 8 0 (fontByte font (c * 5 + i)) st with
    | none => rw [hc] at hs; cases hs
    | some s1 =>
      rw [hc] at hs
      exact sameFrame_trans _ _ _ (drawCharColumn_sameFrame _ _ _ _ _ _ _ _ _ _ _ _ hc)
        (ih _ _ _ hs)

theorem drawGlyphCell_sameFrame (f : GFXfont) (x y xo yo xo16 yo16 : Int)
    (color sx sy xx yy : Nat) (g g1 : GlyphScan)
    (hs : drawGlyphCell f x y xo yo xo16 yo16 color sx sy xx yy g = some g1) :
    sameFrame g.st g1.st := by
  unfold drawGlyphCell at hs
  dsimp only at hs
  rw [Option.map_eq_some'] at hs
  obtain ⟨s1, hd, rfl⟩ := hs
  dsimp only
  split_ifs at hd <;>
    first
    | (cases hd; exact sameFrame_refl _)
    | (cases hd; exact drawPixel_sameFrame _ _ _ _)
    | exact fillRect_sameFrame _ _ _ _ _ _ _ hd

theorem drawGlyphRow_sameFrame (f : GFXfont) (x y xo yo xo16 yo16 : Int)
    (color sx sy yy : Nat) :
    ∀ (n xx : Nat) (g g1 : GlyphScan),
      drawGlyphRow f x y xo yo xo16 yo16 color sx sy yy n xx g = some g1 →
      sameFrame g.st g1.st := by
  intro n
  induction n with
  | zero =>
    intro xx g g1 hs
    unfold drawGlyphRow at hs
    cases hs
    rfl
  | succ n ih =>
    intro xx g g1 hs
    unfold drawGlyphRow at hs
    cases hc : drawGlyphCell f x y xo yo xo16 yo16 color sx sy xx yy g with
    | none => rw [hc] at hs; cases hs
    | some g2 =>
      rw [hc] at hs
      exact sameFrame_trans _ _ _ (drawGlyphCell_sameFrame _ _ _ _ _ _ _ _ _ _ _ _ _ _ hc)
        (ih _ _ _ hs)

theorem drawGlyphRows_sameFrame (f : GFXfont) (x y xo yo xo16 yo16 : Int)
    (color sx sy w : Nat) :
    ∀ (n yy : Nat) (g g1 : GlyphScan),
      drawGlyphRows f x y xo yo xo16 yo16 color sx sy w n yy g = some g1 →
      sameFrame g.st g1.st := by
  intro n
  induction n with
  | zero =>
    intro yy g g1 hs
    unfold drawGlyphRows at hs
    cases hs
    rfl
  | succ n ih =>
    intro yy g g1 hs
    unfold drawGlyphRows at hs
    cases hc : drawGlyphRow f x y xo yo xo16 yo16 color sx sy yy w 0 g with
    | none => rw [hc] at hs; cases hs
    | some g2 =>
      rw [hc] at hs
      exact sameFrame_trans _ _ _ (drawGlyphRow_sameFrame _ _ _ _ _ _ _ _ _ _ _ _ _ _ _ hc)
        (ih _ _ _ hs)

/-- Whatever drawChar draws, it changes the byte memory only. -/
theorem drawChar_sameFrame (font : Nat → Nat) (st s : Panel) (x y : Int)
    (c color bg sx sy : Nat) (hs : drawChar font st x y c color bg sx sy = some s) :
    sameFrame st s := by
  unfold drawChar at hs
  cases hf : st.gfxFont with
  | none =>
    rw [hf] at hs
    dsimp only at hs
    split at hs
    · cases hs
      rfl
    · cases hc : drawCharColumns font x y (classicCode st c) color bg sx sy 5 0 st with
      | none => rw [hc] at hs; cases hs
      | some s1 =>
        rw [hc] at hs
        have h1 := drawCharColumns_sameFrame _ _ _ _ _ _ _ _ _ _ _ _ hc
        simp only [Option.some_bind] at hs
        split_ifs at hs
        · exact sameFrame_trans _ _ _ h1 (writeLine_sameFrame _ _ _ _ _ _ _ hs)
        · exact sameFrame_trans _ _ _ h1 (fillRect_sameFrame _ _ _ _ _ _ _ hs)
        · cases hs
          exact h1
  | some f =>
    rw [hf] at hs
    dsimp only at hs
    cases hg : drawGlyphRows f x y (wrapI8 (f.glyph.getD (wrapU8 ((c : Int) - (f.first % 256 : Nat))) noGlyph).xOffset)
        (wrapI8 (f.glyph.getD (wrapU8 ((c : Int) - (f.first % 256 : Nat))) noGlyph).yOffset)
        (if sx > 1 ∨ sy > 1 then
          wrapI8 (f.glyph.getD (wrapU8 ((c : Int) - (f.first % 256 : Nat))) noGlyph).xOffset else 0)
        (if sx > 1 ∨ sy > 1 then
          wrapI8 (f.glyph.getD (wrapU8 ((c : Int) - (f.first % 256 : Nat))) noGlyph).yOffset else 0)
        color sx sy ((f.glyph.getD (wrapU8 ((c : Int) - (f.first % 256 : Nat))) noGlyph).width % 256)
        ((f.glyph.getD (wrapU8 ((c : Int) - (f.first % 256 : Nat))) noGlyph).height % 256) 0
        { bit := 0, bits := 0,
          bo := (f.glyph.getD (wrapU8 ((c : Int) - (f.first % 256 : Nat))) noGlyph).bitmapOffset % 65536,
          st := st } with
    | none => rw [hg] at hs; cases hs
    | some g1 =>
      rw [hg] at hs
      cases hs
      exact drawGlyphRows_sameFrame _ _ _ _ _ _ _ _ _ _ _ _ _ _ _ hg

/-! ## write: control characters -/

theorem wrapI16_congr (a b : Int) (h : a % 65536 = b % 65536) : wrapI16 a = wrapI16 b := by
  unfold wrapI16
  omega

theorem wrapI16_emod (a : Int) : wrapI16 a % 65536 = a % 65536 := by
  unfold wrapI16
  omega

theorem newlineCustom_eq (st : Panel) (f : GFXfont) :
    newlineCustom st f =
      { st with cursor_x := 0,
                cursor_y := wrapI16 (st.cursor_y + (f.yAdvance % 256 : Nat) * st.textsize_y) } := by
  unfold newlineCustom
  have e : wrapI16 (st.cursor_y + wrapI16 (wrapI16 st.textsize_y * (f.yAdvance % 256 : Nat))) =
      wrapI16 (st.cursor_y + (f.yAdvance % 256 : Nat) * st.textsize_y) := by
    apply wrapI16_congr
    rw [Int.add_emod, wrapI16_emod, Int.mul_emod, wrapI16_emod, ← Int.mul_emod, ← Int.add_emod,
      mul_comm]
  rw [e]

/-- C21: write('\n') sets cursor_x to 0 and adds one line to cursor_y, in
16-bit arithmetic: 8 * textsize_y with the built-in font, yAdvance * textsize_y
with a proportional font (yAdvance read as a byte); it changes nothing else, the
frame buffer included.  write('\r') returns the state unchanged, so println(),
which emits '\r' and then '\n', has exactly the effect of write('\n'). -/
theorem write_newline (font : Nat → Nat) (st : Panel) (f : GFXfont) :
    (st.gfxFont = none →
      write font st 10 =
        some { st with cursor_x := 0, cursor_y := wrapI16 (st.cursor_y + 8 * st.textsize_y) }) ∧
    (st.gfxFont = none → -32768 ≤ st.cursor_y → st.cursor_y + 8 * st.textsize_y ≤ 32767 →
      (write font st 10).map (fun s => s.cursor_y) = some (st.cursor_y + 8 * st.textsize_y)) ∧
    (st.gfxFont = some f →
      write font st 10 =
        some { st with cursor_x := 0,
                       cursor_y := wrapI16 (st.cursor_y + (f.yAdvance % 256 : Nat) * st.textsize_y) }) ∧
    (st.gfxFont = some f → -32768 ≤ st.cursor_y →
      st.cursor_y + (f.yAdvance % 256 : Nat) * st.textsize_y ≤ 32767 →
      (write font st 10).map (fun s => s.cursor_y) =
        some (st.cursor_y + (f.yAdvance % 256 : Nat) * st.textsize_y)) ∧
    (write font st 10).map (fun s => s.mem) = some st.mem ∧
    write font st 13 = some st ∧
    println font st = write font st 10 := by
  have h13 : write font st 13 = some st := by
    unfold write
    cases st.gfxFont <;> simp
  have hn : st.gfxFont = none → write font st 10 =
      some { st with cursor_x := 0, cursor_y := wrapI16 (st.cursor_y + 8 * st.textsize_y) } := by
    intro h
    unfold write
    split
    · simp only [if_true]
      unfold newlineClassic
      rw [mul_comm]
    · next g hsome =>
      rw [h] at hsome
      cases hsome
  have hc : st.gfxFont = some f → write font st 10 =
      some { st with cursor_x := 0,
                     cursor_y := wrapI16 (st.cursor_y + (f.yAdvance % 256 : Nat) * st.textsize_y) } := by
    intro h
    unfold write
    split
    · next hnone =>
      rw [h] at hnone
      cases hnone
    · next g hsome =>
      rw [h] at hsome
      cases hsome
      simp only [if_true]
      rw [newlineCustom_eq]
  refine ⟨hn, ?_, hc, ?_, ?_, h13, ?_⟩
  · intro h hlo hhi
    rw [hn h]
    simp only [Option.map_some']
    rw [wrapI16_of_range _ (by omega) hhi]
  · intro h hlo hhi
    rw [hc h]
    simp only [Option.map_some']
    have hnn := Int.mul_nonneg (Int.ofNat_nonneg (f.yAdvance % 256))
      (Int.ofNat_nonneg st.textsize_y)
    rw [wrapI16_of_range _ (by omega) hhi]
  · cases hf : st.gfxFont with
    | none => rw [hn hf]; rfl
    | some g =>
      unfold write
      split
      · rfl
      · rfl
  · unfold println printByte
    have e13 : wrapU8 (wrapI8 13) = 13 := by decide
    have e10 : wrapU8 (wrapI8 10) = 10 := by decide
    rw [e13, e10, h13]
    rfl

/-! ## write: printable characters -/

theorem sameFrame_fields (st s : Panel) (h : sameFrame st s) :
    s.cursor_x = st.cursor_x ∧ s.cursor_y = st.cursor_y ∧ s.textsize_x = st.textsize_x ∧
    s.textsize_y = st.textsize_y := by
  unfold sameFrame withMem at h
  refine ⟨?_, ?_, ?_, ?_⟩ <;> rw [h]

theorem advance_after_draw (font : Nat → Nat) (st1 : Panel) (x y : Int) (c color bg sx sy : Nat) :
    (drawChar font st1 x y c color bg sx sy).map
        (fun s => { s with cursor_x := wrapI16 (s.cursor_x + s.textsize_x * 6) }) =
      (drawChar font st1 x y c color bg sx sy).map
        (fun s => { s with cursor_x := wrapI16 (st1.cursor_x + 6 * st1.textsize_x) }) := by
  cases hd : drawChar font st1 x y c color bg sx sy with
  | none => rfl
  | some s =>
    have hf := sameFrame_fields _ _ (drawChar_sameFrame _ _ _ _ _ _ _ _ _ _ hd)
    simp only [Option.map_some', Option.some.injEq]
    rw [hf.1, hf.2.2.1, mul_comm]

theorem write_classic (font : Nat → Nat) (st : Panel) (c : Nat) (hfont : st.gfxFont = none)
    (hc : c ≠ 10 ∧ c ≠ 13) (hsz : st.textsize_x < 256 ∧ st.textsize_y < 256) :
    (((st.wrap && decide (wrapU16 (st.cursor_x + st.textsize_x * 6) > wrapU16 st._width)) = true) →
      write font st c =
        (drawChar font (newlineClassic st) (newlineClassic st).cursor_x
          (newlineClassic st).cursor_y c st.textcolor st.textbgcolor st.textsize_x
          st.textsize_y).map
        (fun s => { s with cursor_x := wrapI16 ((newlineClassic st).cursor_x + 6 * st.textsize_x) })) ∧
    (((st.wrap && decide (wrapU16 (st.cursor_x + st.textsize_x * 6) > wrapU16 st._width)) = false) →
      write font st c =
        (drawChar font st st.cursor_x st.cursor_y c st.textcolor st.textbgcolor
          st.textsize_x st.textsize_y).map
        (fun s => { s with cursor_x := wrapI16 (st.cursor_x + 6 * st.textsize_x) })) := by
  have e10 : ¬ c = 10 := hc.1
  have e13 : c ≠ 13 := hc.2
  have hmx : st.textsize_x % 256 = st.textsize_x := Nat.mod_eq_of_lt hsz.1
  have hmy : st.textsize_y % 256 = st.textsize_y := Nat.mod_eq_of_lt hsz.2
  have n1 : (newlineClassic st).textsize_x = st.textsize_x := rfl
  have n2 : (newlineClassic st).textsize_y = st.textsize_y := rfl
  have n3 : (newlineClassic st).textcolor = st.textcolor := rfl
  have n4 : (newlineClassic st).textbgcolor = st.textbgcolor := rfl
  constructor
  · intro hov
    unfold write
    split
    · simp only [e10, if_false, e13, ne_eq, not_false_eq_true, if_true, hov]
      rw [advance_after_draw, n1, n2, n3, n4, hmx, hmy]
    · next g hsome =>
      rw [hfont] at hsome
      cases hsome
  · intro hov
    unfold write
    split
    · simp only [e10, if_false, e13, ne_eq, not_false_eq_true, if_true, hov, Bool.false_eq_true]
      rw [advance_after_draw, hmx, hmy]
    · next g hsome =>
      rw [hfont] at hsome
      cases hsome

/-- C22 fails for a negative cursor_x: the text sizes are `uint16_t`, so the
test `(cursor_x + textsize_x * 6) > _width` is an unsigned 16-bit comparison.
With the cursor at (-10, 0) on the 32 wide panel, wrap on and size 1, the sum -4
is read as 65532 > 32: write('A') advances a line although -4 > 32 is false, and
the cursor ends at (6, 8) instead of (-4, 0). -/
theorem write_wraps_negative_cursor :
    (setCursor panel32 (-10) 0).gfxFont.isNone = true ∧
    (setCursor panel32 (-10) 0).wrap = true ∧
    (setCursor panel32 (-10) 0).textsize_x = 1 ∧
    (setCursor panel32 (-10) 0)._width = 32 ∧
    ¬ ((setCursor panel32 (-10) 0).cursor_x + 6 * (setCursor panel32 (-10) 0).textsize_x >
        (setCursor panel32 (-10) 0)._width) ∧
    (write (fun _ => 0) (setCursor panel32 (-10) 0) 65).map (fun s => (s.cursor_x, s.cursor_y)) =
      some (6, 8) := by
  decide

/-- What write does with a printable byte in the built-in font when cursor_x
is not negative: if wrap is on and cursor_x + 6*textsize_x > _width it first
sets cursor_x = 0 and advances cursor_y by 8*textsize_y (the state `st1`); it
then draws c at the resulting cursor with the current colours and sizes and
advances cursor_x by 6*textsize_x, leaving cursor_y and everything but the byte
memory as they are.  With wrap off there is no line advance, whatever the
cursor. -/
theorem write_glyph (font : Nat → Nat) (st st1 : Panel) (c : Nat) (hfont : st.gfxFont = none)
    (hc : c ≠ 10 ∧ c ≠ 13) (hsz : st.textsize_x < 256 ∧ st.textsize_y < 256)
    (hw : 0 ≤ st._width ∧ st._width ≤ 32767)
    (hst1 : st1 = if st.wrap = true ∧ st.cursor_x + 6 * st.textsize_x > st._width then
        { st with cursor_x := 0, cursor_y := wrapI16 (st.cursor_y + 8 * st.textsize_y) }
      else st) :
    (0 ≤ st.cursor_x → st.cursor_x ≤ 32767 →
      write font st c =
        (drawChar font st1 st1.cursor_x st1.cursor_y c st.textcolor st.textbgcolor
          st.textsize_x st.textsize_y).map
        (fun s => { s with cursor_x := wrapI16 (st1.cursor_x + 6 * st.textsize_x) })) ∧
    (st.wrap = false →
      write font st c =
        (drawChar font st st.cursor_x st.cursor_y c st.textcolor st.textbgcolor
          st.textsize_x st.textsize_y).map
        (fun s => { s with cursor_x := wrapI16 (st.cursor_x + 6 * st.textsize_x) })) ∧
    (0 ≤ st.cursor_x → st.cursor_x ≤ 32767 → ∀ s, write font st c = some s →
      s.cursor_y = st1.cursor_y ∧ s.cursor_x = wrapI16 (st1.cursor_x + 6 * st.textsize_x) ∧
      sameFrame st1 { s with cursor_x := st1.cursor_x }) := by
  have hcl := write_classic font st c hfont hc hsz
  have hnl : newlineClassic st =
      { st with cursor_x := 0, cursor_y := wrapI16 (st.cursor_y + 8 * st.textsize_y) } := by
    unfold newlineClassic
    rw [mul_comm]
  have key : 0 ≤ st.cursor_x → st.cursor_x ≤ 32767 →
      write font st c =
        (drawChar font st1 st1.cursor_x st1.cursor_y c st.textcolor st.textbgcolor
          st.textsize_x st.textsize_y).map
        (fun s => { s with cursor_x := wrapI16 (st1.cursor_x + 6 * st.textsize_x) }) := by
    intro hx0 hx1
    have hu1 : (wrapU16 (st.cursor_x + st.textsize_x * 6) : Int) = st.cursor_x + st.textsize_x * 6 :=
      wrapU16_of_range _ (by omega) (by omega)
    have hu2 : (wrapU16 st._width : Int) = st._width := wrapU16_of_range _ hw.1 (by omega)
    by_cases hP : st.wrap = true ∧ st.cursor_x + 6 * st.textsize_x > st._width
    · have hov : (st.wrap && decide (wrapU16 (st.cursor_x + st.textsize_x * 6) > wrapU16 st._width))
          = true := by
        rw [Bool.and_eq_true, decide_eq_true_eq]
        exact ⟨hP.1, by omega⟩
      rw [if_pos hP, ← hnl] at hst1
      rw [hst1, hcl.1 hov]
    · have hov : (st.wrap && decide (wrapU16 (st.cursor_x + st.textsize_x * 6) > wrapU16 st._width))
          = false := by
        rw [Bool.and_eq_false_iff, decide_eq_false_iff_not]
        by_cases hwr : st.wrap = true
        · right
          have : ¬ (st.cursor_x + 6 * st.textsize_x > st._width) := fun h => hP ⟨hwr, h⟩
          omega
        · left
          simpa using hwr
      rw [if_neg hP] at hst1
      rw [hst1, hcl.2 hov]
  refine ⟨key, ?_, ?_⟩
  · intro hwr
    apply hcl.2
    rw [hwr]
    rfl
  · intro hx0 hx1 s hs
    rw [key hx0 hx1, Option.map_eq_some'] at hs
    obtain ⟨s1, hd, rfl⟩ := hs
    have hsf := drawChar_sameFrame _ _ _ _ _ _ _ _ _ _ hd
    have hf := sameFrame_fields _ _ hsf
    refine ⟨hf.2.1, rfl, ?_⟩
    unfold sameFrame withMem at hsf ⊢
    dsimp only
    rw [hsf]

theorem write_glyph_witness :
    (0 ≤ panel32.cursor_x → panel32.cursor_x ≤ 32767 →
      write (fun _ => 0) panel32 65 =
        (drawChar (fun _ => 0) panel32 panel32.cursor_x panel32.cursor_y 65 panel32.textcolor
          panel32.textbgcolor panel32.textsize_x panel32.textsize_y).map
        (fun s => { s with cursor_x := wrapI16 (panel32.cursor_x + 6 * panel32.textsize_x) })) ∧
    (panel32.wrap = false →
      write (fun _ => 0) panel32 65 =
        (drawChar (fun _ => 0) panel32 panel32.cursor_x panel32.cursor_y 65 panel32.textcolor
          panel32.textbgcolor panel32.textsize_x panel32.textsize_y).map
        (fun s => { s with cursor_x := wrapI16 (panel32.cursor_x + 6 * panel32.textsize_x) })) ∧
    (0 ≤ panel32.cursor_x → panel32.cursor_x ≤ 32767 → ∀ s,
      write (fun _ => 0) panel32 65 = some s →
      s.cursor_y = panel32.cursor_y ∧
      s.cursor_x = wrapI16 (panel32.cursor_x + 6 * panel32.textsize_x) ∧
      sameFrame panel32 { s with cursor_x := panel32.cursor_x }) :=
  write_glyph (fun _ => 0) panel32 panel32 65 rfl (by decide) (by decide) (by decide) rfl

/-! ## Numbers -/

theorem printNumberBuf_digits (b : Nat) (hb2 : 2 ≤ b) (hb : b ≤ 256) :
    ∀ (fuel n : Nat) (buf : List Nat), n < b ^ fuel →
      printNumberBuf b fuel n buf = Except.ok (buf ++ Nat.digits b n) := by
  intro fuel
  induction fuel with
  | zero =>
    intro n buf hn
    have h0 : n = 0 := by simpa using hn
    subst h0
    unfold printNumberBuf
    simp
  | succ k ih =>
    intro n buf hn
    unfold printNumberBuf
    by_cases hpos : n > 0
    · rw [if_pos hpos, if_neg (by omega)]
      have hlt : n % b < b := Nat.mod_lt _ (by omega)
      have hw : wrapU8 ((n % b : Nat)) = n % b := by
        unfold wrapU8
        omega
      have hdiv : n / b < b ^ k := by
        rw [Nat.div_lt_iff_lt_mul (by omega)]
        rw [pow_succ] at hn
        exact hn
      rw [hw, ih (n / b) _ hdiv, Nat.digits_def' (by omega) hpos]
      simp
    · have h0 : n = 0 := by omega
      subst h0
      rw [if_neg (by omega)]
      simp

theorem digitChar_table :
    ∀ d < 16, digitValue (digitChar d) = d ∧
      ((48 ≤ digitChar d ∧ digitChar d ≤ 57) ∨ (65 ≤ digitChar d ∧ digitChar d ≤ 70)) ∧
      (digitChar d = 48 ↔ d = 0) ∧
      (d < 10 → digitChar d = 48 + d) ∧ (10 ≤ d → digitChar d = 65 + (d - 10)) := by
  decide

theorem map_digitValue_digitChar (l : List Nat) (h : ∀ d ∈ l, d < 16) :
    (l.map digitChar).map digitValue = l := by
  induction l with
  | nil => rfl
  | cons d rest ih =>
    simp only [List.map_cons]
    rw [(digitChar_table d (h d (List.mem_cons_self _ _))).1,
      ih (fun e he => h e (List.mem_cons_of_mem _ he))]

theorem pow32_le (b : Nat) (hb2 : 2 ≤ b) : 4294967296 ≤ b ^ 32 := by
  have : (2 : Nat) ^ 32 ≤ b ^ 32 := Nat.pow_le_pow_left hb2 32
  simpa using this

/-- The digits printNumber emits for a non-zero number in a base from 2 to 16. -/
theorem printNumberChars_digits (n b : Nat) (hn0 : n ≠ 0) (hn : n < 4294967296)
    (hb2 : 2 ≤ b) (hb : b ≤ 16) :
    printNumberChars n b = Except.ok ((Nat.digits b n).reverse.map digitChar) := by
  unfold printNumberChars
  rw [if_neg hn0, printNumberBuf_digits b hb2 (by omega) 32 n []
    (lt_of_lt_of_le hn (pow32_le b hb2))]
  simp

/-- C24: for an unsigned 32-bit n and base 2, 8, 10 or 16, printNumber passes
to write exactly the base-b digits of n, most significant first (the digits of
Mathlib's `Nat.digits`, reversed), as characters '0'-'9' and 'A'-'F'; for n = 0
it is the single character '0', and otherwise the first character is not '0';
reading the characters back as a base-b numeral gives n. -/
theorem printNumber_digits (font : Nat → Nat) (st : Panel) (n b : Nat)
    (hn : n < 4294967296) (hb : b = 2 ∨ b = 8 ∨ b = 10 ∨ b = 16) :
    ∃ chars, printNumberChars n b = Except.ok chars ∧
      printNumber font st n b = orDiverges (writeAll font chars st) ∧
      (n = 0 → chars = [48]) ∧
      (n ≠ 0 → chars = (Nat.digits b n).reverse.map digitChar ∧ chars.head? ≠ some 48) ∧
      (∀ ch ∈ chars, ((48 ≤ ch ∧ ch ≤ 57) ∨ (65 ≤ ch ∧ ch ≤ 70)) ∧ digitValue ch < b) ∧
      Nat.ofDigits b ((chars.map digitValue).reverse) = n := by
  have hb2 : 2 ≤ b := by omega
  have hb16 : b ≤ 16 := by omega
  by_cases hn0 : n = 0
  · subst hn0
    refine ⟨[48], rfl, rfl, fun _ => rfl, fun h => absurd rfl h, ?_, ?_⟩
    · intro ch hch
      simp only [List.mem_singleton] at hch
      subst hch
      refine ⟨Or.inl ⟨by decide, by decide⟩, ?_⟩
      have : digitValue 48 = 0 := by decide
      omega
    · simp [digitValue, Nat.ofDigits]
  · have hchars := printNumberChars_digits n b hn0 hn hb2 hb16
    have hlt : ∀ d ∈ Nat.digits b n, d < b := fun d hd => Nat.digits_lt_base (by omega) hd
    have hlt16 : ∀ d ∈ (Nat.digits b n).reverse, d < 16 := by
      intro d hd
      have := hlt d (List.mem_reverse.1 hd)
      omega
    refine ⟨(Nat.digits b n).reverse.map digitChar, hchars, ?_, fun h => absurd h hn0,
      fun _ => ⟨rfl, ?_⟩, ?_, ?_⟩
    · unfold printNumber emit
      rw [hchars]
    · have hne : Nat.digits b n ≠ [] := Nat.digits_ne_nil_iff_ne_zero.2 hn0
      have hlast := Nat.getLast_digit_ne_zero b hn0
      rw [List.head?_map, List.head?_reverse, List.getLast?_eq_getLast _ hne]
      simp only [Option.map_some', ne_eq, Option.some.injEq]
      intro h48
      have hd := hlt _ (List.getLast_mem hne)
      exact hlast (((digitChar_table _ (by omega)).2.2.1).1 h48)
    · intro ch hch
      rw [List.mem_map] at hch
      obtain ⟨d, hd, rfl⟩ := hch
      have hdb := hlt d (List.mem_reverse.1 hd)
      have ht := digitChar_table d (by omega)
      exact ⟨ht.2.1, by rw [ht.1]; exact hdb⟩
    · rw [map_digitValue_digitChar _ hlt16, List.reverse_reverse, Nat.ofDigits_digits]

theorem printNumber_digits_witness :
    ∃ chars, printNumberChars 255 16 = Except.ok chars ∧
      printNumber (fun _ => 0) panel32 255 16 = orDiverges (writeAll (fun _ => 0) chars panel32) ∧
      (255 = 0 → chars = [48]) ∧
      (255 ≠ 0 → chars = (Nat.digits 16 255).reverse.map digitChar ∧ chars.head? ≠ some 48) ∧
      (∀ ch ∈ chars, ((48 ≤ ch ∧ ch ≤ 57) ∨ (65 ≤ ch ∧ ch ≤ 70)) ∧ digitValue ch < 16) ∧
      Nat.ofDigits 16 ((chars.map digitValue).reverse) = 255 :=
  printNumber_digits (fun _ => 0) panel32 255 16 (by decide) (by decide)

theorem wrap_neg_long (n : Int) (hlo : -2147483648 ≤ n) (hneg : n < 0) :
    wrapU32 (wrapI32 (-n)) = n.natAbs := by
  unfold wrapU32 wrapI32
  omega

theorem wrap_pos_long (n : Int) (h0 : 0 ≤ n) (hhi : n ≤ 2147483647) :
    wrapU32 n = n.natAbs := by
  unfold wrapU32
  omega

/-- C25: for a signed 32-bit n, print(n, 10) passes to write the character '-'
followed by the decimal digits of |n| when n < 0, and only the decimal digits
of n when n >= 0 (the single character '0' for n = 0). -/
theorem printLong_decimal (font : Nat → Nat) (st : Panel) (n : Int)
    (hlo : -2147483648 ≤ n) (hhi : n ≤ 2147483647) :
    ∃ chars, printLongChars n 10 = Except.ok chars ∧
      printLong font st n 10 = orDiverges (writeAll font chars st) ∧
      (n < 0 → chars = 45 :: (Nat.digits 10 n.natAbs).reverse.map digitChar) ∧
      (0 < n → chars = (Nat.digits 10 n.natAbs).reverse.map digitChar) ∧
      (n = 0 → chars = [48]) ∧
      (∀ d ∈ Nat.digits 10 n.natAbs, digitChar d = 48 + d) := by
  have hdig : ∀ d ∈ Nat.digits 10 n.natAbs, digitChar d = 48 + d := by
    intro d hd
    have hlt : d < 10 := Nat.digits_lt_base (by decide) hd
    exact (digitChar_table d (by omega)).2.2.2.1 hlt
  have h10 : ¬ ((10 : Int) = 0) := by decide
  by_cases hneg : n < 0
  · have hw := wrap_neg_long n hlo hneg
    have hm0 : n.natAbs ≠ 0 := by omega
    have hm : n.natAbs < 4294967296 := by omega
    have hc := printNumberChars_digits n.natAbs 10 hm0 hm (by decide) (by decide)
    have e : printLongChars n 10 =
        Except.ok (45 :: (Nat.digits 10 n.natAbs).reverse.map digitChar) := by
      unfold printLongChars
      rw [if_neg h10, if_pos rfl, if_pos hneg, hw, hc]
      rfl
    refine ⟨_, e, ?_, fun _ => rfl, fun h => by omega, fun h => by omega, hdig⟩
    unfold printLong emit
    rw [e]
  · have hw := wrap_pos_long n (by omega) hhi
    have hm : n.natAbs < 4294967296 := by omega
    have e0 : printLongChars n 10 = printNumberChars n.natAbs 10 := by
      unfold printLongChars
      rw [if_neg h10, if_pos rfl, if_neg hneg, hw]
    by_cases hz : n = 0
    · subst hz
      refine ⟨[48], ?_, ?_, fun h => by omega, fun h => by omega, fun _ => rfl, hdig⟩
      · rw [e0]
        rfl
      · unfold printLong emit
        rw [e0]
        rfl
    · have hm0 : n.natAbs ≠ 0 := by omega
      have hc := printNumberChars_digits n.natAbs 10 hm0 hm (by decide) (by decide)
      refine ⟨_, e0.trans hc, ?_, fun h => by omega, fun _ => rfl, fun h => absurd h hz, hdig⟩
      unfold printLong emit
      rw [e0, hc]

theorem printLong_decimal_witness :
    ∃ chars, printLongChars (-42) 10 = Except.ok chars ∧
      printLong (fun _ => 0) panel32 (-42) 10 = orDiverges (writeAll (fun _ => 0) chars panel32) ∧
      ((-42 : Int) < 0 → chars = 45 :: (Nat.digits 10 (-42 : Int).natAbs).reverse.map digitChar) ∧
      ((0 : Int) < -42 → chars = (Nat.digits 10 (-42 : Int).natAbs).reverse.map digitChar) ∧
      ((-42 : Int) = 0 → chars = [48]) ∧
      (∀ d ∈ Nat.digits 10 (-42 : Int).natAbs, digitChar d = 48 + d) :=
  printLong_decimal (fun _ => 0) panel32 (-42) (by decide) (by decide)

/-! ## Pixels do not share bits -/

theorem owned_upper (r g b k i : Nat) (h : (k, i) ∈ ownedBits true) :
    (upperBit r g b k i).isSome = true ∧ lowerBit r g b k i = none ∧ k < 3 ∧ i < 8 := by
  simp only [ownedBits, if_true, List.mem_cons, Prod.mk.injEq, List.mem_singleton,
    List.not_mem_nil, or_false] at h
  rcases h with h | h | h | h | h | h | h | h | h | h | h | h <;>
    (obtain ⟨rfl, rfl⟩ := h; exact ⟨rfl, rfl, by decide, by decide⟩)

theorem owned_lower (r g b k i : Nat) (h : (k, i) ∈ ownedBits false) :
    (lowerBit r g b k i).isSome = true ∧ upperBit r g b k i = none ∧ k < 3 ∧ i < 8 := by
  simp only [ownedBits, Bool.false_eq_true, if_false, List.mem_cons, Prod.mk.injEq,
    List.mem_singleton, List.not_mem_nil, or_false] at h
  rcases h with h | h | h | h | h | h | h | h | h | h | h | h <;>
    (obtain ⟨rfl, rfl⟩ := h; exact ⟨rfl, rfl, by decide, by decide⟩)

theorem baseAddr_frame (st : Panel) (m : Mem) (x y : Int) :
    baseAddr { st with mem := m } x y = baseAddr st x y := rfl

/-- After writeRaw the raw pixel holds the colour written. -/
theorem writeRaw_sets (st : Panel) (x y : Int) (c : Nat) (hW : st.WIDTH ≠ 0) :
    rawPixelBits (writeRaw st x y c) x y = colourBits (decide (y < st.nRows)) c := by
  unfold rawPixelBits colourBits
  have hn : (writeRaw st x y c).nRows = st.nRows := by rw [writeRaw_frame]
  have hw : (writeRaw st x y c).WIDTH = st.WIDTH := by rw [writeRaw_frame]
  have hb : baseAddr (writeRaw st x y c) x y = baseAddr st x y := by
    rw [writeRaw_frame]
    rfl
  rw [hn, hw, hb]
  apply List.map_congr_left
  intro p hp
  by_cases hy : y < st.nRows
  · have hd : decide (y < (st.nRows : Int)) = true := decide_eq_true hy
    rw [hd] at hp ⊢
    obtain ⟨hs, -, hk, -⟩ := owned_upper (channels c).1 (channels c).2.1 (channels c).2.2 p.1 p.2 hp
    rw [writeRaw_upper_bit st x y c hy hW p.1 hk p.2]
    simp only [if_true]
    cases hu : upperBit (channels c).1 (channels c).2.1 (channels c).2.2 p.1 p.2 with
    | none => rw [hu] at hs; cases hs
    | some v => rfl
  · have hd : decide (y < (st.nRows : Int)) = false := decide_eq_false hy
    rw [hd] at hp ⊢
    obtain ⟨hs, -, hk, -⟩ := owned_lower (channels c).1 (channels c).2.1 (channels c).2.2 p.1 p.2 hp
    rw [writeRaw_lower_bit st x y c hy hW p.1 hk p.2]
    simp only [Bool.false_eq_true, if_false]
    cases hu : lowerBit (channels c).1 (channels c).2.1 (channels c).2.2 p.1 p.2 with
    | none => rw [hu] at hs; cases hs
    | some v => rfl

/-- A raw pixel on the panel: its base byte and where its three bytes lie. -/
theorem baseAddr_raw (st : Panel) (hW : st.WIDTH = 32 ∨ st.WIDTH = 64)
    (hR : st.nRows = 8 ∨ st.nRows = 16) (x y : Int)
    (hx : 0 ≤ x ∧ x < st.WIDTH) (hy : 0 ≤ y ∧ y < 2 * st.nRows) :
    baseAddr st x y = backBuffer st +
      ((if y < st.nRows then y else y - st.nRows) * st.WIDTH * 3 + x) := by
  have hn : ((nPlanes : Nat) : Int) - 1 = 3 := by decide
  unfold baseAddr backBuffer
  rw [hn]
  split
  · rw [wrapI16_of_range]
    · rcases hW with h | h <;> rw [h] at hx ⊢ <;> omega
    · rcases hW with h | h <;> rcases hR with h' | h' <;> rw [h] at hx ⊢ <;> rw [h'] at hy <;> omega
  · rw [wrapI16_of_range]
    · rcases hW with h | h <;> rw [h] at hx ⊢ <;> omega
    · rcases hW with h | h <;> rcases hR with h' | h' <;> rw [h] at hx ⊢ <;> rw [h'] at hy <;> omega

/-- Writing one raw pixel leaves the bits of every other raw pixel as they
were. -/
theorem writeRaw_keeps (st : Panel) (hW : st.WIDTH = 32 ∨ st.WIDTH = 64)
    (hR : st.nRows = 8 ∨ st.nRows = 16) (x y qx qy : Int) (c : Nat)
    (hx : 0 ≤ x ∧ x < st.WIDTH) (hy : 0 ≤ y ∧ y < 2 * st.nRows)
    (hqx : 0 ≤ qx ∧ qx < st.WIDTH) (hqy : 0 ≤ qy ∧ qy < 2 * st.nRows)
    (hne : (qx, qy) ≠ (x, y)) :
    rawPixelBits (writeRaw st x y c) qx qy = rawPixelBits st qx qy := by
  have hW0 : st.WIDTH ≠ 0 := by rcases hW with h | h <;> rw [h] <;> decide
  unfold rawPixelBits
  have hn : (writeRaw st x y c).nRows = st.nRows := by rw [writeRaw_frame]
  have hw : (writeRaw st x y c).WIDTH = st.WIDTH := by rw [writeRaw_frame]
  have hb : baseAddr (writeRaw st x y c) qx qy = baseAddr st qx qy := by
    rw [writeRaw_frame]
    rfl
  rw [hn, hw, hb]
  apply List.map_congr_left
  intro p hp
  have hbp := baseAddr_raw st hW hR x y hx hy
  have hbq := baseAddr_raw st hW hR qx qy hqx hqy
  have hxy : qx ≠ x ∨ qy ≠ y := by
    by_contra hcon
    push_neg at hcon
    exact hne (by rw [hcon.1, hcon.2])
  by_cases hsame : ∃ k : Nat, k < 3 ∧
      baseAddr st qx qy + (p.1 : Int) * st.WIDTH = baseAddr st x y + (k : Int) * st.WIDTH
  · obtain ⟨k, hk, hk2⟩ := hsame
    rw [hk2]
    by_cases hqu : qy < st.nRows
    · have hd : decide (qy < (st.nRows : Int)) = true := decide_eq_true hqu
      rw [hd] at hp
      obtain ⟨-, hlow, hp1, hp2⟩ :=
        owned_upper (channels c).1 (channels c).2.1 (channels c).2.2 p.1 p.2 hp
      have hkk : k = p.1 ∧ ¬ y < st.nRows := by
        rw [hbp, hbq, if_pos hqu] at hk2
        rcases hW with h | h <;> rcases hR with h' | h' <;> rw [h] at hk2 hx hqx <;>
          rw [h'] at hy hqy hqu ⊢ <;> split at hk2 <;> omega
      rw [writeRaw_lower_bit st x y c hkk.2 hW0 k hk p.2, hkk.1, hlow]
      simp only [decide_eq_true hp2, Bool.true_and]
    · have hd : decide (qy < (st.nRows : Int)) = false := decide_eq_false hqu
      rw [hd] at hp
      obtain ⟨-, hup, hp1, hp2⟩ :=
        owned_lower (channels c).1 (channels c).2.1 (channels c).2.2 p.1 p.2 hp
      have hkk : k = p.1 ∧ y < st.nRows := by
        rw [hbp, hbq, if_neg hqu] at hk2
        rcases hW with h | h <;> rcases hR with h' | h' <;> rw [h] at hk2 hx hqx <;>
          rw [h'] at hy hqy hqu ⊢ <;> split at hk2 <;> omega
      rw [writeRaw_upper_bit st x y c hkk.2 hW0 k hk p.2, hkk.1, hup]
      simp only [decide_eq_true hp2, Bool.true_and]
  · push_neg at hsame
    have h0 := hsame 0 (by decide)
    have h1 := hsame 1 (by decide)
    have h2 := hsame 2 (by decide)
    rw [writeRaw_read_other st x y c _ (by simpa using h0) (by simpa using h1)
      (by
        intro h
        apply h2
        rw [h]
        push_cast
        ring)]

/-! ## Logical pixels -/

theorem rotateCoord_frame (st : Panel) (m : Mem) (x y : Int) :
    rotateCoord { st with mem := m } x y = rotateCoord st x y := rfl

theorem rotateCoord_range (st : Panel) (hg : Geometry st) (x y : Int) (hon : onScreen st x y) :
    (0 ≤ (rotateCoord st x y).1 ∧ (rotateCoord st x y).1 < st.WIDTH) ∧
    (0 ≤ (rotateCoord st x y).2 ∧ (rotateCoord st x y).2 < 2 * st.nRows) := by
  obtain ⟨hW, hR, hH, h4, hw, hh⟩ := hg
  obtain ⟨hx, hy⟩ := hon
  have hW1 : st.WIDTH ≤ 64 := by rcases hW with h | h <;> rw [h] <;> decide
  have hW0 : 32 ≤ st.WIDTH := by rcases hW with h | h <;> rw [h] <;> decide
  have hR1 : (st.nRows : Int) ≤ 16 := by rcases hR with h | h <;> rw [h] <;> decide
  rw [hw] at hx
  rw [hh] at hy
  unfold rotateCoord
  generalize st.rotation = k at h4 hx hy
  interval_cases k
  · simp at hx hy
    simp only
    omega
  · simp at hx hy
    simp only
    rw [wrapI16_of_range _ (by omega) (by omega)]
    omega
  · simp at hx hy
    simp only
    rw [wrapI16_of_range _ (by omega) (by omega), wrapI16_of_range _ (by omega) (by omega)]
    omega
  · simp at hx hy
    simp only
    rw [wrapI16_of_range _ (by omega) (by omega)]
    omega

theorem rotateCoord_inj (st : Panel) (hg : Geometry st) (x y x2 y2 : Int)
    (hon : onScreen st x y) (hon2 : onScreen st x2 y2)
    (he : rotateCoord st x y = rotateCoord st x2 y2) : x = x2 ∧ y = y2 := by
  obtain ⟨hW, hR, hH, h4, hw, hh⟩ := hg
  obtain ⟨hx, hy⟩ := hon
  obtain ⟨hx2, hy2⟩ := hon2
  have hW1 : st.WIDTH ≤ 64 := by rcases hW with h | h <;> rw [h] <;> decide
  have hW0 : 32 ≤ st.WIDTH := by rcases hW with h | h <;> rw [h] <;> decide
  have hR1 : (st.nRows : Int) ≤ 16 := by rcases hR with h | h <;> rw [h] <;> decide
  rw [hw] at hx hx2
  rw [hh] at hy hy2
  unfold rotateCoord at he
  generalize st.rotation = k at h4 hx hy hx2 hy2 he
  interval_cases k
  · simp at hx hy hx2 hy2
    simp only [Prod.mk.injEq] at he
    exact he
  · simp at hx hy hx2 hy2
    simp only [Prod.mk.injEq] at he
    rw [wrapI16_of_range _ (by omega) (by omega), wrapI16_of_range _ (by omega) (by omega)] at he
    omega
  · simp at hx hy hx2 hy2
    simp only [Prod.mk.injEq] at he
    rw [wrapI16_of_range _ (by omega) (by omega), wrapI16_of_range _ (by omega) (by omega),
      wrapI16_of_range _ (by omega) (by omega), wrapI16_of_range _ (by omega) (by omega)] at he
    omega
  · simp at hx hy hx2 hy2
    simp only [Prod.mk.injEq] at he
    rw [wrapI16_of_range _ (by omega) (by omega), wrapI16_of_range _ (by omega) (by omega)] at he
    omega

theorem Geometry_sameFrame (st s : Panel) (h : sameFrame st s) (hg : Geometry st) :
    Geometry s := by
  unfold sameFrame withMem at h
  rw [h]
  exact hg

theorem onScreen_sameFrame (st s : Panel) (h : sameFrame st s) (x y : Int) :
    onScreen s x y ↔ onScreen st x y := by
  unfold sameFrame withMem at h
  rw [h]
  rfl

/-- After drawPixel on the display the pixel holds the colour drawn. -/
theorem drawPixel_sets (st : Panel) (hg : Geometry st) (x y : Int) (c : Nat)
    (hon : onScreen st x y) : holdsColour (drawPixel st x y c) x y c := by
  have hW0 : st.WIDTH ≠ 0 := by rcases hg.1 with h | h <;> rw [h] <;> decide
  unfold holdsColour pixelBits
  rw [drawPixel_in_range st x y c hon.1 hon.2]
  have hr : rotateCoord (writeRaw st (rotateCoord st x y).1 (rotateCoord st x y).2 c) x y =
      rotateCoord st x y := by
    rw [writeRaw_frame]
    rfl
  have hn : (writeRaw st (rotateCoord st x y).1 (rotateCoord st x y).2 c).nRows = st.nRows := by
    rw [writeRaw_frame]
  rw [hr, hn]
  exact writeRaw_sets st _ _ c hW0

/-- Drawing one pixel leaves every other pixel of the display as it was. -/
theorem drawPixel_keeps (st : Panel) (hg : Geometry st) (x y qx qy : Int) (c : Nat)
    (honq : onScreen st qx qy) (hne : (qx, qy) ≠ (x, y)) :
    pixelBits (drawPixel st x y c) qx qy = pixelBits st qx qy := by
  by_cases hon : onScreen st x y
  · unfold pixelBits
    rw [drawPixel_in_range st x y c hon.1 hon.2]
    have hr : rotateCoord (writeRaw st (rotateCoord st x y).1 (rotateCoord st x y).2 c) qx qy =
        rotateCoord st qx qy := by
      rw [writeRaw_frame]
      rfl
    rw [hr]
    have h1 := rotateCoord_range st hg x y hon
    have h2 := rotateCoord_range st hg qx qy honq
    apply writeRaw_keeps st hg.1 hg.2.1 _ _ _ _ c h1.1 h1.2 h2.1 h2.2
    intro he
    have := rotateCoord_inj st hg qx qy x y honq hon (Prod.ext (by rw [Prod.mk.injEq] at he; exact he.1)
      (by rw [Prod.mk.injEq] at he; exact he.2))
    exact hne (by rw [this.1, this.2])
  · have : drawPixel st x y c = st := by
      unfold drawPixel
      rw [if_pos]
      unfold onScreen at hon
      by_contra hcon
      push_neg at hcon
      exact hon ⟨⟨hcon.1, hcon.2.1⟩, hcon.2.2.1, hcon.2.2.2⟩
    rw [this]

/-- The value of holdsColour is read from the pixel's bits. -/
theorem holdsColour_congr (s t : Panel) (h : sameFrame t s) (x y : Int) (c : Nat)
    (hb : pixelBits s x y = pixelBits t x y) (ht : holdsColour t x y c) :
    holdsColour s x y c := by
  unfold holdsColour at *
  rw [hb, ht]
  unfold sameFrame withMem at h
  rw [h]
  rfl

/-! ## Sequences of pixel writes -/

theorem drawWrites_cons (st : Panel) (w : Int × Int × Nat) (ws : List (Int × Int × Nat)) :
    drawWrites st (w :: ws) = drawWrites (drawPixel st w.1 w.2.1 w.2.2) ws := rfl

theorem drawWrites_append (ws vs : List (Int × Int × Nat)) (st : Panel) :
    drawWrites st (ws ++ vs) = drawWrites (drawWrites st ws) vs := by
  unfold drawWrites
  rw [List.foldl_append]

theorem drawWrites_sameFrame (ws : List (Int × Int × Nat)) :
    ∀ st : Panel, sameFrame st (drawWrites st ws) := by
  induction ws with
  | nil => exact fun st => rfl
  | cons w rest ih =>
    intro st
    exact sameFrame_trans _ _ _ (drawPixel_sameFrame st w.1 w.2.1 w.2.2) (ih _)

theorem drawPixels_eq_drawWrites (c : Nat) (ps : List (Int × Int)) :
    ∀ st : Panel, drawPixels c st ps = drawWrites st (ps.map (fun p => (p.1, p.2, c))) := by
  induction ps with
  | nil => exact fun st => rfl
  | cons p rest ih =>
    intro st
    rw [drawPixels_cons, List.map_cons, drawWrites_cons]
    exact ih _

/-- A pixel that a sequence of writes never addresses keeps its bits. -/
theorem drawWrites_keeps (ws : List (Int × Int × Nat)) :
    ∀ (st : Panel), Geometry st → ∀ (qx qy : Int), onScreen st qx qy →
      (∀ w ∈ ws, (qx, qy) ≠ (w.1, w.2.1)) →
      pixelBits (drawWrites st ws) qx qy = pixelBits st qx qy := by
  induction ws with
  | nil => exact fun st _ qx qy _ _ => rfl
  | cons w rest ih =>
    intro st hg qx qy hon hne
    rw [drawWrites_cons]
    have hsf := drawPixel_sameFrame st w.1 w.2.1 w.2.2
    rw [ih _ (Geometry_sameFrame _ _ hsf hg) qx qy ((onScreen_sameFrame _ _ hsf qx qy).2 hon)
      (fun v hv => hne v (List.mem_cons_of_mem _ hv))]
    exact drawPixel_keeps st hg _ _ qx qy _ hon (hne w (List.mem_cons_self _ _))

/-- After a sequence of writes that addresses no pixel twice, every pixel it
addressed on the display holds the colour written to it. -/
theorem drawWrites_sets (ws : List (Int × Int × Nat)) :
    ∀ (st : Panel), Geometry st → (ws.map (fun w => (w.1, w.2.1))).Nodup →
      ∀ w ∈ ws, onScreen st w.1 w.2.1 → holdsColour (drawWrites st ws) w.1 w.2.1 w.2.2 := by
  induction ws with
  | nil =>
    intro st _ _ w hw
    cases hw
  | cons v rest ih =>
    intro st hg hnd w hw hon
    rw [List.map_cons, List.nodup_cons] at hnd
    rw [drawWrites_cons]
    have hsf := drawPixel_sameFrame st v.1 v.2.1 v.2.2
    have hg1 := Geometry_sameFrame _ _ hsf hg
    rcases List.mem_cons.1 hw with h | h
    · subst h
      have hkeep := drawWrites_keeps rest (drawPixel st w.1 w.2.1 w.2.2) hg1 w.1 w.2.1
        ((onScreen_sameFrame _ _ hsf _ _).2 hon)
        (fun u hu he => hnd.1 (List.mem_map.2 ⟨u, hu, he.symm⟩))
      exact holdsColour_congr _ _ (drawWrites_sameFrame rest _) _ _ _ hkeep
        (drawPixel_sets st hg _ _ _ hon)
    · exact ih _ hg1 hnd.2 w h ((onScreen_sameFrame _ _ hsf _ _).2 hon)

/-- Bytes outside the back buffer are not touched by drawPixel. -/
theorem drawPixel_outside (st : Panel) (hg : Geometry st) (x y : Int) (c : Nat) (a : Int)
    (ha : outsideBuffer st a) : (drawPixel st x y c).mem.read a = st.mem.read a := by
  by_cases hon : onScreen st x y
  · rw [drawPixel_in_range st x y c hon.1 hon.2]
    have hr := rotateCoord_range st hg x y hon
    have hb := baseAddr_raw st hg.1 hg.2.1 _ _ hr.1 hr.2
    unfold outsideBuffer at ha
    obtain ⟨hW, hR, -, -⟩ := hg
    apply writeRaw_read_other
    · rw [hb]
      rcases hW with h | h <;> rcases hR with h' | h' <;> rw [h] at hr ha ⊢ <;>
        rw [h'] at hr ha ⊢ <;> split <;> omega
    · rw [hb]
      rcases hW with h | h <;> rcases hR with h' | h' <;> rw [h] at hr ha ⊢ <;>
        rw [h'] at hr ha ⊢ <;> split <;> omega
    · rw [hb]
      rcases hW with h | h <;> rcases hR with h' | h' <;> rw [h] at hr ha ⊢ <;>
        rw [h'] at hr ha ⊢ <;> split <;> omega
  · have : drawPixel st x y c = st := by
      unfold drawPixel
      rw [if_pos]
      unfold onScreen at hon
      by_contra hcon
      push_neg at hcon
      exact hon ⟨⟨hcon.1, hcon.2.1⟩, hcon.2.2.1, hcon.2.2.2⟩
    rw [this]

/-! ## drawChar at size 1 as a sequence of writes -/

/-- A vertical line given upper end first. -/
theorem writeLinePixels_col (x a b : Int) (hab : a < b) (ha : -32768 ≤ a) (hb : b ≤ 32766)
    (hd : b - a ≤ 32767) :
    writeLinePixels x a x b = some (majorPixels true x (b - a + 1).toNat a) := by
  unfold writeLinePixels
  have e1 : abs16 (x - x) = 0 := by
    rw [sub_self]
    decide
  have e2 : abs16 (b - a) = b - a := abs16_of_range _ (by omega) hd
  have hs : decide (abs16 (b - a) > abs16 (x - x)) = true := by
    rw [e1, e2]
    exact decide_eq_true (by omega)
  have hc : ¬ a > b := by omega
  simp only [hs, if_true, if_neg hc]
  exact flat_sorted true a b x _ (by omega) ha hb hd

theorem drawCharCell_writes (st : Panel) (x y : Int) (i j line color bg : Nat)
    (hx : -32768 ≤ x + i ∧ x + i ≤ 32767) (hy : -32768 ≤ y + j ∧ y + j ≤ 32767) :
    drawCharCell st x y i j line color bg 1 1 =
      some (drawWrites st (cellWrite x y i j line color bg)) := by
  unfold drawCharCell cellWrite
  rw [wrapI16_of_range _ hx.1 hx.2, wrapI16_of_range _ hy.1 hy.2]
  simp only [and_self, if_true]
  split_ifs <;> rfl

theorem drawCharColumn_writes (x y : Int) (i color bg : Nat)
    (hx : -32768 ≤ x + i ∧ x + i ≤ 32767) :
    ∀ (n j line : Nat) (st : Panel), -32768 ≤ y + j → y + j + n ≤ 32768 →
      drawCharColumn x y i color bg 1 1 n j line st =
        some (drawWrites st (colWrites x y i color bg n j line)) := by
  intro n
  induction n with
  | zero =>
    intro j line st _ _
    rfl
  | succ n ih =>
    intro j line st hlo hhi
    unfold drawCharColumn colWrites
    rw [drawCharCell_writes st x y i j line color bg hx ⟨hlo, by omega⟩]
    simp only [Option.some_bind]
    rw [ih (j + 1) _ _ (by push_cast; omega) (by push_cast; omega), drawWrites_append]

theorem drawCharColumns_writes (font : Nat → Nat) (x y : Int) (c color bg : Nat)
    (hy : -32768 ≤ y ∧ y + 8 ≤ 32768) :
    ∀ (n i : Nat) (st : Panel), -32768 ≤ x + i → x + i + n ≤ 32768 →
      drawCharColumns font x y c color bg 1 1 n i st =
        some (drawWrites st (colsWrites font x y c color bg n i)) := by
  intro n
  induction n with
  | zero =>
    intro i st _ _
    rfl
  | succ n ih =>
    intro i st hlo hhi
    unfold drawCharColumns colsWrites
    rw [drawCharColumn_writes x y i color bg ⟨hlo, by omega⟩ 8 0 _ st (by simpa using hy.1)
      (by simpa using hy.2)]
    simp only [Option.some_bind]
    rw [ih (i + 1) _ (by push_cast; omega) (by push_cast; omega), drawWrites_append]

/-- At size 1, with the cell on the display, drawChar is the sequence of
writes `charWrites`. -/
theorem drawChar_writes (font : Nat → Nat) (st : Panel) (x y : Int) (c color bg : Nat)
    (hfont : st.gfxFont = none)
    (hx : 0 ≤ x ∧ x + 6 ≤ st._width) (hy : 0 ≤ y ∧ y + 8 ≤ st._height)
    (hw : st._width ≤ 32767) (hh : st._height ≤ 32766) :
    drawChar font st x y c color bg 1 1 = some (drawWrites st (charWrites font st x y c color bg)) := by
  unfold drawChar
  split
  · have e1 : wrapI16 (x + 6 * ((1 : Nat) : Int) - 1) = x + 5 := by
      rw [wrapI16_of_range _ (by omega) (by omega)]
      push_cast
      ring
    have e2 : wrapI16 (y + 8 * ((1 : Nat) : Int) - 1) = y + 7 := by
      rw [wrapI16_of_range _ (by omega) (by omega)]
      push_cast
      ring
    rw [e1, e2, if_neg (by omega)]
    rw [drawCharColumns_writes font x y _ color bg ⟨by omega, by omega⟩ 5 0 st
      (by simp only [Nat.cast_zero]; omega) (by push_cast; omega)]
    simp only [Option.some_bind, and_self, if_true]
    unfold charWrites
    rw [drawWrites_append]
    by_cases hbg : bg ≠ color
    · rw [if_pos hbg, if_pos hbg]
      unfold writeFastVLine drawFastVLine
      have e3 : wrapI16 (x + 5) = x + 5 := wrapI16_of_range _ (by omega) (by omega)
      have e4 : wrapI16 (y + 8 - 1) = y + 7 := by
        rw [wrapI16_of_range _ (by omega) (by omega)]
        ring
      have e5 : (y + 7 - y + 1).toNat = 8 := by
        have : y + 7 - y + 1 = 8 := by ring
        rw [this]
        rfl
      rw [e3, e4, writeLine_pixels,
        writeLinePixels_col (x + 5) y (y + 7) (by omega) (by omega) (by omega) (by omega), e5]
      simp only [Option.map_some']
      rw [drawPixels_eq_drawWrites]
    · rw [if_neg hbg, if_neg hbg]
      rfl
  · next g hsome =>
    rw [hfont] at hsome
    cases hsome

/-! ## Which pixels a character writes -/

theorem and_one_testBit (line : Nat) : (line &&& 1 ≠ 0) ↔ line.testBit 0 = true := by
  rw [Nat.and_one_is_mod, Nat.testBit_zero, decide_eq_true_eq]
  omega

theorem cellWrite_mem (x y : Int) (i j line color bg : Nat) (w : Int × Int × Nat) :
    w ∈ cellWrite x y i j line color bg ↔
      w.1 = x + i ∧ w.2.1 = y + j ∧
        ((line.testBit 0 = true ∧ w.2.2 = color) ∨
         (line.testBit 0 = false ∧ bg ≠ color ∧ w.2.2 = bg)) := by
  unfold cellWrite
  by_cases hb : line.testBit 0 = true
  · rw [if_pos ((and_one_testBit line).2 hb)]
    simp only [List.mem_singleton, hb, true_and, Bool.true_eq_false, false_and, or_false]
    constructor
    · intro h
      rw [h]
      exact ⟨rfl, rfl, rfl⟩
    · intro h
      exact Prod.ext h.1 (Prod.ext h.2.1 h.2.2)
  · rw [if_neg (fun h => hb ((and_one_testBit line).1 h))]
    have hb' : line.testBit 0 = false := by simpa using hb
    simp only [hb', Bool.false_eq_true, false_and, true_and, false_or]
    by_cases hc : bg ≠ color
    · rw [if_pos hc]
      simp only [List.mem_singleton]
      constructor
      · intro h
        rw [h]
        exact ⟨rfl, rfl, hc, rfl⟩
      · intro h
        exact Prod.ext h.1 (Prod.ext h.2.1 h.2.2.2)
    · rw [if_neg hc]
      simp only [List.not_mem_nil, false_iff]
      intro h
      exact hc h.2.2.1

theorem colWrites_mem (x y : Int) (i color bg : Nat) (w : Int × Int × Nat) :
    ∀ (n j line : Nat),
      w ∈ colWrites x y i color bg n j line ↔
        ∃ t, t < n ∧ w.1 = x + i ∧ w.2.1 = y + (j + t : Nat) ∧
          ((line.testBit t = true ∧ w.2.2 = color) ∨
           (line.testBit t = false ∧ bg ≠ color ∧ w.2.2 = bg)) := by
  intro n
  induction n with
  | zero =>
    intro j line
    unfold colWrites
    simp
  | succ n ih =>
    intro j line
    unfold colWrites
    rw [List.mem_append, cellWrite_mem, ih]
    constructor
    · rintro (h | ⟨t, ht, h1, h2, h3⟩)
      · exact ⟨0, by omega, h.1, by simpa using h.2.1, h.2.2⟩
      · refine ⟨t + 1, by omega, h1, ?_, ?_⟩
        · rw [h2]
          push_cast
          ring
        · rw [Nat.testBit_shiftRight, Nat.add_comm] at h3
          exact h3
    · rintro ⟨t, ht, h1, h2, h3⟩
      cases t with
      | zero => exact Or.inl ⟨h1, by simpa using h2, h3⟩
      | succ s =>
        refine Or.inr ⟨s, by omega, h1, ?_, ?_⟩
        · rw [h2]
          push_cast
          ring
        · rw [Nat.testBit_shiftRight, Nat.add_comm]
          exact h3

theorem colsWrites_mem (font : Nat → Nat) (x y : Int) (c color bg : Nat) (w : Int × Int × Nat) :
    ∀ (n i : Nat),
      w ∈ colsWrites font x y c color bg n i ↔
        ∃ s t : Nat, s < n ∧ t < 8 ∧ w.1 = x + (i + s : Nat) ∧ w.2.1 = y + t ∧
          (((fontByte font (c * 5 + (i + s))).testBit t = true ∧ w.2.2 = color) ∨
           ((fontByte font (c * 5 + (i + s))).testBit t = false ∧ bg ≠ color ∧ w.2.2 = bg)) := by
  intro n
  induction n with
  | zero =>
    intro i
    unfold colsWrites
    simp
  | succ n ih =>
    intro i
    unfold colsWrites
    rw [List.mem_append, colWrites_mem, ih]
    constructor
    · rintro (⟨t, ht, h1, h2, h3⟩ | ⟨s, t, hs, ht, h1, h2, h3⟩)
      · exact ⟨0, t, by omega, ht, h1, by simpa using h2, h3⟩
      · refine ⟨s + 1, t, by omega, ht, ?_, h2, ?_⟩
        · rw [h1]
          push_cast
          ring
        · rw [show i + (s + 1) = i + 1 + s by omega]
          exact h3
    · rintro ⟨s, t, hs, ht, h1, h2, h3⟩
      cases s with
      | zero => exact Or.inl ⟨t, ht, h1, by simpa using h2, h3⟩
      | succ r =>
        refine Or.inr ⟨r, t, by omega, ht, ?_, h2, ?_⟩
        · rw [h1]
          push_cast
          ring
        · rw [show i + 1 + r = i + (r + 1) by omega]
          exact h3

theorem mem_majorPixels_true (x : Int) :
    ∀ (n : Nat) (a : Int) (p : Int × Int),
      p ∈ majorPixels true x n a ↔ (p.1 = x ∧ a ≤ p.2 ∧ p.2 < a + n) := by
  intro n
  induction n with
  | zero =>
    intro a p
    unfold majorPixels
    simp only [List.not_mem_nil, false_iff]
    omega
  | succ n ih =>
    intro a p
    unfold majorPixels linePoint
    rw [List.mem_cons, ih]
    simp only [if_true]
    constructor
    · rintro (h | h)
      · rw [h]
        simp only [true_and]
        omega
      · omega
    · intro h
      by_cases hp : p.2 = a
      · left
        exact Prod.ext h.1 hp
      · right
        omega

/-- The writes of a character at size 1: one per cell that is written, at the
cell's pixel, in the cell's colour. -/
theorem charWrites_mem (font : Nat → Nat) (st : Panel) (x y : Int) (c color bg : Nat)
    (w : Int × Int × Nat) :
    w ∈ charWrites font st x y c color bg ↔
      ∃ i j : Nat, i < 6 ∧ j < 8 ∧ w.1 = x + i ∧ w.2.1 = y + j ∧
        ((i < 5 ∧ (glyphColumn font st c i).testBit j = true ∧ w.2.2 = color) ∨
         (i < 5 ∧ (glyphColumn font st c i).testBit j = false ∧ bg ≠ color ∧ w.2.2 = bg) ∨
         (i = 5 ∧ bg ≠ color ∧ w.2.2 = bg)) := by
  unfold charWrites glyphColumn
  rw [List.mem_append, colsWrites_mem]
  constructor
  · rintro (⟨s, t, hs, ht, h1, h2, h3⟩ | h)
    · simp only [Nat.zero_add] at h1 h3
      refine ⟨s, t, by omega, ht, h1, h2, ?_⟩
      rcases h3 with h3 | h3
      · exact Or.inl ⟨hs, h3⟩
      · exact Or.inr (Or.inl ⟨hs, h3⟩)
    · by_cases hbg : bg ≠ color
      · rw [if_pos hbg, List.mem_map] at h
        obtain ⟨p, hp, rfl⟩ := h
        rw [mem_majorPixels_true] at hp
        refine ⟨5, (p.2 - y).toNat, by decide, by omega, ?_, ?_, Or.inr (Or.inr ⟨rfl, hbg, rfl⟩)⟩
        · simp only [hp.1]
          rfl
        · simp only
          omega
      · rw [if_neg hbg] at h
        cases h
  · rintro ⟨i, j, hi, hj, h1, h2, h3⟩
    rcases h3 with h3 | h3 | h3
    · exact Or.inl ⟨i, j, h3.1, hj, by simpa using h1, h2, Or.inl (by simpa using h3.2)⟩
    · exact Or.inl ⟨i, j, h3.1, hj, by simpa using h1, h2, Or.inr (by simpa using h3.2)⟩
    · right
      rw [if_pos h3.2.1, List.mem_map]
      refine ⟨(w.1, w.2.1), ?_, ?_⟩
      · rw [mem_majorPixels_true]
        simp only
        rw [h1, h2, h3.1]
        refine ⟨rfl, by omega, by omega⟩
      · exact Prod.ext rfl (Prod.ext rfl h3.2.2.symm)

theorem distinctPos_nodup (ws : List (Int × Int × Nat)) (h : distinctPos ws) :
    (ws.map (fun w => (w.1, w.2.1))).Nodup := by
  unfold List.Nodup
  rw [List.pairwise_map]
  exact h

theorem distinctPos_append (l1 l2 : List (Int × Int × Nat)) (h1 : distinctPos l1)
    (h2 : distinctPos l2) (h : ∀ a ∈ l1, ∀ b ∈ l2, (a.1, a.2.1) ≠ (b.1, b.2.1)) :
    distinctPos (l1 ++ l2) :=
  List.pairwise_append.2 ⟨h1, h2, h⟩

theorem cellWrite_distinct (x y : Int) (i j line color bg : Nat) :
    distinctPos (cellWrite x y i j line color bg) := by
  unfold cellWrite distinctPos
  split_ifs <;> simp

theorem colWrites_distinct (x y : Int) (i color bg : Nat) :
    ∀ (n j line : Nat), distinctPos (colWrites x y i color bg n j line) := by
  intro n
  induction n with
  | zero =>
    intro j line
    exact List.Pairwise.nil
  | succ n ih =>
    intro j line
    unfold colWrites
    apply distinctPos_append _ _ (cellWrite_distinct _ _ _ _ _ _ _) (ih _ _)
    intro a ha b hb heq
    rw [cellWrite_mem] at ha
    rw [colWrites_mem] at hb
    obtain ⟨t, -, -, hb2, -⟩ := hb
    have h2 : a.2.1 = b.2.1 := (Prod.mk.injEq _ _ _ _ ▸ heq).2
    rw [ha.2.1, hb2] at h2
    push_cast at h2
    omega

theorem colsWrites_distinct (font : Nat → Nat) (x y : Int) (c color bg : Nat) :
    ∀ (n i : Nat), distinctPos (colsWrites font x y c color bg n i) := by
  intro n
  induction n with
  | zero =>
    intro i
    exact List.Pairwise.nil
  | succ n ih =>
    intro i
    unfold colsWrites
    apply distinctPos_append _ _ (colWrites_distinct _ _ _ _ _ _ _ _) (ih _)
    intro a ha b hb heq
    rw [colWrites_mem] at ha
    rw [colsWrites_mem] at hb
    obtain ⟨t, -, ha1, -, -⟩ := ha
    obtain ⟨s, t2, -, -, hb1, -, -⟩ := hb
    have h1 : a.1 = b.1 := (Prod.mk.injEq _ _ _ _ ▸ heq).1
    rw [ha1, hb1] at h1
    push_cast at h1
    omega

theorem majorPixels_distinct (x : Int) (bg : Nat) :
    ∀ (n : Nat) (a : Int),
      distinctPos ((majorPixels true x n a).map (fun p => (p.1, p.2, bg))) := by
  intro n
  induction n with
  | zero =>
    intro a
    exact List.Pairwise.nil
  | succ n ih =>
    intro a
    unfold majorPixels
    rw [List.map_cons]
    unfold distinctPos
    rw [List.pairwise_cons]
    refine ⟨?_, ih (a + 1)⟩
    intro b hb heq
    rw [List.mem_map] at hb
    obtain ⟨p, hp, rfl⟩ := hb
    rw [mem_majorPixels_true] at hp
    unfold linePoint at heq
    simp only [if_true, Prod.mk.injEq] at heq
    omega

theorem charWrites_distinct (font : Nat → Nat) (st : Panel) (x y : Int) (c color bg : Nat) :
    distinctPos (charWrites font st x y c color bg) := by
  unfold charWrites
  apply distinctPos_append _ _ (colsWrites_distinct _ _ _ _ _ _ _ _)
  · split
    · exact majorPixels_distinct _ _ _ _
    · exact List.Pairwise.nil
  · intro a ha b hb heq
    rw [colsWrites_mem] at ha
    obtain ⟨s, t, hs, -, ha1, -, -⟩ := ha
    split at hb
    · rw [List.mem_map] at hb
      obtain ⟨p, hp, rfl⟩ := hb
      rw [mem_majorPixels_true] at hp
      have h1 : a.1 = p.1 := (Prod.mk.injEq _ _ _ _ ▸ heq).1
      rw [ha1, hp.1] at h1
      push_cast at h1
      omega
    · cases hb

theorem Geometry_size (st : Panel) (hg : Geometry st) : st._width ≤ 64 ∧ st._height ≤ 64 := by
  obtain ⟨hW, hR, hH, h4, hw, hh⟩ := hg
  have hW1 : st.WIDTH ≤ 64 := by rcases hW with h | h <;> rw [h] <;> decide
  have hR1 : (st.nRows : Int) ≤ 16 := by rcases hR with h | h <;> rw [h] <;> decide
  rw [hw, hh]
  constructor <;> split <;> omega

/-- C23: with the built-in font at size 1 and the 6x8 cell on the display of a
panel as the constructors build it, drawChar returns, changing the byte memory
only, and afterwards: every cell pixel whose glyph bit is set (bit j of column
i, i < 5, bit 0 the top row) holds the foreground colour; when bg differs from
color every other cell pixel, the sixth column included, holds the background
colour; when bg equals color every other cell pixel has the bits it had before;
and every pixel of the display outside the cell has the bits it had before. -/
theorem drawChar_cell (font : Nat → Nat) (st : Panel) (x y : Int) (c color bg : Nat)
    (hg : Geometry st) (hfont : st.gfxFont = none)
    (hx : 0 ≤ x ∧ x + 6 ≤ st._width) (hy : 0 ≤ y ∧ y + 8 ≤ st._height) :
    ∃ s, drawChar font st x y c color bg 1 1 = some s ∧ sameFrame st s ∧
      (∀ i j : Nat, i < 5 → j < 8 → (glyphColumn font st c i).testBit j = true →
        holdsColour s (x + i) (y + j) color) ∧
      (bg ≠ color → ∀ i j : Nat, i < 6 → j < 8 →
        (i = 5 ∨ (glyphColumn font st c i).testBit j = false) →
        holdsColour s (x + i) (y + j) bg) ∧
      (bg = color → ∀ i j : Nat, i < 6 → j < 8 →
        (i = 5 ∨ (glyphColumn font st c i).testBit j = false) →
        pixelBits s (x + i) (y + j) = pixelBits st (x + i) (y + j)) ∧
      (∀ qx qy : Int, onScreen st qx qy →
        ¬ (x ≤ qx ∧ qx < x + 6 ∧ y ≤ qy ∧ qy < y + 8) →
        pixelBits s qx qy = pixelBits st qx qy) := by
  have hsz := Geometry_size st hg
  have hd := drawChar_writes font st x y c color bg hfont hx hy (by omega) (by omega)
  have hnd := distinctPos_nodup _ (charWrites_distinct font st x y c color bg)
  have hon : ∀ i j : Nat, i < 6 → j < 8 → onScreen st (x + i) (y + j) := by
    intro i j hi hj
    unfold onScreen
    omega
  refine ⟨drawWrites st (charWrites font st x y c color bg), hd, drawWrites_sameFrame _ st,
    ?_, ?_, ?_, ?_⟩
  · intro i j hi hj hbit
    have hm : ((x + i, y + j, color) : Int × Int × Nat) ∈ charWrites font st x y c color bg := by
      rw [charWrites_mem]
      exact ⟨i, j, by omega, hj, rfl, rfl, Or.inl ⟨hi, hbit, rfl⟩⟩
    exact drawWrites_sets (charWrites font st x y c color bg) st hg hnd (x + i, y + j, color) hm
      (hon i j (by omega) hj)
  · intro hbg i j hi hj hcase
    have hm : ((x + i, y + j, bg) : Int × Int × Nat) ∈ charWrites font st x y c color bg := by
      rw [charWrites_mem]
      refine ⟨i, j, hi, hj, rfl, rfl, ?_⟩
      rcases hcase with h5 | hbit
      · exact Or.inr (Or.inr ⟨h5, hbg, rfl⟩)
      · by_cases h5 : i = 5
        · exact Or.inr (Or.inr ⟨h5, hbg, rfl⟩)
        · exact Or.inr (Or.inl ⟨by omega, hbit, hbg, rfl⟩)
    exact drawWrites_sets (charWrites font st x y c color bg) st hg hnd (x + i, y + j, bg) hm
      (hon i j hi hj)
  · intro hbg i j hi hj hcase
    apply drawWrites_keeps (charWrites font st x y c color bg) st hg (x + i) (y + j)
      (hon i j hi hj)
    intro w hw heq
    rw [charWrites_mem] at hw
    obtain ⟨i2, j2, hi2, hj2, h1, h2, h3⟩ := hw
    rw [Prod.mk.injEq, h1, h2] at heq
    have ei : i = i2 := by omega
    have ej : j = j2 := by omega
    subst ei
    subst ej
    rcases h3 with h3 | h3 | h3
    · rcases hcase with h5 | hbit
      · omega
      · rw [hbit] at h3
        exact absurd h3.2.1 (by decide)
    · exact h3.2.2.1 hbg
    · exact h3.2.1 hbg
  · intro qx qy honq hout
    apply drawWrites_keeps (charWrites font st x y c color bg) st hg qx qy honq
    intro w hw heq
    rw [charWrites_mem] at hw
    obtain ⟨i2, j2, hi2, hj2, h1, h2, -⟩ := hw
    rw [Prod.mk.injEq, h1, h2] at heq
    apply hout
    omega


theorem Geometry_panel32 : Geometry panel32 :=
  ⟨Or.inl rfl, Or.inr rfl, rfl, by decide, rfl, rfl⟩

theorem drawChar_cell_witness :
    ∃ s, drawChar (fun _ => 85) panel32 1 2 65 0xFFFF 0 1 1 = some s ∧ sameFrame panel32 s ∧
      (∀ i j : Nat, i < 5 → j < 8 → (glyphColumn (fun _ => 85) panel32 65 i).testBit j = true →
        holdsColour s (1 + i) (2 + j) 0xFFFF) ∧
      (0 ≠ 0xFFFF → ∀ i j : Nat, i < 6 → j < 8 →
        (i = 5 ∨ (glyphColumn (fun _ => 85) panel32 65 i).testBit j = false) →
        holdsColour s (1 + i) (2 + j) 0) ∧
      (0 = 0xFFFF → ∀ i j : Nat, i < 6 → j < 8 →
        (i = 5 ∨ (glyphColumn (fun _ => 85) panel32 65 i).testBit j = false) →
        pixelBits s (1 + i) (2 + j) = pixelBits panel32 (1 + i) (2 + j)) ∧
      (∀ qx qy : Int, onScreen panel32 qx qy →
        ¬ (1 ≤ qx ∧ qx < 1 + 6 ∧ 2 ≤ qy ∧ qy < 2 + 8) →
        pixelBits s qx qy = pixelBits panel32 qx qy) :=
  drawChar_cell (fun _ => 85) panel32 1 2 65 0xFFFF 0 Geometry_panel32 rfl (by decide) (by decide)

/-! ## Bitmaps -/

theorem and_128_testBit (b : Nat) : (b &&& 0x80 ≠ 0) ↔ b.testBit 7 = true := by
  have h : b &&& 0x80 = (b.testBit 7).toNat * 2 ^ 7 := Nat.and_two_pow b 7
  rw [h]
  cases b.testBit 7 <;> simp

theorem shift_register (B m : Nat) (hm : m < 8) :
    ((B <<< m) % 256).testBit 7 = B.testBit (7 - m) := by
  have h : (256 : Nat) = 2 ^ 8 := rfl
  rw [h, Nat.testBit_mod_two_pow, Nat.testBit_shiftLeft]
  have h1 : decide (7 < 8) = true := by decide
  have h2 : decide (7 ≥ m) = true := by
    rw [decide_eq_true_eq]
    omega
  rw [h1, h2]
  rfl

theorem shift_register_step (B m : Nat) :
    wrapU8 ((((B <<< m) % 256) <<< 1 : Nat)) = (B <<< (m + 1)) % 256 := by
  unfold wrapU8
  have e : B * 2 ^ (m + 1) = B * 2 ^ m * 2 := by rw [pow_succ, Nat.mul_assoc]
  rw [Nat.shiftLeft_eq, Nat.shiftLeft_eq, Nat.shiftLeft_eq, e, pow_one]
  generalize B * 2 ^ m = X
  omega

theorem bitmapIndex_eq (w h : Int) (j i : Nat) (hw : 0 ≤ w ∧ w ≤ 32760)
    (hsize : h * ((w + 7) / 8) ≤ 32768) (hj : (j : Int) < h) (hi : (i : Int) < w) :
    bitmapIndex w j i = (j : Int) * ((w + 7) / 8) + ((i / 8 : Nat) : Int) := by
  have hbw : byteWidth w = (w + 7) / 8 := by
    unfold byteWidth
    have h1 : wrapI16 (w + 7) = w + 7 := by
      unfold wrapI16
      omega
    rw [h1, Int.tdiv_eq_ediv (by omega) (by omega)]
    unfold wrapI16
    omega
  unfold bitmapIndex
  rw [hbw, Int.tdiv_eq_ediv (by omega) (by omega)]
  have hb0 : 0 ≤ (w + 7) / 8 := by omega
  have hjb : ((j : Int) + 1) * ((w + 7) / 8) ≤ h * ((w + 7) / 8) :=
    Int.mul_le_mul_of_nonneg_right (by omega) hb0
  have hj0 : 0 ≤ (j : Int) * ((w + 7) / 8) := Int.mul_nonneg (by omega) hb0
  rw [Int.add_mul, Int.one_mul] at hjb
  have hcast : ((i / 8 : Nat) : Int) = (i : Int) / 8 := by omega
  rw [hcast]
  generalize (j : Int) * ((w + 7) / 8) = P at *
  unfold wrapI16
  omega

theorem bitmapStep_spec (src : Panel → Int → Nat) (read : Int → Nat) (bg : Option Nat)
    (x y yc w : Int) (color : Nat) (j i : Nat) (r : Nat × Panel)
    (hidx : bitmapIndex w j i = (j : Int) * ((w + 7) / 8) + ((i / 8 : Nat) : Int))
    (hsrc : src r.2 (bitmapIndex w j i) = read (bitmapIndex w j i))
    (hx : wrapI16 (x + i) = x + i) (hy : yc = y + j)
    (hreg : i % 8 ≠ 0 →
      r.1 = ((read ((j : Int) * ((w + 7) / 8) + ((i / 8 : Nat) : Int)) % 256) <<< (i % 8 - 1))
        % 256) :
    bitmapStep src bg x yc w color j i r =
      (((read ((j : Int) * ((w + 7) / 8) + ((i / 8 : Nat) : Int)) % 256) <<< (i % 8)) % 256,
        drawWrites r.2 (bitWrite read bg x y w color j i)) := by
  have hand : i &&& 7 = i % 8 := Nat.and_pow_two_sub_one_eq_mod i 3
  have hbyte : (if i &&& 7 ≠ 0 then wrapU8 ((r.1 <<< 1 : Nat))
      else src r.2 (bitmapIndex w j i) % 256) =
      ((read ((j : Int) * ((w + 7) / 8) + ((i / 8 : Nat) : Int)) % 256) <<< (i % 8)) % 256 := by
    rw [hand]
    by_cases h0 : i % 8 = 0
    · rw [if_neg (by simpa using h0), hsrc, hidx, h0, Nat.shiftLeft_zero, Nat.mod_mod]
    · rw [if_pos h0, hreg h0, shift_register_step]
      have e : i % 8 - 1 + 1 = i % 8 := by omega
      rw [e]
  have hbit : ((((read ((j : Int) * ((w + 7) / 8) + ((i / 8 : Nat) : Int)) % 256) <<< (i % 8))
      % 256) &&& 0x80 ≠ 0) ↔ bitmapBit read w j i = true := by
    rw [and_128_testBit, shift_register _ _ (Nat.mod_lt i (by decide))]
    rfl
  unfold bitmapStep
  simp only []
  rw [hbyte, hx, hy]
  unfold bitWrite
  by_cases hb : bitmapBit read w j i = true
  · rw [if_pos (hbit.mpr hb), if_pos hb]
    rfl
  · rw [if_neg (fun hc => hb (hbit.mp hc)), if_neg hb]
    cases bg <;> rfl

theorem bitWrite_keeps (P : Panel → Prop)
    (hP : ∀ (s : Panel) (a b : Int) (c : Nat), P s → P (drawPixel s a b c))
    (read : Int → Nat) (bg : Option Nat) (x y w : Int) (color : Nat) (j i : Nat) (s : Panel)
    (hs : P s) : P (drawWrites s (bitWrite read bg x y w color j i)) := by
  unfold bitWrite
  split
  · exact hP _ _ _ _ hs
  · cases bg
    · exact hs
    · exact hP _ _ _ _ hs

theorem bitmapRow_trace (src : Panel → Int → Nat) (read : Int → Nat) (bg : Option Nat)
    (x y yc w : Int) (color : Nat) (j : Nat) (P : Panel → Prop)
    (hP : ∀ (s : Panel) (a b : Int) (c : Nat), P s → P (drawPixel s a b c))
    (hsrc : ∀ (s : Panel) (i : Nat), P s → (i : Int) < w →
      src s (bitmapIndex w j i) = read (bitmapIndex w j i))
    (hidx : ∀ i : Nat, (i : Int) < w →
      bitmapIndex w j i = (j : Int) * ((w + 7) / 8) + ((i / 8 : Nat) : Int))
    (hx : ∀ i : Nat, (i : Int) < w → wrapI16 (x + i) = x + i) (hy : yc = y + j) :
    ∀ (n i0 : Nat) (r : Nat × Panel), ((i0 + n : Nat) : Int) ≤ w → P r.2 →
      (i0 % 8 ≠ 0 →
        r.1 = ((read ((j : Int) * ((w + 7) / 8) + ((i0 / 8 : Nat) : Int)) % 256)
          <<< (i0 % 8 - 1)) % 256) →
      (bitmapRow src bg x yc w color j n i0 r).2 =
          drawWrites r.2 (rowWrites read bg x y w color j n i0) ∧
        P (bitmapRow src bg x yc w color j n i0 r).2 := by
  intro n
  induction n with
  | zero =>
    intro i0 r _ hr _
    exact ⟨rfl, hr⟩
  | succ n ih =>
    intro i0 r hn hr hreg
    have hi : (i0 : Int) < w := by omega
    have hstep := bitmapStep_spec src read bg x y yc w color j i0 r (hidx i0 hi)
      (hsrc r.2 i0 hr hi) (hx i0 hi) hy hreg
    unfold bitmapRow rowWrites
    rw [hstep, drawWrites_append]
    refine ih (i0 + 1) _ (by omega) (bitWrite_keeps P hP read bg x y w color j i0 r.2 hr) ?_
    intro h1
    have e1 : (i0 + 1) / 8 = i0 / 8 := by omega
    have e2 : (i0 + 1) % 8 - 1 = i0 % 8 := by omega
    rw [e1, e2]

theorem bitmapRows_trace (src : Panel → Int → Nat) (read : Int → Nat) (bg : Option Nat)
    (x y w h : Int) (color : Nat) (P : Panel → Prop) (hw : 0 ≤ w)
    (hP : ∀ (s : Panel) (a b : Int) (c : Nat), P s → P (drawPixel s a b c))
    (hsrc : ∀ (s : Panel) (j i : Nat), P s → (j : Int) < h → (i : Int) < w →
      src s (bitmapIndex w j i) = read (bitmapIndex w j i))
    (hidx : ∀ j i : Nat, (j : Int) < h → (i : Int) < w →
      bitmapIndex w j i = (j : Int) * ((w + 7) / 8) + ((i / 8 : Nat) : Int))
    (hx : ∀ i : Nat, (i : Int) < w → wrapI16 (x + i) = x + i)
    (hy : -32768 ≤ y ∧ y + h ≤ 32768) :
    ∀ (n j : Nat) (yc : Int) (r : Nat × Panel), ((j + n : Nat) : Int) ≤ h →
      (0 < n → yc = y + j) → P r.2 →
      (bitmapRows src bg x w color n j yc r).2 =
          drawWrites r.2 (bitmapWrites read bg x y w color n j) ∧
        P (bitmapRows src bg x w color n j yc r).2 := by
  intro n
  induction n with
  | zero =>
    intro j yc r _ _ hr
    exact ⟨rfl, hr⟩
  | succ n ih =>
    intro j yc r hn hyc hr
    have hj : (j : Int) < h := by omega
    have hrow := bitmapRow_trace src read bg x y yc w color j P hP
      (fun s i hs hi => hsrc s j i hs hj hi) (fun i hi => hidx j i hj hi) hx
      (hyc (Nat.succ_pos n)) w.toNat 0 r (by omega) hr (fun h0 => absurd rfl h0)
    unfold bitmapRows bitmapWrites
    rw [drawWrites_append, ← hrow.1]
    refine ih (j + 1) _ _ (by omega) ?_ hrow.2
    intro hpos
    rw [hyc (Nat.succ_pos n)]
    unfold wrapI16
    omega

theorem rowWrites_mem (read : Int → Nat) (bg : Option Nat) (x y w : Int) (color : Nat) (j : Nat)
    (p : Int × Int × Nat) :
    ∀ n i0 : Nat, p ∈ rowWrites read bg x y w color j n i0 ↔
      ∃ i : Nat, i0 ≤ i ∧ i < i0 + n ∧ p ∈ bitWrite read bg x y w color j i := by
  intro n
  induction n with
  | zero =>
    intro i0
    unfold rowWrites
    constructor
    · intro h
      cases h
    · rintro ⟨i, h1, h2, -⟩
      omega
  | succ n ih =>
    intro i0
    unfold rowWrites
    rw [List.mem_append, ih]
    constructor
    · rintro (h | ⟨i, h1, h2, h3⟩)
      · exact ⟨i0, le_refl _, by omega, h⟩
      · exact ⟨i, by omega, by omega, h3⟩
    · rintro ⟨i, h1, h2, h3⟩
      by_cases e : i = i0
      · subst e
        exact Or.inl h3
      · exact Or.inr ⟨i, by omega, by omega, h3⟩

theorem bitmapWrites_mem (read : Int → Nat) (bg : Option Nat) (x y w : Int) (color : Nat)
    (p : Int × Int × Nat) :
    ∀ n j0 : Nat, p ∈ bitmapWrites read bg x y w color n j0 ↔
      ∃ i j : Nat, (i : Int) < w ∧ j0 ≤ j ∧ j < j0 + n ∧ p ∈ bitWrite read bg x y w color j i := by
  intro n
  induction n with
  | zero =>
    intro j0
    unfold bitmapWrites
    constructor
    · intro h
      cases h
    · rintro ⟨i, j, -, h1, h2, -⟩
      omega
  | succ n ih =>
    intro j0
    unfold bitmapWrites
    rw [List.mem_append, ih, rowWrites_mem]
    constructor
    · rintro (⟨i, -, h2, h3⟩ | ⟨i, j, h1, h2, h3, h4⟩)
      · exact ⟨i, j0, by omega, le_refl _, by omega, h3⟩
      · exact ⟨i, j, h1, by omega, by omega, h4⟩
    · rintro ⟨i, j, h1, h2, h3, h4⟩
      by_cases e : j = j0
      · subst e
        exact Or.inl ⟨i, Nat.zero_le _, by omega, h4⟩
      · exact Or.inr ⟨i, j, h1, by omega, by omega, h4⟩

theorem bitWrite_transparent (read : Int → Nat) (x y w : Int) (color : Nat) (j i : Nat)
    (p : Int × Int × Nat) :
    p ∈ bitWrite read none x y w color j i ↔
      bitmapBit read w j i = true ∧ p = (x + i, y + j, color) := by
  unfold bitWrite
  by_cases hb : bitmapBit read w j i = true
  · rw [if_pos hb, List.mem_singleton]
    exact ⟨fun h => ⟨hb, h⟩, fun h => h.2⟩
  · rw [if_neg hb]
    exact ⟨fun h => (by cases h), fun h => absurd h.1 hb⟩

theorem bitWrite_filled (read : Int → Nat) (x y w : Int) (color bg : Nat) (j i : Nat)
    (p : Int × Int × Nat) :
    p ∈ bitWrite read (some bg) x y w color j i ↔
      p = (x + i, y + j, if bitmapBit read w j i = true then color else bg) := by
  unfold bitWrite
  by_cases hb : bitmapBit read w j i = true
  · rw [if_pos hb, if_pos hb, List.mem_singleton]
  · rw [if_neg hb, if_neg hb, List.mem_singleton]

theorem outsideBuffer_sameFrame (st s : Panel) (h : sameFrame st s) (a : Int) :
    outsideBuffer s a ↔ outsideBuffer st a := by
  unfold sameFrame withMem at h
  rw [h]
  rfl

/-- The back buffer is where it was and the bytes outside it are unchanged. -/
theorem drawPixel_buffer (st : Panel) (hg : Geometry st) (s : Panel)
    (hs : sameFrame st s ∧ ∀ a, outsideBuffer st a → s.mem.read a = st.mem.read a)
    (x y : Int) (c : Nat) :
    sameFrame st (drawPixel s x y c) ∧
      ∀ a, outsideBuffer st a → (drawPixel s x y c).mem.read a = st.mem.read a := by
  refine ⟨sameFrame_trans _ _ _ hs.1 (drawPixel_sameFrame s x y c), fun a ha => ?_⟩
  rw [drawPixel_outside s (Geometry_sameFrame st s hs.1 hg) x y c a
    ((outsideBuffer_sameFrame st s hs.1 a).mpr ha)]
  exact hs.2 a ha

theorem drawBitmapScan_trace (src : Panel → Int → Nat) (read : Int → Nat) (bg : Option Nat)
    (st : Panel) (x y w h : Int) (color : Nat) (P : Panel → Prop)
    (hP : ∀ (s : Panel) (a b : Int) (c : Nat), P s → P (drawPixel s a b c)) (h0 : P st)
    (hsrc : ∀ (s : Panel) (k : Int), P s → 0 ≤ k → k < h * ((w + 7) / 8) → src s k = read k)
    (hw : 0 ≤ w ∧ w ≤ 32760) (hh : 0 ≤ h ∧ h ≤ 32767) (hsize : h * ((w + 7) / 8) ≤ 32768)
    (hx : -32768 ≤ x ∧ x + w ≤ 32768) (hy : -32768 ≤ y ∧ y + h ≤ 32768) :
    drawBitmapScan src bg st x y w h color =
      drawWrites st (bitmapWrites read bg x y w color h.toNat 0) := by
  have hidx : ∀ j i : Nat, (j : Int) < h → (i : Int) < w →
      bitmapIndex w j i = (j : Int) * ((w + 7) / 8) + ((i / 8 : Nat) : Int) :=
    fun j i hj hi => bitmapIndex_eq w h j i hw hsize hj hi
  have hrange : ∀ j i : Nat, (j : Int) < h → (i : Int) < w →
      0 ≤ bitmapIndex w j i ∧ bitmapIndex w j i < h * ((w + 7) / 8) := by
    intro j i hj hi
    rw [hidx j i hj hi]
    have hb0 : 0 ≤ (w + 7) / 8 := by omega
    have hjb : ((j : Int) + 1) * ((w + 7) / 8) ≤ h * ((w + 7) / 8) :=
      Int.mul_le_mul_of_nonneg_right (by omega) hb0
    have hj0 : 0 ≤ (j : Int) * ((w + 7) / 8) := Int.mul_nonneg (by omega) hb0
    rw [Int.add_mul, Int.one_mul] at hjb
    have hcast : ((i / 8 : Nat) : Int) = (i : Int) / 8 := by omega
    rw [hcast]
    generalize (j : Int) * ((w + 7) / 8) = Q at *
    generalize h * ((w + 7) / 8) = R at *
    omega
  have hxs : ∀ i : Nat, (i : Int) < w → wrapI16 (x + i) = x + i := by
    intro i hi
    unfold wrapI16
    omega
  exact (bitmapRows_trace src read bg x y w h color P hw.1 hP
    (fun s j i hs hj hi => hsrc s _ hs (hrange j i hj hi).1 (hrange j i hj hi).2)
    hidx hxs hy h.toNat 0 y (0, st) (by omega) (fun _ => by simp) h0).1

/-- C26 (amended): for 0 <= w <= 32760, 0 <= h, a bitmap of h rows of
ceil(w/8) bytes that has at most 32768 bytes, and x + w, y + h within the
16-bit range, the transparent drawBitmap makes exactly the writes of the
foreground colour at (x+i, y+j), 0 <= i < w, 0 <= j < h, where bit
7-(i mod 8) of bitmap[j*ceil(w/8) + i/8] is set; the opaque form makes
exactly one write at every (x+i, y+j) of the area, the foreground where the
bit is set and the background elsewhere; and, for a RAM bitmap that lies
outside the back buffer, the RAM forms give the same result as the
constant-memory forms on a copy of the bitmap. -/
theorem drawBitmap_writes (flash : Int → Nat) (bitmap : Int) (st : Panel) (x y w h : Int)
    (color bg : Nat) (hg : Geometry st)
    (hw : 0 ≤ w ∧ w ≤ 32760) (hh : 0 ≤ h ∧ h ≤ 32767) (hsize : h * ((w + 7) / 8) ≤ 32768)
    (hx : -32768 ≤ x ∧ x + w ≤ 32768) (hy : -32768 ≤ y ∧ y + h ≤ 32768)
    (hsep : ∀ k : Int, 0 ≤ k → k < h * ((w + 7) / 8) → outsideBuffer st (bitmap + k)) :
    (drawBitmap flash st x y w h color =
        drawWrites st (bitmapWrites flash none x y w color h.toNat 0) ∧
      ∀ p, p ∈ bitmapWrites flash none x y w color h.toNat 0 ↔
        ∃ i j : Nat, (i : Int) < w ∧ (j : Int) < h ∧ bitmapBit flash w j i = true ∧
          p = (x + i, y + j, color)) ∧
    (drawBitmapBg flash st x y w h color bg =
        drawWrites st (bitmapWrites flash (some bg) x y w color h.toNat 0) ∧
      ∀ p, p ∈ bitmapWrites flash (some bg) x y w color h.toNat 0 ↔
        ∃ i j : Nat, (i : Int) < w ∧ (j : Int) < h ∧
          p = (x + i, y + j, if bitmapBit flash w j i = true then color else bg)) ∧
    drawBitmapRam bitmap st x y w h color =
      drawBitmap (fun k => st.mem.read (bitmap + k)) st x y w h color ∧
    drawBitmapRamBg bitmap st x y w h color bg =
      drawBitmapBg (fun k => st.mem.read (bitmap + k)) st x y w h color bg := by
  have hflash : ∀ (f : Int → Nat) (b : Option Nat),
      drawBitmapScan (fun _ k => f k) b st x y w h color =
        drawWrites st (bitmapWrites f b x y w color h.toNat 0) :=
    fun f b => drawBitmapScan_trace (fun _ k => f k) f b st x y w h color (fun _ => True)
      (fun _ _ _ _ _ => trivial) trivial (fun _ _ _ _ _ => rfl) hw hh hsize hx hy
  have hram : ∀ b : Option Nat,
      drawBitmapScan (fun s k => s.mem.read (bitmap + k)) b st x y w h color =
        drawWrites st (bitmapWrites (fun k => st.mem.read (bitmap + k)) b x y w color
          h.toNat 0) :=
    fun b => drawBitmapScan_trace (fun s k => s.mem.read (bitmap + k))
      (fun k => st.mem.read (bitmap + k)) b st x y w h color
      (fun s => sameFrame st s ∧ ∀ a, outsideBuffer st a → s.mem.read a = st.mem.read a)
      (fun s a b c hs => drawPixel_buffer st hg s hs a b c)
      ⟨sameFrame_refl st, fun _ _ => rfl⟩
      (fun s k hs hk0 hk1 => hs.2 _ (hsep k hk0 hk1)) hw hh hsize hx hy
  refine ⟨⟨hflash flash none, fun p => ?_⟩, ⟨hflash flash (some bg), fun p => ?_⟩, ?_, ?_⟩
  · rw [bitmapWrites_mem]
    constructor
    · rintro ⟨i, j, h1, -, h3, h4⟩
      rw [bitWrite_transparent] at h4
      exact ⟨i, j, h1, by omega, h4.1, h4.2⟩
    · rintro ⟨i, j, h1, h2, h3, h4⟩
      exact ⟨i, j, h1, Nat.zero_le _, by omega,
        (bitWrite_transparent flash x y w color j i p).mpr ⟨h3, h4⟩⟩
  · rw [bitmapWrites_mem]
    constructor
    · rintro ⟨i, j, h1, -, h3, h4⟩
      rw [bitWrite_filled] at h4
      exact ⟨i, j, h1, by omega, h4⟩
    · rintro ⟨i, j, h1, h2, h3⟩
      exact ⟨i, j, h1, Nat.zero_le _, by omega,
        (bitWrite_filled flash x y w color bg j i p).mpr h3⟩
  · exact (hram none).trans (hflash _ none).symm
  · exact (hram (some bg)).trans (hflash _ (some bg)).symm

theorem drawBitmap_writes_witness :
    (drawBitmap sampleBitmap panel32 3 4 10 2 0xFFFF =
        drawWrites panel32 (bitmapWrites sampleBitmap none 3 4 10 0xFFFF (2 : Int).toNat 0) ∧
      ∀ p, p ∈ bitmapWrites sampleBitmap none 3 4 10 0xFFFF (2 : Int).toNat 0 ↔
        ∃ i j : Nat, (i : Int) < 10 ∧ (j : Int) < 2 ∧ bitmapBit sampleBitmap 10 j i = true ∧
          p = ((3 : Int) + i, (4 : Int) + j, 0xFFFF)) ∧
    (drawBitmapBg sampleBitmap panel32 3 4 10 2 0xFFFF 0x001F =
        drawWrites panel32
          (bitmapWrites sampleBitmap (some 0x001F) 3 4 10 0xFFFF (2 : Int).toNat 0) ∧
      ∀ p, p ∈ bitmapWrites sampleBitmap (some 0x001F) 3 4 10 0xFFFF (2 : Int).toNat 0 ↔
        ∃ i j : Nat, (i : Int) < 10 ∧ (j : Int) < 2 ∧
          p = ((3 : Int) + i, (4 : Int) + j,
            if bitmapBit sampleBitmap 10 j i = true then 0xFFFF else 0x001F)) ∧
    drawBitmapRam 2000 panel32 3 4 10 2 0xFFFF =
      drawBitmap (fun k => panel32.mem.read (2000 + k)) panel32 3 4 10 2 0xFFFF ∧
    drawBitmapRamBg 2000 panel32 3 4 10 2 0xFFFF 0x001F =
      drawBitmapBg (fun k => panel32.mem.read (2000 + k)) panel32 3 4 10 2 0xFFFF 0x001F :=
  drawBitmap_writes sampleBitmap 2000 panel32 3 4 10 2 0xFFFF 0x001F Geometry_panel32
    (by decide) (by decide) (by decide) (by decide) (by decide)
    (fun k hk _ => Or.inr (by
      have hb : backBuffer panel32 + panel32.WIDTH * panel32.nRows * 3 = 1536 := by decide
      rw [hb]
      omega))

theorem bitmapRow_blank (flash : Int → Nat) (x y w : Int) (color j : Nat) (st : Panel) :
    ∀ n i0 : Nat, (∀ i : Nat, i0 ≤ i → i < i0 + n → flash (bitmapIndex w j i) % 256 = 0) →
      bitmapRow (fun _ k => flash k) none x y w color j n i0 (0, st) = (0, st) := by
  intro n
  induction n with
  | zero =>
    intro i0 _
    rfl
  | succ n ih =>
    intro i0 hz
    have hstep : bitmapStep (fun _ k => flash k) none x y w color j i0 (0, st) = (0, st) := by
      unfold bitmapStep
      simp only []
      have hb : (if i0 &&& 7 ≠ 0 then wrapU8 ((0 <<< 1 : Nat))
          else flash (bitmapIndex w j i0) % 256) = 0 := by
        split
        · rfl
        · exact hz i0 (le_refl _) (by omega)
      rw [hb]
      rfl
    unfold bitmapRow
    rw [hstep]
    exact ih (i0 + 1) (fun i h1 h2 => hz i (by omega) (by omega))

theorem wideBitmap_row (j i : Nat) (hj : j < 2) (hi : i < 32761) :
    wideBitmap (bitmapIndex 32761 j i) % 256 = 0 := by
  have hbw : byteWidth 32761 = -4096 := by decide
  have hne : bitmapIndex 32761 j i ≠ 4096 := by
    unfold bitmapIndex
    rw [hbw, Int.tdiv_eq_ediv (by omega) (by omega)]
    unfold wrapI16
    omega
  unfold wideBitmap
  rw [if_neg hne]

theorem drawBitmap_wide (st : Panel) (color : Nat) :
    drawBitmap wideBitmap st 0 0 32761 2 color = st := by
  have hn : (32761 : Int).toNat = 32761 := rfl
  have h2 : (2 : Int).toNat = 2 := rfl
  unfold drawBitmap drawBitmapScan
  rw [h2]
  unfold bitmapRows
  rw [hn, bitmapRow_blank wideBitmap 0 0 32761 color 0 st 32761 0
    (fun i _ hi => wideBitmap_row 0 i (by decide) (by omega))]
  unfold bitmapRows
  rw [hn, bitmapRow_blank wideBitmap 0 _ 32761 color 1 st 32761 0
    (fun i _ hi => wideBitmap_row 1 i (by decide) (by omega))]
  rfl

/-- C26 fails as stated.  For w = 32761 the sum w + 7 leaves the 16-bit range:
the scanline width is computed as -4096, row 1 is read from bitmap[-4096]
onwards, and the pixel (0, 1) whose bit, bit 7 of bitmap[1*4096 + 0], is set
is not drawn.  And a RAM bitmap that lies in the buffer being drawn is
changed by the drawing: row 0 sets the pixel (1, 16), stored in byte 1 of
the buffer, which is then read as row 1 of the bitmap, so the RAM form draws
in row 17 where the constant-memory form on a copy of the bitmap does not. -/
theorem drawBitmap_overflow_alias :
    (byteWidth 32761 = -4096 ∧ bitmapIndex 32761 1 0 = -4096 ∧
      bitmapBit wideBitmap 32761 1 0 = true ∧
      ¬ holdsColour (drawBitmap wideBitmap panel32 0 0 32761 2 0xFFFF) 0 1 0xFFFF) ∧
    (drawBitmapRam 0 panel32marked 1 16 8 2 0xFFFF).mem.read 97 ≠
      (drawBitmap (fun k => panel32marked.mem.read (0 + k)) panel32marked 1 16 8 2
        0xFFFF).mem.read 97 := by
  refine ⟨⟨by decide, by decide, by decide, ?_⟩, by decide⟩
  rw [drawBitmap_wide]
  unfold holdsColour
  decide

/-! ## The refresh cycle -/

theorem waitSwap_iterate (k : Nat) :
    ∀ (st : Panel) (fuel : Nat), st.swapflag = true → st.plane < 4 → st.row < st.nRows →
      st.nRows < 256 → 3 - st.plane + 4 * (st.nRows - 1 - st.row) = k → k + 1 ≤ fuel →
      (∀ j, j ≤ k → (updateDisplay^[j] st).swapflag = true) ∧
        (updateDisplay^[k + 1] st).swapflag = false ∧
        waitSwap fuel st = some (updateDisplay^[k + 1] st) := by
  induction k with
  | zero =>
    intro st fuel hs hp hr hn hk hf
    have hw : wrapsRow st := by
      rw [wrapsRow_iff st hp hr hn]
      omega
    obtain ⟨f, rfl⟩ : ∃ f, fuel = f + 1 := ⟨fuel - 1, by omega⟩
    obtain ⟨-, u2, -⟩ := updateDisplay_swap_cases st
    obtain ⟨-, -, b3⟩ := u2 hw hs
    refine ⟨fun j hj => ?_, b3, ?_⟩
    · have hj0 : j = 0 := by omega
      rw [hj0]
      exact hs
    · unfold waitSwap
      rw [if_pos hs]
      cases f with
      | zero =>
        unfold waitSwap
        rw [if_neg (by rw [b3]; decide)]
        rfl
      | succ f =>
        unfold waitSwap
        rw [if_neg (by rw [b3]; decide)]
        rfl
  | succ k ih =>
    intro st fuel hs hp hr hn hk hf
    have hw : ¬ wrapsRow st := by
      rw [wrapsRow_iff st hp hr hn]
      omega
    obtain ⟨f, rfl⟩ : ∃ f, fuel = f + 1 := ⟨fuel - 1, by omega⟩
    obtain ⟨-, -, u3⟩ := updateDisplay_swap_cases st
    obtain ⟨-, b2⟩ := u3 (fun hh => hw hh.1)
    obtain ⟨-, f2, -⟩ := updateDisplay_frame st
    obtain ⟨c1, c2, c3⟩ := updateDisplay_counters st hp hr hn hw
    obtain ⟨i1, i2, i3⟩ :=
      ih (updateDisplay st) f (by rw [b2, hs]) c1 (by rw [f2]; exact c2) (by rw [f2]; exact hn)
        (by rw [f2]; omega) (by omega)
    refine ⟨fun j hj => ?_, ?_, ?_⟩
    · cases j with
      | zero => exact hs
      | succ j =>
        rw [Function.iterate_succ_apply]
        exact i1 j (by omega)
    · rw [Function.iterate_succ_apply]
      exact i2
    · unfold waitSwap
      rw [if_pos hs, Function.iterate_succ_apply]
      exact i3

/-- C31: from a scheduler state with plane < 4, row < nRows (an 8-bit count)
and swapflag set, the flag stays set for k - 1 invocations of updateDisplay and
is clear after the k-th, where k = 4 * (nRows - 1 - row) + (3 - plane) + 1 is at
least 1 and at most 4 * nRows; the busy-wait of swapBuffers, given at least
4 * nRows interrupts, returns the state after those k invocations, and
swapBuffers returns. -/
theorem swapflag_clears_in_cycle (st : Panel) (copy : Bool) (fuel : Nat)
    (hp : st.plane < 4) (hr : st.row < st.nRows) (hn : st.nRows < 256)
    (hs : st.swapflag = true) (hfuel : 4 * st.nRows ≤ fuel) :
    ∃ k, 1 ≤ k ∧ k ≤ 4 * st.nRows ∧ k = 4 * (st.nRows - 1 - st.row) + (3 - st.plane) + 1 ∧
      (∀ j, j < k → (updateDisplay^[j] st).swapflag = true) ∧
      (updateDisplay^[k] st).swapflag = false ∧
      waitSwap fuel st = some (updateDisplay^[k] st) ∧
      (swapBuffers fuel st copy).isSome = true := by
  obtain ⟨i1, i2, i3⟩ := waitSwap_iterate (3 - st.plane + 4 * (st.nRows - 1 - st.row)) st fuel
    hs hp hr hn rfl (by omega)
  refine ⟨3 - st.plane + 4 * (st.nRows - 1 - st.row) + 1, by omega, by omega, by omega,
    fun j hj => i1 j (by omega), i2, i3, ?_⟩
  have hst : { st with swapflag := true } = st := by
    cases st
    simp only at hs
    subst hs
    rfl
  unfold swapBuffers
  split
  · rw [hst, i3]
    rfl
  · rfl

theorem swapflag_clears_in_cycle_witness :
    ∃ k, 1 ≤ k ∧ k ≤ 4 * 16 ∧ k = 4 * (16 - 1 - 0) + (3 - 0) + 1 ∧
      (∀ j, j < k →
        (updateDisplay^[j] { updateDisplay panel32d with swapflag := true }).swapflag = true) ∧
      (updateDisplay^[k] { updateDisplay panel32d with swapflag := true }).swapflag = false ∧
      waitSwap 64 { updateDisplay panel32d with swapflag := true } =
        some (updateDisplay^[k] { updateDisplay panel32d with swapflag := true }) ∧
      (swapBuffers 64 { updateDisplay panel32d with swapflag := true } true).isSome = true :=
  swapflag_clears_in_cycle { updateDisplay panel32d with swapflag := true } true 64 (by decide)
    (by decide) (by decide) rfl (by decide)

/-! ## The digit buffer of printNumber -/

theorem upperBit_owned (r g b k i : Nat) (h : (k, i) ∉ ownedBits true) :
    upperBit r g b k i = none := by
  simp only [ownedBits, if_true, List.mem_cons, Prod.mk.injEq, List.mem_singleton,
    List.not_mem_nil, or_false] at h
  unfold upperBit
  split_ifs <;> first | rfl | (exfalso; omega)

theorem lowerBit_owned (r g b k i : Nat) (h : (k, i) ∉ ownedBits false) :
    lowerBit r g b k i = none := by
  simp only [ownedBits, Bool.false_eq_true, if_false, List.mem_cons, Prod.mk.injEq,
    List.mem_singleton, List.not_mem_nil, or_false] at h
  unfold lowerBit
  split_ifs <;> first | rfl | (exfalso; omega)

/-- The bits of the buffer outside the twelve positions of a raw pixel are not
changed by writing it. -/
theorem writeRaw_other_bits (st : Panel) (x y : Int) (c : Nat) (hW : st.WIDTH ≠ 0)
    (a : Int) (i : Nat) (hi : i < 8) (hn : (a, i) ∉ rawPixelCells st x y) :
    ((writeRaw st x y c).mem.read a).testBit i = (st.mem.read a).testBit i := by
  by_cases hsame : ∃ k : Nat, k < 3 ∧ a = baseAddr st x y + (k : Int) * st.WIDTH
  · obtain ⟨k, hk, rfl⟩ := hsame
    have hown : (k, i) ∉ ownedBits (decide (y < st.nRows)) := by
      intro hmem
      apply hn
      unfold rawPixelCells
      exact List.mem_map.2 ⟨(k, i), hmem, rfl⟩
    by_cases hy : y < st.nRows
    · rw [decide_eq_true hy] at hown
      rw [writeRaw_upper_bit st x y c hy hW k hk i, upperBit_owned _ _ _ k i hown]
      simp only [decide_eq_true hi, Bool.true_and]
    · rw [decide_eq_false hy] at hown
      rw [writeRaw_lower_bit st x y c hy hW k hk i, lowerBit_owned _ _ _ k i hown]
      simp only [decide_eq_true hi, Bool.true_and]
  · push_neg at hsame
    have h0 := hsame 0 (by decide)
    have h1 := hsame 1 (by decide)
    have h2 := hsame 2 (by decide)
    rw [writeRaw_read_other st x y c _ (by simpa using h0) (by simpa using h1)
      (by
        intro h
        apply h2
        rw [h]
        push_cast
        ring)]

theorem rawPixelCells_disjoint (st : Panel) (hW : st.WIDTH = 32 ∨ st.WIDTH = 64)
    (hR : st.nRows = 8 ∨ st.nRows = 16) (x y qx qy : Int)
    (hx : 0 ≤ x ∧ x < st.WIDTH) (hy : 0 ≤ y ∧ y < 2 * st.nRows)
    (hqx : 0 ≤ qx ∧ qx < st.WIDTH) (hqy : 0 ≤ qy ∧ qy < 2 * st.nRows)
    (hne : (qx, qy) ≠ (x, y)) :
    ∀ cell ∈ rawPixelCells st x y, cell ∉ rawPixelCells st qx qy := by
  intro cell h1 h2
  unfold rawPixelCells at h1 h2
  obtain ⟨p, hp, rfl⟩ := List.mem_map.1 h1
  obtain ⟨q, hq, he⟩ := List.mem_map.1 h2
  rw [Prod.mk.injEq] at he
  obtain ⟨hadr, hbit⟩ := he
  have hbp := baseAddr_raw st hW hR x y hx hy
  have hbq := baseAddr_raw st hW hR qx qy hqx hqy
  have hxy : qx ≠ x ∨ qy ≠ y := by
    by_contra hcon
    push_neg at hcon
    exact hne (by rw [hcon.1, hcon.2])
  have hp3 : p.1 < 3 := by
    by_cases hu : y < st.nRows
    · rw [decide_eq_true hu] at hp
      exact (owned_upper 0 0 0 p.1 p.2 hp).2.2.1
    · rw [decide_eq_false hu] at hp
      exact (owned_lower 0 0 0 p.1 p.2 hp).2.2.1
  have hq3 : q.1 < 3 := by
    by_cases hu : qy < st.nRows
    · rw [decide_eq_true hu] at hq
      exact (owned_upper 0 0 0 q.1 q.2 hq).2.2.1
    · rw [decide_eq_false hu] at hq
      exact (owned_lower 0 0 0 q.1 q.2 hq).2.2.1
  have hpq : q = p := Prod.ext (by
    rw [hbp, hbq] at hadr
    rcases hW with h | h <;> rcases hR with h' | h' <;> rw [h] at hadr hx hqx <;>
      rw [h'] at hy hqy hadr <;> split at hadr <;> split at hadr <;> omega) hbit
  subst hpq
  by_cases hu : y < st.nRows
  · have hqu : ¬ qy < st.nRows := by
      rw [hbp, hbq] at hadr
      rcases hW with h | h <;> rcases hR with h' | h' <;> rw [h] at hadr hx hqx <;>
        rw [h'] at hy hqy hadr hu ⊢ <;> rw [if_pos hu] at hadr <;> split at hadr <;> omega
    rw [decide_eq_true hu] at hp
    rw [decide_eq_false hqu] at hq
    have h3 := (owned_upper 0 0 0 q.1 q.2 hp).2.1
    have h4 := (owned_lower 0 0 0 q.1 q.2 hq).1
    rw [h3] at h4
    cases h4
  · have hqu : qy < st.nRows := by
      rw [hbp, hbq] at hadr
      rcases hW with h | h <;> rcases hR with h' | h' <;> rw [h] at hadr hx hqx <;>
        rw [h'] at hy hqy hadr hu ⊢ <;> rw [if_neg hu] at hadr <;> split at hadr <;> omega
    rw [decide_eq_false hu] at hp
    rw [decide_eq_true hqu] at hq
    have h3 := (owned_upper 0 0 0 q.1 q.2 hq).2.1
    have h4 := (owned_lower 0 0 0 q.1 q.2 hp).1
    rw [h3] at h4
    cases h4

/-- C36: on a panel of one of the four geometries, drawPixel at an in-range
(x, y) leaves the twelve bits (the 4-bit colour) stored for every other
in-range pixel as they were, so a colour it held it still holds; the twelve
buffer positions of the two pixels are disjoint, and every bit of every byte
outside the twelve positions of (x, y) is unchanged. -/
theorem drawPixel_one_pixel (st : Panel) (hg : Geometry st) (x y qx qy : Int) (c : Nat)
    (hon : onScreen st x y) (honq : onScreen st qx qy) (hne : (qx, qy) ≠ (x, y)) :
    pixelBits (drawPixel st x y c) qx qy = pixelBits st qx qy ∧
    (∀ c2, holdsColour st qx qy c2 → holdsColour (drawPixel st x y c) qx qy c2) ∧
    pixelBits st qx qy =
      (pixelCells st qx qy).map (fun cell => (st.mem.read cell.1).testBit cell.2) ∧
    (∀ cell ∈ pixelCells st x y, cell ∉ pixelCells st qx qy) ∧
    (∀ (a : Int) (i : Nat), i < 8 → (a, i) ∉ pixelCells st x y →
      ((drawPixel st x y c).mem.read a).testBit i = (st.mem.read a).testBit i) := by
  have hW0 : st.WIDTH ≠ 0 := by rcases hg.1 with h | h <;> rw [h] <;> decide
  have hkeep := drawPixel_keeps st hg x y qx qy c honq hne
  have h1 := rotateCoord_range st hg x y hon
  have h2 := rotateCoord_range st hg qx qy honq
  refine ⟨hkeep, fun c2 h => ?_, ?_, ?_, fun a i hi hn => ?_⟩
  · exact holdsColour_congr _ _ (drawPixel_sameFrame st x y c) qx qy c2 hkeep h
  · unfold pixelBits rawPixelBits pixelCells rawPixelCells
    rw [List.map_map]
    rfl
  · apply rawPixelCells_disjoint st hg.1 hg.2.1 _ _ _ _ h1.1 h1.2 h2.1 h2.2
    intro he
    have := rotateCoord_inj st hg qx qy x y honq hon
      (Prod.ext (by rw [Prod.mk.injEq] at he; exact he.1) (by rw [Prod.mk.injEq] at he; exact he.2))
    exact hne (by rw [this.1, this.2])
  · rw [drawPixel_in_range st x y c hon.1 hon.2]
    exact writeRaw_other_bits st _ _ c hW0 a i hi hn

theorem drawPixel_one_pixel_witness :
    pixelBits (drawPixel panel32 3 5 0xF800) 3 21 = pixelBits panel32 3 21 ∧
    (∀ c2, holdsColour panel32 3 21 c2 → holdsColour (drawPixel panel32 3 5 0xF800) 3 21 c2) ∧
    pixelBits panel32 3 21 =
      (pixelCells panel32 3 21).map (fun cell => (panel32.mem.read cell.1).testBit cell.2) ∧
    (∀ cell ∈ pixelCells panel32 3 5, cell ∉ pixelCells panel32 3 21) ∧
    (∀ (a : Int) (i : Nat), i < 8 → (a, i) ∉ pixelCells panel32 3 5 →
      ((drawPixel panel32 3 5 0xF800).mem.read a).testBit i = (panel32.mem.read a).testBit i) :=
  drawPixel_one_pixel panel32 Geometry_panel32 3 5 3 21 0xF800
    ⟨⟨by decide, by decide⟩, by decide, by decide⟩ ⟨⟨by decide, by decide⟩, by decide, by decide⟩
    (by decide)

/-! ## Buffer indices -/

theorem rotateCoord_raw_range (st : Panel) (hH : st.HEIGHT = 2 * st.nRows) (hrot : Rotated st)
    (hW : st.WIDTH ≤ 32767) (hR : st.nRows ≤ 16383) (x y : Int) (hon : onScreen st x y) :
    (0 ≤ (rotateCoord st x y).1 ∧ (rotateCoord st x y).1 < st.WIDTH) ∧
    (0 ≤ (rotateCoord st x y).2 ∧ (rotateCoord st x y).2 < 2 * st.nRows) := by
  obtain ⟨h4, hw, hh⟩ := hrot
  obtain ⟨hx, hy⟩ := hon
  rw [hw] at hx
  rw [hh] at hy
  rw [hH] at hx hy
  unfold rotateCoord
  rw [hH]
  have hcases : st.rotation = 0 ∨ st.rotation = 1 ∨ st.rotation = 2 ∨ st.rotation = 3 := by omega
  rcases hcases with h | h | h | h <;> rw [h] at hx hy ⊢ <;> simp only [] <;>
    norm_num at hx hy ⊢ <;> first | omega | (unfold wrapI16; omega)

theorem baseIndex_range (st : Panel) (hsize : st.WIDTH * st.nRows * 3 ≤ 32767) (x y : Int)
    (hx : 0 ≤ x ∧ x < st.WIDTH) (hy : 0 ≤ y ∧ y < 2 * st.nRows) :
    0 ≤ baseAddr st x y - matrixbuff st st.backindex ∧
      baseAddr st x y - matrixbuff st st.backindex + st.WIDTH * 2 < st.WIDTH * st.nRows * 3 := by
  have hn : ((nPlanes : Nat) : Int) - 1 = 3 := by decide
  have hW0 : 0 ≤ st.WIDTH := by omega
  unfold baseAddr
  rw [hn]
  split
  · next hu =>
    have h1 : 0 ≤ y * st.WIDTH := Int.mul_nonneg hy.1 hW0
    have h2 : (y + 1) * st.WIDTH ≤ (st.nRows : Int) * st.WIDTH :=
      Int.mul_le_mul_of_nonneg_right (by omega) hW0
    rw [Int.add_mul, Int.one_mul] at h2
    rw [Int.mul_comm st.WIDTH (st.nRows : Int)] at hsize ⊢
    generalize y * st.WIDTH = P at *
    generalize (st.nRows : Int) * st.WIDTH = Q at *
    unfold wrapI16
    omega
  · next hu =>
    have h1 : 0 ≤ (y - st.nRows) * st.WIDTH := Int.mul_nonneg (by omega) hW0
    have h2 : (y - st.nRows + 1) * st.WIDTH ≤ (st.nRows : Int) * st.WIDTH :=
      Int.mul_le_mul_of_nonneg_right (by omega) hW0
    rw [Int.add_mul, Int.one_mul] at h2
    rw [Int.mul_comm st.WIDTH (st.nRows : Int)] at hsize ⊢
    generalize (y - st.nRows) * st.WIDTH = P at *
    generalize (st.nRows : Int) * st.WIDTH = Q at *
    unfold wrapI16
    omega

theorem setRotation_raw (st : Panel) (r : Nat) :
    (setRotation st r).WIDTH = st.WIDTH ∧ (setRotation st r).HEIGHT = st.HEIGHT ∧
    (setRotation st r).nRows = st.nRows := by
  unfold setRotation
  simp only []
  split <;> exact ⟨rfl, rfl, rfl⟩

/-- What the constructors establish and setRotation keeps: the raw height is
twice the row count, the logical size follows the rotation, and the buffer
size fits a 16-bit int. -/
theorem constructed_fits (st0 : Panel) (dbuf : Bool) (width : Nat) (hwidth : width < 256)
    (alloc : Option Int) (rots : List Nat) :
    ∀ st, (st = rots.foldl setRotation (RGBmatrixPanel32 st0 dbuf width alloc) ∨
        st = rots.foldl setRotation (RGBmatrixPanel16 st0 dbuf alloc)) →
      st.HEIGHT = 2 * st.nRows ∧ Rotated st ∧ st.WIDTH * st.nRows * 3 ≤ 32767 := by
  have hfold : ∀ (l : List Nat) (s : Panel),
      s.HEIGHT = 2 * s.nRows ∧ Rotated s ∧ s.WIDTH * s.nRows * 3 ≤ 32767 →
      (l.foldl setRotation s).HEIGHT = 2 * (l.foldl setRotation s).nRows ∧
        Rotated (l.foldl setRotation s) ∧
        (l.foldl setRotation s).WIDTH * (l.foldl setRotation s).nRows * 3 ≤ 32767 := by
    intro l
    induction l with
    | nil => exact fun s h => h
    | cons r rest ih =>
      intro s h
      rw [List.foldl_cons]
      apply ih
      obtain ⟨e1, e2, e3⟩ := setRotation_raw s r
      rw [e1, e2, e3]
      exact ⟨h.1, setRotation_Rotated s r, h.2.2⟩
  intro st hst
  rcases hst with h | h
  · rw [h]
    apply hfold
    cases alloc <;>
      refine ⟨rfl, ⟨(show (0 : Nat) < 4 by decide), rfl, rfl⟩, ?_⟩ <;>
      (show (width : Int) * ((16 : Nat) : Int) * 3 ≤ 32767) <;> omega
  · rw [h]
    apply hfold
    cases alloc <;>
      exact ⟨rfl, ⟨(show (0 : Nat) < 4 by decide), rfl, rfl⟩,
        (show (32 : Int) * ((8 : Nat) : Int) * 3 ≤ 32767 by decide)⟩

/-- C37: in a state where HEIGHT = 2 * nRows, the logical size is the
rotation-adjusted raw size and the buffer size WIDTH * nRows * 3 fits the
16-bit int in which init computes it (every state the constructors and
setRotation establish: WIDTH is at most 255 and nRows is 8 or 16), the three
indices drawPixel uses for an in-range (x, y), the base index, base + WIDTH and
base + 2 * WIDTH, are non-negative and below WIDTH * nRows * 3, and no byte
other than those three of the back buffer is changed. -/
theorem drawPixel_indices (st : Panel) (x y : Int) (c : Nat)
    (hH : st.HEIGHT = 2 * st.nRows) (hrot : Rotated st)
    (hsize : st.WIDTH * st.nRows * 3 ≤ 32767) (hon : onScreen st x y) :
    (∀ i ∈ drawPixelIndices st x y, 0 ≤ i ∧ i < st.WIDTH * st.nRows * 3) ∧
    (∀ a : Int, (∀ i ∈ drawPixelIndices st x y, a ≠ matrixbuff st st.backindex + i) →
      (drawPixel st x y c).mem.read a = st.mem.read a) := by
  have hpos : 0 < st.WIDTH ∧ 0 < (st.nRows : Int) := by
    obtain ⟨h4, hw, hh⟩ := hrot
    obtain ⟨hx, hy⟩ := hon
    rw [hw] at hx
    rw [hh] at hy
    rw [hH] at hx hy
    split at hx <;> split at hy <;> omega
  have hWR : st.WIDTH ≤ st.WIDTH * st.nRows :=
    le_mul_of_one_le_right (le_of_lt hpos.1) (by omega)
  have hRW : (st.nRows : Int) ≤ st.WIDTH * st.nRows :=
    le_mul_of_one_le_left (le_of_lt hpos.2) (by omega)
  have hr := rotateCoord_raw_range st hH hrot (by omega) (by omega) x y hon
  have hb := baseIndex_range st hsize _ _ hr.1 hr.2
  constructor
  · intro i hi
    unfold drawPixelIndices at hi
    simp only [List.mem_cons, List.mem_singleton, List.not_mem_nil, or_false] at hi
    generalize st.WIDTH * st.nRows = Q at *
    rcases hi with h | h | h <;> rw [h] <;> omega
  · intro a ha
    rw [drawPixel_in_range st x y c hon.1 hon.2]
    have h0 := ha _ (List.mem_cons_self _ _)
    have h1 := ha _ (List.mem_cons_of_mem _ (List.mem_cons_self _ _))
    have h2 := ha _ (List.mem_cons_of_mem _ (List.mem_cons_of_mem _ (List.mem_cons_self _ _)))
    apply writeRaw_read_other
    · intro h
      apply h0
      rw [h]
      ring
    · intro h
      apply h1
      rw [h]
      ring
    · intro h
      apply h2
      rw [h]
      ring

theorem drawPixel_indices_witness :
    (∀ i ∈ drawPixelIndices (setRotation panel64 1) 31 63,
      0 ≤ i ∧ i < (setRotation panel64 1).WIDTH * (setRotation panel64 1).nRows * 3) ∧
    (∀ a : Int, (∀ i ∈ drawPixelIndices (setRotation panel64 1) 31 63,
        a ≠ matrixbuff (setRotation panel64 1) (setRotation panel64 1).backindex + i) →
      (drawPixel (setRotation panel64 1) 31 63 0xFFFF).mem.read a =
        (setRotation panel64 1).mem.read a) :=
  drawPixel_indices (setRotation panel64 1) 31 63 0xFFFF rfl ⟨by decide, rfl, rfl⟩ (by decide)
    ⟨⟨by decide, by decide⟩, by decide, by decide⟩

/-! ## The output cursor -/

theorem advance_cursor (s : Panel) (hp : s.plane < 4) (hr : s.row < s.nRows)
    (hn : s.nRows < 256) :
    (s.plane = 3 ∧ s.row + 1 = s.nRows →
      (advance s).plane = 0 ∧ (advance s).row = 0 ∧
      (advance s).backindex =
        (if s.swapflag = true then wrapU8 (1 - (s.backindex : Int)) else s.backindex) ∧
      (advance s).buffptr = frontBuffer (advance s)) ∧
    (s.plane = 3 ∧ s.row + 1 < s.nRows →
      (advance s).plane = 0 ∧ (advance s).row = s.row + 1 ∧
      (advance s).backindex = s.backindex ∧ (advance s).buffptr = s.buffptr) ∧
    (s.plane < 3 →
      (advance s).plane = s.plane + 1 ∧ (advance s).row = s.row ∧
      (advance s).backindex = s.backindex ∧ (advance s).buffptr = s.buffptr) := by
  have h1 : wrapU8 ((s.plane : Int) + 1) = s.plane + 1 := by unfold wrapU8; omega
  have h2 : wrapU8 ((s.row : Int) + 1) = s.row + 1 := by unfold wrapU8; omega
  refine ⟨fun h => ?_, fun h => ?_, fun h => ?_⟩
  · unfold frontBuffer advance
    dsimp only
    rw [h1, h2]
    unfold nPlanes
    rw [if_pos (by omega), if_pos (by omega)]
    by_cases hs : s.swapflag = true
    · rw [if_pos hs, if_pos hs]
      exact ⟨rfl, rfl, rfl, rfl⟩
    · rw [if_neg hs, if_neg hs]
      exact ⟨rfl, rfl, rfl, rfl⟩
  · unfold advance
    dsimp only
    rw [h1, h2]
    unfold nPlanes
    rw [if_pos (by omega), if_neg (by omega)]
    exact ⟨rfl, rfl, rfl, rfl⟩
  · unfold advance
    dsimp only
    rw [h1]
    unfold nPlanes
    rw [if_neg (by omega)]
    split <;> exact ⟨rfl, rfl, rfl, rfl⟩

theorem issue_cursor (s : Panel) (d : Nat) :
    (issue s d).buffptr =
      if s.plane > 0 then s.buffptr + ((if s.WIDTH = 64 then 64 else 32 : Nat) : Int)
      else s.buffptr := by
  unfold issue
  dsimp only
  split <;> rfl

theorem plane0Reads_mem (ptr W : Int) (hW : W ≤ 255) :
    ∀ (fuel i : Nat) (a : Int), a ∈ plane0Reads ptr W fuel i →
      ∃ j : Nat, i ≤ j ∧ (j : Int) < W ∧
        (a = ptr + j ∨ a = ptr + j + W ∨ a = ptr + j + W * 2) := by
  intro fuel
  induction fuel with
  | zero =>
    intro i a h
    cases h
  | succ f ih =>
    intro i a h
    unfold plane0Reads at h
    split at h
    · next hi =>
      have hw : wrapU8 ((i : Int) + 1) = i + 1 := by unfold wrapU8; omega
      rw [hw] at h
      simp only [List.mem_cons] at h
      rcases h with h | h | h | h
      · exact ⟨i, le_refl _, hi, Or.inl h⟩
      · exact ⟨i, le_refl _, hi, Or.inr (Or.inl h)⟩
      · exact ⟨i, le_refl _, hi, Or.inr (Or.inr h)⟩
      · obtain ⟨j, h1, h2, h3⟩ := ih (i + 1) a h
        exact ⟨j, by omega, h2, h3⟩
    · cases h

theorem frontBuffer_issue (s : Panel) (d : Nat) : frontBuffer (issue s d) = frontBuffer s := by
  obtain ⟨i1, -, -, -, -, -, -, i8, i9⟩ := issue_frame s d
  unfold frontBuffer matrixbuff
  rw [i1, i8, i9]

/-- One invocation of updateDisplay from a state whose counters are in range
and whose cursor is where the cycle puts it, or that is about to wrap to the
start of the front buffer. -/
theorem updateDisplay_inCycle (st : Panel) (hW : st.WIDTH = 32 ∨ st.WIDTH = 64)
    (hn : st.nRows < 256) (hp : st.plane < 4) (hr : st.row < st.nRows) (hb : st.backindex ≤ 1)
    (hcur : (st.plane = 3 ∧ st.row + 1 = st.nRows) ∨
      st.buffptr = frontBuffer st + (3 * (st.row : Int) + (st.plane : Int)) * st.WIDTH) :
    inCycle (updateDisplay st) ∧
      ∀ a ∈ updateDisplayReads st, frontBuffer (updateDisplay st) ≤ a ∧
        a < frontBuffer (updateDisplay st) + st.WIDTH * st.nRows * 3 := by
  have hac := advance_cursor { st with PORTB := setPin (setPin st.PORTB OE_PIN) LAT_PIN } hp hr hn
  obtain ⟨-, a2, a3, a4, a5⟩ :=
    advance_frame { st with PORTB := setPin (setPin st.PORTB OE_PIN) LAT_PIN }
  obtain ⟨i1, -, i3, i4, -, i6, i7, i8, i9⟩ :=
    issue_frame (advance { st with PORTB := setPin (setPin st.PORTB OE_PIN) LAT_PIN })
      (duration { st with PORTB := setPin (setPin st.PORTB OE_PIN) LAT_PIN })
  have hic := issue_cursor (advance { st with PORTB := setPin (setPin st.PORTB OE_PIN) LAT_PIN })
    (duration { st with PORTB := setPin (setPin st.PORTB OE_PIN) LAT_PIN })
  have hfb := frontBuffer_issue (advance { st with PORTB := setPin (setPin st.PORTB OE_PIN) LAT_PIN })
    (duration { st with PORTB := setPin (setPin st.PORTB OE_PIN) LAT_PIN })
  have hud : updateDisplay st =
      issue (advance { st with PORTB := setPin (setPin st.PORTB OE_PIN) LAT_PIN })
        (duration { st with PORTB := setPin (setPin st.PORTB OE_PIN) LAT_PIN }) := rfl
  have hrd : updateDisplayReads st =
      issueReads (advance { st with PORTB := setPin (setPin st.PORTB OE_PIN) LAT_PIN }) := rfl
  rw [hud, hrd]
  generalize advance { st with PORTB := setPin (setPin st.PORTB OE_PIN) LAT_PIN } = A at *
  generalize issue A (duration { st with PORTB := setPin (setPin st.PORTB OE_PIN) LAT_PIN }) = U at *
  simp only [] at hac a2 a3 a4 a5
  have hfA : ¬ (st.plane = 3 ∧ st.row + 1 = st.nRows) → frontBuffer A = frontBuffer st := by
    intro hnw
    have hbk : A.backindex = st.backindex := by
      by_cases h3 : st.plane = 3
      · exact (hac.2.1 ⟨h3, by omega⟩).2.2.1
      · exact (hac.2.2 (by omega)).2.2.1
    unfold frontBuffer matrixbuff
    rw [hbk, a4, a5]
  have hW255 : st.WIDTH ≤ 255 := by rcases hW with h | h <;> rw [h] <;> decide
  have hRW : ((st.row : Int) + 1) * st.WIDTH ≤ (st.nRows : Int) * st.WIDTH :=
    Int.mul_le_mul_of_nonneg_right (by omega) (by omega)
  have hR0 : 0 ≤ (st.row : Int) * st.WIDTH := Int.mul_nonneg (by omega) (by omega)
  have hN1 : (1 : Int) * st.WIDTH ≤ (st.nRows : Int) * st.WIDTH :=
    Int.mul_le_mul_of_nonneg_right (by omega) (by omega)
  rw [Int.add_mul, Int.one_mul] at hRW
  rw [Int.one_mul] at hN1
  by_cases hwrap : st.plane = 3 ∧ st.row + 1 = st.nRows
  · obtain ⟨c1, c2, c3, c4⟩ := hac.1 hwrap
    constructor
    · unfold inCycle
      rw [i3, i4, i1, i6, i7, hfb, hic, c1, c2, a2, a3, if_neg (by omega), c4]
      refine ⟨by omega, by omega, ?_, by simp⟩
      rw [c3]
      split
      · unfold wrapU8
        omega
      · exact hb
    · intro a ha
      unfold issueReads at ha
      rw [c1, if_neg (by omega), c4, a3] at ha
      obtain ⟨j, -, hj, hj2⟩ := plane0Reads_mem _ _ hW255 _ _ _ ha
      rw [hfb, Int.mul_comm st.WIDTH (st.nRows : Int)]
      generalize (st.nRows : Int) * st.WIDTH = Q at *
      omega
  · have hfr := hfA hwrap
    have hcur2 : st.buffptr = frontBuffer st + (3 * (st.row : Int) + (st.plane : Int)) * st.WIDTH :=
      hcur.resolve_left hwrap
    by_cases h3 : st.plane = 3
    · obtain ⟨c1, c2, c3, c4⟩ := hac.2.1 ⟨h3, by omega⟩
      constructor
      · unfold inCycle
        rw [i3, i4, i1, i6, i7, hfb, hic, c1, c2, a2, a3, if_neg (by omega), c4, c3, hfr, hcur2, h3]
        refine ⟨by omega, by omega, hb, ?_⟩
        push_cast
        ring
      · intro a ha
        unfold issueReads at ha
        rw [c1, if_neg (by omega), c4, a3, hcur2, h3] at ha
        obtain ⟨j, -, hj, hj2⟩ := plane0Reads_mem _ _ hW255 _ _ _ ha
        rw [hfb, hfr, Int.mul_comm st.WIDTH (st.nRows : Int)]
        have e : (3 * (st.row : Int) + ((3 : Nat) : Int)) * st.WIDTH =
            3 * ((st.row : Int) * st.WIDTH) + 3 * st.WIDTH := by
          push_cast
          ring
        rw [e] at hj2
        have hRW2 : ((st.row : Int) + 2) * st.WIDTH ≤ (st.nRows : Int) * st.WIDTH :=
          Int.mul_le_mul_of_nonneg_right (by omega) (by omega)
        rw [Int.add_mul] at hRW2
        generalize (st.nRows : Int) * st.WIDTH = Q at *
        generalize (st.row : Int) * st.WIDTH = P at *
        omega
    · obtain ⟨c1, c2, c3, c4⟩ := hac.2.2 (by omega)
      have hn64 : ((if st.WIDTH = 64 then 64 else 32 : Nat) : Int) = st.WIDTH := by
        rcases hW with h | h <;> rw [h] <;> rfl
      constructor
      · unfold inCycle
        rw [i3, i4, i1, i6, i7, hfb, hic, c1, c2, a2, a3, if_pos (by omega), c4, c3, hfr, hcur2,
          hn64]
        refine ⟨by omega, by omega, hb, ?_⟩
        push_cast
        ring
      · intro a ha
        unfold issueReads at ha
        rw [c1, if_pos (by omega), c4, a3, hcur2] at ha
        obtain ⟨j, hj, rfl⟩ := List.mem_map.1 ha
        rw [List.mem_range] at hj
        have hjW : (j : Int) < st.WIDTH := by
          rcases hW with h | h <;> rw [h] at hj ⊢ <;> norm_num at hj <;> omega
        rw [hfb, hfr, Int.mul_comm st.WIDTH (st.nRows : Int)]
        have e : (3 * (st.row : Int) + (st.plane : Int)) * st.WIDTH =
            3 * ((st.row : Int) * st.WIDTH) + (st.plane : Int) * st.WIDTH := by
          ring
        rw [e]
        have hPW : (st.plane : Int) * st.WIDTH ≤ 2 * st.WIDTH :=
          Int.mul_le_mul_of_nonneg_right (by omega) (by omega)
        have hP0 : 0 ≤ (st.plane : Int) * st.WIDTH := Int.mul_nonneg (by omega) (by omega)
        generalize (st.nRows : Int) * st.WIDTH = Q at *
        generalize (st.row : Int) * st.WIDTH = P at *
        generalize (st.plane : Int) * st.WIDTH = T at *
        omega

theorem iterate_inCycle (s0 : Panel) (hW : s0.WIDTH = 32 ∨ s0.WIDTH = 64) (hn : s0.nRows < 256)
    (h0 : (s0.plane = 3 ∧ s0.row + 1 = s0.nRows ∧ s0.backindex ≤ 1) ∨ inCycle s0) :
    ∀ n : Nat, (updateDisplay^[n] s0).WIDTH = s0.WIDTH ∧
      (updateDisplay^[n] s0).nRows = s0.nRows ∧
      ((updateDisplay^[n] s0).plane = 3 ∧ (updateDisplay^[n] s0).row + 1 = s0.nRows ∧
          (updateDisplay^[n] s0).backindex ≤ 1 ∨ inCycle (updateDisplay^[n] s0)) ∧
      inCycle (updateDisplay^[n + 1] s0) ∧
      ∀ a ∈ updateDisplayReads (updateDisplay^[n] s0),
        frontBuffer (updateDisplay^[n + 1] s0) ≤ a ∧
          a < frontBuffer (updateDisplay^[n + 1] s0) + s0.WIDTH * s0.nRows * 3 := by
  have hstep : ∀ s : Panel, s.WIDTH = s0.WIDTH → s.nRows = s0.nRows →
      ((s.plane = 3 ∧ s.row + 1 = s0.nRows ∧ s.backindex ≤ 1) ∨ inCycle s) →
      inCycle (updateDisplay s) ∧
        ∀ a ∈ updateDisplayReads s, frontBuffer (updateDisplay s) ≤ a ∧
          a < frontBuffer (updateDisplay s) + s0.WIDTH * s0.nRows * 3 := by
    intro s e1 e2 h
    rw [← e1, ← e2]
    rcases h with ⟨p3, r1, b1⟩ | ⟨p4, r2, b2, c⟩
    · exact updateDisplay_inCycle s (by rw [e1]; exact hW) (by rw [e2]; exact hn) (by omega)
        (by omega) b1 (Or.inl ⟨p3, by omega⟩)
    · exact updateDisplay_inCycle s (by rw [e1]; exact hW) (by rw [e2]; exact hn) p4 r2 b2
        (Or.inr c)
  intro n
  induction n with
  | zero =>
    obtain ⟨h1, h2⟩ := hstep s0 rfl rfl h0
    exact ⟨rfl, rfl, h0, h1, h2⟩
  | succ k ih =>
    obtain ⟨e1, e2, -, h3, -⟩ := ih
    obtain ⟨-, f2, f3, -, -⟩ := updateDisplay_frame (updateDisplay^[k] s0)
    have g1 : (updateDisplay^[k + 1] s0).WIDTH = s0.WIDTH := by
      rw [Function.iterate_succ_apply', f3, e1]
    have g2 : (updateDisplay^[k + 1] s0).nRows = s0.nRows := by
      rw [Function.iterate_succ_apply', f2, e2]
    obtain ⟨h4, h5⟩ := hstep (updateDisplay^[k + 1] s0) g1 g2 (Or.inr h3)
    rw [Function.iterate_succ_apply' updateDisplay (k + 1)]
    exact ⟨g1, g2, Or.inr h3, h4, h5⟩

/-- C38: in the state the constructor (buffer allocated) and begin() leave,
plane = 3 and row = nRows - 1; with width 32 or 64 the first invocation of
updateDisplay leaves plane = 0 and row = 0, and after every invocation
plane < 4, row < nRows, backindex is 0 or 1 and the output cursor is
(3 * row + plane) * WIDTH bytes into the front buffer; every address an
invocation reads lies inside the front buffer.  The same holds from any state
that satisfies these conditions, whatever the main program did in between. -/
theorem updateDisplay_cycle (io : TimerBits) (st0 : Panel) (dbuf : Bool) (width : Nat)
    (p : Int) (hwidth : width = 32 ∨ width = 64) :
    ((started32 io st0 dbuf width p).plane = 3 ∧
      (started32 io st0 dbuf width p).row = (started32 io st0 dbuf width p).nRows - 1 ∧
      (updateDisplay (started32 io st0 dbuf width p)).plane = 0 ∧
      (updateDisplay (started32 io st0 dbuf width p)).row = 0 ∧
      ∀ n : Nat, inCycle (updateDisplay^[n + 1] (started32 io st0 dbuf width p)) ∧
        ∀ a ∈ updateDisplayReads (updateDisplay^[n] (started32 io st0 dbuf width p)),
          frontBuffer (updateDisplay^[n + 1] (started32 io st0 dbuf width p)) ≤ a ∧
          a < frontBuffer (updateDisplay^[n + 1] (started32 io st0 dbuf width p)) +
            (started32 io st0 dbuf width p).WIDTH * (started32 io st0 dbuf width p).nRows * 3) ∧
    ((started16 io st0 dbuf p).plane = 3 ∧
      (started16 io st0 dbuf p).row = (started16 io st0 dbuf p).nRows - 1 ∧
      (updateDisplay (started16 io st0 dbuf p)).plane = 0 ∧
      (updateDisplay (started16 io st0 dbuf p)).row = 0 ∧
      ∀ n : Nat, inCycle (updateDisplay^[n + 1] (started16 io st0 dbuf p)) ∧
        ∀ a ∈ updateDisplayReads (updateDisplay^[n] (started16 io st0 dbuf p)),
          frontBuffer (updateDisplay^[n + 1] (started16 io st0 dbuf p)) ≤ a ∧
          a < frontBuffer (updateDisplay^[n + 1] (started16 io st0 dbuf p)) +
            (started16 io st0 dbuf p).WIDTH * (started16 io st0 dbuf p).nRows * 3) ∧
    (∀ st : Panel, (st.WIDTH = 32 ∨ st.WIDTH = 64) → st.nRows < 256 → inCycle st →
      inCycle (updateDisplay st) ∧
        ∀ a ∈ updateDisplayReads st, frontBuffer (updateDisplay st) ≤ a ∧
          a < frontBuffer (updateDisplay st) + st.WIDTH * st.nRows * 3) := by
  have hW32 : (started32 io st0 dbuf width p).WIDTH = 32 ∨
      (started32 io st0 dbuf width p).WIDTH = 64 := by
    have e : (started32 io st0 dbuf width p).WIDTH = (width : Int) := rfl
    rw [e]
    rcases hwidth with h | h <;> rw [h]
    · exact Or.inl rfl
    · exact Or.inr rfl
  have hp32 : (started32 io st0 dbuf width p).plane = 3 := rfl
  have hr32 : (started32 io st0 dbuf width p).row = 15 := rfl
  have hn32 : (started32 io st0 dbuf width p).nRows = 16 := rfl
  have hb32 : (started32 io st0 dbuf width p).backindex = 0 := rfl
  have hp16 : (started16 io st0 dbuf p).plane = 3 := rfl
  have hr16 : (started16 io st0 dbuf p).row = 7 := rfl
  have hn16 : (started16 io st0 dbuf p).nRows = 8 := rfl
  have hb16 : (started16 io st0 dbuf p).backindex = 0 := rfl
  have hW16 : (started16 io st0 dbuf p).WIDTH = 32 := rfl
  have it32 := iterate_inCycle (started32 io st0 dbuf width p) hW32 (by rw [hn32]; decide)
    (Or.inl ⟨hp32, by rw [hr32, hn32], by rw [hb32]; decide⟩)
  have it16 := iterate_inCycle (started16 io st0 dbuf p) (Or.inl hW16) (by rw [hn16]; decide)
    (Or.inl ⟨hp16, by rw [hr16, hn16], by rw [hb16]; decide⟩)
  have w32 : wrapsRow (started32 io st0 dbuf width p) := by
    unfold wrapsRow
    rw [hp32, hr32, hn32]
    decide
  have w16 : wrapsRow (started16 io st0 dbuf p) := by
    unfold wrapsRow
    rw [hp16, hr16, hn16]
    decide
  refine ⟨⟨hp32, by rw [hr32, hn32], ?_, ?_, fun n => (it32 n).2.2.2⟩,
    ⟨hp16, by rw [hr16, hn16], ?_, ?_, fun n => (it16 n).2.2.2⟩, ?_⟩
  · exact ((updateDisplay_swap_cases _).1 w32).1
  · exact ((updateDisplay_swap_cases _).1 w32).2
  · exact ((updateDisplay_swap_cases _).1 w16).1
  · exact ((updateDisplay_swap_cases _).1 w16).2
  · intro st hW hn hin
    exact updateDisplay_inCycle st hW hn hin.1 hin.2.1 hin.2.2.1 (Or.inr hin.2.2.2)

theorem updateDisplay_cycle_witness :
    ((started32 timerBits328 powerOn true 64 0).plane = 3 ∧
      (started32 timerBits328 powerOn true 64 0).row = (started32 timerBits328 powerOn true 64 0).nRows - 1 ∧
      (updateDisplay (started32 timerBits328 powerOn true 64 0)).plane = 0 ∧
      (updateDisplay (started32 timerBits328 powerOn true 64 0)).row = 0 ∧
      ∀ n : Nat, inCycle (updateDisplay^[n + 1] (started32 timerBits328 powerOn true 64 0)) ∧
        ∀ a ∈ updateDisplayReads (updateDisplay^[n] (started32 timerBits328 powerOn true 64 0)),
          frontBuffer (updateDisplay^[n + 1] (started32 timerBits328 powerOn true 64 0)) ≤ a ∧
          a < frontBuffer (updateDisplay^[n + 1] (started32 timerBits328 powerOn true 64 0)) +
            (started32 timerBits328 powerOn true 64 0).WIDTH * (started32 timerBits328 powerOn true 64 0).nRows * 3) ∧
    ((started16 timerBits328 powerOn true 0).plane = 3 ∧
      (started16 timerBits328 powerOn true 0).row = (started16 timerBits328 powerOn true 0).nRows - 1 ∧
      (updateDisplay (started16 timerBits328 powerOn true 0)).plane = 0 ∧
      (updateDisplay (started16 timerBits328 powerOn true 0)).row = 0 ∧
      ∀ n : Nat, inCycle (updateDisplay^[n + 1] (started16 timerBits328 powerOn true 0)) ∧
        ∀ a ∈ updateDisplayReads (updateDisplay^[n] (started16 timerBits328 powerOn true 0)),
          frontBuffer (updateDisplay^[n + 1] (started16 timerBits328 powerOn true 0)) ≤ a ∧
          a < frontBuffer (updateDisplay^[n + 1] (started16 timerBits328 powerOn true 0)) +
            (started16 timerBits328 powerOn true 0).WIDTH * (started16 timerBits328 powerOn true 0).nRows * 3) ∧
    (∀ st : Panel, (st.WIDTH = 32 ∨ st.WIDTH = 64) → st.nRows < 256 → inCycle st →
      inCycle (updateDisplay st) ∧
        ∀ a ∈ updateDisplayReads st, frontBuffer (updateDisplay st) ≤ a ∧
          a < frontBuffer (updateDisplay st) + st.WIDTH * st.nRows * 3) :=
  updateDisplay_cycle timerBits328 powerOn true 64 0 (Or.inr rfl)

/-! ## Encoder and scheduler -/

theorem advance_shifted (s : Panel) : (advance s).shifted = s.shifted := by
  unfold advance
  dsimp only
  split_ifs <;> rfl

theorem issue_shifted (s : Panel) (d : Nat) : (issue s d).shifted = s.shifted ++ issueBytes s := by
  unfold issue issueBytes
  dsimp only
  split <;> rfl

theorem updateDisplay_shifted (st : Panel) :
    (updateDisplay st).shifted = st.shifted ++ updateDisplayBytes st := by
  unfold updateDisplay updateDisplayBytes
  dsimp only
  rw [issue_shifted, advance_shifted]

theorem wrapU8_nat (n : Nat) : wrapU8 (n : Int) = n % 2 ^ 8 := by
  unfold wrapU8
  omega

theorem plane0Byte_bits (m : Mem) (ptr W : Int) (i : Nat) :
    (plane0Byte m ptr W i).testBit 2 = (m.read (ptr + i + W * 2)).testBit 0 ∧
    (plane0Byte m ptr W i).testBit 3 = (m.read (ptr + i + W * 2)).testBit 1 ∧
    (plane0Byte m ptr W i).testBit 4 = (m.read (ptr + i + W)).testBit 0 ∧
    (plane0Byte m ptr W i).testBit 5 = (m.read (ptr + i + W)).testBit 1 ∧
    (plane0Byte m ptr W i).testBit 6 = (m.read (ptr + i)).testBit 0 ∧
    (plane0Byte m ptr W i).testBit 7 = (m.read (ptr + i)).testBit 1 := by
  unfold plane0Byte
  rw [wrapU8_nat]
  generalize m.read (ptr + i) = a0
  generalize m.read (ptr + i + W) = a1
  generalize m.read (ptr + i + W * 2) = a2
  have t48 : ∀ k, Nat.testBit 48 k = (decide (k = 4) || decide (k = 5)) := by
    intro k
    have e : (48 : Nat) = 2 ^ 4 ||| 2 ^ 5 := by decide
    rw [e, Nat.testBit_lor, tb_pow, tb_pow]
  have t12 : ∀ k, Nat.testBit 12 k = (decide (k = 2) || decide (k = 3)) := by
    intro k
    have e : (12 : Nat) = 2 ^ 2 ||| 2 ^ 3 := by decide
    rw [e, Nat.testBit_lor, tb_pow, tb_pow]
  simp only [Nat.testBit_mod_two_pow, Nat.testBit_lor, Nat.testBit_land, Nat.testBit_shiftLeft,
    t48, t12]
  refine ⟨?_, ?_, ?_, ?_, ?_, ?_⟩ <;> simp

theorem plane0Loop_get (m : Mem) (ptr W : Int) (hW : W ≤ 255) :
    ∀ (fuel i k : Nat), ((i + k : Nat) : Int) < W → k < fuel →
      (plane0Loop m ptr W fuel i)[k]? = some (plane0Byte m ptr W (i + k)) := by
  intro fuel
  induction fuel with
  | zero =>
    intro i k _ hk
    omega
  | succ f ih =>
    intro i k hik hk
    have hw : wrapU8 ((i : Int) + 1) = i + 1 := by unfold wrapU8; omega
    unfold plane0Loop
    rw [if_pos (by omega), hw]
    cases k with
    | zero => simp
    | succ k =>
      rw [List.getElem?_cons_succ, ih (i + 1) k (by omega) (by omega)]
      congr 2
      omega

theorem pew_get (m : Mem) (ptr : Int) (n k : Nat) (hk : k < n) :
    (pew m ptr n)[k]? = some (m.read (ptr + (k : Int))) := by
  unfold pew
  rw [List.getElem?_map, List.getElem?_range hk]
  rfl

/-- The byte an invocation of updateDisplay issues for column `k`: for the
planes 1 to 3 a byte of the front buffer, for plane 0 a byte rebuilt from
three of them. -/
theorem updateDisplayBytes_get (u : Panel) (hW : u.WIDTH = 32 ∨ u.WIDTH = 64)
    (hn : u.nRows < 256) (hp : u.plane < 4) (hr : u.row < u.nRows) (hb : u.backindex ≤ 1)
    (hcur : (u.plane = 3 ∧ u.row + 1 = u.nRows) ∨
      u.buffptr = frontBuffer u + (3 * (u.row : Int) + (u.plane : Int)) * u.WIDTH)
    (k : Nat) (hk : (k : Int) < u.WIDTH) :
    (0 < (updateDisplay u).plane →
      (updateDisplayBytes u)[k]? = some (u.mem.read (frontBuffer (updateDisplay u) +
        ((3 * ((updateDisplay u).row : Int) + ((updateDisplay u).plane : Int) - 1) * u.WIDTH
          + k)))) ∧
    ((updateDisplay u).plane = 0 →
      (updateDisplayBytes u)[k]? = some (plane0Byte u.mem
        (frontBuffer (updateDisplay u) + 3 * ((updateDisplay u).row : Int) * u.WIDTH)
        u.WIDTH k)) := by
  obtain ⟨hin, -⟩ := updateDisplay_inCycle u hW hn hp hr hb hcur
  obtain ⟨a1, -, a3, -, -⟩ :=
    advance_frame { u with PORTB := setPin (setPin u.PORTB OE_PIN) LAT_PIN }
  obtain ⟨-, -, i3, i4, -, -, i7, -, -⟩ :=
    issue_frame (advance { u with PORTB := setPin (setPin u.PORTB OE_PIN) LAT_PIN })
      (duration { u with PORTB := setPin (setPin u.PORTB OE_PIN) LAT_PIN })
  have hic := issue_cursor (advance { u with PORTB := setPin (setPin u.PORTB OE_PIN) LAT_PIN })
    (duration { u with PORTB := setPin (setPin u.PORTB OE_PIN) LAT_PIN })
  have hud : updateDisplay u =
      issue (advance { u with PORTB := setPin (setPin u.PORTB OE_PIN) LAT_PIN })
        (duration { u with PORTB := setPin (setPin u.PORTB OE_PIN) LAT_PIN }) := rfl
  have hby : updateDisplayBytes u =
      issueBytes (advance { u with PORTB := setPin (setPin u.PORTB OE_PIN) LAT_PIN }) := rfl
  obtain ⟨-, -, -, hcu⟩ := hin
  rw [hud] at hcu ⊢
  rw [hby]
  generalize advance { u with PORTB := setPin (setPin u.PORTB OE_PIN) LAT_PIN } = A at *
  generalize issue A (duration { u with PORTB := setPin (setPin u.PORTB OE_PIN) LAT_PIN }) = U at *
  simp only [] at a1 a3
  rw [i7, a3] at hcu
  have hn64 : ((if u.WIDTH = 64 then 64 else 32 : Nat) : Int) = u.WIDTH := by
    rcases hW with h | h <;> rw [h] <;> rfl
  have hW255 : u.WIDTH ≤ 255 := by rcases hW with h | h <;> rw [h] <;> decide
  constructor
  · intro hpos
    rw [i3] at hpos
    rw [if_pos hpos, a3, hn64] at hic
    unfold issueBytes
    rw [if_pos hpos, a3, pew_get _ _ _ _ (by
      rcases hW with h | h <;> rw [h] at hk ⊢ <;> norm_num <;> omega), a1]
    congr 2
    rw [i3, i4] at hcu ⊢
    have e : (3 * (A.row : Int) + (A.plane : Int) - 1) * u.WIDTH =
        (3 * (A.row : Int) + (A.plane : Int)) * u.WIDTH - u.WIDTH := by ring
    rw [e]
    omega
  · intro hz
    rw [i3] at hz
    rw [if_neg (by omega)] at hic
    unfold issueBytes
    rw [if_neg (by omega), a3, a1]
    have h0 := plane0Loop_get u.mem A.buffptr u.WIDTH hW255 256 0 k (by
      rw [Nat.zero_add]; exact hk) (by omega)
    rw [Nat.zero_add] at h0
    rw [h0]
    congr 2
    rw [← hic, hcu, i3, hz]
    push_cast
    ring

/-- Where writeRaw leaves the bits of each plane of a pixel. -/
theorem writeRaw_plane_bits (st : Panel) (x y : Int) (c : Nat) (hW : st.WIDTH ≠ 0) :
    (y < st.nRows →
      (∀ k : Nat, k < 3 →
        ((writeRaw st x y c).mem.read (baseAddr st x y + k * st.WIDTH)).testBit 2 =
            (channels c).1.testBit (k + 1) ∧
        ((writeRaw st x y c).mem.read (baseAddr st x y + k * st.WIDTH)).testBit 3 =
            (channels c).2.1.testBit (k + 1) ∧
        ((writeRaw st x y c).mem.read (baseAddr st x y + k * st.WIDTH)).testBit 4 =
            (channels c).2.2.testBit (k + 1)) ∧
      ((writeRaw st x y c).mem.read (baseAddr st x y + (2 : Nat) * st.WIDTH)).testBit 0 =
          (channels c).1.testBit 0 ∧
      ((writeRaw st x y c).mem.read (baseAddr st x y + (2 : Nat) * st.WIDTH)).testBit 1 =
          (channels c).2.1.testBit 0 ∧
      ((writeRaw st x y c).mem.read (baseAddr st x y + (1 : Nat) * st.WIDTH)).testBit 0 =
          (channels c).2.2.testBit 0) ∧
    (¬ y < st.nRows →
      (∀ k : Nat, k < 3 →
        ((writeRaw st x y c).mem.read (baseAddr st x y + k * st.WIDTH)).testBit 5 =
            (channels c).1.testBit (k + 1) ∧
        ((writeRaw st x y c).mem.read (baseAddr st x y + k * st.WIDTH)).testBit 6 =
            (channels c).2.1.testBit (k + 1) ∧
        ((writeRaw st x y c).mem.read (baseAddr st x y + k * st.WIDTH)).testBit 7 =
            (channels c).2.2.testBit (k + 1)) ∧
      ((writeRaw st x y c).mem.read (baseAddr st x y + (1 : Nat) * st.WIDTH)).testBit 1 =
          (channels c).1.testBit 0 ∧
      ((writeRaw st x y c).mem.read (baseAddr st x y + (0 : Nat) * st.WIDTH)).testBit 0 =
          (channels c).2.1.testBit 0 ∧
      ((writeRaw st x y c).mem.read (baseAddr st x y + (0 : Nat) * st.WIDTH)).testBit 1 =
          (channels c).2.2.testBit 0) := by
  constructor
  · intro hy
    refine ⟨fun k hk => ?_, ?_, ?_, ?_⟩
    · rw [writeRaw_upper_bit st x y c hy hW k hk 2, writeRaw_upper_bit st x y c hy hW k hk 3,
        writeRaw_upper_bit st x y c hy hW k hk 4]
      interval_cases k <;> exact ⟨rfl, rfl, rfl⟩
    · rw [writeRaw_upper_bit st x y c hy hW 2 (by decide) 0]
      rfl
    · rw [writeRaw_upper_bit st x y c hy hW 2 (by decide) 1]
      rfl
    · rw [writeRaw_upper_bit st x y c hy hW 1 (by decide) 0]
      rfl
  · intro hy
    refine ⟨fun k hk => ?_, ?_, ?_, ?_⟩
    · rw [writeRaw_lower_bit st x y c hy hW k hk 5, writeRaw_lower_bit st x y c hy hW k hk 6,
        writeRaw_lower_bit st x y c hy hW k hk 7]
      interval_cases k <;> exact ⟨rfl, rfl, rfl⟩
    · rw [writeRaw_lower_bit st x y c hy hW 1 (by decide) 1]
      rfl
    · rw [writeRaw_lower_bit st x y c hy hW 0 (by decide) 0]
      rfl
    · rw [writeRaw_lower_bit st x y c hy hW 0 (by decide) 1]
      rfl

/-- C35: on a panel of width 32 or 64 with 8 or 16 rows, after drawPixel of a
colour with channels (r, g, b) at the in-range pixel whose raw coordinate is
(x, y), an invocation of updateDisplay that issues plane p of the multiplexed
row y mod nRows from the buffer drawn into puts on the data port, for column x,
a byte that carries bit p of r, g, b on bits 2, 3, 4 when y < nRows and on bits
5, 6, 7 otherwise; for p = 1..3 it is the buffer byte at offset
row*3*WIDTH + (p-1)*WIDTH + x, for p = 0 the byte rebuilt from the bytes at
offsets row*3*WIDTH + x, + WIDTH and + 2*WIDTH. -/
theorem encoder_scheduler_agree (st u : Panel) (px py x y : Int) (c : Nat)
    (hg : Geometry st) (hon : onScreen st px py) (hxy : rotateCoord st px py = (x, y))
    (hmem : u.mem = (drawPixel st px py c).mem)
    (hUW : u.WIDTH = st.WIDTH) (hUR : u.nRows = st.nRows)
    (hp : u.plane < 4) (hr : u.row < u.nRows) (hb : u.backindex ≤ 1)
    (hcur : (u.plane = 3 ∧ u.row + 1 = u.nRows) ∨
      u.buffptr = frontBuffer u + (3 * (u.row : Int) + (u.plane : Int)) * u.WIDTH)
    (hfront : frontBuffer (updateDisplay u) = backBuffer st)
    (hrow : ((updateDisplay u).row : Int) = y % st.nRows) :
    (updateDisplay u).shifted = u.shifted ++ updateDisplayBytes u ∧
    ∃ byte, (updateDisplayBytes u)[x.toNat]? = some byte ∧
      (y < st.nRows →
        byte.testBit 2 = (channels c).1.testBit (updateDisplay u).plane ∧
        byte.testBit 3 = (channels c).2.1.testBit (updateDisplay u).plane ∧
        byte.testBit 4 = (channels c).2.2.testBit (updateDisplay u).plane) ∧
      ((st.nRows : Int) ≤ y →
        byte.testBit 5 = (channels c).1.testBit (updateDisplay u).plane ∧
        byte.testBit 6 = (channels c).2.1.testBit (updateDisplay u).plane ∧
        byte.testBit 7 = (channels c).2.2.testBit (updateDisplay u).plane) ∧
      (0 < (updateDisplay u).plane →
        byte = u.mem.read (backBuffer st +
          (((updateDisplay u).row : Int) * 3 * st.WIDTH +
            (((updateDisplay u).plane : Int) - 1) * st.WIDTH + x))) ∧
      ((updateDisplay u).plane = 0 →
        byte = plane0Byte u.mem
          (backBuffer st + ((updateDisplay u).row : Int) * 3 * st.WIDTH) st.WIDTH x.toNat) := by
  refine ⟨updateDisplay_shifted u, ?_⟩
  have hW0 : st.WIDTH ≠ 0 := by rcases hg.1 with h | h <;> rw [h] <;> decide
  have hrng := rotateCoord_range st hg px py hon
  rw [hxy] at hrng
  simp only [] at hrng
  obtain ⟨hx, hy⟩ := hrng
  have hdraw : drawPixel st px py c = writeRaw st x y c := by
    rw [drawPixel_in_range st px py c hon.1 hon.2, hxy]
  rw [hdraw] at hmem
  have hWu : u.WIDTH = 32 ∨ u.WIDTH = 64 := by rw [hUW]; exact hg.1
  have hnu : u.nRows < 256 := by rcases hg.2.1 with h | h <;> rw [hUR, h] <;> decide
  have hxn : ((x.toNat : Nat) : Int) = x := Int.toNat_of_nonneg hx.1
  obtain ⟨g1, g2⟩ := updateDisplayBytes_get u hWu hnu hp hr hb hcur x.toNat (by
    rw [hxn, hUW]; exact hx.2)
  obtain ⟨⟨hpl, -, -, -⟩, -⟩ := updateDisplay_inCycle u hWu hnu hp hr hb hcur
  have hbase := baseAddr_raw st hg.1 hg.2.1 x y hx hy
  have hR : ((updateDisplay u).row : Int) = if y < st.nRows then y else y - st.nRows := by
    rw [hrow]
    rcases hg.2.1 with h | h <;> rw [h] at hy ⊢ <;> split <;> omega
  obtain ⟨bu, bl⟩ := writeRaw_plane_bits st x y c hW0
  rw [hfront, hxn, hUW, hmem] at g1
  rw [hfront, hUW, hmem] at g2
  rw [hmem]
  generalize (updateDisplay u).plane = P at *
  generalize ((updateDisplay u).row : Int) = R at *
  have hP : P = 0 ∨ P = 1 ∨ P = 2 ∨ P = 3 := by omega
  rcases hP with h | h | h | h <;> subst h
  · have hb0 := plane0Byte_bits (writeRaw st x y c).mem (backBuffer st + 3 * R * st.WIDTH)
      st.WIDTH x.toNat
    rw [hxn] at hb0
    have e0 : backBuffer st + 3 * R * st.WIDTH + x = baseAddr st x y + ((0 : Nat) : Int) * st.WIDTH := by
      rw [hbase, ← hR]
      push_cast
      ring
    have e1 : backBuffer st + 3 * R * st.WIDTH + x + st.WIDTH =
        baseAddr st x y + ((1 : Nat) : Int) * st.WIDTH := by
      rw [hbase, ← hR]
      push_cast
      ring
    have e2 : backBuffer st + 3 * R * st.WIDTH + x + st.WIDTH * 2 =
        baseAddr st x y + ((2 : Nat) : Int) * st.WIDTH := by
      rw [hbase, ← hR]
      push_cast
      ring
    rw [e2, e1, e0] at hb0
    have e3 : backBuffer st + R * 3 * st.WIDTH = backBuffer st + 3 * R * st.WIDTH := by ring
    refine ⟨_, g2 rfl, fun hu => ?_, fun hl => ?_, fun h => absurd h (by decide), fun _ => ?_⟩
    · obtain ⟨-, u1, u2, u3⟩ := bu hu
      exact ⟨hb0.1.trans u1, hb0.2.1.trans u2, hb0.2.2.1.trans u3⟩
    · obtain ⟨-, l1, l2, l3⟩ := bl (by omega)
      exact ⟨hb0.2.2.2.1.trans l1, hb0.2.2.2.2.1.trans l2, hb0.2.2.2.2.2.trans l3⟩
    · rw [e3]
  all_goals
    refine ⟨_, g1 (by decide), fun hu => ?_, fun hl => ?_, fun _ => ?_,
      fun h => absurd h (by decide)⟩
  · have ea : backBuffer st + ((3 * R + ((1 : Nat) : Int) - 1) * st.WIDTH + x) =
        baseAddr st x y + ((0 : Nat) : Int) * st.WIDTH := by
      rw [hbase, ← hR]
      push_cast
      ring
    rw [ea]
    exact (bu hu).1 0 (by decide)
  · have ea : backBuffer st + ((3 * R + ((1 : Nat) : Int) - 1) * st.WIDTH + x) =
        baseAddr st x y + ((0 : Nat) : Int) * st.WIDTH := by
      rw [hbase, ← hR]
      push_cast
      ring
    rw [ea]
    exact (bl (by omega)).1 0 (by decide)
  · congr 2
    push_cast
    ring
  · have ea : backBuffer st + ((3 * R + ((2 : Nat) : Int) - 1) * st.WIDTH + x) =
        baseAddr st x y + ((1 : Nat) : Int) * st.WIDTH := by
      rw [hbase, ← hR]
      push_cast
      ring
    rw [ea]
    exact (bu hu).1 1 (by decide)
  · have ea : backBuffer st + ((3 * R + ((2 : Nat) : Int) - 1) * st.WIDTH + x) =
        baseAddr st x y + ((1 : Nat) : Int) * st.WIDTH := by
      rw [hbase, ← hR]
      push_cast
      ring
    rw [ea]
    exact (bl (by omega)).1 1 (by decide)
  · congr 2
    push_cast
    ring
  · have ea : backBuffer st + ((3 * R + ((3 : Nat) : Int) - 1) * st.WIDTH + x) =
        baseAddr st x y + ((2 : Nat) : Int) * st.WIDTH := by
      rw [hbase, ← hR]
      push_cast
      ring
    rw [ea]
    exact (bu hu).1 2 (by decide)
  · have ea : backBuffer st + ((3 * R + ((3 : Nat) : Int) - 1) * st.WIDTH + x) =
        baseAddr st x y + ((2 : Nat) : Int) * st.WIDTH := by
      rw [hbase, ← hR]
      push_cast
      ring
    rw [ea]
    exact (bl (by omega)).1 2 (by decide)
  · congr 2
    push_cast
    ring

theorem encoder_scheduler_agree_witness :
    (updateDisplay panel32drawn).shifted =
      panel32drawn.shifted ++ updateDisplayBytes panel32drawn ∧
    ∃ byte, (updateDisplayBytes panel32drawn)[(3 : Int).toNat]? = some byte ∧
      ((21 : Int) < panel32.nRows →
        byte.testBit 2 = (channels 0xA81F).1.testBit (updateDisplay panel32drawn).plane ∧
        byte.testBit 3 = (channels 0xA81F).2.1.testBit (updateDisplay panel32drawn).plane ∧
        byte.testBit 4 = (channels 0xA81F).2.2.testBit (updateDisplay panel32drawn).plane) ∧
      ((panel32.nRows : Int) ≤ (21 : Int) →
        byte.testBit 5 = (channels 0xA81F).1.testBit (updateDisplay panel32drawn).plane ∧
        byte.testBit 6 = (channels 0xA81F).2.1.testBit (updateDisplay panel32drawn).plane ∧
        byte.testBit 7 = (channels 0xA81F).2.2.testBit (updateDisplay panel32drawn).plane) ∧
      (0 < (updateDisplay panel32drawn).plane →
        byte = panel32drawn.mem.read (backBuffer panel32 +
          (((updateDisplay panel32drawn).row : Int) * 3 * panel32.WIDTH +
            (((updateDisplay panel32drawn).plane : Int) - 1) * panel32.WIDTH + (3 : Int)))) ∧
      ((updateDisplay panel32drawn).plane = 0 →
        byte = plane0Byte panel32drawn.mem
          (backBuffer panel32 + ((updateDisplay panel32drawn).row : Int) * 3 * panel32.WIDTH)
          panel32.WIDTH (3 : Int).toNat) :=
  encoder_scheduler_agree panel32 panel32drawn 3 21 3 21 0xA81F Geometry_panel32
    ⟨⟨by decide, by decide⟩, by decide, by decide⟩ rfl rfl rfl rfl (by decide) (by decide)
    (by decide) (Or.inr (by decide)) (by decide) (by decide)

/-! ## Filled rectangles -/

theorem drawPixels_append (c : Nat) (l1 l2 : List (Int × Int)) (st : Panel) :
    drawPixels c st (l1 ++ l2) = drawPixels c (drawPixels c st l1) l2 := by
  unfold drawPixels
  rw [List.foldl_append]

theorem majorPixels_one (x y : Int) : majorPixels false y 1 x = majorPixels true x 1 y := rfl

/-- A vertical line of at least one pixel that stays inside the 16-bit range:
its pixels, top first. -/
theorem drawFastVLine_pixels (st : Panel) (x y h : Int) (c : Nat) (h1 : 1 ≤ h ∧ h ≤ 32767)
    (hx : -32768 ≤ x ∧ x ≤ 32766) (hy : -32768 ≤ y) (hyh : y + h ≤ 32767) :
    drawFastVLine st x y h c = some (drawPixels c st (majorPixels true x h.toNat y)) := by
  unfold drawFastVLine
  have e : wrapI16 (y + h - 1) = y + h - 1 := by
    unfold wrapI16
    omega
  rw [e, writeLine_pixels]
  by_cases hh : h = 1
  · subst hh
    have e2 : y + 1 - 1 = y := by omega
    rw [e2, writeLinePixels_row x x y (le_refl _) hx.1 hx.2 (by omega)]
    have e3 : (x - x + 1).toNat = 1 := by
      rw [sub_self]
      rfl
    rw [e3]
    rfl
  · rw [writeLinePixels_col x y (y + h - 1) (by omega) hy (by omega) (by omega)]
    have e3 : (y + h - 1 - y + 1).toNat = h.toNat := by
      congr 1
      omega
    rw [e3]
    rfl

theorem fillRectLoop_pixels (c : Nat) (y h : Int) (h1 : 1 ≤ h ∧ h ≤ 32767) (hy : -32768 ≤ y)
    (hyh : y + h ≤ 32767) (bound : Int) (hb : bound ≤ 32767) :
    ∀ (fuel : Nat) (i : Int) (st : Panel), -32768 ≤ i → i ≤ bound →
      fuel = (bound - i).toNat →
      fillRectLoop y h bound c fuel i st =
        some (drawPixels c st (rectPixels y h.toNat fuel i)) := by
  intro fuel
  induction fuel with
  | zero =>
    intro i st _ hi hf
    unfold fillRectLoop
    rw [if_neg (by omega)]
    rfl
  | succ f ih =>
    intro i st hlo hi hf
    unfold fillRectLoop
    rw [if_pos (by omega)]
    unfold writeFastVLine
    rw [drawFastVLine_pixels st i y h c h1 ⟨hlo, by omega⟩ hy hyh]
    have e : wrapI16 (i + 1) = i + 1 := by
      unfold wrapI16
      omega
    have er : rectPixels y h.toNat (f + 1) i =
        majorPixels true i h.toNat y ++ rectPixels y h.toNat f (i + 1) := rfl
    simp only [Option.some_bind]
    rw [e, ih (i + 1) _ (by omega) (by omega) (by omega), er, drawPixels_append]

theorem fillRect_rectPixels (st : Panel) (x y w h : Int) (c : Nat) (hw : 0 ≤ w)
    (h1 : 1 ≤ h ∧ h ≤ 32767)
    (hx : -32768 ≤ x ∧ x + w ≤ 32767) (hy : -32768 ≤ y ∧ y + h ≤ 32767) :
    fillRect st x y w h c = some (drawPixels c st (rectPixels y h.toNat w.toNat x)) := by
  unfold fillRect
  have e : wrapI16 (x + w) = x + w := by
    unfold wrapI16
    omega
  rw [e]
  have e2 : (x + w - x).toNat = w.toNat := by
    congr 1
    omega
  rw [fillRectLoop_pixels c y h h1 hy.1 hy.2 (x + w) hx.2 _ x st hx.1 (by omega) rfl, e2]

theorem mem_rectPixels (y : Int) (h : Nat) :
    ∀ (n : Nat) (x : Int) (p : Int × Int),
      p ∈ rectPixels y h n x ↔ (x ≤ p.1 ∧ p.1 < x + n) ∧ (y ≤ p.2 ∧ p.2 < y + h) := by
  intro n
  induction n with
  | zero =>
    intro x p
    unfold rectPixels
    constructor
    · intro hp
      cases hp
    · rintro ⟨⟨h1, h2⟩, -⟩
      omega
  | succ n ih =>
    intro x p
    unfold rectPixels
    rw [List.mem_append, mem_majorPixels_true, ih]
    constructor
    · rintro (⟨h1, h2⟩ | ⟨⟨h1, h2⟩, h3⟩)
      · exact ⟨⟨by omega, by omega⟩, h2⟩
      · exact ⟨⟨by omega, by omega⟩, h3⟩
    · rintro ⟨⟨h1, h2⟩, h3⟩
      by_cases e : p.1 = x
      · exact Or.inl ⟨e, h3⟩
      · exact Or.inr ⟨⟨by omega, by omega⟩, h3⟩

/-- After pixels are drawn in one colour, every pixel of the list that is on
the display holds it. -/
theorem drawPixels_holds (c : Nat) (ps : List (Int × Int)) :
    ∀ (st : Panel), Geometry st → ∀ p ∈ ps, onScreen st p.1 p.2 →
      holdsColour (drawPixels c st ps) p.1 p.2 c := by
  induction ps with
  | nil =>
    intro st _ p hp
    cases hp
  | cons q rest ih =>
    intro st hg p hp hon
    rw [drawPixels_cons]
    have hsf := drawPixel_sameFrame st q.1 q.2 c
    have hg1 := Geometry_sameFrame _ _ hsf hg
    have hon1 := (onScreen_sameFrame _ _ hsf p.1 p.2).2 hon
    by_cases hr : p ∈ rest
    · exact ih _ hg1 p hr hon1
    · have hpq : p = q := by
        rcases List.mem_cons.1 hp with h | h
        · exact h
        · exact absurd h hr
      subst hpq
      have hkeep : pixelBits (drawPixels c (writePixel st p.1 p.2 c) rest) p.1 p.2 =
          pixelBits (writePixel st p.1 p.2 c) p.1 p.2 := by
        rw [drawPixels_eq_drawWrites]
        apply drawWrites_keeps _ _ hg1 p.1 p.2 hon1
        intro w hw he
        obtain ⟨q, hq, rfl⟩ := List.mem_map.1 hw
        simp only [Prod.mk.injEq] at he
        exact hr (by
          have : p = q := Prod.ext he.1 he.2
          rw [this]
          exact hq)
      refine holdsColour_congr _ _ ?_ _ _ _ hkeep (drawPixel_sets st hg _ _ _ hon)
      rw [drawPixels_eq_drawWrites]
      exact drawWrites_sameFrame _ _

/-- C34 fails as stated.  With x = 1 and w = 32767 the sum x + w leaves the
16-bit range, the loop bound is read as -32768 and no column is drawn: the
on-screen pixel (1, 0) of the rectangle keeps its old bits, which are not those
of the colour.  With y = 32766 and h = 2 the vertical line runs to row 32767,
its loop counter cannot pass that bound, and the call does not return. -/
theorem fillRect_wraps_or_diverges :
    ((0 : Int) ≤ 1 ∧ (1 : Int) < panel32._width) ∧ ((1 : Int) ≤ 1 ∧ (1 : Int) < 1 + 32767) ∧
    (fillRect panel32 1 0 32767 1 0xFFFF).map (fun s => pixelBits s 1 0) =
      some (pixelBits panel32 1 0) ∧
    pixelBits panel32 1 0 ≠ colourBits true 0xFFFF ∧
    (fillRect panel32 0 32766 1 2 0xFFFF).isSome = false := by
  decide

/-- C34 (amended): on a panel of one of the four geometries, for 1 <= w, 1 <= h
with x + w <= 32767 and y + h <= 32767, fillRect(x, y, w, h, c) returns; it
has drawn the pixels of the rectangle column by column; afterwards every
on-screen pixel (px, py) with x <= px < x+w and y <= py < y+h holds the 4-bit
colour of c, every other on-screen pixel has the bits it had, and nothing but
the frame buffer has changed. -/
theorem fillRect_pixels (st : Panel) (hg : Geometry st) (x y w h : Int) (c : Nat)
    (hw : 1 ≤ w ∧ w ≤ 32767) (hh : 1 ≤ h ∧ h ≤ 32767)
    (hx : -32768 ≤ x ∧ x + w ≤ 32767) (hy : -32768 ≤ y ∧ y + h ≤ 32767) :
    ∃ s, fillRect st x y w h c = some s ∧ sameFrame st s ∧
      s = drawPixels c st (rectPixels y h.toNat w.toNat x) ∧
      (∀ px py : Int, onScreen st px py → (x ≤ px ∧ px < x + w) ∧ (y ≤ py ∧ py < y + h) →
        holdsColour s px py c) ∧
      (∀ px py : Int, onScreen st px py → ¬ ((x ≤ px ∧ px < x + w) ∧ (y ≤ py ∧ py < y + h)) →
        pixelBits s px py = pixelBits st px py) := by
  have hwn : ((w.toNat : Nat) : Int) = w := Int.toNat_of_nonneg (by omega)
  have hhn : ((h.toNat : Nat) : Int) = h := Int.toNat_of_nonneg (by omega)
  refine ⟨_, fillRect_rectPixels st x y w h c (by omega) hh hx hy, ?_, rfl, ?_, ?_⟩
  · rw [drawPixels_eq_drawWrites]
    exact drawWrites_sameFrame _ _
  · intro px py hon hin
    apply drawPixels_holds c _ st hg (px, py) _ hon
    rw [mem_rectPixels, hwn, hhn]
    exact hin
  · intro px py hon hout
    rw [drawPixels_eq_drawWrites]
    apply drawWrites_keeps _ st hg px py hon
    intro wr hwr he
    obtain ⟨q, hq, rfl⟩ := List.mem_map.1 hwr
    rw [mem_rectPixels, hwn, hhn] at hq
    simp only [Prod.mk.injEq] at he
    apply hout
    rw [he.1, he.2]
    exact hq

theorem fillRect_pixels_witness :
    ∃ s, fillRect panel32 (-2) 30 5 4 0xF800 = some s ∧ sameFrame panel32 s ∧
      s = drawPixels 0xF800 panel32 (rectPixels 30 (4 : Int).toNat (5 : Int).toNat (-2)) ∧
      (∀ px py : Int, onScreen panel32 px py →
        ((-2 : Int) ≤ px ∧ px < -2 + 5) ∧ ((30 : Int) ≤ py ∧ py < 30 + 4) →
        holdsColour s px py 0xF800) ∧
      (∀ px py : Int, onScreen panel32 px py →
        ¬ (((-2 : Int) ≤ px ∧ px < -2 + 5) ∧ ((30 : Int) ≤ py ∧ py < 30 + 4)) →
        pixelBits s px py = pixelBits panel32 px py) :=
  fillRect_pixels panel32 Geometry_panel32 (-2) 30 5 4 0xF800 (by decide) (by decide)
    (by decide) (by decide)

/-! ## Lines stay near the ideal line -/

theorem writeLineLoopPixels_near (steep : Bool) (xs ys x1 dx dy ystep h2 : Int)
    (hdx : dx = x1 - xs) (hdx32 : dx ≤ 32767) (hdy0 : 0 ≤ dy) (hdy : dy ≤ dx)
    (hx1 : x1 ≤ 32766) (hxs : -32768 ≤ xs) (hstep : ystep = 1 ∨ ystep = -1)
    (hylo : -32768 ≤ ys) (hyhi : ys ≤ 32767)
    (hyelo : -32768 ≤ ys + ystep * dy) (hyehi : ys + ystep * dy ≤ 32767)
    (hh0 : 0 ≤ h2) :
    ∀ (fuel : Nat) (k s err : Int), 0 ≤ k → k ≤ dx → fuel = (dx - k + 1).toNat →
      0 ≤ s → s ≤ dy → err = h2 - k * dy + s * dx → 0 ≤ err → (err < dx ∨ dx = 0) → err ≤ dx →
      ∃ ps, writeLineLoopPixels steep x1 dx dy ystep fuel (xs + k) (ys + ystep * s) err = some ps ∧
        ps.length = fuel ∧
        ∀ j : Nat, k + j ≤ dx → ∃ t : Int, 0 ≤ t ∧ t ≤ dy ∧
          ps[j]? = some (linePoint steep (xs + k + j) (ys + ystep * t)) ∧
          0 ≤ h2 - (k + j) * dy + t * dx ∧
          (h2 - (k + j) * dy + t * dx < dx ∨ dx = 0) := by
  intro fuel
  induction fuel with
  | zero =>
    intro k s err hk0 hk hf
    omega
  | succ n ih =>
    intro k s err hk0 hk hf hs0 hs herr he0 he1 he2
    have hx : wrapI16 (xs + k + 1) = xs + (k + 1) := by
      rw [wrapI16_of_range _ (by omega) (by omega)]
      ring
    unfold writeLineLoopPixels
    rw [if_pos (by omega)]
    dsimp only
    rw [wrapI16_of_range (err - dy) (by omega) (by omega), hx]
    have hp : (if steep = true then (ys + ystep * s, xs + k) else (xs + k, ys + ystep * s)) =
        linePoint steep (xs + k) (ys + ystep * s) := rfl
    rw [hp]
    by_cases hkd : k = dx
    · rw [writeLineLoopPixels_done _ _ _ _ _ _ _ _ _ (by omega),
        writeLineLoopPixels_done _ _ _ _ _ _ _ _ _ (by omega)]
      refine ⟨[linePoint steep (xs + k) (ys + ystep * s)], by split <;> rfl, ?_, ?_⟩
      · rw [List.length_singleton]
        omega
      · intro j hj
        have hj0 : j = 0 := by omega
        subst hj0
        refine ⟨s, hs0, hs, ?_, ?_, ?_⟩
        · simp
        · simp only [Nat.cast_zero, add_zero]
          omega
        · simp only [Nat.cast_zero, add_zero]
          omega
    · have hklt : k + 1 ≤ dx := by omega
      have hhead : ∀ ps : List (Int × Int), ∃ t : Int, 0 ≤ t ∧ t ≤ dy ∧
          (linePoint steep (xs + k) (ys + ystep * s) :: ps)[0]? =
            some (linePoint steep (xs + k + ((0 : Nat) : Int)) (ys + ystep * t)) ∧
          0 ≤ h2 - (k + ((0 : Nat) : Int)) * dy + t * dx ∧
          (h2 - (k + ((0 : Nat) : Int)) * dy + t * dx < dx ∨ dx = 0) := by
        intro ps
        refine ⟨s, hs0, hs, ?_, ?_, ?_⟩
        · simp
        · simp only [Nat.cast_zero, add_zero]
          omega
        · simp only [Nat.cast_zero, add_zero]
          omega
      have htail : ∀ ps : List (Int × Int),
          (∀ j : Nat, k + 1 + j ≤ dx → ∃ t : Int, 0 ≤ t ∧ t ≤ dy ∧
            ps[j]? = some (linePoint steep (xs + (k + 1) + j) (ys + ystep * t)) ∧
            0 ≤ h2 - (k + 1 + j) * dy + t * dx ∧
            (h2 - (k + 1 + j) * dy + t * dx < dx ∨ dx = 0)) →
          ∀ j : Nat, k + j ≤ dx → ∃ t : Int, 0 ≤ t ∧ t ≤ dy ∧
            (linePoint steep (xs + k) (ys + ystep * s) :: ps)[j]? =
              some (linePoint steep (xs + k + j) (ys + ystep * t)) ∧
            0 ≤ h2 - (k + j) * dy + t * dx ∧
            (h2 - (k + j) * dy + t * dx < dx ∨ dx = 0) := by
        intro ps hps j hj
        cases j with
        | zero => exact hhead ps
        | succ j =>
          obtain ⟨t, t0, t1, t2, t3, t4⟩ := hps j (by push_cast at hj; omega)
          refine ⟨t, t0, t1, ?_, ?_, ?_⟩
          · rw [List.getElem?_cons_succ, t2]
            congr 2
            push_cast
            ring
          · have e : h2 - (k + ((j + 1 : Nat) : Int)) * dy + t * dx =
                h2 - (k + 1 + j) * dy + t * dx := by
              push_cast
              ring
            rw [e]
            exact t3
          · have e : h2 - (k + ((j + 1 : Nat) : Int)) * dy + t * dx =
                h2 - (k + 1 + j) * dy + t * dx := by
              push_cast
              ring
            rw [e]
            exact t4
      by_cases hneg : err - dy < 0
      · rw [if_pos hneg]
        have hs1 : s + 1 ≤ dy := by
          by_contra hne
          have hge : dy ≤ s := by omega
          have m1 := mul_nonneg (sub_nonneg.2 hge) (by omega : (0 : Int) ≤ dx)
          have m2 := mul_nonneg (sub_nonneg.2 hklt) hdy0
          nlinarith
        have hr := minor_in_range ys ystep dy (s + 1) hstep hylo hyhi hyelo hyehi (by omega) hs1
        have hy : wrapI16 (ys + ystep * s + ystep) = ys + ystep * (s + 1) := by
          have e : ys + ystep * s + ystep = ys + ystep * (s + 1) := by ring
          rw [e]
          exact wrapI16_of_range _ hr.1 hr.2
        rw [hy, wrapI16_of_range (err - dy + dx) (by omega) (by omega)]
        obtain ⟨ps, hps, hlen, hidx⟩ := ih (k + 1) (s + 1) (err - dy + dx) (by omega) hklt
          (by omega) (by omega) hs1 (by rw [herr]; ring) (by omega) (by omega) (by omega)
        rw [hps]
        refine ⟨linePoint steep (xs + k) (ys + ystep * s) :: ps, rfl, ?_, htail ps hidx⟩
        rw [List.length_cons, hlen]
      · rw [if_neg hneg]
        obtain ⟨ps, hps, hlen, hidx⟩ := ih (k + 1) s (err - dy) (by omega) hklt
          (by omega) hs0 hs (by rw [herr]; ring) (by omega) (by omega) (by omega)
        rw [hps]
        refine ⟨linePoint steep (xs + k) (ys + ystep * s) :: ps, rfl, ?_, htail ps hidx⟩
        rw [List.length_cons, hlen]

theorem bresenham_near (steep : Bool) (xs ys xe ye : Int)
    (hx : xs ≤ xe) (hxs : -32768 ≤ xs) (hxe : xe ≤ 32766) (hdx : xe - xs ≤ 32767)
    (hys : -32768 ≤ ys ∧ ys ≤ 32767) (hye : -32768 ≤ ye ∧ ye ≤ 32767)
    (hflat : |ye - ys| ≤ xe - xs) :
    ∃ ps, writeLineLoopPixels steep xe (wrapI16 (xe - xs)) (wrapI16 (abs16 (ye - ys)))
        (if ys < ye then 1 else -1) (xe - xs + 1).toNat xs ys
        (wrapI16 (Int.tdiv (wrapI16 (xe - xs)) 2)) = some ps ∧
      (ps.length : Int) = xe - xs + 1 ∧
      ∀ j : Nat, (j : Int) ≤ xe - xs → ∃ t : Int, 0 ≤ t ∧ t ≤ |ye - ys| ∧
        ps[j]? = some (linePoint steep (xs + j) (ys + (if ys < ye then 1 else -1) * t)) ∧
        2 * |t * (xe - xs) - j * abs (ye - ys)| ≤ xe - xs := by
  have habs : |ye - ys| = if ys < ye then ye - ys else ys - ye := by
    split
    · exact abs_of_nonneg (by omega)
    · rw [abs_of_nonpos (by omega)]
      ring
  have hd : |ye - ys| ≤ 32767 := by omega
  have hd0 := abs_nonneg (ye - ys)
  have e1 : wrapI16 (xe - xs) = xe - xs := wrapI16_of_range _ (by omega) hdx
  have e2 : wrapI16 (abs16 (ye - ys)) = |ye - ys| := by
    rw [abs16_abs _ (by split at habs <;> omega) (by split at habs <;> omega)]
    exact wrapI16_of_range _ (by omega) hd
  have e3 : 0 ≤ Int.tdiv (xe - xs) 2 ∧ (Int.tdiv (xe - xs) 2 < xe - xs ∨ xe - xs = 0) ∧
      Int.tdiv (xe - xs) 2 ≤ xe - xs ∧ 2 * Int.tdiv (xe - xs) 2 ≤ xe - xs ∧
      xe - xs - 1 ≤ 2 * Int.tdiv (xe - xs) 2 := by
    rw [Int.tdiv_eq_ediv (by omega) (by omega)]
    omega
  obtain ⟨e3a, e3b, e3c, e3d, e3e⟩ := e3
  rw [e1, e2, wrapI16_of_range _ (by omega) (by omega)]
  have hstep : (if ys < ye then (1 : Int) else -1) = 1 ∨ (if ys < ye then (1 : Int) else -1) = -1 := by
    split
    · left; rfl
    · right; rfl
  have hend : ys + (if ys < ye then (1 : Int) else -1) * |ye - ys| = ye := by
    rw [habs]
    split
    · ring
    · ring
  obtain ⟨ps, hps, hlen, hidx⟩ := writeLineLoopPixels_near steep xs ys xe (xe - xs)
    (|ye - ys|) (if ys < ye then 1 else -1) (Int.tdiv (xe - xs) 2) rfl hdx hd0 hflat hxe hxs hstep
    hys.1 hys.2 (by rw [hend]; exact hye.1) (by rw [hend]; exact hye.2) e3a
    (xe - xs + 1).toNat 0 0 (Int.tdiv (xe - xs) 2) (le_refl _) (by omega) (by rw [sub_zero])
    (le_refl _) hd0 (by ring) e3a e3b e3c
  rw [mul_zero, add_zero, add_zero] at hps
  refine ⟨ps, hps, ?_, ?_⟩
  · rw [hlen]
    omega
  · intro j hj
    obtain ⟨t, t0, t1, t2, t3, t4⟩ := hidx j (by omega)
    rw [add_zero] at t2
    rw [zero_add] at t3 t4
    refine ⟨t, t0, t1, t2, ?_⟩
    have hz : xe - xs = 0 → t * (xe - xs) = 0 ∧ (j : Int) * |ye - ys| = 0 := by
      intro h
      have h0 : |ye - ys| = 0 := by omega
      rw [h, h0]
      simp
    generalize t * (xe - xs) = A at *
    generalize (j : Int) * |ye - ys| = B at *
    rcases abs_cases (A - B) with ⟨h, _⟩ | ⟨h, _⟩ <;> rw [h] <;> omega

theorem abs_cases_int (n : Int) : |n| = if 0 ≤ n then n else -n := by
  split
  · exact abs_of_nonneg (by omega)
  · exact abs_of_neg (by omega)

theorem sign_mul_offset (a0 a1 j : Int) (hj0 : 0 ≤ j) (hj : j ≤ |a1 - a0|) :
    (a0 ≤ a1 → a0 + Int.sign (a1 - a0) * j = a0 + j) ∧
    (a1 < a0 → a0 + Int.sign (a1 - a0) * j = a0 - j) := by
  have ha := abs_cases_int (a1 - a0)
  constructor
  · intro h
    by_cases he : a1 = a0
    · subst he
      rw [sub_self] at ha hj ⊢
      rw [if_pos (le_refl _)] at ha
      have : j = 0 := by omega
      rw [this]
      simp
    · rw [Int.sign_eq_one_of_pos (by omega)]
      ring
  · intro h
    rw [Int.sign_eq_neg_one_of_neg (by omega)]
    ring

/-- The loop of writeLine on a line whose major axis runs from `a0` to `a1` and
whose minor axis runs from `b0` to `b1`, the ends exchanged when `a0 > a1`. -/
theorem bresenham_ends (steep : Bool) (a0 b0 a1 b1 : Int)
    (ha0 : -32768 ≤ a0 ∧ a0 ≤ 32766) (hb0 : -32768 ≤ b0 ∧ b0 ≤ 32766)
    (ha1 : -32768 ≤ a1 ∧ a1 ≤ 32766) (hb1 : -32768 ≤ b1 ∧ b1 ≤ 32766)
    (hda : |a1 - a0| ≤ 32767) (hflat : |b1 - b0| ≤ |a1 - a0|) :
    ∃ ps, writeLineLoopPixels steep (if a0 > a1 then a0 else a1)
        (wrapI16 ((if a0 > a1 then a0 else a1) - (if a0 > a1 then a1 else a0)))
        (wrapI16 (abs16 ((if a0 > a1 then b0 else b1) - (if a0 > a1 then b1 else b0))))
        (if (if a0 > a1 then b1 else b0) < (if a0 > a1 then b0 else b1) then 1 else -1)
        ((if a0 > a1 then a0 else a1) - (if a0 > a1 then a1 else a0) + 1).toNat
        (if a0 > a1 then a1 else a0) (if a0 > a1 then b1 else b0)
        (wrapI16 (Int.tdiv
          (wrapI16 ((if a0 > a1 then a0 else a1) - (if a0 > a1 then a1 else a0))) 2)) = some ps ∧
      (ps.length : Int) = |a1 - a0| + 1 ∧
      ∀ k : Nat, (k : Int) ≤ |a1 - a0| → ∃ s : Int, 0 ≤ s ∧ s ≤ |b1 - b0| ∧
        ps[if a0 > a1 then (|a1 - a0|).toNat - k else k]? =
          some (linePoint steep (a0 + Int.sign (a1 - a0) * k) (b0 + Int.sign (b1 - b0) * s)) ∧
        2 * abs (s * |a1 - a0| - k * |b1 - b0|) ≤ |a1 - a0| := by
  have eA := abs_cases_int (a1 - a0)
  have eB := abs_cases_int (b1 - b0)
  have eB2 : |b0 - b1| = |b1 - b0| := abs_sub_comm _ _
  by_cases hsw : a0 > a1
  · simp only [if_pos hsw]
    rw [if_neg (by omega)] at eA
    obtain ⟨ps, hps, hlen, hidx⟩ := bresenham_near steep a1 b1 a0 b0 (by omega) ha1.1 ha0.2
      (by omega) ⟨hb1.1, by omega⟩ ⟨hb0.1, by omega⟩ (by rw [eB2]; omega)
    refine ⟨ps, hps, by rw [hlen, eA]; ring, ?_⟩
    intro k hk
    obtain ⟨t, t0, t1, t2, t3⟩ := hidx ((|a1 - a0|).toNat - k) (by omega)
    rw [eB2] at t1 t3
    have hidxe : (((|a1 - a0|).toNat - k : Nat) : Int) = |a1 - a0| - k := by omega
    refine ⟨|b1 - b0| - t, by omega, by omega, ?_, ?_⟩
    · rw [t2, hidxe]
      congr 2
      · rw [(sign_mul_offset a0 a1 k (by omega) hk).2 hsw, eA]
        ring
      · have hs := sign_mul_offset b0 b1 (|b1 - b0| - t) (by omega) (by omega)
        by_cases hb : b1 < b0
        · rw [if_pos hb, hs.2 hb]
          rw [if_neg (by omega)] at eB
          rw [eB]
          ring
        · rw [if_neg hb, hs.1 (by omega)]
          rw [if_pos (by omega)] at eB
          rw [eB]
          ring
    · rw [hidxe] at t3
      have e : (|b1 - b0| - t) * |a1 - a0| - k * |b1 - b0| =
          -(t * (a0 - a1) - (|a1 - a0| - k) * |b1 - b0|) := by
        rw [eA]
        ring
      rw [e, abs_neg, eA]
      rw [eA] at t3
      linarith [t3]
  · simp only [if_neg hsw]
    rw [if_pos (by omega)] at eA
    obtain ⟨ps, hps, hlen, hidx⟩ := bresenham_near steep a0 b0 a1 b1 (by omega) ha0.1 ha1.2
      (by omega) ⟨hb0.1, by omega⟩ ⟨hb1.1, by omega⟩ (by omega)
    refine ⟨ps, hps, by rw [hlen, eA], ?_⟩
    intro k hk
    obtain ⟨t, t0, t1, t2, t3⟩ := hidx k (by omega)
    refine ⟨t, t0, t1, ?_, ?_⟩
    · rw [t2]
      congr 2
      · rw [(sign_mul_offset a0 a1 k (by omega) hk).1 (by omega)]
      · have hs := sign_mul_offset b0 b1 t t0 t1
        by_cases hb : b0 < b1
        · rw [if_pos hb, hs.1 (by omega)]
          ring
        · rw [if_neg hb]
          by_cases hb2 : b1 < b0
          · rw [hs.2 hb2]
            ring
          · have hbe : b1 = b0 := by omega
            subst hbe
            rw [sub_self] at eB t1
            rw [if_pos (le_refl _)] at eB
            have : t = 0 := by omega
            rw [this]
            simp
    · rw [eA]
      exact t3

/-- C39: for endpoints with coordinates from -32768 to 32766 whose differences
fit 16 bits, writeLine returns after passing to writePixel exactly D + 1
pixels, D = max(|x1-x0|, |y1-y0|), one for each major-axis offset k = 0..D from
(x0, y0) (in reverse order when the code exchanges the ends); the pixel at
major offset k has a minor offset s, 0 <= s <= d = min(|x1-x0|, |y1-y0|), with
2 * |s*D - k*d| <= D: it lies within half a pixel of the ideal line, which is
within the bound ceil(D/2) on |s*D - k*d|. -/
theorem writeLine_near_ideal (st : Panel) (x0 y0 x1 y1 : Int) (c : Nat)
    (hx0 : -32768 ≤ x0 ∧ x0 ≤ 32766) (hy0 : -32768 ≤ y0 ∧ y0 ≤ 32766)
    (hx1 : -32768 ≤ x1 ∧ x1 ≤ 32766) (hy1 : -32768 ≤ y1 ∧ y1 ≤ 32766)
    (hdx : |x1 - x0| ≤ 32767) (hdy : |y1 - y0| ≤ 32767) :
    ∃ ps, writeLinePixels x0 y0 x1 y1 = some ps ∧
      writeLine st x0 y0 x1 y1 c = some (drawPixels c st ps) ∧
      (ps.length : Int) = max |x1 - x0| |y1 - y0| + 1 ∧
      ∀ k : Nat, (k : Int) ≤ max |x1 - x0| |y1 - y0| →
        ∃ s : Int, 0 ≤ s ∧ s ≤ min |x1 - x0| |y1 - y0| ∧
          ps[if endsSwapped x0 y0 x1 y1 = true then (max |x1 - x0| |y1 - y0|).toNat - k
            else k]? = some (offsetPoint x0 y0 x1 y1 k s) ∧
          2 * abs (s * max |x1 - x0| |y1 - y0| - k * min |x1 - x0| |y1 - y0|) ≤
            max |x1 - x0| |y1 - y0| ∧
          abs (s * max |x1 - x0| |y1 - y0| - k * min |x1 - x0| |y1 - y0|) ≤
            (max |x1 - x0| |y1 - y0| + 1) / 2 := by
  have hax := abs_le.1 hdx
  have hay := abs_le.1 hdy
  have eax : abs16 (x1 - x0) = |x1 - x0| := abs16_abs _ hax.1 hax.2
  have eay : abs16 (y1 - y0) = |y1 - y0| := abs16_abs _ hay.1 hay.2
  have hfin : ∀ (ps : List (Int × Int)), writeLinePixels x0 y0 x1 y1 = some ps →
      writeLine st x0 y0 x1 y1 c = some (drawPixels c st ps) := by
    intro ps h
    rw [writeLine_pixels, h]
    rfl
  have hhalf : ∀ v D : Int, 2 * |v| ≤ D → |v| ≤ (D + 1) / 2 := by
    intro v D h
    omega
  by_cases hsteep : |y1 - y0| > |x1 - x0|
  · have hs : decide (abs16 (y1 - y0) > abs16 (x1 - x0)) = true := by
      rw [eax, eay]
      exact decide_eq_true hsteep
    have hD : max |x1 - x0| |y1 - y0| = |y1 - y0| := max_eq_right (le_of_lt hsteep)
    have hd : min |x1 - x0| |y1 - y0| = |x1 - x0| := min_eq_left (le_of_lt hsteep)
    have hsw : endsSwapped x0 y0 x1 y1 = decide (y0 > y1) := by
      unfold endsSwapped
      rw [eax, eay, if_pos hsteep]
    have hop : ∀ k s : Int, offsetPoint x0 y0 x1 y1 k s =
        linePoint true (y0 + Int.sign (y1 - y0) * k) (x0 + Int.sign (x1 - x0) * s) := by
      intro k s
      unfold offsetPoint linePoint
      rw [if_pos hsteep]
      rfl
    obtain ⟨ps, hps, hlen, hidx⟩ := bresenham_ends true y0 x0 y1 x1 hy0 hx0 hy1 hx1 hdy
      (le_of_lt hsteep)
    have hps2 : writeLinePixels x0 y0 x1 y1 = some ps := by
      unfold writeLinePixels
      simp only [hs, if_true]
      exact hps
    refine ⟨ps, hps2, hfin ps hps2, by rw [hD]; exact hlen, ?_⟩
    intro k hk
    rw [hD] at hk
    obtain ⟨s, s0, s1, s2, s3⟩ := hidx k hk
    refine ⟨s, s0, by rw [hd]; exact s1, ?_, by rw [hD, hd]; exact s3,
      by rw [hD, hd]; exact hhalf _ _ s3⟩
    rw [hD, hsw, hop, ← s2]
    simp only [decide_eq_true_eq]
  · have hs : decide (abs16 (y1 - y0) > abs16 (x1 - x0)) = false := by
      rw [eax, eay]
      exact decide_eq_false hsteep
    have hD : max |x1 - x0| |y1 - y0| = |x1 - x0| := max_eq_left (by omega)
    have hd : min |x1 - x0| |y1 - y0| = |y1 - y0| := min_eq_right (by omega)
    have hsw : endsSwapped x0 y0 x1 y1 = decide (x0 > x1) := by
      unfold endsSwapped
      rw [eax, eay, if_neg hsteep]
    have hop : ∀ k s : Int, offsetPoint x0 y0 x1 y1 k s =
        linePoint false (x0 + Int.sign (x1 - x0) * k) (y0 + Int.sign (y1 - y0) * s) := by
      intro k s
      unfold offsetPoint linePoint
      rw [if_neg hsteep]
      rfl
    obtain ⟨ps, hps, hlen, hidx⟩ := bresenham_ends false x0 y0 x1 y1 hx0 hy0 hx1 hy1 hdx
      (by omega)
    have hps2 : writeLinePixels x0 y0 x1 y1 = some ps := by
      unfold writeLinePixels
      simp only [hs, Bool.false_eq_true, if_false]
      exact hps
    refine ⟨ps, hps2, hfin ps hps2, by rw [hD]; exact hlen, ?_⟩
    intro k hk
    rw [hD] at hk
    obtain ⟨s, s0, s1, s2, s3⟩ := hidx k hk
    refine ⟨s, s0, by rw [hd]; exact s1, ?_, by rw [hD, hd]; exact s3,
      by rw [hD, hd]; exact hhalf _ _ s3⟩
    rw [hD, hsw, hop, ← s2]
    simp only [decide_eq_true_eq]

theorem writeLine_near_ideal_witness :
    ∃ ps, writeLinePixels (63 : Int) (31 : Int) (0 : Int) (10 : Int) = some ps ∧
      writeLine panel64 (63 : Int) (31 : Int) (0 : Int) (10 : Int) 0xFFFF = some (drawPixels 0xFFFF panel64 ps) ∧
      (ps.length : Int) = max |(0 : Int) - (63 : Int)| |(10 : Int) - (31 : Int)| + 1 ∧
      ∀ k : Nat, (k : Int) ≤ max |(0 : Int) - (63 : Int)| |(10 : Int) - (31 : Int)| →
        ∃ s : Int, 0 ≤ s ∧ s ≤ min |(0 : Int) - (63 : Int)| |(10 : Int) - (31 : Int)| ∧
          ps[if endsSwapped (63 : Int) (31 : Int) (0 : Int) (10 : Int) = true then (max |(0 : Int) - (63 : Int)| |(10 : Int) - (31 : Int)|).toNat - k
            else k]? = some (offsetPoint (63 : Int) (31 : Int) (0 : Int) (10 : Int) k s) ∧
          2 * abs (s * max |(0 : Int) - (63 : Int)| |(10 : Int) - (31 : Int)| - k * min |(0 : Int) - (63 : Int)| |(10 : Int) - (31 : Int)|) ≤
            max |(0 : Int) - (63 : Int)| |(10 : Int) - (31 : Int)| ∧
          abs (s * max |(0 : Int) - (63 : Int)| |(10 : Int) - (31 : Int)| - k * min |(0 : Int) - (63 : Int)| |(10 : Int) - (31 : Int)|) ≤
            (max |(0 : Int) - (63 : Int)| |(10 : Int) - (31 : Int)| + 1) / 2 :=
  writeLine_near_ideal panel64 63 31 0 10 0xFFFF (by decide) (by decide) (by decide) (by decide)
    (by decide) (by decide)

theorem charBounds_cursor (st : Panel) (c : Nat) (b : Bounds) :
    (charBounds st c b).x = (charStep st c b.x b.y).2.1 ∧
    (charBounds st c b).y = (charStep st c b.x b.y).2.2 := by
  rw [charBounds_step]
  rcases h : charStep st c b.x b.y with ⟨_ | cell, x1, y1⟩ <;> exact ⟨rfl, rfl⟩

theorem sameFrame_text (st s : Panel) (h : sameFrame st s) :
    sameText st s ∧ s.cursor_x = st.cursor_x ∧ s.cursor_y = st.cursor_y := by
  unfold sameFrame withMem at h
  unfold sameText
  refine ⟨⟨?_, ?_, ?_, ?_, ?_⟩, ?_, ?_⟩ <;> rw [h]

theorem wrapI16_add_wrap (a b : Int) : wrapI16 (a + wrapI16 b) = wrapI16 (a + b) := by
  unfold wrapI16
  omega

theorem wrapU16_congr (a b : Int) (h : a % 65536 = b % 65536) : wrapU16 a = wrapU16 b := by
  unfold wrapU16
  rw [h]

theorem wrapI8_ascii (c : Nat) (hc : c < 128) : wrapI8 c = c := by
  unfold wrapI8
  omega

/-- One character in the built-in font: the cursor after write is the cursor
charStep computes from the cursor before it. -/
theorem write_charStep_classic (font : Nat → Nat) (st s s1 : Panel) (c : Nat) (hc : c < 256)
    (hsame : sameText st s) (hfont : st.gfxFont = none) (hw : write font s c = some s1) :
    (charStep st c s.cursor_x s.cursor_y).2 = (s1.cursor_x, s1.cursor_y) ∧ sameText st s1 := by
  obtain ⟨h1, h2, h3, h4, h5⟩ := hsame
  have hb := wrapI8_byte c hc
  unfold write at hw
  unfold charStep
  rw [h1, hfont] at hw
  rw [hfont]
  dsimp only at hw ⊢
  by_cases c10 : c = 10
  · rw [if_pos c10] at hw
    rw [if_pos (hb.1.2 c10)]
    cases hw
    unfold newlineClassic sameText
    refine ⟨Prod.ext ?_ ?_, ?_, ?_, ?_, ?_, ?_⟩ <;> dsimp only <;>
      simp only [h1, h2, h3, h4, h5]
  · rw [if_neg c10] at hw
    rw [if_neg (fun h => c10 (hb.1.1 h))]
    by_cases c13 : c = 13
    · rw [if_neg (not_not.2 c13)] at hw
      rw [if_neg (not_not.2 (hb.2.2 c13))]
      cases hw
      exact ⟨rfl, h1, h2, h3, h4, h5⟩
    · rw [if_pos c13] at hw
      rw [if_pos (fun h => c13 (hb.2.1 h))]
      rw [h2, h4, h5] at hw
      rw [Option.map_eq_some'] at hw
      obtain ⟨s2, hd, rfl⟩ := hw
      have hsf := sameFrame_text _ _ (drawChar_sameFrame _ _ _ _ _ _ _ _ _ _ hd)
      obtain ⟨⟨g1, g2, g3, g4, g5⟩, gx, gy⟩ := hsf
      cases hov : (st.wrap && decide (wrapU16 (s.cursor_x + st.textsize_x * 6) > wrapU16 st._width))
      · rw [hov] at g1 g2 g3 g4 g5 gx gy
        simp only [Bool.false_eq_true, if_false] at g1 g2 g3 g4 g5 gx gy ⊢
        unfold sameText
        refine ⟨Prod.ext ?_ ?_, ?_, ?_, ?_, ?_, ?_⟩ <;> dsimp only <;>
          simp only [gx, gy, g1, g2, g3, g4, g5, h1, h2, h3, h4, h5]
      · rw [hov] at g1 g2 g3 g4 g5 gx gy
        simp only [if_true] at g1 g2 g3 g4 g5 gx gy ⊢
        unfold sameText
        unfold newlineClassic at g1 g2 g3 g4 g5 gx gy
        dsimp only at g1 g2 g3 g4 g5 gx gy ⊢
        refine ⟨Prod.ext ?_ ?_, ?_, ?_, ?_, ?_, ?_⟩ <;> dsimp only <;>
          simp only [gx, gy, g1, g2, g3, g4, g5, h1, h2, h3, h4, h5]


/-- One character below 128 in a proportional font, where the glyph has a
bitmap or wrap is off: the cursor after write is the cursor charStep computes
from the cursor before it. -/
theorem write_charStep_custom (font : Nat → Nat) (st s s1 : Panel) (f : GFXfont) (c : Nat)
    (hc : c < 128) (hsame : sameText st s) (hfont : st.gfxFont = some f)
    (hg : st.wrap = true → c ≠ 10 → c ≠ 13 → f.first % 256 ≤ c → c ≤ f.last % 256 →
      0 < (f.glyph.getD (c - f.first % 256) noGlyph).width % 256 ∧
      0 < (f.glyph.getD (c - f.first % 256) noGlyph).height % 256)
    (hw : write font s c = some s1) :
    (charStep st c s.cursor_x s.cursor_y).2 = (s1.cursor_x, s1.cursor_y) ∧ sameText st s1 := by
  obtain ⟨h1, h2, h3, h4, h5⟩ := hsame
  have hcs := wrapI8_ascii c hc
  unfold write at hw
  unfold charStep
  rw [h1, hfont] at hw
  rw [hfont]
  dsimp only at hw ⊢
  rw [hcs]
  by_cases c10 : c = 10
  · rw [if_pos c10] at hw
    rw [if_pos (by omega)]
    cases hw
    rw [newlineCustom_eq]
    unfold sameText
    refine ⟨Prod.ext ?_ ?_, ?_, ?_, ?_, ?_, ?_⟩ <;> dsimp only <;>
      simp only [h1, h2, h3, h4, h5, hfont, mul_comm]
  · rw [if_neg c10] at hw
    rw [if_neg (by omega)]
    by_cases c13 : c = 13
    · rw [if_neg (not_not.2 c13)] at hw
      rw [if_neg (by omega)]
      cases hw
      exact ⟨rfl, h1, h2, h3, h4, h5⟩
    · rw [if_pos c13] at hw
      rw [if_pos (by omega)]
      by_cases hr : c ≥ f.first % 256 ∧ c ≤ f.last % 256
      · rw [if_pos hr] at hw
        rw [if_pos (by omega), Int.toNat_sub]
        rw [Option.map_eq_some'] at hw
        obtain ⟨s2, hd, rfl⟩ := hw
        generalize f.glyph.getD (c - f.first % 256) noGlyph = g at hg hd ⊢
        have eov : wrapU16 (s.cursor_x + s.textsize_x *
              (wrapI8 g.xOffset + ((g.width % 256 : Nat) : Int))) =
            wrapU16 (s.cursor_x + (wrapI8 g.xOffset + ((g.width % 256 : Nat) : Int)) *
              st.textsize_x) := by
          rw [h2, mul_comm]
        rw [eov, h4, h5] at hd
        by_cases hne : g.width % 256 > 0 ∧ g.height % 256 > 0
        · rw [if_pos hne] at hd
          have hsf := sameFrame_text _ _ (drawChar_sameFrame _ _ _ _ _ _ _ _ _ _ hd)
          clear hd
          obtain ⟨⟨g1, g2, g3, g4, g5⟩, gx, gy⟩ := hsf
          cases hov : (st.wrap && decide (wrapU16 (s.cursor_x +
              (wrapI8 g.xOffset + ((g.width % 256 : Nat) : Int)) * st.textsize_x) >
              wrapU16 st._width))
          · rw [hov] at g1 g2 g3 g4 g5 gx gy
            simp only [Bool.false_eq_true, if_false] at g1 g2 g3 g4 g5 gx gy ⊢
            unfold sameText
            refine ⟨Prod.ext ?_ ?_, ?_, ?_, ?_, ?_, ?_⟩ <;> dsimp only <;>
              simp only [gx, gy, g1, g2, g3, g4, g5, h1, h2, h3, h4, h5, wrapI16_add_wrap]
          · rw [hov] at g1 g2 g3 g4 g5 gx gy
            simp only [if_true] at g1 g2 g3 g4 g5 gx gy ⊢
            rw [newlineCustom_eq] at g1 g2 g3 g4 g5 gx gy
            unfold sameText
            dsimp only at g1 g2 g3 g4 g5 gx gy ⊢
            refine ⟨Prod.ext ?_ ?_, ?_, ?_, ?_, ?_, ?_⟩ <;> dsimp only <;>
              simp only [gx, gy, g1, g2, g3, g4, g5, h1, h2, h3, h4, h5, wrapI16_add_wrap,
                mul_comm]
        · rw [if_neg hne] at hd
          cases hd
          have hwf : st.wrap = false := by
            cases hwr : st.wrap
            · rfl
            · exact absurd (hg hwr c10 c13 hr.1 hr.2) hne
          rw [hwf]
          unfold sameText
          simp only [Bool.false_and, Bool.false_eq_true, if_false]
          refine ⟨Prod.ext ?_ ?_, ?_, ?_, ?_, ?_, ?_⟩ <;> dsimp only <;>
            simp only [h1, h2, h3, h4, h5, wrapI16_add_wrap]
      · rw [if_neg hr] at hw
        rw [if_neg (by omega)]
        cases hw
        exact ⟨rfl, h1, h2, h3, h4, h5⟩


theorem getTextBounds_startBounds (st : Panel) (str : List Nat) (x y : Int) :
    getTextBounds st str x y =
      (let b := boundsLoop st str (startBounds st x y)
       ((if b.maxx ≥ b.minx then b.minx else x), (if b.maxy ≥ b.miny then b.miny else y),
        (if b.maxx ≥ b.minx then wrapU16 (b.maxx - b.minx + 1) else 0),
        (if b.maxy ≥ b.miny then wrapU16 (b.maxy - b.miny + 1) else 0))) := rfl

theorem boundsLoop_writeAll (font : Nat → Nat) (st : Panel) :
    ∀ (str : List Nat) (s s1 : Panel) (b : Bounds),
      (∀ c ∈ str, 0 < c ∧ c < 256) →
      (∀ f, st.gfxFont = some f → ∀ c ∈ str, c < 128 ∧
        (st.wrap = true → c ≠ 10 → c ≠ 13 → f.first % 256 ≤ c → c ≤ f.last % 256 →
          0 < (f.glyph.getD (c - f.first % 256) noGlyph).width % 256 ∧
          0 < (f.glyph.getD (c - f.first % 256) noGlyph).height % 256)) →
      sameText st s → b.x = s.cursor_x → b.y = s.cursor_y →
      writeAll font str s = some s1 →
      (boundsLoop st str b).x = s1.cursor_x ∧ (boundsLoop st str b).y = s1.cursor_y := by
  intro str
  induction str with
  | nil =>
    intro s s1 b _ _ _ hx hy hw
    unfold writeAll at hw
    cases hw
    exact ⟨hx, hy⟩
  | cons c rest ih =>
    intro s s1 b hstr hag hsame hx hy hw
    have hc := hstr c (List.mem_cons_self _ _)
    unfold writeAll at hw
    rw [Option.bind_eq_some] at hw
    obtain ⟨s2, hw1, hw2⟩ := hw
    have step : (charStep st c s.cursor_x s.cursor_y).2 = (s2.cursor_x, s2.cursor_y) ∧
        sameText st s2 := by
      cases hf : st.gfxFont with
      | none => exact write_charStep_classic font st s s2 c hc.2 hsame hf hw1
      | some f =>
        have h := hag f hf c (List.mem_cons_self _ _)
        exact write_charStep_custom font st s s2 f c h.1 hsame hf h.2 hw1
    have hcb := charBounds_cursor st c b
    rw [hx, hy, step.1] at hcb
    unfold boundsLoop
    have hm : c % 256 = c := Nat.mod_eq_of_lt hc.2
    rw [hm, if_neg (by omega)]
    exact ih s2 s1 (charBounds st c b)
      (fun d hd => hstr d (List.mem_cons_of_mem _ hd))
      (fun f hf d hd => hag f hf d (List.mem_cons_of_mem _ hd))
      step.2 hcb.1 hcb.2 hw2

/-- C33, on the strings where it holds: with the built-in font, for every string
of non-zero bytes, and with a proportional font, for every string of non-zero
bytes below 128 whose glyphs in the font all have a bitmap (width and height
not 0) or with wrap off, whenever passing the bytes one by one to write from the
cursor `(x, y)` ends in the state `s`, the cursor the replay of getTextBounds
(charBounds per character) reaches from `(x, y)` is the cursor of `s`. -/
theorem charBounds_replays_write (font : Nat → Nat) (st s : Panel) (str : List Nat) (x y : Int)
    (hstr : ∀ c ∈ str, 0 < c ∧ c < 256)
    (hagree : ∀ f, st.gfxFont = some f → ∀ c ∈ str, c < 128 ∧
      (st.wrap = true → c ≠ 10 → c ≠ 13 → f.first % 256 ≤ c → c ≤ f.last % 256 →
        0 < (f.glyph.getD (c - f.first % 256) noGlyph).width % 256 ∧
        0 < (f.glyph.getD (c - f.first % 256) noGlyph).height % 256))
    (hw : writeAll font str (setCursor st x y) = some s) :
    (boundsLoop st str (startBounds st x y)).x = s.cursor_x ∧
    (boundsLoop st str (startBounds st x y)).y = s.cursor_y :=
  boundsLoop_writeAll font st str (setCursor st x y) s (startBounds st x y) hstr hagree
    ⟨rfl, rfl, rfl, rfl, rfl⟩ rfl rfl hw

theorem charBounds_replays_write_witness :
    ∃ s, writeAll (fun _ => 0) [33, 10, 33, 33, 33, 33, 33, 33, 33]
        (setCursor panel32custom 3 10) = some s ∧
      (boundsLoop panel32custom [33, 10, 33, 33, 33, 33, 33, 33, 33]
        (startBounds panel32custom 3 10)).x = s.cursor_x ∧
      (boundsLoop panel32custom [33, 10, 33, 33, 33, 33, 33, 33, 33]
        (startBounds panel32custom 3 10)).y = s.cursor_y ∧
      (s.cursor_x, s.cursor_y) = (6, 30) := by
  have h : (writeAll (fun _ => 0) [33, 10, 33, 33, 33, 33, 33, 33, 33]
      (setCursor panel32custom 3 10)).isSome = true := by decide
  obtain ⟨s, hs⟩ := Option.isSome_iff_exists.1 h
  have hr := charBounds_replays_write (fun _ => 0) panel32custom s
    [33, 10, 33, 33, 33, 33, 33, 33, 33] 3 10 (by decide)
    (fun f hf => by
      cases hf
      decide) hs
  refine ⟨s, hs, hr.1, hr.2, ?_⟩
  rw [← hr.1, ← hr.2]
  decide

/-- C33 fails for a proportional font with wrap on: from the cursor (30, 10) on
the 32-wide panel, write('!') leaves the cursor at (36, 10) and write(' ') - a
glyph with no bitmap, for which write makes no wrap test - at (41, 10), while
charBounds makes the wrap test for the space too and ends at (5, 20); the box
getTextBounds returns for the string is (0, 5, 31, 15), and for the exclamation
mark alone (30, 5, 1, 5). -/
theorem charBounds_wraps_blank_glyph :
    (writeAll (fun _ => 0) [33, 32] (setCursor panel32custom 30 10)).map
        (fun s => (s.cursor_x, s.cursor_y)) = some (41, 10) ∧
    ((boundsLoop panel32custom [33, 32] (startBounds panel32custom 30 10)).x,
      (boundsLoop panel32custom [33, 32] (startBounds panel32custom 30 10)).y) = (5, 20) ∧
    getTextBounds panel32custom [33, 32] 30 10 = (0, 5, 31, 15) ∧
    getTextBounds panel32custom [33] 30 10 = (30, 5, 1, 5) := by
  decide

/-! ## Triangles off one scanline -/

theorem fillTriangle_eq_sorted (st : Panel) (x0 y0 x1 y1 x2 y2 : Int) (c : Nat) :
    fillTriangle st x0 y0 x1 y1 x2 y2 c =
      fillTriangleSorted st (sortByY x0 y0 x1 y1 x2 y2).1.1 (sortByY x0 y0 x1 y1 x2 y2).1.2
        (sortByY x0 y0 x1 y1 x2 y2).2.1.1 (sortByY x0 y0 x1 y1 x2 y2).2.1.2
        (sortByY x0 y0 x1 y1 x2 y2).2.2.1 (sortByY x0 y0 x1 y1 x2 y2).2.2.2 c := rfl

theorem sortByY_cases (x0 y0 x1 y1 x2 y2 : Int) :
    ((sortByY x0 y0 x1 y1 x2 y2).1.2 ≤ (sortByY x0 y0 x1 y1 x2 y2).2.1.2 ∧
      (sortByY x0 y0 x1 y1 x2 y2).2.1.2 ≤ (sortByY x0 y0 x1 y1 x2 y2).2.2.2) ∧
    (sortByY x0 y0 x1 y1 x2 y2 = ((x0, y0), (x1, y1), (x2, y2)) ∨
     sortByY x0 y0 x1 y1 x2 y2 = ((x0, y0), (x2, y2), (x1, y1)) ∨
     sortByY x0 y0 x1 y1 x2 y2 = ((x1, y1), (x0, y0), (x2, y2)) ∨
     sortByY x0 y0 x1 y1 x2 y2 = ((x1, y1), (x2, y2), (x0, y0)) ∨
     sortByY x0 y0 x1 y1 x2 y2 = ((x2, y2), (x0, y0), (x1, y1)) ∨
     sortByY x0 y0 x1 y1 x2 y2 = ((x2, y2), (x1, y1), (x0, y0))) := by
  unfold sortByY
  dsimp only
  split_ifs <;> first
  | (exfalso; omega)
  | (refine ⟨⟨by omega, by omega⟩, ?_⟩; simp)

theorem tdiv_scaled (d k n : Int) (hk : 0 ≤ k) (hkn : k ≤ n) (hn : 0 < n) :
    min 0 d ≤ Int.tdiv (d * k) n ∧ Int.tdiv (d * k) n ≤ max 0 d := by
  have pos : ∀ e : Int, 0 ≤ e → 0 ≤ Int.tdiv (e * k) n ∧ Int.tdiv (e * k) n ≤ e := by
    intro e he
    have h0 : 0 ≤ e * k := Int.mul_nonneg he hk
    rw [Int.tdiv_eq_ediv h0 (le_of_lt hn)]
    refine ⟨Int.ediv_nonneg h0 (le_of_lt hn), ?_⟩
    apply Int.ediv_le_of_le_mul hn
    exact Int.mul_le_mul_of_nonneg_left hkn he
  rcases le_total 0 d with hd | hd
  · have := pos d hd
    omega
  · have h := pos (-d) (by omega)
    have e : d * k = -(-d * k) := by ring
    rw [e, Int.neg_tdiv]
    omega

theorem wrapI32_scaled (d k : Int) (hd : -32767 ≤ d ∧ d ≤ 32767) (hk : 0 ≤ k ∧ k ≤ 32768) :
    wrapI32 (d * k) = d * k := by
  have h1 : d * k ≤ 32767 * 32768 := by nlinarith [hd.1, hd.2, hk.1, hk.2]
  have h2 : -(32767 * 32768) ≤ d * k := by nlinarith [hd.1, hd.2, hk.1, hk.2]
  unfold wrapI32
  omega


theorem triUpper_zero (x0 dx01 dy01 dx02 dy02 last : Int) (c : Nat) (y sa sb : Int) (st : Panel) :
    triUpper x0 dx01 dy01 dx02 dy02 last c 0 y sa sb st =
      if y ≤ last then Except.error Fault.diverges else Except.ok (y, st) := rfl

theorem triUpper_succ (x0 dx01 dy01 dx02 dy02 last : Int) (c : Nat) (n : Nat) (y sa sb : Int)
    (st : Panel) :
    triUpper x0 dx01 dy01 dx02 dy02 last c (n + 1) y sa sb st =
      if y ≤ last then
        if dy01 = 0 ∨ dy02 = 0 then Except.error Fault.divByZero
        else
          match writeFastHLine st
              (if wrapI16 (x0 + Int.tdiv sa dy01) > wrapI16 (x0 + Int.tdiv sb dy02) then
                wrapI16 (x0 + Int.tdiv sb dy02) else wrapI16 (x0 + Int.tdiv sa dy01)) y
              (wrapI16 ((if wrapI16 (x0 + Int.tdiv sa dy01) > wrapI16 (x0 + Int.tdiv sb dy02) then
                wrapI16 (x0 + Int.tdiv sa dy01) else wrapI16 (x0 + Int.tdiv sb dy02)) -
                (if wrapI16 (x0 + Int.tdiv sa dy01) > wrapI16 (x0 + Int.tdiv sb dy02) then
                wrapI16 (x0 + Int.tdiv sb dy02) else wrapI16 (x0 + Int.tdiv sa dy01)) + 1)) c with
          | none => Except.error Fault.diverges
          | some s =>
            triUpper x0 dx01 dy01 dx02 dy02 last c n (wrapI16 (y + 1))
              (wrapI32 (sa + dx01)) (wrapI32 (sb + dx02)) s
      else Except.ok (y, st) := rfl

theorem triLower_zero (x0 x1 dx12 dy12 dx02 dy02 y2 : Int) (c : Nat) (y sa sb : Int)
    (st : Panel) :
    triLower x0 x1 dx12 dy12 dx02 dy02 y2 c 0 y sa sb st =
      if y ≤ y2 then Except.error Fault.diverges else Except.ok st := rfl

theorem triLower_succ (x0 x1 dx12 dy12 dx02 dy02 y2 : Int) (c : Nat) (n : Nat) (y sa sb : Int)
    (st : Panel) :
    triLower x0 x1 dx12 dy12 dx02 dy02 y2 c (n + 1) y sa sb st =
      if y ≤ y2 then
        if dy12 = 0 ∨ dy02 = 0 then Except.error Fault.divByZero
        else
          match writeFastHLine st
              (if wrapI16 (x1 + Int.tdiv sa dy12) > wrapI16 (x0 + Int.tdiv sb dy02) then
                wrapI16 (x0 + Int.tdiv sb dy02) else wrapI16 (x1 + Int.tdiv sa dy12)) y
              (wrapI16 ((if wrapI16 (x1 + Int.tdiv sa dy12) > wrapI16 (x0 + Int.tdiv sb dy02) then
                wrapI16 (x1 + Int.tdiv sa dy12) else wrapI16 (x0 + Int.tdiv sb dy02)) -
                (if wrapI16 (x1 + Int.tdiv sa dy12) > wrapI16 (x0 + Int.tdiv sb dy02) then
                wrapI16 (x0 + Int.tdiv sb dy02) else wrapI16 (x1 + Int.tdiv sa dy12)) + 1)) c with
          | none => Except.error Fault.diverges
          | some s =>
            triLower x0 x1 dx12 dy12 dx02 dy02 y2 c n (wrapI16 (y + 1))
              (wrapI32 (sa + dx12)) (wrapI32 (sb + dx02)) s
      else Except.ok st := rfl


theorem longhandSpans_append (x0 y0 x1 y1 x2 y2 : Int) :
    ∀ (m n : Nat) (y : Int), longhandSpans x0 y0 x1 y1 x2 y2 (m + n) y =
      longhandSpans x0 y0 x1 y1 x2 y2 m y ++ longhandSpans x0 y0 x1 y1 x2 y2 n (y + m) := by
  intro m
  induction m with
  | zero =>
    intro n y
    simp [longhandSpans]
  | succ m ih =>
    intro n y
    have e : m + 1 + n = (m + n) + 1 := by omega
    have e2 : y + ((m + 1 : Nat) : Int) = y + 1 + m := by push_cast; ring
    have er : ∀ (k : Nat) (z : Int), longhandSpans x0 y0 x1 y1 x2 y2 (k + 1) z =
        majorPixels false z
            ((longhandSpan x0 y0 x1 y1 x2 y2 z).2 - (longhandSpan x0 y0 x1 y1 x2 y2 z).1 + 1).toNat
            (longhandSpan x0 y0 x1 y1 x2 y2 z).1 ++
          longhandSpans x0 y0 x1 y1 x2 y2 k (z + 1) := fun _ _ => rfl
    rw [e, e2, er, er, ih n (y + 1), List.append_assoc]

theorem span_order (a b : Int) :
    (if a > b then b else a) = min a b ∧ (if a > b then a else b) = max a b := by
  split_ifs <;> omega

/-- The upper loop of fillTriangle, started on scanline `y` with the
accumulators at their longhand values, draws the longhand spans of the scanlines
`y` to `last` and hands `last + 1` on. -/
theorem triUpper_spans (x0 y0 x1 y1 x2 y2 last : Int) (c : Nat)
    (hx0 : -32768 ≤ x0 ∧ x0 ≤ 32766) (hx1 : -32768 ≤ x1 ∧ x1 ≤ 32766)
    (hx2 : -32768 ≤ x2 ∧ x2 ≤ 32766)
    (hd01 : -32767 ≤ x1 - x0 ∧ x1 - x0 ≤ 32767) (hd02 : -32767 ≤ x2 - x0 ∧ x2 - x0 ≤ 32767)
    (hd12 : -32767 ≤ x2 - x1 ∧ x2 - x1 ≤ 32767)
    (hy01 : y0 ≤ y1) (hy12 : y1 ≤ y2) (hne : y0 < y2) (hy2 : y2 ≤ 32766) (hy0 : -32768 ≤ y0)
    (hdy : y2 - y0 ≤ 32767) (hlast : last = if y1 = y2 then y1 else y1 - 1) :
    ∀ (n : Nat) (y : Int) (st : Panel), y0 ≤ y → (n : Int) = last - y + 1 →
      triUpper x0 (x1 - x0) (y1 - y0) (x2 - x0) (y2 - y0) last c n y
          ((x1 - x0) * (y - y0)) ((x2 - x0) * (y - y0)) st =
        Except.ok (last + 1, drawPixels c st (longhandSpans x0 y0 x1 y1 x2 y2 n y)) := by
  have hl1 : last ≤ y1 := by
    rw [hlast]
    split_ifs <;> omega
  intro n
  induction n with
  | zero =>
    intro y st hy hn
    have e : y = last + 1 := by
      push_cast at hn
      omega
    rw [triUpper_zero, if_neg (by omega), e]
    rfl
  | succ n ih =>
    intro y st hy hn
    have hyl : y ≤ last := by
      push_cast at hn
      omega
    have hlt : y0 < y1 := by
      rw [hlast] at hyl
      split_ifs at hyl <;> omega
    rw [triUpper_succ, if_pos hyl, if_neg (by omega)]
    have ta := tdiv_scaled (x1 - x0) (y - y0) (y1 - y0) (by omega) (by omega) (by omega)
    have tb := tdiv_scaled (x2 - x0) (y - y0) (y2 - y0) (by omega) (by omega) (by omega)
    have hcond : (if y1 = y2 then y ≤ y1 else y < y1) := by
      rw [hlast] at hyl
      split_ifs at hyl ⊢ <;> omega
    have hsp : longhandSpan x0 y0 x1 y1 x2 y2 y =
        (min (x0 + Int.tdiv ((x1 - x0) * (y - y0)) (y1 - y0))
            (x0 + Int.tdiv ((x2 - x0) * (y - y0)) (y2 - y0)),
          max (x0 + Int.tdiv ((x1 - x0) * (y - y0)) (y1 - y0))
            (x0 + Int.tdiv ((x2 - x0) * (y - y0)) (y2 - y0))) := by
      unfold longhandSpan
      rw [if_pos hcond]
    have esa : wrapI32 ((x1 - x0) * (y - y0) + (x1 - x0)) = (x1 - x0) * (y + 1 - y0) := by
      rw [← wrapI32_scaled (x1 - x0) (y + 1 - y0) hd01 ⟨by omega, by omega⟩]
      congr 1
      ring
    have esb : wrapI32 ((x2 - x0) * (y - y0) + (x2 - x0)) = (x2 - x0) * (y + 1 - y0) := by
      rw [← wrapI32_scaled (x2 - x0) (y + 1 - y0) hd02 ⟨by omega, by omega⟩]
      congr 1
      ring
    have er : longhandSpans x0 y0 x1 y1 x2 y2 (n + 1) y =
        majorPixels false y
            ((longhandSpan x0 y0 x1 y1 x2 y2 y).2 - (longhandSpan x0 y0 x1 y1 x2 y2 y).1 + 1).toNat
            (longhandSpan x0 y0 x1 y1 x2 y2 y).1 ++
          longhandSpans x0 y0 x1 y1 x2 y2 n (y + 1) := rfl
    rw [esa, esb, er, hsp]
    dsimp only
    generalize Int.tdiv ((x1 - x0) * (y - y0)) (y1 - y0) = qa at ta ⊢
    generalize Int.tdiv ((x2 - x0) * (y - y0)) (y2 - y0) = qb at tb ⊢
    rw [wrapI16_of_range (x0 + qa) (by omega) (by omega),
      wrapI16_of_range (x0 + qb) (by omega) (by omega),
      wrapI16_of_range (y + 1) (by omega) (by omega),
      (span_order (x0 + qa) (x0 + qb)).1, (span_order (x0 + qa) (x0 + qb)).2,
      writeFastHLine_span st _ _ y c (by omega) (by omega) (by omega) (by omega)]
    dsimp only
    rw [ih (y + 1) _ (by omega) (by push_cast at hn; omega), drawPixels_append]

/-- The lower loop of fillTriangle, started on scanline `y` with the
accumulators at their longhand values, draws the longhand spans of the scanlines
`y` to `y2`. -/
theorem triLower_spans (x0 y0 x1 y1 x2 y2 : Int) (c : Nat)
    (hx0 : -32768 ≤ x0 ∧ x0 ≤ 32766) (hx1 : -32768 ≤ x1 ∧ x1 ≤ 32766)
    (hx2 : -32768 ≤ x2 ∧ x2 ≤ 32766)
    (hd01 : -32767 ≤ x1 - x0 ∧ x1 - x0 ≤ 32767) (hd02 : -32767 ≤ x2 - x0 ∧ x2 - x0 ≤ 32767)
    (hd12 : -32767 ≤ x2 - x1 ∧ x2 - x1 ≤ 32767)
    (hy01 : y0 ≤ y1) (hy12 : y1 < y2) (hy2 : y2 ≤ 32766) (hy0 : -32768 ≤ y0)
    (hdy : y2 - y0 ≤ 32767) :
    ∀ (n : Nat) (y : Int) (st : Panel), y1 ≤ y → (n : Int) = y2 - y + 1 →
      triLower x0 x1 (x2 - x1) (y2 - y1) (x2 - x0) (y2 - y0) y2 c n y
          ((x2 - x1) * (y - y1)) ((x2 - x0) * (y - y0)) st =
        Except.ok (drawPixels c st (longhandSpans x0 y0 x1 y1 x2 y2 n y)) := by
  intro n
  induction n with
  | zero =>
    intro y st hy hn
    rw [triLower_zero, if_neg (by push_cast at hn; omega)]
    rfl
  | succ n ih =>
    intro y st hy hn
    have hyl : y ≤ y2 := by
      push_cast at hn
      omega
    rw [triLower_succ, if_pos hyl, if_neg (by omega)]
    have ta := tdiv_scaled (x2 - x1) (y - y1) (y2 - y1) (by omega) (by omega) (by omega)
    have tb := tdiv_scaled (x2 - x0) (y - y0) (y2 - y0) (by omega) (by omega) (by omega)
    have hcond : ¬ (if y1 = y2 then y ≤ y1 else y < y1) := by
      rw [if_neg (by omega)]
      omega
    have hsp : longhandSpan x0 y0 x1 y1 x2 y2 y =
        (min (x1 + Int.tdiv ((x2 - x1) * (y - y1)) (y2 - y1))
            (x0 + Int.tdiv ((x2 - x0) * (y - y0)) (y2 - y0)),
          max (x1 + Int.tdiv ((x2 - x1) * (y - y1)) (y2 - y1))
            (x0 + Int.tdiv ((x2 - x0) * (y - y0)) (y2 - y0))) := by
      unfold longhandSpan
      rw [if_neg hcond]
    have esa : wrapI32 ((x2 - x1) * (y - y1) + (x2 - x1)) = (x2 - x1) * (y + 1 - y1) := by
      rw [← wrapI32_scaled (x2 - x1) (y + 1 - y1) hd12 ⟨by omega, by omega⟩]
      congr 1
      ring
    have esb : wrapI32 ((x2 - x0) * (y - y0) + (x2 - x0)) = (x2 - x0) * (y + 1 - y0) := by
      rw [← wrapI32_scaled (x2 - x0) (y + 1 - y0) hd02 ⟨by omega, by omega⟩]
      congr 1
      ring
    have er : longhandSpans x0 y0 x1 y1 x2 y2 (n + 1) y =
        majorPixels false y
            ((longhandSpan x0 y0 x1 y1 x2 y2 y).2 - (longhandSpan x0 y0 x1 y1 x2 y2 y).1 + 1).toNat
            (longhandSpan x0 y0 x1 y1 x2 y2 y).1 ++
          longhandSpans x0 y0 x1 y1 x2 y2 n (y + 1) := rfl
    rw [esa, esb, er, hsp]
    dsimp only
    generalize Int.tdiv ((x2 - x1) * (y - y1)) (y2 - y1) = qa at ta ⊢
    generalize Int.tdiv ((x2 - x0) * (y - y0)) (y2 - y0) = qb at tb ⊢
    rw [wrapI16_of_range (x1 + qa) (by omega) (by omega),
      wrapI16_of_range (x0 + qb) (by omega) (by omega),
      wrapI16_of_range (y + 1) (by omega) (by omega),
      (span_order (x1 + qa) (x0 + qb)).1, (span_order (x1 + qa) (x0 + qb)).2,
      writeFastHLine_span st _ _ y c (by omega) (by omega) (by omega) (by omega)]
    dsimp only
    rw [ih (y + 1) _ (by omega) (by push_cast at hn; omega), drawPixels_append]

/-- With the vertices sorted by y and not on one scanline, and no 16-bit
overflow, the body of fillTriangle returns after drawing the longhand span of
every scanline from `y0` to `y2`. -/
theorem fillTriangleSorted_spans (st : Panel) (x0 y0 x1 y1 x2 y2 : Int) (c : Nat)
    (hx0 : -32768 ≤ x0 ∧ x0 ≤ 32766) (hx1 : -32768 ≤ x1 ∧ x1 ≤ 32766)
    (hx2 : -32768 ≤ x2 ∧ x2 ≤ 32766)
    (hd01 : -32767 ≤ x1 - x0 ∧ x1 - x0 ≤ 32767) (hd02 : -32767 ≤ x2 - x0 ∧ x2 - x0 ≤ 32767)
    (hd12 : -32767 ≤ x2 - x1 ∧ x2 - x1 ≤ 32767)
    (hy01 : y0 ≤ y1) (hy12 : y1 ≤ y2) (hne : y0 < y2) (hy2 : y2 ≤ 32766) (hy0 : -32767 ≤ y0)
    (hdy : y2 - y0 ≤ 32767) :
    fillTriangleSorted st x0 y0 x1 y1 x2 y2 c =
      Except.ok (drawPixels c st
        (longhandSpans x0 y0 x1 y1 x2 y2 (y2 - y0 + 1).toNat y0)) := by
  unfold fillTriangleSorted
  rw [if_neg (by omega)]
  dsimp only
  rw [wrapI16_of_range (x1 - x0) (by omega) (by omega),
    wrapI16_of_range (y1 - y0) (by omega) (by omega),
    wrapI16_of_range (x2 - x0) (by omega) (by omega),
    wrapI16_of_range (y2 - y0) (by omega) (by omega),
    wrapI16_of_range (x2 - x1) (by omega) (by omega),
    wrapI16_of_range (y2 - y1) (by omega) (by omega),
    wrapI16_of_range (y1 - 1) (by omega) (by omega)]
  have hup := triUpper_spans x0 y0 x1 y1 x2 y2 (if y1 = y2 then y1 else y1 - 1) c hx0 hx1 hx2
    hd01 hd02 hd12 hy01 hy12 hne hy2 (by omega) hdy rfl
    ((if y1 = y2 then y1 else y1 - 1) - y0 + 1).toNat y0 st (le_refl _)
    (Int.toNat_of_nonneg (by split_ifs <;> omega))
  rw [sub_self, mul_zero, mul_zero] at hup
  rw [hup]
  dsimp only
  by_cases h12 : y1 = y2
  · rw [if_pos h12]
    have e0 : (y2 - (y1 + 1) + 1).toNat = 0 := by omega
    have e1 : (y1 - y0 + 1).toNat = (y2 - y0 + 1).toNat := by rw [h12]
    rw [e0, triLower_zero, if_neg (by omega), e1]
  · rw [if_neg h12]
    have hlt : y1 < y2 := by omega
    have e0 : y1 - 1 + 1 = y1 := by ring
    rw [e0, wrapI16_of_range (y1 - y1) (by omega) (by omega),
      wrapI16_of_range (y1 - y0) (by omega) (by omega),
      wrapI32_scaled (x2 - x1) (y1 - y1) hd12 ⟨by omega, by omega⟩,
      wrapI32_scaled (x2 - x0) (y1 - y0) hd02 ⟨by omega, by omega⟩,
      triLower_spans x0 y0 x1 y1 x2 y2 c hx0 hx1 hx2 hd01 hd02 hd12 hy01 hlt hy2 (by omega) hdy
        (y2 - y1 + 1).toNat y1 _ (le_refl _) (Int.toNat_of_nonneg (by omega)),
      ← drawPixels_append]
    have en : (y2 - y0 + 1).toNat = (y1 - 1 - y0 + 1).toNat + (y2 - y1 + 1).toNat := by omega
    have ey : y0 + (((y1 - 1 - y0 + 1).toNat : Nat) : Int) = y1 := by
      rw [Int.toNat_of_nonneg (by omega)]
      ring
    rw [en, longhandSpans_append, ey]


theorem sortByY_perm (x0 y0 x1 y1 x2 y2 : Int) :
    [(sortByY x0 y0 x1 y1 x2 y2).1, (sortByY x0 y0 x1 y1 x2 y2).2.1,
      (sortByY x0 y0 x1 y1 x2 y2).2.2].Perm [(x0, y0), (x1, y1), (x2, y2)] := by
  rcases (sortByY_cases x0 y0 x1 y1 x2 y2).2 with h | h | h | h | h | h <;> rw [h] <;> dsimp only
  · exact List.Perm.cons _ (List.Perm.swap _ _ _)
  · exact List.Perm.swap _ _ _
  · exact (List.Perm.cons _ (List.Perm.swap _ _ _)).trans (List.Perm.swap _ _ _)
  · exact (List.Perm.swap _ _ _).trans (List.Perm.cons _ (List.Perm.swap _ _ _))
  · exact ((List.Perm.swap _ _ _).trans (List.Perm.cons _ (List.Perm.swap _ _ _))).trans
      (List.Perm.swap _ _ _)

theorem mem_longhandSpans (x0 y0 x1 y1 x2 y2 : Int) :
    ∀ (n : Nat) (y : Int) (p : Int × Int),
      p ∈ longhandSpans x0 y0 x1 y1 x2 y2 n y ↔
        (y ≤ p.2 ∧ p.2 < y + n ∧ (longhandSpan x0 y0 x1 y1 x2 y2 p.2).1 ≤ p.1 ∧
          p.1 ≤ (longhandSpan x0 y0 x1 y1 x2 y2 p.2).2) := by
  intro n
  induction n with
  | zero =>
    intro y p
    have e : longhandSpans x0 y0 x1 y1 x2 y2 0 y = [] := rfl
    rw [e]
    simp only [List.not_mem_nil, false_iff]
    push_cast
    omega
  | succ n ih =>
    intro y p
    have er : longhandSpans x0 y0 x1 y1 x2 y2 (n + 1) y =
        majorPixels false y
            ((longhandSpan x0 y0 x1 y1 x2 y2 y).2 - (longhandSpan x0 y0 x1 y1 x2 y2 y).1 + 1).toNat
            (longhandSpan x0 y0 x1 y1 x2 y2 y).1 ++
          longhandSpans x0 y0 x1 y1 x2 y2 n (y + 1) := rfl
    have hle : (longhandSpan x0 y0 x1 y1 x2 y2 y).1 ≤ (longhandSpan x0 y0 x1 y1 x2 y2 y).2 := by
      unfold longhandSpan
      dsimp only
      omega
    rw [er, List.mem_append, mem_majorPixels_false, ih (y + 1) p,
      Int.toNat_of_nonneg (by omega)]
    push_cast
    constructor
    · rintro (⟨h1, h2, h3⟩ | ⟨h1, h2, h3, h4⟩)
      · rw [h1]
        exact ⟨le_refl _, by omega, h2, by omega⟩
      · exact ⟨by omega, by omega, h3, h4⟩
    · rintro ⟨h1, h2, h3, h4⟩
      by_cases hy : p.2 = y
      · left
        rw [hy] at h3 h4
        exact ⟨hy, h3, by omega⟩
      · right
        exact ⟨by omega, by omega, h3, h4⟩


/-- C32 fails at the edge of the 16-bit coordinate range.  With the two top
vertices on scanline -32768, `last = y1 - 1` wraps to 32767, the upper loop runs
with `dy01 = 0` and divides by zero; with the bottom vertex on scanline 32767
the test `y <= y2` of the lower loop never fails and the call does not return. -/
theorem fillTriangle_divides_by_zero :
    faultOf (fillTriangle panel32 0 (-32768) 5 (-32768) 3 (-32760) 0xFFFF) =
      some Fault.divByZero ∧
    faultOf (fillTriangle panel32 0 32760 5 32767 3 32765 0xFFFF) = some Fault.diverges := by
  decide

/-- C32 (as amended): for every triangle whose vertices are not all on one
scanline, whose x-coordinates are between -32768 and 32766 and y-coordinates
between -32767 and 32766, and in which no two x-coordinates and no two
y-coordinates are more than 32767 apart, let `(ax, ay)`, `(bx, by1)`, `(cx, cy)`
be the vertices as the three swaps of fillTriangle sort them.  They are the
three vertices in some order with `ay <= by1 <= cy` and `ay < cy`; fillTriangle
returns without dividing by zero, and what it draws is, for each scanline from
`ay` to `cy` in turn, the one span whose ends are given by the longhand formulas
(`longhandSpan`): a pixel is drawn exactly if its y is between `ay` and `cy` and
its x between the two ends on that scanline. -/
theorem fillTriangle_longhand (st : Panel) (x0 y0 x1 y1 x2 y2 : Int) (c : Nat)
    (ax ay bx by1 cx cy : Int)
    (hx : (-32768 ≤ x0 ∧ x0 ≤ 32766) ∧ (-32768 ≤ x1 ∧ x1 ≤ 32766) ∧ (-32768 ≤ x2 ∧ x2 ≤ 32766))
    (hy : (-32767 ≤ y0 ∧ y0 ≤ 32766) ∧ (-32767 ≤ y1 ∧ y1 ≤ 32766) ∧ (-32767 ≤ y2 ∧ y2 ≤ 32766))
    (hdx : (-32767 ≤ x1 - x0 ∧ x1 - x0 ≤ 32767) ∧ (-32767 ≤ x2 - x0 ∧ x2 - x0 ≤ 32767) ∧
      (-32767 ≤ x2 - x1 ∧ x2 - x1 ≤ 32767))
    (hdy : (-32767 ≤ y1 - y0 ∧ y1 - y0 ≤ 32767) ∧ (-32767 ≤ y2 - y0 ∧ y2 - y0 ≤ 32767) ∧
      (-32767 ≤ y2 - y1 ∧ y2 - y1 ≤ 32767))
    (hne : ¬ (y0 = y1 ∧ y1 = y2))
    (hv : sortByY x0 y0 x1 y1 x2 y2 = ((ax, ay), (bx, by1), (cx, cy))) :
    [(ax, ay), (bx, by1), (cx, cy)].Perm [(x0, y0), (x1, y1), (x2, y2)] ∧
    ay ≤ by1 ∧ by1 ≤ cy ∧ ay < cy ∧
    faultOf (fillTriangle st x0 y0 x1 y1 x2 y2 c) = none ∧
    fillTriangle st x0 y0 x1 y1 x2 y2 c =
      Except.ok (drawPixels c st (longhandSpans ax ay bx by1 cx cy (cy - ay + 1).toNat ay)) ∧
    (∀ p : Int × Int, p ∈ longhandSpans ax ay bx by1 cx cy (cy - ay + 1).toNat ay ↔
      (ay ≤ p.2 ∧ p.2 ≤ cy ∧ (longhandSpan ax ay bx by1 cx cy p.2).1 ≤ p.1 ∧
        p.1 ≤ (longhandSpan ax ay bx by1 cx cy p.2).2)) := by
  have hs := (sortByY_cases x0 y0 x1 y1 x2 y2).1
  have hp := sortByY_perm x0 y0 x1 y1 x2 y2
  rw [hv] at hs hp
  dsimp only at hs hp
  have hlt : ay < cy := by
    rcases (sortByY_cases x0 y0 x1 y1 x2 y2).2 with h | h | h | h | h | h <;>
      (rw [h] at hv; cases hv; omega)
  have key : fillTriangle st x0 y0 x1 y1 x2 y2 c =
      Except.ok (drawPixels c st (longhandSpans ax ay bx by1 cx cy (cy - ay + 1).toNat ay)) := by
    rw [fillTriangle_eq_sorted, hv]
    dsimp only
    rcases (sortByY_cases x0 y0 x1 y1 x2 y2).2 with h | h | h | h | h | h <;>
      (rw [h] at hv; cases hv
       exact fillTriangleSorted_spans st _ _ _ _ _ _ c (by omega) (by omega) (by omega)
        (by omega) (by omega) (by omega) hs.1 hs.2 hlt (by omega) (by omega) (by omega))
  refine ⟨hp, hs.1, hs.2, hlt, ?_, key, ?_⟩
  · rw [key]
    rfl
  · intro p
    rw [mem_longhandSpans, Int.toNat_of_nonneg (by omega)]
    constructor
    · rintro ⟨h1, h2, h3, h4⟩
      exact ⟨h1, by omega, h3, h4⟩
    · rintro ⟨h1, h2, h3, h4⟩
      exact ⟨h1, by omega, h3, h4⟩

theorem fillTriangle_longhand_witness :
    [((0 : Int), (2 : Int)), (9, 4), (5, 9)].Perm [(5, 9), (0, 2), (9, 4)] ∧
    (2 : Int) ≤ 4 ∧ (4 : Int) ≤ 9 ∧ (2 : Int) < 9 ∧
    faultOf (fillTriangle panel32 5 9 0 2 9 4 0xFFFF) = none ∧
    fillTriangle panel32 5 9 0 2 9 4 0xFFFF =
      Except.ok (drawPixels 0xFFFF panel32 (longhandSpans 0 2 9 4 5 9 ((9 : Int) - 2 + 1).toNat 2)) ∧
    (∀ p : Int × Int, p ∈ longhandSpans 0 2 9 4 5 9 ((9 : Int) - 2 + 1).toNat 2 ↔
      (2 ≤ p.2 ∧ p.2 ≤ 9 ∧ (longhandSpan 0 2 9 4 5 9 p.2).1 ≤ p.1 ∧
        p.1 ≤ (longhandSpan 0 2 9 4 5 9 p.2).2)) :=
  fillTriangle_longhand panel32 5 9 0 2 9 4 0xFFFF 0 2 9 4 5 9 (by decide) (by decide)
    (by decide) (by decide) (by decide) (by decide)

end RGBmatrixPanel
